import Mathlib

/-!
# A dynamic bit vector over an AVL tree of bit blocks

Shallow embedding of `avl.hpp` and `bit_vector.cpp`.

* A `std::bitset<S>` is its value as a natural number below `2 ^ S`; bit position `p`
  of the bitset is `Nat.testBit _ p`.  Logical index `i` of a leaf lives at position `S - 1 - i`.
* `uint32_t` counters are natural numbers reduced modulo `2 ^ 32` after every update,
  the `uint8_t` height modulo `2 ^ 8`, `size_t` differences modulo `2 ^ 64`.
* The heap of nodes linked by `p`, `l`, `r` is a binary tree; a node pointer is the
  address of the node, the list of directions leading to it from the root.  Climbing to a
  parent drops the last direction.
* A dereference of a null pointer, an out-of-range `bitset` position and a division by
  zero make the operation return `none`.
-/

namespace DitVector

/-! ## Machine arithmetic and bitsets -/

/-- Reduction of an integer to `uint32_t`. -/
def u32 (x : Int) : Nat := (x % 4294967296).toNat

/-- Reduction of a natural number to `uint8_t`. -/
def u8 (x : Nat) : Nat := x % 256

/-- Difference of two `size_t` values (64 bits, wrapping around). -/
def szsub (a b : Nat) : Nat := if b ≤ a then a - b else 18446744073709551616 + a - b

/-- The constant `TARGET_SIZE = BLOCK_SIZE / 2`. -/
def TARGET_SIZE (S : Nat) : Nat := S / 2

/-- The constant `SPLIT_BOUND = (BLOCK_SIZE * 3) / 4`. -/
def SPLIT_BOUND (S : Nat) : Nat := (S * 3) / 4

/-- The constant `LOWER_BOUND = BLOCK_SIZE / 4`. -/
def LOWER_BOUND (S : Nat) : Nat := S / 4

/-- The bitset `FULL_MASK`, `S` ones. -/
def FULL_MASK (S : Nat) : Nat := 2 ^ S - 1

/-- The bitset `MSB_MASK`, read from `TARGET_SIZE` ones followed by `TARGET_SIZE` zeros. -/
def MSB_MASK (S : Nat) : Nat := (2 ^ TARGET_SIZE S - 1) <<< TARGET_SIZE S

/-- The bitset `LSB_MASK`, read from `TARGET_SIZE` zeros followed by `TARGET_SIZE` ones. -/
def LSB_MASK (S : Nat) : Nat := 2 ^ TARGET_SIZE S - 1

/-- Bitwise complement `~x` of a `bitset<S>`. -/
def bnot (S x : Nat) : Nat := FULL_MASK S ^^^ x

/-- Left shift `x << n` of a `bitset<S>`: the bits shifted out at the top are lost. -/
def shl (S x n : Nat) : Nat := (x <<< n) % 2 ^ S

/-- Number of set bits, `bitset::count`. -/
def count (S x : Nat) : Nat := (List.range S).countP (fun p => x.testBit p)

/-- The position `BLOCK_SIZE - i - 1` of logical index `i`; it is out of range for `i ≥ S`,
where the `size_t` difference wraps around. -/
def bitpos (S i : Nat) : Option Nat := if i < S then some (S - i - 1) else none

/-- Assignment `bits[pos] = v` to one position of a bitset. -/
def assignBit (d pos : Nat) (v : Bool) : Nat :=
  if v then d ||| 2 ^ pos else d ^^^ (d &&& 2 ^ pos)

/-! ## Nodes and addresses -/

/-- One step from a node to a child. -/
inductive Dir where
  | L
  | R
  deriving DecidableEq, Repr

/-- A node `BV_Node<S>`: a leaf (no children) with its block, or an inner node with its two
children.  The block of an inner node is never read and is left out. -/
inductive BVNode where
  | leaf (height nums ones data : Nat)
  | inner (height nums ones : Nat) (l r : BVNode)
  deriving DecidableEq, Repr

/-- The node made by `new BV_Node<S>`: height 1, no bits. -/
def BVNode.fresh : BVNode := .leaf 1 0 0 0

/-- The field `height`. -/
def BVNode.height : BVNode → Nat
  | .leaf h _ _ _ => h
  | .inner h _ _ _ _ => h

/-- The field `nums`. -/
def BVNode.nums : BVNode → Nat
  | .leaf _ n _ _ => n
  | .inner _ n _ _ _ => n

/-- The field `ones`. -/
def BVNode.ones : BVNode → Nat
  | .leaf _ _ o _ => o
  | .inner _ _ o _ _ => o

/-- The node at an address, `none` when the address leaves the tree. -/
def getAt : BVNode → List Dir → Option BVNode
  | t, [] => some t
  | .leaf _ _ _ _, _ :: _ => none
  | .inner _ _ _ l _, .L :: a => getAt l a
  | .inner _ _ _ _ r, .R :: a => getAt r a

/-- Replace the subtree at an address (a store to the child pointer of its parent). -/
def setAt : BVNode → List Dir → BVNode → BVNode
  | _, [], s => s
  | .leaf h n o d, _ :: _, _ => .leaf h n o d
  | .inner h n o l r, .L :: a, s => .inner h n o (setAt l a s) r
  | .inner h n o l r, .R :: a, s => .inner h n o l (setAt r a s)

/-- Model of `AVL::tree_size(node)`: the number of nodes. -/
def tree_size : BVNode → Nat
  | .leaf _ _ _ _ => 1
  | .inner _ _ _ l r => 1 + (tree_size l + tree_size r)

/-- The descent `while (curr->l) curr = curr->l`. -/
def leftmost : BVNode → List Dir
  | .leaf _ _ _ _ => []
  | .inner _ _ _ l _ => .L :: leftmost l

/-- The descent `while (curr->r) curr = curr->r`. -/
def rightmost : BVNode → List Dir
  | .leaf _ _ _ _ => []
  | .inner _ _ _ _ r => .R :: rightmost r

/-- First loop of `prev_leaf`: climb while the node is reached from its left child; the
result is the first ancestor reached from its right child, `none` when the root is passed. -/
def climb_left : List Dir → Option (List Dir)
  | [] => none
  | d :: a =>
    match climb_left a with
    | some q => some (d :: q)
    | none => if d = .R then some [] else none

/-- First loop of `next_leaf`: climb while the node is reached from its right child. -/
def climb_right : List Dir → Option (List Dir)
  | [] => none
  | d :: a =>
    match climb_right a with
    | some q => some (d :: q)
    | none => if d = .L then some [] else none

/-- Model of `AVL::prev_leaf`: the left neighbour leaf of the leaf at `a`. -/
def prev_leaf (t : BVNode) (a : List Dir) : Option (List Dir) :=
  match climb_left a with
  | none => none
  | some q =>
    match getAt t (q ++ [.L]) with
    | some s => some (q ++ [.L] ++ rightmost s)
    | none => none

/-- Model of `AVL::next_leaf`: the right neighbour leaf of the leaf at `a`. -/
def next_leaf (t : BVNode) (a : List Dir) : Option (List Dir) :=
  match climb_right a with
  | none => none
  | some q =>
    match getAt t (q ++ [.R]) with
    | some s => some (q ++ [.R] ++ leftmost s)
    | none => none

/-! ## The overlay: navigation and counters -/

/-- Model of `BitVector::find_block`: the address of the leaf holding `index`, and the index
inside that leaf. -/
def find_block : BVNode → Nat → List Dir × Nat
  | .leaf _ _ _ _, i => ([], i)
  | .inner _ n _ l r, i =>
    if i < n then (.L :: (find_block l i).1, (find_block l i).2)
    else (.R :: (find_block r (i - n)).1, (find_block r (i - n)).2)

/-- Model of `BitVector::propagate_update(node, NULL, nums, ones)` called on the node at address `a`:
the start node takes the deltas when it is a leaf, every ancestor takes them when the climb
arrives from its left child, and every node on the way gets its height recomputed from the
stored heights of its children. -/
def propagate_update : BVNode → List Dir → Int → Int → BVNode
  | .leaf _ n o d, [], dn, d1 => .leaf 1 (u32 (n + dn)) (u32 (o + d1)) d
  | .leaf h n o d, _ :: _, _, _ => .leaf h n o d
  | .inner _ n o l r, [], _, _ => .inner (u8 (1 + max l.height r.height)) n o l r
  | .inner _ n o l r, .L :: a, dn, d1 =>
    .inner (u8 (1 + max (propagate_update l a dn d1).height r.height))
      (u32 (n + dn)) (u32 (o + d1)) (propagate_update l a dn d1) r
  | .inner _ n o l r, .R :: a, dn, d1 =>
    .inner (u8 (1 + max l.height (propagate_update r a dn d1).height))
      n o l (propagate_update r a dn d1)

/-- Store a new block into the leaf at `a` (`*leaf->data = d`). -/
def setData (t : BVNode) (a : List Dir) (d : Nat) : BVNode :=
  match getAt t a with
  | some (.leaf h n o _) => setAt t a (.leaf h n o d)
  | _ => t

/-- Model of `BitVector::size(node)`: the sum of `nums` along the right spine. -/
def size : BVNode → Nat
  | .leaf _ n _ _ => n
  | .inner _ n _ _ r => u32 (n + size r)

/-! ## The shape layer: rotations and rebalancing -/

/-- Model of `AVL::height(node)` of a node that exists: computed from the stored heights of the
children. -/
def heightOf : BVNode → Nat
  | .leaf _ _ _ _ => 1
  | .inner _ _ _ l r => 1 + max l.height r.height

/-- Model of `AVL::difference(node)`. -/
def difference : BVNode → Int
  | .leaf _ _ _ _ => 0
  | .inner _ _ _ l r => (heightOf l : Int) - (heightOf r : Int)

/-- Where an address below a rotated node ends up; `f` acts on the part below the node. -/
def relocate (f : List Dir → List Dir) (p tr : List Dir) : List Dir :=
  if p <+: tr then p ++ f (tr.drop p.length) else tr

/-- New relative address of a node below the root of a left rotation. -/
def reloc_left : List Dir → List Dir
  | [] => [.L]
  | .L :: x => .L :: .L :: x
  | .R :: .L :: x => .L :: .R :: x
  | .R :: .R :: x => .R :: x
  | [.R] => []

/-- New relative address of a node below the root of a right rotation. -/
def reloc_right : List Dir → List Dir
  | [] => [.R]
  | .R :: x => .R :: .R :: x
  | .L :: .R :: x => .R :: .L :: x
  | .L :: .L :: x => .L :: x
  | [.L] => []

/-- Model of `AVL::rotate_left(node)` with `BitVector::rotate_left_update` for the node at `p`;
`tr` is the address of a node that the caller keeps a pointer to. -/
def rotate_left (t : BVNode) (p tr : List Dir) : Option (BVNode × List Dir) :=
  match getAt t p with
  | some (.inner h n o a (.inner hr nr or1 b c)) =>
    some (propagate_update
      (setAt t p (.inner hr (u32 (nr + n)) (u32 (or1 + o)) (.inner h n o a b) c))
      (p ++ [.L]) 0 0, relocate reloc_left p tr)
  | _ => none

/-- Model of `AVL::rotate_right(node)` with `BitVector::rotate_right_update` for the node at `p`. -/
def rotate_right (t : BVNode) (p tr : List Dir) : Option (BVNode × List Dir) :=
  match getAt t p with
  | some (.inner h n o (.inner hl nl ol a b) c) =>
    some (propagate_update
      (setAt t p (.inner hl nl ol a (.inner h (u32 (n - nl)) (u32 (o - ol)) b c)))
      (p ++ [.R]) 0 0, relocate reloc_right p tr)
  | _ => none

/-- Model of `AVL::rotate_left_right(node)`. -/
def rotate_left_right (t : BVNode) (p tr : List Dir) : Option (BVNode × List Dir) :=
  match rotate_left t (p ++ [.L]) tr with
  | some (t1, tr1) => rotate_right t1 p tr1
  | none => none

/-- Model of `AVL::rotate_right_left(node)`. -/
def rotate_right_left (t : BVNode) (p tr : List Dir) : Option (BVNode × List Dir) :=
  match rotate_right t (p ++ [.R]) tr with
  | some (t1, tr1) => rotate_left t1 p tr1
  | none => none

/-- Model of `AVL::balance(node)` for the node at `p`. -/
def balance (t : BVNode) (p tr : List Dir) : Option (BVNode × List Dir) :=
  match getAt t p with
  | some (.inner h n o l r) =>
    if difference (.inner h n o l r) > 1 then
      if difference l > 0 then rotate_right t p tr else rotate_left_right t p tr
    else if difference (.inner h n o l r) < -1 then
      if difference r > 0 then rotate_right_left t p tr else rotate_left t p tr
    else some (t, tr)
  | some (.leaf _ _ _ _) => some (t, tr)
  | none => none

/-- Model of `AVL::fix_tree(node)` for the node at `tr`, with `k` ancestors left to visit: the loop
`while (node->p) { node = node->p; node = balance(node); }`.  The result is the root and the
address at which the start node is found afterwards. -/
def fix_tree_loop : Nat → BVNode → List Dir → Option (BVNode × List Dir)
  | 0, t, tr => some (t, tr)
  | k + 1, t, tr =>
    match balance t (tr.take k) tr with
    | some (t1, tr1) => fix_tree_loop k t1 tr1
    | none => none

/-- Model of `AVL::fix_tree(node)` for the node at `tr`. -/
def fix_tree (t : BVNode) (tr : List Dir) : Option (BVNode × List Dir) :=
  fix_tree_loop tr.length t tr

/-! ## Split, steal and merge -/

/-- Model of `AVL::split_block(node)` with `BitVector::split_block_update` for the leaf at `a`. -/
def split_block (S : Nat) (t : BVNode) (a : List Dir) : Option BVNode :=
  match getAt t a with
  | some (.leaf h _ _ d) =>
    let dl := d &&& MSB_MASK S
    let dr := shl S (d &&& LSB_MASK S) (TARGET_SIZE S)
    some (propagate_update
      (setAt t a (.inner h (u32 (TARGET_SIZE S)) (u32 (count S dl))
        (.leaf 1 (u32 (TARGET_SIZE S)) (u32 (count S dl)) dl)
        (.leaf 1 (u32 (TARGET_SIZE S)) (u32 (count S dr)) dr)))
      a 0 0)
  | _ => none

/-- Model of `BitVector::steal_left(node, prev_leaf)` for the leaves at `a` and `b`. -/
def steal_left (S : Nat) (t : BVNode) (a b : List Dir) : Option BVNode :=
  match getAt t a, getAt t b with
  | some (.leaf _ n _ d), some (.leaf _ pn _ pd) =>
    let steal_bits := u32 (pn - n) / 2
    let steal_data := (pd >>> szsub S pn) &&& (FULL_MASK S >>> szsub S steal_bits)
    let pd1 := pd &&& shl S (FULL_MASK S) (szsub S (u32 (pn - steal_bits)))
    let d1 := shl S steal_data (szsub S steal_bits) ||| (d >>> steal_bits)
    let t1 := setData (setData t b pd1) a d1
    let ones := u32 (count S steal_data)
    some (propagate_update (propagate_update t1 a steal_bits ones) b (-steal_bits) (-ones))
  | _, _ => none

/-- Model of `BitVector::steal_right(node, next_leaf)` for the leaves at `a` and `b`. -/
def steal_right (S : Nat) (t : BVNode) (a b : List Dir) : Option BVNode :=
  match getAt t a, getAt t b with
  | some (.leaf _ n _ d), some (.leaf _ nn _ nd) =>
    let steal_bits := u32 (nn - n) / 2
    let steal_data := nd >>> szsub S steal_bits
    let nd1 := shl S nd steal_bits
    let d1 := d ||| shl S steal_data (szsub (szsub S n) steal_bits)
    let t1 := setData (setData t b nd1) a d1
    let ones := u32 (count S steal_data)
    some (propagate_update (propagate_update t1 a steal_bits ones) b (-steal_bits) (-ones))
  | _, _ => none

/-- Model of `BitVector::merge_left_pre_update(node, prev_leaf)` for the leaves at `a` and `b`. -/
def merge_left_pre_update (t : BVNode) (a b : List Dir) : Option BVNode :=
  match getAt t a, getAt t b with
  | some (.leaf _ _ _ d), some (.leaf _ pn po pd) =>
    let t1 := setData t a (pd ||| (d >>> pn))
    some (propagate_update (propagate_update t1 a pn po) b (-pn) (-po))
  | _, _ => none

/-- Model of `BitVector::merge_right_pre_update(node, next_leaf)` for the leaves at `a` and `b`. -/
def merge_right_pre_update (t : BVNode) (a b : List Dir) : Option BVNode :=
  match getAt t a, getAt t b with
  | some (.leaf _ n _ d), some (.leaf _ nn no nd) =>
    let t1 := setData t a (d ||| (nd >>> n))
    some (propagate_update (propagate_update t1 a nn no) b (-nn) (-no))
  | _, _ => none

/-- The relinking of `AVL::merge_left` and `AVL::merge_right` after the bits have moved
from the leaf at `b` into the leaf at `a`: the parent of `b` is replaced by `a` when both
leaves hang under it and by the sibling of `b` otherwise; then `merge_post_update` and
`fix_tree(node)` run and the new root is returned. -/
def merge_unlink (t : BVNode) (a b : List Dir) : Option BVNode :=
  if a.dropLast = b.dropLast then
    match getAt t a with
    | some nd =>
      match fix_tree (propagate_update (setAt t a.dropLast nd) a.dropLast 0 0) a.dropLast with
      | some (t1, _) => some t1
      | none => none
    | none => none
  else
    match getAt t (b.dropLast ++ [if b.getLast? = some .L then .R else .L]) with
    | some nb =>
      match fix_tree (propagate_update (setAt t b.dropLast nb) b.dropLast 0 0)
          (if b.dropLast <+: a then b.dropLast ++ a.drop (b.dropLast.length + 1) else a) with
      | some (t1, _) => some t1
      | none => none
    | none => none

/-- Model of `AVL::merge_left(node, prev_leaf)` for the leaves at `a` and `b`. -/
def merge_left (t : BVNode) (a b : List Dir) : Option BVNode :=
  match merge_left_pre_update t a b with
  | some t1 => merge_unlink t1 a b
  | none => none

/-- Model of `AVL::merge_right(node, next_leaf)` for the leaves at `a` and `b`. -/
def merge_right (t : BVNode) (a b : List Dir) : Option BVNode :=
  match merge_right_pre_update t a b with
  | some t1 => merge_unlink t1 a b
  | none => none

/-! ## Public operations -/

/-- The part of `BitVector::insert` after the optional split: write the bit into the leaf
at `a` and propagate. -/
def insert_bit (S : Nat) (t : BVNode) (a : List Dir) (index : Nat) (value : Bool) :
    Option BVNode :=
  match getAt t a with
  | some (.leaf _ n _ d) =>
    let msb := d &&& bnot S (FULL_MASK S >>> index)
    let lsb := d &&& (FULL_MASK S >>> index)
    let dn : Int := 1 + max (0 : Int) ((index : Int) - (n : Int))
    if value then
      match bitpos S index with
      | some pos =>
        some (propagate_update (setData t a (msb ||| 2 ^ pos ||| (lsb >>> 1))) a dn 1)
      | none => none
    else
      some (propagate_update (setData t a (msb ||| 0 ||| (lsb >>> 1))) a dn 0)
  | _ => none

/-- Model of `BitVector::insert(node, index, value)`; the result is the new root. -/
def insert (S : Nat) (node : BVNode) (index : Nat) (value : Bool) : Option BVNode :=
  let a := (find_block node index).1
  let idx := (find_block node index).2
  if idx > S then some node
  else
    match getAt node a with
    | some (.leaf _ n _ _) =>
      if n ≥ S then
        match split_block S node a with
        | some t1 =>
          match getAt t1 a with
          | some sub =>
            match fix_tree t1 (a ++ (find_block sub idx).1) with
            | some (t2, a2) => insert_bit S t2 a2 (find_block sub idx).2 value
            | none => none
          | none => none
        | none => none
      else insert_bit S node a idx value
    | _ => none

/-- The rebalancing policy at the end of `BitVector::del` for the leaf at `a`. -/
def del_rebalance (S : Nat) (t : BVNode) (a : List Dir) : Option BVNode :=
  match getAt t a with
  | some (.leaf _ n _ _) =>
    if n > LOWER_BOUND S then some t
    else
      match prev_leaf t a, next_leaf t a with
      | none, none => some t
      | some p, none =>
        match getAt t p with
        | some pl =>
          if pl.nums ≥ SPLIT_BOUND S then steal_left S t a p else merge_left t a p
        | none => none
      | none, some x =>
        match getAt t x with
        | some xl =>
          if xl.nums ≥ SPLIT_BOUND S then steal_right S t a x else merge_right t a x
        | none => none
      | some p, some x =>
        match getAt t p, getAt t x with
        | some pl, some xl =>
          if pl.nums ≥ SPLIT_BOUND S ∨ xl.nums ≥ SPLIT_BOUND S then
            if pl.nums > xl.nums then steal_left S t a p else steal_right S t a x
          else
            if pl.nums < xl.nums then merge_left t a p else merge_right t a x
        | _, _ => none
  | _ => none

/-- Model of `BitVector::del(node, index)`; the result is the new root. -/
def del (S : Nat) (node : BVNode) (index : Nat) : Option BVNode :=
  let a := (find_block node index).1
  let idx := (find_block node index).2
  if idx ≥ S then some node
  else
    match getAt node a with
    | some (.leaf _ _ _ d) =>
      let msb := d &&& bnot S (FULL_MASK S >>> idx)
      let lsb := d &&& (FULL_MASK S >>> (idx + 1))
      let value : Int := if d.testBit (S - idx - 1) then -1 else 0
      del_rebalance S (propagate_update (setData node a (msb ||| shl S lsb 1)) a (-1) value) a
    | _ => none

/-- Model of `BitVector::flip(node, index)`. -/
def flip (S : Nat) (node : BVNode) (index : Nat) : Option BVNode :=
  let a := (find_block node index).1
  match getAt node a, bitpos S (find_block node index).2 with
  | some (.leaf _ _ _ d), some pos =>
    some (propagate_update (setData node a (d ^^^ 2 ^ pos)) a 0
      (if d.testBit pos then -1 else 1))
  | _, _ => none

/-- Model of `BitVector::set(node, index)`. -/
def set (S : Nat) (node : BVNode) (index : Nat) : Option BVNode :=
  let a := (find_block node index).1
  match getAt node a, bitpos S (find_block node index).2 with
  | some (.leaf _ _ _ d), some pos =>
    some (propagate_update (setData node a (assignBit d pos true)) a 0
      (if d.testBit pos then 0 else 1))
  | _, _ => none

/-- Model of `BitVector::unset(node, index)`. -/
def unset (S : Nat) (node : BVNode) (index : Nat) : Option BVNode :=
  let a := (find_block node index).1
  match getAt node a, bitpos S (find_block node index).2 with
  | some (.leaf _ _ _ d), some pos =>
    some (propagate_update (setData node a (assignBit d pos false)) a 0
      (if d.testBit pos then -1 else 0))
  | _, _ => none

/-- Model of `BitVector::rank(node, index, value)`. -/
def rank (S : Nat) : BVNode → Nat → Bool → Nat
  | .leaf _ n _ d, i, v =>
    if v then u32 (count S (d &&& bnot S (FULL_MASK S >>> i)))
    else u32 ((min n i : Nat) - (count S (d &&& bnot S (FULL_MASK S >>> i)) : Int))
  | .inner _ n o l r, i, v =>
    if i < n then rank S l i v
    else u32 ((if v then o else u32 (n - o) : Nat) + (rank S r (i - n) v : Int))

/-- The scan of a leaf in `BitVector::select`: `i` is the loop variable, `f` the number of
positions left, `c` the running count.  `none` when the loop ends without a `return` or
reads a position out of range. -/
def select_scan (S d num : Nat) (v : Bool) : Nat → Nat → Nat → Option Nat
  | 0, _, _ => none
  | f + 1, i, c =>
    match bitpos S i with
    | some pos =>
      if d.testBit pos = v then
        if c + 1 = num then some i else select_scan S d num v f (i + 1) (c + 1)
      else select_scan S d num v f (i + 1) c
    | none => none

/-- Model of `BitVector::select(node, num, value)`.  After a leaf scan that does not return, the
function goes on to `select(node->l, ...)` with a null `node->l`: the result is `none`. -/
def select (S : Nat) : BVNode → Nat → Bool → Option Nat
  | .leaf _ n o d, num, v =>
    if (if v then o else u32 (n - o)) < num then some 4294967295
    else select_scan S d num v n 0 0
  | .inner _ n o l r, num, v =>
    if num ≤ (if v then o else u32 (n - o)) then select S l num v
    else
      match select S r (num - (if v then o else u32 (n - o))) v with
      | some x => some (u32 (n + x))
      | none => none

/-- Model of `BitVector::access(node, index)`. -/
def access (S : Nat) (node : BVNode) (index : Nat) : Option Bool :=
  match getAt node (find_block node index).1, bitpos S (find_block node index).2 with
  | some (.leaf _ _ _ d), some pos => some (d.testBit pos)
  | _, _ => none

/-- Model of `BitVector::complement(node)`. -/
def complement (S : Nat) : BVNode → BVNode
  | .leaf h n o d => .leaf h n (u32 (n - o)) (bnot S d &&& bnot S (FULL_MASK S >>> n))
  | .inner h n o l r => .inner h n (u32 (n - o)) (complement S l) (complement S r)

/-- The bits `0 .. nums-1` of a leaf, as pushed by the inner loop of `extract`; logical
index `i` is read at position `BLOCK_SIZE - i - 1`. -/
def leafBits (S n d : Nat) : List Bool :=
  (List.range n).map (fun i => d.testBit (S - i - 1))

/-- The outer loop of `BitVector::extract`, with `f` bounding the number of leaves still
to visit.  A leaf with `nums > S` makes the inner loop read out of range. -/
def extract_loop (S : Nat) (t : BVNode) :
    Nat → Option (List Dir) → List Bool → Option (List Bool)
  | 0, _, acc => some acc
  | _ + 1, none, acc => some acc
  | f + 1, some a, acc =>
    match getAt t a with
    | some (.leaf _ n _ d) =>
      if n ≤ S then extract_loop S t f (next_leaf t a) (acc ++ leafBits S n d) else none
    | _ => none

/-- Model of `BitVector::extract()`. -/
def extract (S : Nat) (t : BVNode) : Option (List Bool) :=
  extract_loop S t (tree_size t) (some (leftmost t)) []

/-! ## Construction -/

/-- Model of `AVL::build_balanced_tree(parent, num_leafs)` for `num_leafs ≥ 1`, with `f` bounding the
depth of the recursion.  All nodes are fresh (height 1, counters 0, empty block). -/
def build_balanced_tree : Nat → Nat → BVNode
  | 0, _ => BVNode.fresh
  | f + 1, n =>
    if n ≤ 1 then BVNode.fresh
    else .inner 1 0 0 (build_balanced_tree f (n / 2)) (build_balanced_tree f (n - n / 2))

/-- The inner loop of the sequence constructor for the leaf number `i`: positions
`j = 0, 1, ...` of the block are written while `j < TARGET_SIZE` and the sequence has a bit
`i * TARGET_SIZE + j`; `f` is the number of positions left.  The result is the block and
`count`. -/
def fill_leaf (S : Nat) (bits : List Bool) (i : Nat) : Nat → Nat → Nat → Nat × Nat
  | 0, j, d => (d, j)
  | f + 1, j, d =>
    if i * TARGET_SIZE S + j < bits.length then
      fill_leaf S bits i f (j + 1) (assignBit d (S - j - 1) (bits.getD (i * TARGET_SIZE S + j) false))
    else (d, j)

/-- The outer loop of the sequence constructor, `k` leaves left to fill, `leaf` the
current leaf. -/
def fill_loop (S : Nat) (bits : List Bool) : Nat → Nat → BVNode → Option (List Dir) → Option BVNode
  | 0, _, t, _ => some t
  | _ + 1, _, _, none => none
  | k + 1, i, t, some a =>
    match getAt t a with
    | some (.leaf _ _ _ d) =>
      let w := fill_leaf S bits i (TARGET_SIZE S) 0 d
      let t1 := propagate_update (setData t a w.1) a w.2 (count S w.1)
      fill_loop S bits k (i + 1) t1 (next_leaf t1 a)
    | _ => none

/-- Model of `BitVector::BitVector(std::vector<bool>)`.  With no leaf to build the root stays the
empty leaf made by `AVL::AVL()`. -/
def construct (S : Nat) (bits : List Bool) : Option BVNode :=
  if TARGET_SIZE S = 0 then none
  else
    let num_leafs := u32 (((bits.length + TARGET_SIZE S - 1) / TARGET_SIZE S : Nat) : Int)
    let root := build_balanced_tree num_leafs num_leafs
    fill_loop S bits num_leafs 0 root (some (leftmost root))

/-! ## The data model: abstraction and invariants -/

/-- The leaves of a tree from left to right, each as `(nums, ones, data)`. -/
def leaves : BVNode → List (Nat × Nat × Nat)
  | .leaf _ n o d => [(n, o, d)]
  | .inner _ _ _ l r => leaves l ++ leaves r

/-- The bits held by one leaf. -/
def bitsOf (S : Nat) (x : Nat × Nat × Nat) : List Bool := leafBits S x.1 x.2.2

/-- The sequence represented by a tree: the bits of its leaves in order. -/
def toList (S : Nat) (t : BVNode) : List Bool := (leaves t).flatMap (bitsOf S)

/-- Sum of the `nums` of the leaves. -/
def totalNums (t : BVNode) : Nat := ((leaves t).map (fun x => x.1)).sum

/-- Sum of the `ones` of the leaves. -/
def totalOnes (t : BVNode) : Nat := ((leaves t).map (fun x => x.2.1)).sum

/-- Counter soundness: every inner node counts the bits and the ones of its left subtree. -/
def Sound : BVNode → Prop
  | .leaf _ _ _ _ => True
  | .inner _ n o l r => n = totalNums l ∧ o = totalOnes l ∧ Sound l ∧ Sound r

/-- A well-formed leaf: at most `S` bits, a block of `S` bits, `ones` the population count,
and a clean tail (the positions below the first `nums` logical bits are zero). -/
def leafOK (S : Nat) (x : Nat × Nat × Nat) : Prop :=
  x.1 ≤ S ∧ x.2.2 < 2 ^ S ∧ x.2.1 = count S x.2.2 ∧ x.2.2 % 2 ^ (S - x.1) = 0

/-- All leaves are well formed. -/
def LeafOK (S : Nat) (t : BVNode) : Prop := ∀ x ∈ leaves t, leafOK S x

/-- Stored heights: 1 at a leaf, `1 + max` of the children at an inner node, within the
range of the 8-bit field. -/
def HeightOK : BVNode → Prop
  | .leaf h _ _ _ => h = 1
  | .inner h _ _ l r => h = 1 + max l.height r.height ∧ h < 256 ∧ HeightOK l ∧ HeightOK r

/-- The balance condition of an AVL tree on the stored heights. -/
def Balanced : BVNode → Prop
  | .leaf _ _ _ _ => True
  | .inner _ _ _ l r =>
    l.height ≤ r.height + 1 ∧ r.height ≤ l.height + 1 ∧ Balanced l ∧ Balanced r

/-- The invariants of the data model: AVL shape, counter soundness, well-formed leaves, and a
length that a 32-bit counter can hold. -/
def Inv (S : Nat) (t : BVNode) : Prop :=
  HeightOK t ∧ Balanced t ∧ Sound t ∧ LeafOK S t ∧ totalNums t < 4294967296

/-! ## Auxiliary definitions for the proofs -/

/-- The leaves to the left of the subtree at an address. -/
def preL : BVNode → List Dir → List (Nat × Nat × Nat)
  | _, [] => []
  | .leaf _ _ _ _, _ :: _ => []
  | .inner _ _ _ l _, .L :: a => preL l a
  | .inner _ _ _ l r, .R :: a => leaves l ++ preL r a

/-- The leaves to the right of the subtree at an address. -/
def postL : BVNode → List Dir → List (Nat × Nat × Nat)
  | _, [] => []
  | .leaf _ _ _ _, _ :: _ => []
  | .inner _ _ _ l r, .L :: a => postL l a ++ leaves r
  | .inner _ _ _ _ r, .R :: a => postL r a

/-- Replace the subtree at `q` by `s`, apply `F` and `G` to the counters of the ancestors
entered from the left, and recompute the heights of all ancestors: the common form of every
update that ends in a climb of `propagate_update`. -/
def graft (F G : Nat → Nat) : BVNode → List Dir → BVNode → BVNode
  | _, [], s => s
  | .leaf h n o d, _ :: _, _ => .leaf h n o d
  | .inner _ n o l r, .L :: q, s =>
    .inner (u8 (1 + max (graft F G l q s).height r.height)) (F n) (G o) (graft F G l q s) r
  | .inner _ n o l r, .R :: q, s =>
    .inner (u8 (1 + max l.height (graft F G r q s).height)) n o l (graft F G r q s)

/-- Stored heights agree with `AVL::height` up to the width of the field. -/
def HFresh : BVNode → Prop
  | .leaf h _ _ _ => h = 1
  | .inner h _ _ l r => h = u8 (1 + max l.height r.height) ∧ HFresh l ∧ HFresh r

/-- The part of the invariants that every update works with: sound counters, well-formed
leaves, stored heights in step with the shape, and a length below `2 ^ 32`. -/
structure WF (S : Nat) (t : BVNode) : Prop where
  sound : Sound t
  leaf : LeafOK S t
  fresh : HFresh t
  rep : totalNums t < 4294967296

/-- What a rebalancing step keeps of the leaf the caller points to: the leaf itself and the
leaves on both sides of it. -/
def Tracks (s : BVNode) (x : List Dir) (t : BVNode) (y : List Dir) : Prop :=
  getAt s x = getAt t y ∧ preL s x = preL t y ∧ postL s x = postL t y

/-- The other direction: the address of the sibling ends in it. -/
def Dir.other : Dir → Dir
  | .L => .R
  | .R => .L

/-- The bit of a block at logical index `i`. -/
def gb (S d i : Nat) : Bool := d.testBit (S - i - 1)

/-- A node whose children differ in height, or the node made by splitting a leaf. -/
def Tilt : BVNode → Prop
  | .leaf _ _ _ _ => False
  | .inner _ _ _ l r => l.height ≠ r.height ∨ (l.height = 1 ∧ r.height = 1)

/-- How the subtree `s` that replaces `x` during an insertion relates to it in height: the
same height, or one more with its children out of level. -/
def Grow (x s : BVNode) : Prop :=
  s.height = x.height ∨ (s.height = x.height + 1 ∧ Tilt s)

/-! ## Sequences of public calls -/

/-- The calls `insert(i, v)` for the pairs of a list, in order; the result is the last root. -/
def insert_all (S : Nat) (t : BVNode) : List (Nat × Bool) → Option BVNode
  | [] => some t
  | (i, v) :: ops =>
    match insert S t i v with
    | some t1 => insert_all S t1 ops
    | none => none

/-- The calls `del(i)` for the indices of a list, in order; the result is the last root. -/
def del_all (S : Nat) (t : BVNode) : List Nat → Option BVNode
  | [] => some t
  | i :: rest =>
    match del S t i with
    | some t1 => del_all S t1 rest
    | none => none

/-- Every index of a sequence of inserts is in range at the time it is applied, for a vector
that holds `n` bits before the first insert. -/
def InRange (n : Nat) : List (Nat × Bool) → Prop
  | [] => True
  | (i, _) :: ops => i ≤ n ∧ InRange (n + 1) ops

/-! ## Decision procedures for the invariants -/

instance decLeafOK (S : Nat) (x : Nat × Nat × Nat) : Decidable (leafOK S x) :=
  inferInstanceAs (Decidable
    (x.1 ≤ S ∧ x.2.2 < 2 ^ S ∧ x.2.1 = count S x.2.2 ∧ x.2.2 % 2 ^ (S - x.1) = 0))

instance decLeafOKAll (S : Nat) (t : BVNode) : Decidable (LeafOK S t) :=
  inferInstanceAs (Decidable (∀ x ∈ leaves t, leafOK S x))

instance decSound : (t : BVNode) → Decidable (Sound t)
  | .leaf _ _ _ _ => isTrue trivial
  | .inner _ _ _ l r =>
    @instDecidableAnd _ _ inferInstance
      (@instDecidableAnd _ _ inferInstance (@instDecidableAnd _ _ (decSound l) (decSound r)))

instance decHeightOK : (t : BVNode) → Decidable (HeightOK t)
  | .leaf h _ _ _ => inferInstanceAs (Decidable (h = 1))
  | .inner _ _ _ l r =>
    @instDecidableAnd _ _ inferInstance
      (@instDecidableAnd _ _ inferInstance
        (@instDecidableAnd _ _ (decHeightOK l) (decHeightOK r)))

instance decBalanced : (t : BVNode) → Decidable (Balanced t)
  | .leaf _ _ _ _ => isTrue trivial
  | .inner _ _ _ l r =>
    @instDecidableAnd _ _ inferInstance
      (@instDecidableAnd _ _ inferInstance
        (@instDecidableAnd _ _ (decBalanced l) (decBalanced r)))

instance decInv (S : Nat) (t : BVNode) : Decidable (Inv S t) :=
  inferInstanceAs (Decidable
    (HeightOK t ∧ Balanced t ∧ Sound t ∧ LeafOK S t ∧ totalNums t < 4294967296))

instance decHFresh : (t : BVNode) → Decidable (HFresh t)
  | .leaf h _ _ _ => inferInstanceAs (Decidable (h = 1))
  | .inner _ _ _ l r =>
    @instDecidableAnd _ _ inferInstance (@instDecidableAnd _ _ (decHFresh l) (decHFresh r))

instance decInRange : (n : Nat) → (ops : List (Nat × Bool)) → Decidable (InRange n ops)
  | _, [] => isTrue trivial
  | n, (_, _) :: ops => @instDecidableAnd _ _ inferInstance (decInRange (n + 1) ops)

/-! ## Shape of a tree -/

/-- Model of `AVL::is_leaf(node)`: the node has no children. -/
def is_leaf : BVNode → Bool
  | .leaf _ _ _ _ => true
  | .inner _ _ _ _ _ => false

/-- The structural height of a tree, a leaf counting 1. -/
def sheight : BVNode → Nat
  | .leaf _ _ _ _ => 1
  | .inner _ _ _ l r => 1 + max (sheight l) (sheight r)

/-- Structural balance: the structural heights of the two children of every inner node differ
by at most 1. -/
def SBalanced : BVNode → Prop
  | .leaf _ _ _ _ => True
  | .inner _ _ _ l r =>
    sheight l ≤ sheight r + 1 ∧ sheight r ≤ sheight l + 1 ∧ SBalanced l ∧ SBalanced r

/-- The number of inner nodes of a tree. -/
def inner_count : BVNode → Nat
  | .leaf _ _ _ _ => 0
  | .inner _ _ _ l r => 1 + (inner_count l + inner_count r)

instance decSBalanced : (t : BVNode) → Decidable (SBalanced t)
  | .leaf _ _ _ _ => isTrue trivial
  | .inner _ _ _ l r =>
    @instDecidableAnd _ _ inferInstance
      (@instDecidableAnd _ _ inferInstance
        (@instDecidableAnd _ _ (decSBalanced l) (decSBalanced r)))

/-- What the sequence constructor has reached when the leaf at an address is the next one to
fill: the subtrees to the left of the path to it have their final stored heights. -/
def DoneLeft : BVNode → List Dir → Prop
  | .leaf _ _ _ _, _ => True
  | .inner _ _ _ _ _, [] => True
  | .inner _ _ _ l _, .L :: a => DoneLeft l a
  | .inner _ _ _ l r, .R :: a => HeightOK l ∧ DoneLeft r a

/-- The occupancy band: the tree is a single leaf, or every leaf holds more than `LOWER_BOUND`
bits. -/
def Band (S : Nat) (t : BVNode) : Prop :=
  is_leaf t = true ∨ ∀ x ∈ leaves t, LOWER_BOUND S < x.1

instance decBand (S : Nat) (t : BVNode) : Decidable (Band S t) :=
  inferInstanceAs (Decidable (is_leaf t = true ∨ ∀ x ∈ leaves t, LOWER_BOUND S < x.1))

/-! ## Sequences of public mutations -/

/-- A call of one of the public mutations. -/
inductive Op where
  | insert (i : Nat) (v : Bool)
  | del (i : Nat)
  | set (i : Nat)
  | unset (i : Nat)
  | flip (i : Nat)
  | complement
  deriving DecidableEq, Repr

/-- The call made on the tree with root `t`; the result is the root afterwards. -/
def Op.run (S : Nat) (t : BVNode) : Op → Option BVNode
  | .insert i v => DitVector.insert S t i v
  | .del i => DitVector.del S t i
  | .set i => DitVector.set S t i
  | .unset i => DitVector.unset S t i
  | .flip i => DitVector.flip S t i
  | .complement => some (DitVector.complement S t)

/-- The call is in range for the tree with root `t`: `i ≤ size()` for an insert, which also
needs room for one more bit in the 32-bit length, and `i < size()` for `del`, `set`, `unset`
and `flip`. -/
def Op.inRange (t : BVNode) : Op → Bool
  | .insert i _ => decide (i ≤ size t) && decide (size t + 1 < 4294967296)
  | .del i => decide (i < size t)
  | .set i => decide (i < size t)
  | .unset i => decide (i < size t)
  | .flip i => decide (i < size t)
  | .complement => true

/-- The calls of a list made in order, starting on the tree with root `t`. -/
def run_ops (S : Nat) (t : BVNode) : List Op → Option BVNode
  | [] => some t
  | op :: ops =>
    match op.run S t with
    | some t1 => run_ops S t1 ops
    | none => none

/-- Every call of the list is in range at the time it is made. -/
def ops_in_range (S : Nat) (t : BVNode) : List Op → Bool
  | [] => true
  | op :: ops =>
    op.inRange t &&
      match op.run S t with
      | some t1 => ops_in_range S t1 ops
      | none => true

/-! ## Bit-level facts about blocks -/

theorem testBit_FULL (S p : Nat) : (FULL_MASK S).testBit p = decide (p < S) := by
  simp [FULL_MASK, Nat.testBit_two_pow_sub_one]

theorem testBit_bnot (S x p : Nat) : (bnot S x).testBit p = (decide (p < S) != x.testBit p) := by
  simp [bnot, Nat.testBit_xor, testBit_FULL]

theorem testBit_shl (S x k p : Nat) :
    (shl S x k).testBit p = (decide (p < S) && decide (k ≤ p) && x.testBit (p - k)) := by
  simp [shl, Nat.testBit_mod_two_pow, Nat.testBit_shiftLeft, Bool.and_assoc]

theorem testBit_ite_pow (v : Bool) (k p : Nat) :
    (if v then 2 ^ k else 0).testBit p = (decide (k = p) && v) := by
  cases v <;> simp [Nat.testBit_two_pow]

theorem testBit_of_lt (x S p : Nat) (h : x < 2 ^ S) (hp : S ≤ p) : x.testBit p = false :=
  Nat.testBit_lt_two_pow (lt_of_lt_of_le h (Nat.pow_le_pow_right (by decide) hp))

theorem lt_two_pow_of_testBit (x S : Nat) (h : ∀ p, S ≤ p → x.testBit p = false) :
    x < 2 ^ S := by
  by_contra hx
  push_neg at hx
  obtain ⟨p, hp, hb⟩ := Nat.ge_two_pow_implies_high_bit_true hx
  rw [h p hp] at hb
  exact Bool.noConfusion hb

theorem mod_two_pow_eq_zero_iff (d k : Nat) :
    d % 2 ^ k = 0 ↔ ∀ p, p < k → d.testBit p = false := by
  constructor
  · intro h p hp
    have := Nat.testBit_mod_two_pow d k p
    rw [h] at this
    simpa [hp] using this.symm
  · intro h
    apply Nat.eq_of_testBit_eq
    intro p
    rw [Nat.testBit_mod_two_pow]
    by_cases hp : p < k
    · simp [hp, h p hp]
    · simp [hp]

/-- The tail of a block beyond the first `n` logical bits is zero. -/
theorem clean_iff (S n d : Nat) :
    d % 2 ^ (S - n) = 0 ↔ ∀ j, n ≤ j → j < S → gb S d j = false := by
  rw [mod_two_pow_eq_zero_iff]
  constructor
  · intro h j hj hjS
    exact h (S - j - 1) (by omega)
  · intro h p hp
    have := h (S - p - 1) (by omega) (by omega)
    have e : S - (S - p - 1) - 1 = p := by omega
    simpa [gb, e] using this

theorem shl_lt (S x k : Nat) : shl S x k < 2 ^ S :=
  Nat.mod_lt _ (Nat.pos_pow_of_pos S (by decide))

theorem and_lt_left (S x y : Nat) (h : x < 2 ^ S) : x &&& y < 2 ^ S :=
  lt_of_le_of_lt Nat.and_le_left h

theorem and_lt_right (S x y : Nat) (h : y < 2 ^ S) : x &&& y < 2 ^ S :=
  lt_of_le_of_lt Nat.and_le_right h

theorem shr_lt (S x k : Nat) (h : x < 2 ^ S) : x >>> k < 2 ^ S :=
  lt_of_le_of_lt (by rw [Nat.shiftRight_eq_div_pow]; exact Nat.div_le_self _ _) h

theorem gb_insert (S d idx j nb : Nat) (v : Bool) (hj : j < S) (hidx : idx < S)
    (hnb : ∀ p, nb.testBit p = (decide (S - idx - 1 = p) && v)) :
    gb S (d &&& bnot S (FULL_MASK S >>> idx) ||| nb ||| ((d &&& (FULL_MASK S >>> idx)) >>> 1)) j
      = if j < idx then gb S d j else if j = idx then v else gb S d (j - 1) := by
  simp only [gb, Nat.testBit_or, Nat.testBit_and, Nat.testBit_shiftRight, testBit_bnot,
    testBit_FULL, hnb]
  have a4 : S - j - 1 < S := by omega
  by_cases h1 : j < idx
  · have a1 : ¬ (idx + (S - j - 1) < S) := by omega
    have a2 : ¬ (idx + (1 + (S - j - 1)) < S) := by omega
    have a3 : ¬ (S - idx - 1 = S - j - 1) := by omega
    simp [h1, a1, a2, a3, a4]
  · by_cases h2 : j = idx
    · subst h2
      have a1 : (j + (S - j - 1) < S) := by omega
      have a2 : ¬ (j + (1 + (S - j - 1)) < S) := by omega
      simp [a1, a2, a4]
    · have a1 : (idx + (S - j - 1) < S) := by omega
      have a2 : (idx + (1 + (S - j - 1)) < S) := by omega
      have a3 : 1 + (S - j - 1) = S - (j - 1) - 1 := by omega
      have a5 : ¬ (S - idx - 1 = S - j - 1) := by omega
      rw [a3] at a2
      simp [h1, h2, a1, a2, a3, a4, a5]

theorem gb_del (S d idx j : Nat) (hj : j < S) (hidx : idx < S) :
    gb S (d &&& bnot S (FULL_MASK S >>> idx) ||| shl S (d &&& (FULL_MASK S >>> (idx + 1))) 1) j
      = if j < idx then gb S d j else (decide (j + 1 < S) && gb S d (j + 1)) := by
  simp only [gb, Nat.testBit_or, Nat.testBit_and, Nat.testBit_shiftRight, testBit_bnot,
    testBit_FULL, testBit_shl]
  have a4 : S - j - 1 < S := by omega
  by_cases h1 : j < idx
  · have a1 : ¬ (idx + (S - j - 1) < S) := by omega
    have a2 : ¬ (idx + 1 + (S - j - 1 - 1) < S) := by omega
    simp [h1, a1, a2, a4]
  · have a1 : (idx + (S - j - 1) < S) := by omega
    by_cases h2 : j + 1 < S
    · have a2 : (idx + 1 + (S - j - 1 - 1) < S) := by omega
      have a3 : S - j - 1 - 1 = S - (j + 1) - 1 := by omega
      have a5 : 1 ≤ S - j - 1 := by omega
      rw [a3] at a2
      simp [h1, h2, a1, a2, a3, a4, a5]
    · have a5 : ¬ (1 ≤ S - j - 1) := by omega
      simp [h1, h2, a1, a4, a5]

theorem gb_assign (S d idx j : Nat) (v : Bool) (hj : j < S) (hidx : idx < S) :
    gb S (assignBit d (S - idx - 1) v) j = if j = idx then v else gb S d j := by
  have a : (S - idx - 1 = S - j - 1) ↔ j = idx := by omega
  cases v
  · simp only [gb, assignBit, Nat.testBit_or, Nat.testBit_and, Nat.testBit_xor,
      Nat.testBit_two_pow]
    by_cases h : j = idx
    · subst h; simp
    · simp [h, a]
  · simp only [gb, assignBit, Nat.testBit_or, Nat.testBit_and, Nat.testBit_xor,
      Nat.testBit_two_pow]
    by_cases h : j = idx
    · subst h; simp
    · simp [h, a]

theorem gb_flip (S d idx j : Nat) (hj : j < S) (hidx : idx < S) :
    gb S (d ^^^ 2 ^ (S - idx - 1)) j = if j = idx then !gb S d j else gb S d j := by
  have a : (S - idx - 1 = S - j - 1) ↔ j = idx := by omega
  simp only [gb, Nat.testBit_xor, Nat.testBit_two_pow]
  by_cases h : j = idx
  · subst h; simp
  · simp [h, a]

theorem gb_mask (S d i j : Nat) (hj : j < S) :
    gb S (d &&& bnot S (FULL_MASK S >>> i)) j = (gb S d j && decide (j < i)) := by
  simp only [gb, Nat.testBit_and, Nat.testBit_shiftRight, testBit_bnot, testBit_FULL]
  have a4 : S - j - 1 < S := by omega
  by_cases h1 : j < i
  · have a1 : ¬ (i + (S - j - 1) < S) := by omega
    simp [h1, a1, a4]
  · have a1 : (i + (S - j - 1) < S) := by omega
    simp [h1, a1, a4]

theorem gb_split_left (S d j : Nat) (hS : S % 2 = 0) (hj : j < S) :
    gb S (d &&& MSB_MASK S) j = (gb S d j && decide (j < TARGET_SIZE S)) := by
  simp only [gb, MSB_MASK, TARGET_SIZE, Nat.testBit_and, Nat.testBit_shiftLeft,
    Nat.testBit_two_pow_sub_one]
  by_cases h1 : j < S / 2
  · have a1 : S - j - 1 ≥ S / 2 := by omega
    have a2 : S - j - 1 - S / 2 < S / 2 := by omega
    simp [h1, a1, a2]
  · have a1 : ¬ (S - j - 1 ≥ S / 2) := by omega
    simp [h1, a1]

theorem gb_split_right (S d j : Nat) (hS : S % 2 = 0) (hj : j < S) :
    gb S (shl S (d &&& LSB_MASK S) (TARGET_SIZE S)) j
      = (decide (j < TARGET_SIZE S) && gb S d (j + TARGET_SIZE S)) := by
  simp only [gb, LSB_MASK, TARGET_SIZE, Nat.testBit_and, testBit_shl,
    Nat.testBit_two_pow_sub_one]
  have a4 : S - j - 1 < S := by omega
  by_cases h1 : j < S / 2
  · have a1 : S / 2 ≤ S - j - 1 := by omega
    have a2 : S - j - 1 - S / 2 < S / 2 := by omega
    have a3 : S - j - 1 - S / 2 = S - (j + S / 2) - 1 := by omega
    rw [a3] at a2
    simp [h1, a1, a2, a3, a4]
  · have a1 : ¬ (S / 2 ≤ S - j - 1) := by omega
    simp [h1, a1]

theorem szsub_of_le (a b : Nat) (h : b ≤ a) : szsub a b = a - b := by
  simp [szsub, h]

theorem gb_keep_top (S pd k j : Nat) (hj : j < S) (hk : k ≤ S) :
    gb S (pd &&& shl S (FULL_MASK S) (S - k)) j = (gb S pd j && decide (j < k)) := by
  simp only [gb, Nat.testBit_and, testBit_shl, testBit_FULL]
  have a4 : S - j - 1 < S := by omega
  by_cases h1 : j < k
  · have a1 : S - k ≤ S - j - 1 := by omega
    have a2 : S - j - 1 - (S - k) < S := by omega
    simp [h1, a1, a2, a4]
  · have a1 : ¬ (S - k ≤ S - j - 1) := by omega
    simp [h1, a1]

theorem gb_steal_data_left (S pd pn sb j : Nat) (hj : j < S) (hsb : sb ≤ pn) (hpn : pn ≤ S) :
    gb S ((pd >>> (S - pn)) &&& (FULL_MASK S >>> (S - sb))) j
      = if j < S - sb then false else gb S pd (pn - sb + (j - (S - sb))) := by
  simp only [gb, Nat.testBit_and, Nat.testBit_shiftRight, testBit_FULL]
  by_cases h1 : j < S - sb
  · have a1 : ¬ (S - sb + (S - j - 1) < S) := by omega
    simp [h1, a1]
  · have a1 : (S - sb + (S - j - 1) < S) := by omega
    have a2 : S - pn + (S - j - 1) = S - (pn - sb + (j - (S - sb))) - 1 := by omega
    simp [h1, a1, a2]

theorem gb_steal_left_node (S pd d pn sb j : Nat) (hj : j < S) (hsb : sb ≤ pn) (hpn : pn ≤ S)
    (hd : d < 2 ^ S) :
    gb S (shl S ((pd >>> (S - pn)) &&& (FULL_MASK S >>> (S - sb))) (S - sb) ||| (d >>> sb)) j
      = if j < sb then gb S pd (pn - sb + j) else gb S d (j - sb) := by
  simp only [gb, Nat.testBit_or, Nat.testBit_and, Nat.testBit_shiftRight, testBit_FULL,
    testBit_shl]
  have a4 : S - j - 1 < S := by omega
  by_cases h1 : j < sb
  · have a1 : S - sb ≤ S - j - 1 := by omega
    have a2 : S - sb + (S - j - 1 - (S - sb)) < S := by omega
    have a3 : S - pn + (S - j - 1 - (S - sb)) = S - (pn - sb + j) - 1 := by omega
    have a5 : d.testBit (sb + (S - j - 1)) = false := testBit_of_lt d S _ hd (by omega)
    simp [h1, a1, a2, a3, a4, a5]
  · have a1 : ¬ (S - sb ≤ S - j - 1) := by omega
    have a3 : sb + (S - j - 1) = S - (j - sb) - 1 := by omega
    simp [h1, a1, a3]

theorem gb_shl (S nd sb j : Nat) (hj : j < S) :
    gb S (shl S nd sb) j = (decide (j + sb < S) && gb S nd (j + sb)) := by
  simp only [gb, testBit_shl]
  have a4 : S - j - 1 < S := by omega
  by_cases h1 : j + sb < S
  · have a1 : sb ≤ S - j - 1 := by omega
    have a3 : S - j - 1 - sb = S - (j + sb) - 1 := by omega
    simp [h1, a1, a3, a4]
  · have a1 : ¬ (sb ≤ S - j - 1) := by omega
    simp [h1, a1]

theorem gb_steal_data_right (S nd sb j : Nat) (hj : j < S) (hnd : nd < 2 ^ S) :
    gb S (nd >>> (S - sb)) j = if j < S - sb then false else gb S nd (j - (S - sb)) := by
  simp only [gb, Nat.testBit_shiftRight]
  by_cases h1 : j < S - sb
  · have a5 : nd.testBit (S - sb + (S - j - 1)) = false := testBit_of_lt nd S _ hnd (by omega)
    simp [h1, a5]
  · have a3 : S - sb + (S - j - 1) = S - (j - (S - sb)) - 1 := by omega
    simp [h1, a3]

theorem gb_steal_right_node (S nd d n sb j : Nat) (hj : j < S) (hn : n + sb ≤ S)
    (hnd : nd < 2 ^ S) (hclean : ∀ i, n ≤ i → i < S → gb S d i = false) :
    gb S (d ||| shl S (nd >>> (S - sb)) (S - n - sb)) j
      = if j < n then gb S d j else if j < n + sb then gb S nd (j - n) else false := by
  simp only [gb, Nat.testBit_or, Nat.testBit_shiftRight, testBit_shl]
  have a4 : S - j - 1 < S := by omega
  by_cases h1 : j < n
  · have a5 : nd.testBit (S - sb + (S - j - 1 - (S - n - sb))) = false :=
      testBit_of_lt nd S _ hnd (by omega)
    simp [h1, a5]
  · have c := hclean j (by omega) hj
    simp only [gb] at c
    by_cases h2 : j < n + sb
    · have a1 : S - n - sb ≤ S - j - 1 := by omega
      have a3 : S - sb + (S - j - 1 - (S - n - sb)) = S - (j - n) - 1 := by omega
      simp [h1, h2, a1, a3, a4, c]
    · have a1 : ¬ (S - n - sb ≤ S - j - 1) := by omega
      simp [h1, h2, a1, c]

theorem gb_or_shr (S x y k j : Nat) (hj : j < S) (hy : y < 2 ^ S)
    (hclean : ∀ i, k ≤ i → i < S → gb S x i = false) :
    gb S (x ||| (y >>> k)) j = if j < k then gb S x j else gb S y (j - k) := by
  simp only [gb, Nat.testBit_or, Nat.testBit_shiftRight]
  by_cases h1 : j < k
  · have a5 : y.testBit (k + (S - j - 1)) = false := testBit_of_lt y S _ hy (by omega)
    simp [h1, a5]
  · have c := hclean j (by omega) hj
    simp only [gb] at c
    have a3 : k + (S - j - 1) = S - (j - k) - 1 := by omega
    simp [h1, a3, c]

/-! ## Lists of bits read off a function -/

theorem leafBits_eq (S n d : Nat) : leafBits S n d = (List.range n).map (gb S d) := rfl

theorem map_range_congr {α : Type} (n : Nat) (f g : Nat → α) (h : ∀ j, j < n → f j = g j) :
    (List.range n).map f = (List.range n).map g := by
  apply List.map_congr_left
  intro j hj
  exact h j (List.mem_range.mp hj)

theorem map_range_append {α : Type} (m n : Nat) (f g : Nat → α) :
    (List.range (m + n)).map (fun j => if j < m then f j else g (j - m))
      = (List.range m).map f ++ (List.range n).map g := by
  apply List.ext_getElem
  · simp
  · intro k h1 h2
    simp only [List.getElem_map, List.getElem_range]
    by_cases hk : k < m
    · rw [List.getElem_append_left (by simpa using hk)]
      simp [hk]
    · rw [List.getElem_append_right (by simpa using hk)]
      simp [hk]

theorem map_range_take {α : Type} (m n : Nat) (f : Nat → α) (h : m ≤ n) :
    ((List.range n).map f).take m = (List.range m).map f := by
  apply List.ext_getElem
  · simp [h]
  · intro k h1 h2
    simp

theorem map_range_drop {α : Type} (k n : Nat) (f : Nat → α) :
    ((List.range n).map f).drop k = (List.range (n - k)).map (fun j => f (k + j)) := by
  apply List.ext_getElem
  · simp
  · intro i h1 h2
    simp

theorem map_range_insert {α : Type} (n idx : Nat) (v : α) (f : Nat → α) (h : idx ≤ n) :
    (List.range (n + 1)).map (fun j => if j < idx then f j else if j = idx then v else f (j - 1))
      = ((List.range n).map f).insertIdx idx v := by
  apply List.ext_getElem
  · rw [List.length_insertIdx]
    simp [h]
    simp [h]
  · intro k h1 h2
    simp only [List.getElem_map, List.getElem_range]
    by_cases hk : k < idx
    · rw [List.getElem_insertIdx_of_lt _ _ _ _ hk (by simp; omega)]
      simp [hk]
    · by_cases hk2 : k = idx
      · subst hk2
        rw [List.getElem_insertIdx_self _ _ _ (by simpa using h)]
        simp
      · obtain ⟨m, rfl⟩ : ∃ m, k = idx + m + 1 := ⟨k - idx - 1, by omega⟩
        rw [List.getElem_insertIdx_add_succ _ _ _ _ (by simp at h1 ⊢; omega)]
        simp [hk, hk2]

theorem map_range_erase {α : Type} (n idx : Nat) (f : Nat → α) (h : idx < n) :
    (List.range (n - 1)).map (fun j => if j < idx then f j else f (j + 1))
      = ((List.range n).map f).eraseIdx idx := by
  apply List.ext_getElem
  · rw [List.length_eraseIdx]
    simp [h]
  · intro k h1 h2
    rw [List.getElem_eraseIdx]
    simp only [List.getElem_map, List.getElem_range]
    by_cases hk : k < idx <;> simp [hk]

theorem map_range_set {α : Type} (n idx : Nat) (v : α) (f : Nat → α) :
    (List.range n).map (fun j => if j = idx then v else f j)
      = ((List.range n).map f).set idx v := by
  apply List.ext_getElem
  · simp
  · intro k h1 h2
    rw [List.getElem_set]
    simp only [List.getElem_map, List.getElem_range]
    by_cases hk : idx = k
    · simp [hk]
    · have : ¬ k = idx := fun h => hk h.symm
      simp [hk, this]

/-- The population count of a block is the number of `true` among its `S` logical bits. -/
theorem count_eq (S x : Nat) : count S x = ((List.range S).map (gb S x)).count true := by
  have e : (List.range S).map (gb S x) = ((List.range S).map (fun p => x.testBit p)).reverse := by
    apply List.ext_getElem
    · simp
    · intro k h1 h2
      simp only [List.length_map, List.length_range] at h1
      rw [List.getElem_reverse]
      simp [gb, Nat.sub_right_comm]
  rw [e, List.count_reverse, count, List.count, List.countP_map]
  congr 1
  funext p
  simp

theorem count_clean (S n x : Nat) (hn : n ≤ S) (hclean : ∀ i, n ≤ i → i < S → gb S x i = false) :
    count S x = (leafBits S n x).count true := by
  rw [count_eq, leafBits_eq]
  have e : (List.range S).map (gb S x)
      = (List.range (n + (S - n))).map (fun j => if j < n then gb S x j else false) := by
    rw [show n + (S - n) = S by omega]
    apply map_range_congr
    intro j hj
    by_cases h : j < n
    · simp [h]
    · simp [h, hclean j (by omega) hj]
  have h2 := map_range_append n (S - n) (gb S x) (fun _ => false)
  beta_reduce at h2
  rw [e, h2, List.count_append]
  have z : ∀ m : Nat, List.count true (List.map (fun _ => false) (List.range m)) = 0 := by
    intro m
    rw [List.count_eq_zero]
    simp
  rw [z]
  rfl

/-! ## Addresses, grafting and the leaves of a tree -/

theorem getAt_append (t : BVNode) (q x : List Dir) :
    getAt t (q ++ x) = (getAt t q).bind (fun s => getAt s x) := by
  induction q generalizing t with
  | nil => simp [getAt]
  | cons d q ih =>
    cases t with
    | leaf h n o dd => simp [getAt]
    | inner h n o l r => cases d <;> simp [getAt, ih]

theorem getAt_append_of (t sub : BVNode) (q x : List Dir) (h : getAt t q = some sub) :
    getAt t (q ++ x) = getAt sub x := by
  rw [getAt_append, h]; rfl

theorem getAt_setAt_same (t s0 s : BVNode) (q : List Dir) (h : getAt t q = some s0) :
    getAt (setAt t q s) q = some s := by
  induction q generalizing t with
  | nil => simp [getAt, setAt]
  | cons d q ih =>
    cases t with
    | leaf h n o dd => simp [getAt] at h
    | inner hh n o l r =>
      cases d <;> simp only [getAt, setAt] at h ⊢ <;> exact ih _ h

theorem getAt_graft_same (F G : Nat → Nat) (t s0 s : BVNode) (q : List Dir)
    (h : getAt t q = some s0) : getAt (graft F G t q s) q = some s := by
  induction q generalizing t with
  | nil => simp [getAt, graft]
  | cons d q ih =>
    cases t with
    | leaf h n o dd => simp [getAt] at h
    | inner hh n o l r =>
      cases d <;> simp only [getAt, graft] at h ⊢ <;> exact ih _ h

theorem propagate_eq_graft (t sub : BVNode) (q x : List Dir) (dn d1 : Int)
    (h : getAt t q = some sub) :
    propagate_update t (q ++ x) dn d1
      = graft (fun n => u32 (n + dn)) (fun o => u32 (o + d1)) t q
          (propagate_update sub x dn d1) := by
  induction q generalizing t with
  | nil =>
    simp only [getAt, Option.some.injEq] at h
    subst h
    simp [graft]
  | cons d q ih =>
    cases t with
    | leaf h n o dd => simp [getAt] at h
    | inner hh n o l r =>
      cases d <;> simp only [getAt] at h <;> rw [List.cons_append] <;>
        simp only [propagate_update, graft, ih _ h]

theorem setAt_append (t sub s : BVNode) (q x : List Dir) (h : getAt t q = some sub) :
    setAt t (q ++ x) s = setAt t q (setAt sub x s) := by
  induction q generalizing t with
  | nil =>
    simp only [getAt, Option.some.injEq] at h
    subst h
    simp [setAt]
  | cons d q ih =>
    cases t with
    | leaf h n o dd => simp [getAt] at h
    | inner hh n o l r =>
      cases d <;> simp only [getAt] at h <;> rw [List.cons_append] <;>
        simp only [setAt, ih _ h]

theorem graft_append (F G : Nat → Nat) (t sub s : BVNode) (q x : List Dir)
    (h : getAt t q = some sub) :
    graft F G t (q ++ x) s = graft F G t q (graft F G sub x s) := by
  induction q generalizing t with
  | nil =>
    simp only [getAt, Option.some.injEq] at h
    subst h
    simp [graft]
  | cons d q ih =>
    cases t with
    | leaf h n o dd => simp [getAt] at h
    | inner hh n o l r =>
      cases d <;> simp only [getAt] at h <;> rw [List.cons_append] <;>
        simp only [graft, ih _ h]

theorem graft_setAt (F G : Nat → Nat) (t s0 s : BVNode) (q : List Dir) :
    graft F G (setAt t q s0) q s = graft F G t q s := by
  induction q generalizing t with
  | nil => simp [graft]
  | cons d q ih =>
    cases t with
    | leaf h n o dd => simp [setAt, graft]
    | inner hh n o l r => cases d <;> simp only [setAt, graft, ih]

theorem graft_graft (F1 G1 F2 G2 : Nat → Nat) (t s0 s : BVNode) (q : List Dir) :
    graft F2 G2 (graft F1 G1 t q s0) q s
      = graft (fun n => F2 (F1 n)) (fun o => G2 (G1 o)) t q s := by
  induction q generalizing t with
  | nil => simp [graft]
  | cons d q ih =>
    cases t with
    | leaf h n o dd => simp [graft]
    | inner hh n o l r => cases d <;> simp only [graft, ih]

theorem setData_eq (t : BVNode) (a : List Dir) (h n o d d1 : Nat)
    (hg : getAt t a = some (.leaf h n o d)) :
    setData t a d1 = setAt t a (.leaf h n o d1) := by
  simp [setData, hg]

/-! ### Leaves -/

theorem leaves_decomp (t sub : BVNode) (q : List Dir) (h : getAt t q = some sub) :
    leaves t = preL t q ++ leaves sub ++ postL t q := by
  induction q generalizing t with
  | nil =>
    simp only [getAt, Option.some.injEq] at h
    subst h
    simp [preL, postL]
  | cons d q ih =>
    cases t with
    | leaf h n o dd => simp [getAt] at h
    | inner hh n o l r =>
      cases d <;> simp only [getAt] at h <;>
        simp [leaves, preL, postL, ih _ h, List.append_assoc]

theorem leaves_graft (F G : Nat → Nat) (t sub s : BVNode) (q : List Dir)
    (h : getAt t q = some sub) :
    leaves (graft F G t q s) = preL t q ++ leaves s ++ postL t q := by
  induction q generalizing t with
  | nil => simp [graft, preL, postL]
  | cons d q ih =>
    cases t with
    | leaf h n o dd => simp [getAt] at h
    | inner hh n o l r =>
      cases d <;> simp only [getAt] at h <;>
        simp [leaves, graft, preL, postL, ih _ h, List.append_assoc]

theorem leaves_setAt (t sub s : BVNode) (q : List Dir) (h : getAt t q = some sub) :
    leaves (setAt t q s) = preL t q ++ leaves s ++ postL t q := by
  induction q generalizing t with
  | nil => simp [setAt, preL, postL]
  | cons d q ih =>
    cases t with
    | leaf h n o dd => simp [getAt] at h
    | inner hh n o l r =>
      cases d <;> simp only [getAt] at h <;>
        simp [leaves, setAt, preL, postL, ih _ h, List.append_assoc]

theorem preL_append (t sub : BVNode) (q x : List Dir) (h : getAt t q = some sub) :
    preL t (q ++ x) = preL t q ++ preL sub x := by
  induction q generalizing t with
  | nil =>
    simp only [getAt, Option.some.injEq] at h
    subst h
    simp [preL]
  | cons d q ih =>
    cases t with
    | leaf h n o dd => simp [getAt] at h
    | inner hh n o l r =>
      cases d <;> simp only [getAt] at h <;>
        simp [preL, ih _ h, List.append_assoc]

theorem postL_append (t sub : BVNode) (q x : List Dir) (h : getAt t q = some sub) :
    postL t (q ++ x) = postL sub x ++ postL t q := by
  induction q generalizing t with
  | nil =>
    simp only [getAt, Option.some.injEq] at h
    subst h
    simp [postL]
  | cons d q ih =>
    cases t with
    | leaf h n o dd => simp [getAt] at h
    | inner hh n o l r =>
      cases d <;> simp only [getAt] at h <;>
        simp [postL, ih _ h, List.append_assoc]

theorem preL_graft (F G : Nat → Nat) (t sub s : BVNode) (q : List Dir)
    (h : getAt t q = some sub) : preL (graft F G t q s) q = preL t q := by
  induction q generalizing t with
  | nil => simp [preL]
  | cons d q ih =>
    cases t with
    | leaf h n o dd => simp [getAt] at h
    | inner hh n o l r =>
      cases d <;> simp only [getAt] at h <;> simp [graft, preL, ih _ h]

theorem postL_graft (F G : Nat → Nat) (t sub s : BVNode) (q : List Dir)
    (h : getAt t q = some sub) : postL (graft F G t q s) q = postL t q := by
  induction q generalizing t with
  | nil => simp [postL]
  | cons d q ih =>
    cases t with
    | leaf h n o dd => simp [getAt] at h
    | inner hh n o l r =>
      cases d <;> simp only [getAt] at h <;> simp [graft, postL, ih _ h]

/-! ### Totals and soundness -/

@[simp]
theorem totalNums_leaf (h n o d : Nat) : totalNums (.leaf h n o d) = n := by
  simp [totalNums, leaves]

@[simp]
theorem totalOnes_leaf (h n o d : Nat) : totalOnes (.leaf h n o d) = o := by
  simp [totalOnes, leaves]

@[simp]
theorem totalNums_inner (h n o : Nat) (l r : BVNode) :
    totalNums (.inner h n o l r) = totalNums l + totalNums r := by
  simp [totalNums, leaves]

@[simp]
theorem totalOnes_inner (h n o : Nat) (l r : BVNode) :
    totalOnes (.inner h n o l r) = totalOnes l + totalOnes r := by
  simp [totalOnes, leaves]

theorem totalNums_graft (F G : Nat → Nat) (t sub s : BVNode) (q : List Dir)
    (h : getAt t q = some sub) :
    totalNums (graft F G t q s) + totalNums sub = totalNums t + totalNums s := by
  simp only [totalNums, leaves_graft F G t sub s q h, leaves_decomp t sub q h]
  simp only [List.map_append, List.sum_append]
  omega

theorem totalOnes_graft (F G : Nat → Nat) (t sub s : BVNode) (q : List Dir)
    (h : getAt t q = some sub) :
    totalOnes (graft F G t q s) + totalOnes sub = totalOnes t + totalOnes s := by
  simp only [totalOnes, leaves_graft F G t sub s q h, leaves_decomp t sub q h]
  simp only [List.map_append, List.sum_append]
  omega

theorem totalNums_sub_le (t sub : BVNode) (q : List Dir) (h : getAt t q = some sub) :
    totalNums sub ≤ totalNums t := by
  simp only [totalNums, leaves_decomp t sub q h]
  simp only [List.map_append, List.sum_append]
  omega

theorem totalOnes_sub_le (t sub : BVNode) (q : List Dir) (h : getAt t q = some sub) :
    totalOnes sub ≤ totalOnes t := by
  simp only [totalOnes, leaves_decomp t sub q h]
  simp only [List.map_append, List.sum_append]
  omega

theorem Sound_getAt (t sub : BVNode) (q : List Dir) (h : getAt t q = some sub)
    (hs : Sound t) : Sound sub := by
  induction q generalizing t with
  | nil =>
    simp only [getAt, Option.some.injEq] at h
    subst h
    exact hs
  | cons d q ih =>
    cases t with
    | leaf h n o dd => simp [getAt] at h
    | inner hh n o l r =>
      cases d <;> simp only [getAt] at h
      · exact ih _ h hs.2.2.1
      · exact ih _ h hs.2.2.2

theorem Sound_graft (F G : Nat → Nat) (t sub s : BVNode) (q : List Dir)
    (h : getAt t q = some sub) (hs : Sound t) (hs1 : Sound s)
    (hF : ∀ n, totalNums sub ≤ n → n ≤ totalNums t → F n + totalNums sub = n + totalNums s)
    (hG : ∀ n, totalOnes sub ≤ n → n ≤ totalOnes t → G n + totalOnes sub = n + totalOnes s) :
    Sound (graft F G t q s) := by
  induction q generalizing t with
  | nil => simpa [graft] using hs1
  | cons d q ih =>
    cases t with
    | leaf h n o dd => simp [getAt] at h
    | inner hh n o l r =>
      cases d <;> simp only [getAt] at h
      · simp only [graft, Sound]
        obtain ⟨e1, e2, sl, sr⟩ := hs
        have b1 := totalNums_sub_le l sub q h
        have b2 := totalOnes_sub_le l sub q h
        have g1 := totalNums_graft F G l sub s q h
        have g2 := totalOnes_graft F G l sub s q h
        refine ⟨?_, ?_, ?_, sr⟩
        · have := hF n (by omega) (by simp; omega)
          omega
        · have := hG o (by omega) (by simp; omega)
          omega
        · apply ih l h sl
          · intro m h1 h2; exact hF m h1 (by simp; omega)
          · intro m h1 h2; exact hG m h1 (by simp; omega)
      · simp only [graft, Sound]
        obtain ⟨e1, e2, sl, sr⟩ := hs
        refine ⟨e1, e2, sl, ?_⟩
        apply ih r h sr
        · intro m h1 h2; exact hF m h1 (by simp; omega)
        · intro m h1 h2; exact hG m h1 (by simp; omega)

/-! ### Heights -/

theorem HFresh_getAt (t sub : BVNode) (q : List Dir) (h : getAt t q = some sub)
    (hs : HFresh t) : HFresh sub := by
  induction q generalizing t with
  | nil =>
    simp only [getAt, Option.some.injEq] at h
    subst h
    exact hs
  | cons d q ih =>
    cases t with
    | leaf h n o dd => simp [getAt] at h
    | inner hh n o l r =>
      cases d <;> simp only [getAt] at h
      · exact ih _ h hs.2.1
      · exact ih _ h hs.2.2

theorem HFresh_graft (F G : Nat → Nat) (t sub s : BVNode) (q : List Dir)
    (h : getAt t q = some sub) (hs : HFresh t) (hs1 : HFresh s) :
    HFresh (graft F G t q s) := by
  induction q generalizing t with
  | nil => simpa [graft] using hs1
  | cons d q ih =>
    cases t with
    | leaf h n o dd => simp [getAt] at h
    | inner hh n o l r =>
      cases d <;> simp only [getAt] at h
      · simp only [graft, HFresh]
        exact ⟨trivial, ih l h hs.2.1, hs.2.2⟩
      · simp only [graft, HFresh]
        exact ⟨trivial, hs.2.1, ih r h hs.2.2⟩

/-! ### Leaf well-formedness -/

theorem LeafOK_getAt (S : Nat) (t sub : BVNode) (q : List Dir) (h : getAt t q = some sub)
    (hs : LeafOK S t) : LeafOK S sub := by
  intro x hx
  apply hs
  rw [leaves_decomp t sub q h]
  simp [hx]

theorem LeafOK_graft (S : Nat) (F G : Nat → Nat) (t sub s : BVNode) (q : List Dir)
    (h : getAt t q = some sub) (hs : LeafOK S t) (hs1 : LeafOK S s) :
    LeafOK S (graft F G t q s) := by
  intro x hx
  rw [leaves_graft F G t sub s q h] at hx
  simp only [List.mem_append] at hx
  rcases hx with (hx | hx) | hx
  · apply hs; rw [leaves_decomp t sub q h]; simp [hx]
  · exact hs1 x hx
  · apply hs; rw [leaves_decomp t sub q h]; simp [hx]

theorem toList_graft (S : Nat) (F G : Nat → Nat) (t sub s : BVNode) (q : List Dir)
    (h : getAt t q = some sub) :
    toList S (graft F G t q s)
      = (preL t q).flatMap (bitsOf S) ++ toList S s ++ (postL t q).flatMap (bitsOf S) := by
  simp [toList, leaves_graft F G t sub s q h, List.flatMap_append]

theorem toList_decomp (S : Nat) (t sub : BVNode) (q : List Dir) (h : getAt t q = some sub) :
    toList S t
      = (preL t q).flatMap (bitsOf S) ++ toList S sub ++ (postL t q).flatMap (bitsOf S) := by
  simp [toList, leaves_decomp t sub q h, List.flatMap_append]

/-! ## Navigation -/

/-- Sum of the `nums` of a list of leaves. -/
theorem length_flatMap_bitsOf (S : Nat) (xs : List (Nat × Nat × Nat)) :
    (xs.flatMap (bitsOf S)).length = (xs.map (fun x => x.1)).sum := by
  induction xs with
  | nil => simp
  | cons x xs ih => simp [List.flatMap_cons, bitsOf, leafBits, ih]

theorem length_toList (S : Nat) (t : BVNode) : (toList S t).length = totalNums t := by
  rw [toList, length_flatMap_bitsOf]; rfl

@[simp]
theorem toList_leaf (S h n o d : Nat) : toList S (.leaf h n o d) = leafBits S n d := by
  simp [toList, leaves, bitsOf]

@[simp]
theorem toList_inner (S h n o : Nat) (l r : BVNode) :
    toList S (.inner h n o l r) = toList S l ++ toList S r := by
  simp [toList, leaves]

theorem find_block_spec (t : BVNode) (i : Nat) (hs : Sound t) :
    ∃ h n o d, getAt t (find_block t i).1 = some (.leaf h n o d) ∧
      ((preL t (find_block t i).1).map (fun x => x.1)).sum + (find_block t i).2 = i ∧
      (i ≤ totalNums t → (find_block t i).2 ≤ n) ∧
      (i < totalNums t → (find_block t i).2 < n) := by
  induction t generalizing i with
  | leaf h n o d =>
    exact ⟨h, n, o, d, by simp [find_block, getAt], by simp [find_block, preL],
      by simp [find_block], by simp [find_block]⟩
  | inner hh n o l r ihl ihr =>
    obtain ⟨e1, e2, sl, sr⟩ := hs
    by_cases hi : i < n
    · obtain ⟨h1, n1, o1, d1, g, p, b1, b2⟩ := ihl i sl
      refine ⟨h1, n1, o1, d1, ?_, ?_, ?_, ?_⟩
      · simp [find_block, hi, getAt, g]
      · simp [find_block, hi, preL, p]
      · intro _; simp only [find_block, hi, if_true]; exact b1 (by omega)
      · intro _; simp only [find_block, hi, if_true]; exact b2 (by omega)
    · obtain ⟨h1, n1, o1, d1, g, p, b1, b2⟩ := ihr (i - n) sr
      refine ⟨h1, n1, o1, d1, ?_, ?_, ?_, ?_⟩
      · simp [find_block, hi, getAt, g]
      · simp only [find_block, hi, if_false, preL, List.map_append, List.sum_append]
        have : ((leaves l).map (fun x => x.1)).sum = n := by rw [e1]; rfl
        omega
      · intro h; simp only [find_block, hi, if_false]
        apply b1; simp at h; omega
      · intro h; simp only [find_block, hi, if_false]
        apply b2; simp at h; omega

theorem size_eq (t : BVNode) (hs : Sound t) (hr : totalNums t < 4294967296) :
    size t = totalNums t := by
  induction t with
  | leaf h n o d => simp [size]
  | inner hh n o l r _ ihr =>
    obtain ⟨e1, e2, sl, sr⟩ := hs
    simp only [totalNums_inner] at hr
    simp only [size, totalNums_inner, ihr sr (by omega), e1, u32]
    omega

/-! ### Neighbour leaves -/

theorem leftmost_spec (t : BVNode) :
    ∃ h n o d, getAt t (leftmost t) = some (.leaf h n o d) ∧ preL t (leftmost t) = [] ∧
      leaves t = (n, o, d) :: postL t (leftmost t) := by
  induction t with
  | leaf h n o d => exact ⟨h, n, o, d, by simp [leftmost, getAt, preL, postL, leaves]⟩
  | inner hh n o l r ihl _ =>
    obtain ⟨h1, n1, o1, d1, g, p, e⟩ := ihl
    exact ⟨h1, n1, o1, d1, by simp [leftmost, getAt, g], by simp [leftmost, preL, p],
      by simp [leftmost, postL, leaves, e]⟩

theorem rightmost_spec (t : BVNode) :
    ∃ h n o d, getAt t (rightmost t) = some (.leaf h n o d) ∧ postL t (rightmost t) = [] ∧
      leaves t = preL t (rightmost t) ++ [(n, o, d)] := by
  induction t with
  | leaf h n o d => exact ⟨h, n, o, d, by simp [rightmost, getAt, preL, postL, leaves]⟩
  | inner hh n o l r _ ihr =>
    obtain ⟨h1, n1, o1, d1, g, p, e⟩ := ihr
    exact ⟨h1, n1, o1, d1, by simp [rightmost, getAt, g], by simp [rightmost, postL, p],
      by simp [rightmost, preL, leaves, e]⟩

/-- A climb that stops at `q` came through the other child of the node at `q`. -/
theorem climb_right_valid (t : BVNode) (a q : List Dir) (x : BVNode)
    (hc : climb_right a = some q) (hg : getAt t a = some x) :
    ∃ h n o l r, getAt t q = some (.inner h n o l r) := by
  induction a generalizing t q with
  | nil => simp [climb_right] at hc
  | cons d a ih =>
    cases t with
    | leaf h n o dd => simp [getAt] at hg
    | inner hh n o l r =>
      simp only [climb_right] at hc
      cases hca : climb_right a with
      | some q1 =>
        rw [hca] at hc
        simp only [Option.some.injEq] at hc
        subst hc
        cases d <;> simp only [getAt] at hg ⊢ <;> exact ih _ _ hca hg
      | none =>
        rw [hca] at hc
        by_cases hd : d = Dir.L
        · simp only [hd, if_true, Option.some.injEq] at hc
          subst hc
          exact ⟨hh, n, o, l, r, rfl⟩
        · simp [hd] at hc

theorem climb_left_valid (t : BVNode) (a q : List Dir) (x : BVNode)
    (hc : climb_left a = some q) (hg : getAt t a = some x) :
    ∃ h n o l r, getAt t q = some (.inner h n o l r) := by
  induction a generalizing t q with
  | nil => simp [climb_left] at hc
  | cons d a ih =>
    cases t with
    | leaf h n o dd => simp [getAt] at hg
    | inner hh n o l r =>
      simp only [climb_left] at hc
      cases hca : climb_left a with
      | some q1 =>
        rw [hca] at hc
        simp only [Option.some.injEq] at hc
        subst hc
        cases d <;> simp only [getAt] at hg ⊢ <;> exact ih _ _ hca hg
      | none =>
        rw [hca] at hc
        by_cases hd : d = Dir.R
        · simp only [hd, if_true, Option.some.injEq] at hc
          subst hc
          exact ⟨hh, n, o, l, r, rfl⟩
        · simp [hd] at hc

theorem next_leaf_none_iff (t : BVNode) (a : List Dir) (x : BVNode)
    (hg : getAt t a = some x) : next_leaf t a = none ↔ climb_right a = none := by
  unfold next_leaf
  cases hc : climb_right a with
  | none => simp
  | some q =>
    obtain ⟨h, n, o, l, r, g⟩ := climb_right_valid t a q x hc hg
    simp [getAt_append_of t _ q [Dir.R] g, getAt]

theorem prev_leaf_none_iff (t : BVNode) (a : List Dir) (x : BVNode)
    (hg : getAt t a = some x) : prev_leaf t a = none ↔ climb_left a = none := by
  unfold prev_leaf
  cases hc : climb_left a with
  | none => simp
  | some q =>
    obtain ⟨h, n, o, l, r, g⟩ := climb_left_valid t a q x hc hg
    simp [getAt_append_of t _ q [Dir.L] g, getAt]

theorem next_leaf_R (h n o : Nat) (l r : BVNode) (a : List Dir) :
    next_leaf (.inner h n o l r) (Dir.R :: a) = (next_leaf r a).map (fun b => Dir.R :: b) := by
  unfold next_leaf
  simp only [climb_right]
  cases hc : climb_right a with
  | none => simp
  | some q =>
    simp only [List.cons_append, getAt]
    cases getAt r (q ++ [Dir.R]) <;> simp

theorem prev_leaf_L (h n o : Nat) (l r : BVNode) (a : List Dir) :
    prev_leaf (.inner h n o l r) (Dir.L :: a) = (prev_leaf l a).map (fun b => Dir.L :: b) := by
  unfold prev_leaf
  simp only [climb_left]
  cases hc : climb_left a with
  | none => simp
  | some q =>
    simp only [List.cons_append, getAt]
    cases getAt l (q ++ [Dir.L]) <;> simp

theorem next_leaf_L (h n o : Nat) (l r : BVNode) (a : List Dir) (x : BVNode)
    (hg : getAt l a = some x) :
    next_leaf (.inner h n o l r) (Dir.L :: a)
      = some (match next_leaf l a with
        | some b => Dir.L :: b
        | none => Dir.R :: leftmost r) := by
  cases hn : next_leaf l a with
  | none =>
    have hc := (next_leaf_none_iff l a x hg).mp hn
    simp [next_leaf, climb_right, hc, getAt]
  | some b =>
    unfold next_leaf at hn ⊢
    simp only [climb_right]
    cases hc : climb_right a with
    | none => simp [hc] at hn
    | some q =>
      simp only [hc] at hn
      simp only [List.cons_append, getAt]
      cases hq : getAt l (q ++ [Dir.R]) with
      | none => simp [hq] at hn
      | some s =>
        simp only [hq, Option.some.injEq] at hn
        simp [← hn]

theorem prev_leaf_R (h n o : Nat) (l r : BVNode) (a : List Dir) (x : BVNode)
    (hg : getAt r a = some x) :
    prev_leaf (.inner h n o l r) (Dir.R :: a)
      = some (match prev_leaf r a with
        | some b => Dir.R :: b
        | none => Dir.L :: rightmost l) := by
  cases hn : prev_leaf r a with
  | none =>
    have hc := (prev_leaf_none_iff r a x hg).mp hn
    simp [prev_leaf, climb_left, hc, getAt]
  | some b =>
    unfold prev_leaf at hn ⊢
    simp only [climb_left]
    cases hc : climb_left a with
    | none => simp [hc] at hn
    | some q =>
      simp only [hc] at hn
      simp only [List.cons_append, getAt]
      cases hq : getAt r (q ++ [Dir.L]) with
      | none => simp [hq] at hn
      | some s =>
        simp only [hq, Option.some.injEq] at hn
        simp [← hn]

/-- The leaf after the leaf at `a` is the first of the leaves to its right. -/
theorem next_leaf_spec (t : BVNode) (a : List Dir) (h n o d : Nat)
    (hg : getAt t a = some (.leaf h n o d)) :
    (next_leaf t a = none ∧ postL t a = []) ∨
    (∃ b h1 n1 o1 d1, next_leaf t a = some b ∧ getAt t b = some (.leaf h1 n1 o1 d1) ∧
      postL t a = (n1, o1, d1) :: postL t b ∧ preL t b = preL t a ++ [(n, o, d)]) := by
  induction a generalizing t with
  | nil =>
    left
    simp [next_leaf, climb_right, postL]
  | cons dir a ih =>
    cases t with
    | leaf h n o dd => simp [getAt] at hg
    | inner hh nn oo l r =>
      cases dir with
      | L =>
        simp only [getAt] at hg
        right
        rw [next_leaf_L hh nn oo l r a _ hg]
        rcases ih l hg with ⟨e1, e2⟩ | ⟨b, h1, n1, o1, d1, e1, e2, e3, e4⟩
        · obtain ⟨h1, n1, o1, d1, g, p, e⟩ := leftmost_spec r
          refine ⟨Dir.R :: leftmost r, h1, n1, o1, d1, by simp [e1], by simp [getAt, g], ?_, ?_⟩
          · simp [postL, e2, e]
          · have := leaves_decomp l _ a hg
            simp [preL, p, this, e2, leaves]
        · refine ⟨Dir.L :: b, h1, n1, o1, d1, by simp [e1], by simp [getAt, e2], ?_, ?_⟩
          · simp [postL, e3]
          · simp [preL, e4]
      | R =>
        simp only [getAt] at hg
        rw [next_leaf_R]
        rcases ih r hg with ⟨e1, e2⟩ | ⟨b, h1, n1, o1, d1, e1, e2, e3, e4⟩
        · left
          simp [e1, postL, e2]
        · right
          refine ⟨Dir.R :: b, h1, n1, o1, d1, by simp [e1], by simp [getAt, e2], ?_, ?_⟩
          · simp [postL, e3]
          · simp [preL, e4]

/-- The leaf before the leaf at `a` is the last of the leaves to its left. -/
theorem prev_leaf_spec (t : BVNode) (a : List Dir) (h n o d : Nat)
    (hg : getAt t a = some (.leaf h n o d)) :
    (prev_leaf t a = none ∧ preL t a = []) ∨
    (∃ b h1 n1 o1 d1, prev_leaf t a = some b ∧ getAt t b = some (.leaf h1 n1 o1 d1) ∧
      preL t a = preL t b ++ [(n1, o1, d1)] ∧ postL t b = (n, o, d) :: postL t a) := by
  induction a generalizing t with
  | nil =>
    left
    simp [prev_leaf, climb_left, preL]
  | cons dir a ih =>
    cases t with
    | leaf h n o dd => simp [getAt] at hg
    | inner hh nn oo l r =>
      cases dir with
      | R =>
        simp only [getAt] at hg
        right
        rw [prev_leaf_R hh nn oo l r a _ hg]
        rcases ih r hg with ⟨e1, e2⟩ | ⟨b, h1, n1, o1, d1, e1, e2, e3, e4⟩
        · obtain ⟨h1, n1, o1, d1, g, p, e⟩ := rightmost_spec l
          refine ⟨Dir.L :: rightmost l, h1, n1, o1, d1, by simp [e1], by simp [getAt, g], ?_, ?_⟩
          · simp [preL, e2, e]
          · have := leaves_decomp r _ a hg
            simp [postL, p, this, e2, leaves]
        · refine ⟨Dir.R :: b, h1, n1, o1, d1, by simp [e1], by simp [getAt, e2], ?_, ?_⟩
          · simp [preL, e3]
          · simp [postL, e4]
      | L =>
        simp only [getAt] at hg
        rw [prev_leaf_L]
        rcases ih l hg with ⟨e1, e2⟩ | ⟨b, h1, n1, o1, d1, e1, e2, e3, e4⟩
        · left
          simp [e1, preL, e2]
        · right
          refine ⟨Dir.L :: b, h1, n1, o1, d1, by simp [e1], by simp [getAt, e2], ?_, ?_⟩
          · simp [preL, e3]
          · simp [postL, e4]

/-! ### `extract` walks the leaves in order -/

theorem extract_loop_spec (S : Nat) (t : BVNode) (hS : ∀ x ∈ leaves t, x.1 ≤ S)
    (f : Nat) (a : List Dir) (acc : List Bool) (h n o d : Nat)
    (hg : getAt t a = some (.leaf h n o d)) (hf : (postL t a).length < f) :
    extract_loop S t f (some a) acc
      = some (acc ++ leafBits S n d ++ (postL t a).flatMap (bitsOf S)) := by
  induction f generalizing a acc h n o d with
  | zero => omega
  | succ f ih =>
    have hn : n ≤ S := by
      apply hS (n, o, d)
      rw [leaves_decomp t _ a hg]
      simp [leaves]
    simp only [extract_loop, hg, hn, if_true]
    rcases next_leaf_spec t a h n o d hg with ⟨e1, e2⟩ | ⟨b, h1, n1, o1, d1, e1, e2, e3, _⟩
    · rw [e1, e2]
      cases f <;> simp [extract_loop]
    · rw [e1, ih b _ h1 n1 o1 d1 e2 (by rw [e3] at hf; simpa using hf), e3]
      simp [List.flatMap_cons, bitsOf, List.append_assoc]

theorem length_leaves_le (t : BVNode) : (leaves t).length ≤ tree_size t := by
  induction t with
  | leaf h n o d => simp [leaves, tree_size]
  | inner hh n o l r ihl ihr => simp [leaves, tree_size]; omega

/-- The operation `extract` returns the sequence represented by the tree. -/
theorem extract_eq (S : Nat) (t : BVNode) (hS : ∀ x ∈ leaves t, x.1 ≤ S) :
    extract S t = some (toList S t) := by
  obtain ⟨h, n, o, d, g, p, e⟩ := leftmost_spec t
  unfold extract
  rw [extract_loop_spec S t hS _ _ _ h n o d g]
  · simp [toList, e, List.flatMap_cons, bitsOf]
  · have := length_leaves_le t
    rw [e] at this
    simp at this
    omega

theorem LeafOK_nums_le (S : Nat) (t : BVNode) (h : LeafOK S t) : ∀ x ∈ leaves t, x.1 ≤ S :=
  fun x hx => (h x hx).1

/-! ## Queries -/

theorem count_true_add_false (l : List Bool) : l.count true + l.count false = l.length := by
  induction l with
  | nil => simp
  | cons b l ih => cases b <;> simp [List.count_cons] <;> omega

theorem count_range_succ (g : Nat → Bool) (v : Bool) (i : Nat) :
    ((List.range (i + 1)).map g).count v
      = ((List.range i).map g).count v + (if g i = v then 1 else 0) := by
  rw [List.range_succ, List.map_append, List.count_append]
  by_cases h : g i = v <;> simp [h, List.count_cons]

theorem bitpos_of_lt (S i : Nat) (h : i < S) : bitpos S i = some (S - i - 1) := by
  simp [bitpos, h]

theorem leafOK_clean (S n o d : Nat) (h : leafOK S (n, o, d)) :
    ∀ i, n ≤ i → i < S → gb S d i = false :=
  (clean_iff S n d).mp h.2.2.2

theorem leafOK_ones (S n o d : Nat) (h : leafOK S (n, o, d)) :
    o = (leafBits S n d).count true := by
  rw [← count_clean S n d h.1 (leafOK_clean S n o d h)]
  exact h.2.2.1

theorem totalOnes_eq_count (S : Nat) (t : BVNode) (h : LeafOK S t) :
    totalOnes t = (toList S t).count true := by
  induction t with
  | leaf hh n o d =>
    simp only [totalOnes_leaf, toList_leaf]
    exact leafOK_ones S n o d (h (n, o, d) (by simp [leaves]))
  | inner hh n o l r ihl ihr =>
    simp only [totalOnes_inner, toList_inner, List.count_append]
    rw [ihl (fun x hx => h x (by simp [leaves, hx])), ihr (fun x hx => h x (by simp [leaves, hx]))]

theorem LeafOK_left (S h n o : Nat) (l r : BVNode) (hl : LeafOK S (.inner h n o l r)) :
    LeafOK S l := fun x hx => hl x (by simp [leaves, hx])

theorem LeafOK_right (S h n o : Nat) (l r : BVNode) (hl : LeafOK S (.inner h n o l r)) :
    LeafOK S r := fun x hx => hl x (by simp [leaves, hx])

theorem totalOnes_le_totalNums (S : Nat) (t : BVNode) (h : LeafOK S t) :
    totalOnes t ≤ totalNums t := by
  rw [totalOnes_eq_count S t h, ← length_toList S t]
  exact List.count_le_length _ _

theorem count_mask (S n o d i : Nat) (h : leafOK S (n, o, d)) (hi : i ≤ n) :
    count S (d &&& bnot S (FULL_MASK S >>> i)) = ((leafBits S n d).take i).count true := by
  have hiS : i ≤ S := le_trans hi h.1
  rw [count_clean S i _ hiS]
  · rw [leafBits_eq, leafBits_eq, map_range_take i n _ hi]
    congr 1
    apply map_range_congr
    intro j hj
    rw [gb_mask S d i j (by omega)]
    simp [hj]
  · intro j hj hjS
    rw [gb_mask S d i j hjS]
    simp; intro _; omega

theorem access_spec (S : Nat) (t : BVNode) (i : Nat) (hs : Sound t)
    (hS : ∀ x ∈ leaves t, x.1 ≤ S) (hi : i < totalNums t) :
    access S t i = (toList S t)[i]? ∧ i < (toList S t).length := by
  obtain ⟨h, n, o, d, g, p, _, b2⟩ := find_block_spec t i hs
  have hj := b2 hi
  have hn : n ≤ S := by
    apply hS (n, o, d)
    rw [leaves_decomp t _ _ g]
    simp [leaves]
  refine ⟨?_, by rw [length_toList]; exact hi⟩
  simp only [access, g, bitpos_of_lt S _ (lt_of_lt_of_le hj hn)]
  rw [toList_decomp S t _ _ g, toList_leaf]
  have hlen : ((preL t (find_block t i).1).flatMap (bitsOf S)).length + (find_block t i).2 = i := by
    rw [length_flatMap_bitsOf]; exact p
  rw [List.append_assoc, List.getElem?_append_right (by omega)]
  have e : i - ((preL t (find_block t i).1).flatMap (bitsOf S)).length = (find_block t i).2 := by
    omega
  rw [e, List.getElem?_append_left (by simpa [leafBits] using hj)]
  simp [leafBits, hj]

theorem rank_spec (S : Nat) (t : BVNode) (i : Nat) (v : Bool) (hs : Sound t)
    (hl : LeafOK S t) (hr : totalNums t < 4294967296) (hi : i ≤ totalNums t) :
    rank S t i v = ((toList S t).take i).count v := by
  induction t generalizing i with
  | leaf hh n o d =>
    have ok : leafOK S (n, o, d) := hl (n, o, d) (by simp [leaves])
    simp only [totalNums_leaf] at hi hr
    simp only [rank, toList_leaf]
    rw [count_mask S n o d i ok hi]
    have hlen : ((leafBits S n d).take i).length = i := by simp [leafBits, hi]
    have hc := count_true_add_false ((leafBits S n d).take i)
    cases v
    · simp only [Bool.false_eq_true, if_false, u32, Nat.min_def]
      split_ifs <;> omega
    · simp only [if_true, u32]
      omega
  | inner hh n o l r ihl ihr =>
    obtain ⟨e1, e2, sl, sr⟩ := hs
    have hll := LeafOK_left S hh n o l r hl
    have hlr := LeafOK_right S hh n o l r hl
    simp only [totalNums_inner] at hi hr
    have lenl := length_toList S l
    have o1 := totalOnes_eq_count S l hll
    have ct := count_true_add_false (toList S l)
    by_cases h : i < n
    · simp only [rank, h, if_true, toList_inner]
      rw [ihl i sl hll (by omega) (by omega), List.take_append_of_le_length (by omega)]
    · simp only [rank, h, if_false, toList_inner]
      rw [ihr (i - n) sr hlr (by omega) (by omega)]
      have hc : ((toList S r).take (i - n)).count v ≤ ((toList S r).take (i - n)).length :=
        List.count_le_length _ _
      have hlen : ((toList S r).take (i - n)).length ≤ totalNums r := by
        rw [List.length_take, length_toList]; omega
      have e : (toList S l ++ toList S r).take i = toList S l ++ (toList S r).take (i - n) := by
        rw [List.take_append_eq_append_take, List.take_of_length_le (by omega)]
        congr 2; omega
      rw [e, List.count_append]
      cases v
      · simp only [Bool.false_eq_true, if_false, u32]
        omega
      · simp only [if_true, u32]
        omega

theorem select_scan_spec (S d num n : Nat) (v : Bool) (hn : n ≤ S) (f i c : Nat)
    (hfi : i + f = n) (hc : c = ((List.range i).map (gb S d)).count v) (hc1 : c < num)
    (hnum : num ≤ ((List.range n).map (gb S d)).count v) :
    ∃ r, select_scan S d num v f i c = some r ∧ r < n ∧ gb S d r = v ∧
      ((List.range r).map (gb S d)).count v + 1 = num := by
  induction f generalizing i c with
  | zero =>
    have : i = n := by omega
    subst this
    omega
  | succ f ih =>
    have hi : i < S := by omega
    have hcs := count_range_succ (gb S d) v i
    simp only [select_scan, bitpos_of_lt S i hi]
    by_cases hb : d.testBit (S - i - 1) = v
    · have hb1 : gb S d i = v := hb
      simp only [hb, if_true]
      by_cases h1 : c + 1 = num
      · exact ⟨i, by simp [h1], by omega, hb1, by omega⟩
      · simp only [h1, if_false]
        apply ih (i + 1) (c + 1) (by omega) _ (by omega)
        rw [hcs]; simp [hb1, hc]
    · have hb1 : ¬ gb S d i = v := hb
      simp only [hb, if_false]
      apply ih (i + 1) c (by omega) _ hc1
      rw [hcs]; simp [hb1, hc]

theorem take_toList_leaf (S n d r : Nat) (h : r ≤ n) :
    (leafBits S n d).take r = (List.range r).map (gb S d) := by
  rw [leafBits_eq, map_range_take r n _ h]

theorem select_spec (S : Nat) (t : BVNode) (k : Nat) (v : Bool) (hs : Sound t)
    (hl : LeafOK S t) (hr : totalNums t < 4294967296) (hk1 : 1 ≤ k)
    (hk2 : k ≤ (toList S t).count v) :
    ∃ r, select S t k v = some r ∧ r < (toList S t).length ∧ (toList S t)[r]? = some v ∧
      ((toList S t).take r).count v + 1 = k := by
  induction t generalizing k with
  | leaf hh n o d =>
    have ok : leafOK S (n, o, d) := hl (n, o, d) (by simp [leaves])
    simp only [totalNums_leaf] at hr
    simp only [toList_leaf] at hk2 ⊢
    have ho := leafOK_ones S n o d ok
    have ct := count_true_add_false (leafBits S n d)
    have hlen : (leafBits S n d).length = n := by simp [leafBits]
    have guard : ¬ ((if v then o else u32 (n - o)) < k) := by
      cases v
      · simp only [Bool.false_eq_true, if_false, u32]; omega
      · simp only [if_true]; omega
    simp only [select, guard, if_false]
    obtain ⟨r, e1, e2, e3, e4⟩ := select_scan_spec S d k n v ok.1 n 0 0 (by omega) (by simp)
      (by omega) (by rw [← leafBits_eq]; exact hk2)
    refine ⟨r, e1, by omega, ?_, ?_⟩
    · simp [leafBits, e2]; exact e3
    · rw [take_toList_leaf S n d r (by omega)]; exact e4
  | inner hh n o l r ihl ihr =>
    obtain ⟨e1, e2, sl, sr⟩ := hs
    have hll := LeafOK_left S hh n o l r hl
    have hlr := LeafOK_right S hh n o l r hl
    simp only [totalNums_inner] at hr
    simp only [toList_inner, List.count_append] at hk2
    have lenl := length_toList S l
    have lenr := length_toList S r
    have o1 := totalOnes_eq_count S l hll
    have ct := count_true_add_false (toList S l)
    have hnv : (if v then o else u32 (n - o)) = (toList S l).count v := by
      cases v
      · simp only [Bool.false_eq_true, if_false, u32]; omega
      · simp only [if_true]; omega
    simp only [select, hnv, toList_inner]
    by_cases h : k ≤ (toList S l).count v
    · obtain ⟨x, x1, x2, x3, x4⟩ := ihl k sl hll (by omega) hk1 h
      refine ⟨x, by simp [h, x1], by simp; omega, ?_, ?_⟩
      · rw [List.getElem?_append_left x2]; exact x3
      · rw [List.take_append_of_le_length (by omega)]; exact x4
    · obtain ⟨x, x1, x2, x3, x4⟩ := ihr (k - (toList S l).count v) sr hlr (by omega) (by omega)
        (by omega)
      refine ⟨n + x, ?_, by simp; omega, ?_, ?_⟩
      · simp only [h, if_false, x1, u32]
        congr 1; omega
      · rw [List.getElem?_append_right (by omega)]
        rw [show n + x - (toList S l).length = x by omega]; exact x3
      · rw [List.take_append_eq_append_take, List.take_of_length_le (by omega),
          List.count_append, show n + x - (toList S l).length = x by omega]
        omega

/-! ## Updates of one leaf -/

theorem insertIdx_append_left {α : Type} (l post : List α) (j : Nat) (v : α)
    (h : j ≤ l.length) : (l ++ post).insertIdx j v = l.insertIdx j v ++ post := by
  induction l generalizing j with
  | nil =>
    have : j = 0 := by simpa using h
    subst this
    simp [List.insertIdx_zero]
  | cons x l ih =>
    cases j with
    | zero => simp [List.insertIdx_zero]
    | succ j =>
      simp only [List.cons_append, List.insertIdx_succ_cons]
      rw [ih j (by simpa using h)]

theorem insert_in_ctx {α : Type} (pre l post : List α) (j : Nat) (v : α)
    (h : j ≤ l.length) :
    (pre ++ l ++ post).insertIdx (pre.length + j) v = pre ++ l.insertIdx j v ++ post := by
  induction pre with
  | nil => simpa using insertIdx_append_left l post j v h
  | cons x pre ih =>
    have e : (x :: pre).length + j = (pre.length + j) + 1 := by simp; omega
    rw [e]
    simp only [List.cons_append, List.insertIdx_succ_cons]
    rw [ih]

theorem erase_in_ctx {α : Type} (pre l post : List α) (j : Nat) (h : j < l.length) :
    (pre ++ l ++ post).eraseIdx (pre.length + j) = pre ++ l.eraseIdx j ++ post := by
  rw [List.append_assoc, List.eraseIdx_append_of_length_le (by omega),
    show pre.length + j - pre.length = j by omega, List.eraseIdx_append_of_lt_length h,
    List.append_assoc]

theorem set_in_ctx {α : Type} (pre l post : List α) (j : Nat) (v : α) (h : j < l.length) :
    (pre ++ l ++ post).set (pre.length + j) v = pre ++ l.set j v ++ post := by
  rw [List.append_assoc, List.set_append_right _ _ (by omega),
    show pre.length + j - pre.length = j by omega, List.set_append_left _ _ h,
    List.append_assoc]

theorem count_insertIdx (l : List Bool) (j : Nat) (v : Bool) (h : j ≤ l.length) :
    (l.insertIdx j v).count true = l.count true + (if v then 1 else 0) := by
  rw [(List.perm_insertIdx v l h).count_eq]
  cases v <;> simp [List.count_cons]

theorem count_eraseIdx (l : List Bool) (j : Nat) (h : j < l.length) :
    (l.eraseIdx j).count true + (if l[j] then 1 else 0) = l.count true := by
  have e1 : l.eraseIdx j = l.take j ++ l.drop (j + 1) := List.eraseIdx_eq_take_drop_succ l j
  have e2 : l = l.take j ++ l[j] :: l.drop (j + 1) := by
    conv_lhs => rw [← List.take_append_drop j l, List.drop_eq_getElem_cons h]
  rw [e1]
  conv_rhs => rw [e2]
  simp only [List.count_append, List.count_cons]
  cases l[j] <;> simp [Nat.add_assoc]

theorem count_set (l : List Bool) (j : Nat) (v : Bool) (h : j < l.length) :
    (l.set j v).count true + (if l[j] then 1 else 0) = l.count true + (if v then 1 else 0) := by
  have e1 : l.set j v = l.take j ++ v :: l.drop (j + 1) := List.set_eq_take_cons_drop v h
  have e2 : l = l.take j ++ l[j] :: l.drop (j + 1) := by
    conv_lhs => rw [← List.take_append_drop j l, List.drop_eq_getElem_cons h]
  rw [e1]
  conv_rhs => rw [e2]
  simp only [List.count_append, List.count_cons]
  cases l[j] <;> cases v <;> simp <;> omega

theorem HFresh_of_HeightOK (t : BVNode) (h : HeightOK t) : HFresh t := by
  induction t with
  | leaf hh n o d => exact h
  | inner hh n o l r ihl ihr =>
    obtain ⟨e, b, hl, hr⟩ := h
    refine ⟨?_, ihl hl, ihr hr⟩
    simp only [u8]
    omega

theorem WF_of_Inv (S : Nat) (t : BVNode) (h : Inv S t) : WF S t :=
  ⟨h.2.2.1, h.2.2.2.1, HFresh_of_HeightOK t h.1, h.2.2.2.2⟩

theorem leaf_update_eq (t : BVNode) (a : List Dir) (h n o d d1 : Nat) (dn dz : Int)
    (hg : getAt t a = some (.leaf h n o d)) :
    propagate_update (setData t a d1) a dn dz
      = graft (fun m => u32 (m + dn)) (fun m => u32 (m + dz)) t a
          (.leaf 1 (u32 (n + dn)) (u32 (o + dz)) d1) := by
  rw [setData_eq t a h n o d d1 hg]
  have g2 := getAt_setAt_same t _ (.leaf h n o d1) a hg
  have := propagate_eq_graft (setAt t a (.leaf h n o d1)) _ a [] dn dz g2
  rw [List.append_nil] at this
  rw [this, graft_setAt]
  simp [propagate_update]

/-- A leaf with new contents, put in place by a grafting whose counter updates add the
differences of the leaf counters. -/
theorem leaf_graft_spec (S : Nat) (t : BVNode) (a : List Dir) (h n o d n1 o1 d1 : Nat)
    (dn dz : Int) (wf : WF S t) (hg : getAt t a = some (.leaf h n o d))
    (hn : (n : Int) + dn = n1) (ho : (o : Int) + dz = o1) (ok : leafOK S (n1, o1, d1))
    (hrep : (totalNums t : Int) + dn < 4294967296) :
    WF S (graft (fun m => u32 (m + dn)) (fun m => u32 (m + dz)) t a (.leaf 1 n1 o1 d1)) ∧
    (totalNums (graft (fun m => u32 (m + dn)) (fun m => u32 (m + dz)) t a (.leaf 1 n1 o1 d1))
      : Int) = totalNums t + dn ∧
    toList S (graft (fun m => u32 (m + dn)) (fun m => u32 (m + dz)) t a (.leaf 1 n1 o1 d1))
      = (preL t a).flatMap (bitsOf S) ++ leafBits S n1 d1 ++ (postL t a).flatMap (bitsOf S) := by
  have hN := totalNums_graft (fun m => u32 (m + dn)) (fun m => u32 (m + dz)) t _
    (.leaf 1 n1 o1 d1) a hg
  have hO := totalOnes_graft (fun m => u32 (m + dn)) (fun m => u32 (m + dz)) t _
    (.leaf 1 n1 o1 d1) a hg
  simp only [totalNums_leaf, totalOnes_leaf] at hN hO
  have hL : LeafOK S (graft (fun m => u32 (m + dn)) (fun m => u32 (m + dz)) t a
      (.leaf 1 n1 o1 d1)) := by
    apply LeafOK_graft S _ _ t _ _ a hg wf.leaf
    intro x hx
    simp only [leaves, List.mem_singleton] at hx
    subst hx
    exact ok
  have hle := totalOnes_le_totalNums S _ hL
  have hle0 := totalOnes_le_totalNums S _ wf.leaf
  have hrep0 := wf.rep
  have b1 := totalNums_sub_le t _ a hg
  have b2 := totalOnes_sub_le t _ a hg
  simp only [totalNums_leaf, totalOnes_leaf] at b1 b2
  refine ⟨⟨?_, hL, ?_, by omega⟩, by omega, ?_⟩
  · apply Sound_graft _ _ t _ (.leaf 1 n1 o1 d1) a hg wf.sound (by simp [Sound])
    · intro m h1 h2
      simp only [totalNums_leaf, u32] at h1 h2 ⊢
      omega
    · intro m h1 h2
      simp only [totalOnes_leaf, u32] at h1 h2 ⊢
      omega
  · exact HFresh_graft _ _ t _ (.leaf 1 n1 o1 d1) a hg wf.fresh (by simp [HFresh])
  · rw [toList_graft S _ _ t _ _ a hg, toList_leaf]

theorem leaf_update_spec (S : Nat) (t : BVNode) (a : List Dir) (h n o d n1 o1 d1 : Nat)
    (dn dz : Int) (wf : WF S t) (hg : getAt t a = some (.leaf h n o d))
    (hn : (n : Int) + dn = n1) (ho : (o : Int) + dz = o1) (ok : leafOK S (n1, o1, d1))
    (hrep : (totalNums t : Int) + dn < 4294967296) :
    WF S (propagate_update (setData t a d1) a dn dz) ∧
    (totalNums (propagate_update (setData t a d1) a dn dz) : Int) = totalNums t + dn ∧
    toList S (propagate_update (setData t a d1) a dn dz)
      = (preL t a).flatMap (bitsOf S) ++ leafBits S n1 d1 ++ (postL t a).flatMap (bitsOf S) ∧
    getAt (propagate_update (setData t a d1) a dn dz) a = some (.leaf 1 n1 o1 d1) ∧
    preL (propagate_update (setData t a d1) a dn dz) a = preL t a ∧
    postL (propagate_update (setData t a d1) a dn dz) a = postL t a := by
  have b1 := totalNums_sub_le t _ a hg
  have b2 := totalOnes_sub_le t _ a hg
  have hle0 := totalOnes_le_totalNums S _ wf.leaf
  have hrep0 := wf.rep
  simp only [totalNums_leaf, totalOnes_leaf] at b1 b2
  have hno : o1 ≤ n1 := by
    have := totalOnes_le_totalNums S (.leaf 1 n1 o1 d1)
      (by intro x hx; simp only [leaves, List.mem_singleton] at hx; subst hx; exact ok)
    simpa using this
  have e1 : u32 (n + dn) = n1 := by simp only [u32]; omega
  have e2 : u32 (o + dz) = o1 := by simp only [u32]; omega
  rw [leaf_update_eq t a h n o d d1 dn dz hg, e1, e2]
  obtain ⟨w, tn, tl⟩ := leaf_graft_spec S t a h n o d n1 o1 d1 dn dz wf hg hn ho ok hrep
  exact ⟨w, tn, tl, getAt_graft_same _ _ t _ _ a hg, preL_graft _ _ t _ _ a hg,
    postL_graft _ _ t _ _ a hg⟩

theorem leafOK_of (S n d : Nat) (hn : n ≤ S) (hd : d < 2 ^ S)
    (hclean : ∀ j, n ≤ j → j < S → gb S d j = false) :
    leafOK S (n, (leafBits S n d).count true, d) :=
  ⟨hn, hd, (count_clean S n d hn hclean).symm, (clean_iff S n d).mpr hclean⟩

theorem two_pow_lt (S k : Nat) (h : k < S) : 2 ^ k < 2 ^ S :=
  Nat.pow_lt_pow_right (by decide) h

theorem assignBit_lt (S d pos : Nat) (v : Bool) (hd : d < 2 ^ S) (hp : pos < S) :
    assignBit d pos v < 2 ^ S := by
  cases v
  · simp only [assignBit, Bool.false_eq_true, if_false]
    exact Nat.xor_lt_two_pow hd (Nat.and_lt_two_pow _ (two_pow_lt S pos hp))
  · simp only [assignBit, if_true]
    exact Nat.or_lt_two_pow hd (two_pow_lt S pos hp)

theorem leaf_assign (S n o d idx : Nat) (v : Bool) (ok : leafOK S (n, o, d)) (hidx : idx < n) :
    leafBits S n (assignBit d (S - idx - 1) v) = (leafBits S n d).set idx v ∧
    leafOK S (n, ((leafBits S n d).set idx v).count true, assignBit d (S - idx - 1) v) := by
  have hn := ok.1
  have e : leafBits S n (assignBit d (S - idx - 1) v) = (leafBits S n d).set idx v := by
    rw [leafBits_eq, leafBits_eq, ← map_range_set]
    apply map_range_congr
    intro j hj
    exact gb_assign S d idx j v (by omega) (by omega)
  refine ⟨e, ?_⟩
  rw [← e]
  apply leafOK_of S n _ hn (assignBit_lt S d _ v ok.2.1 (by omega))
  intro j hj hjS
  rw [gb_assign S d idx j v hjS (by omega)]
  have : ¬ j = idx := by omega
  simp only [this, if_false]
  exact leafOK_clean S n o d ok j hj hjS

theorem leaf_flip (S n o d idx : Nat) (ok : leafOK S (n, o, d)) (hidx : idx < n) :
    leafBits S n (d ^^^ 2 ^ (S - idx - 1)) = (leafBits S n d).set idx (!gb S d idx) ∧
    leafOK S (n, ((leafBits S n d).set idx (!gb S d idx)).count true,
      d ^^^ 2 ^ (S - idx - 1)) := by
  have hn := ok.1
  have e : leafBits S n (d ^^^ 2 ^ (S - idx - 1)) = (leafBits S n d).set idx (!gb S d idx) := by
    rw [leafBits_eq, leafBits_eq, ← map_range_set]
    apply map_range_congr
    intro j hj
    rw [gb_flip S d idx j (by omega) (by omega)]
    by_cases hji : j = idx
    · subst hji; simp
    · simp [hji]
  refine ⟨e, ?_⟩
  rw [← e]
  apply leafOK_of S n _ hn (Nat.xor_lt_two_pow ok.2.1 (two_pow_lt S _ (by omega)))
  intro j hj hjS
  rw [gb_flip S d idx j hjS (by omega)]
  have : ¬ j = idx := by omega
  simp only [this, if_false]
  exact leafOK_clean S n o d ok j hj hjS

theorem getElem_leafBits (S n d j : Nat) (h : j < (leafBits S n d).length) :
    (leafBits S n d)[j] = gb S d j := by
  simp [leafBits, gb]

/-- Writing one bit of the leaf that holds index `i`: the common part of `set`, `unset`
and `flip`. -/
theorem write_spec (S : Nat) (t : BVNode) (i : Nat) (wf : WF S t) (hi : i < totalNums t)
    (d1 : Nat → Nat → Nat) (dz : Nat → Nat → Int) (nv : Bool → Bool)
    (hbits : ∀ n o d idx, leafOK S (n, o, d) → idx < n →
      leafBits S n (d1 d idx) = (leafBits S n d).set idx (nv (gb S d idx)) ∧
      leafOK S (n, ((leafBits S n d).set idx (nv (gb S d idx))).count true, d1 d idx))
    (hdz : ∀ d idx, dz d idx = (if nv (gb S d idx) then 1 else 0) - (if gb S d idx then 1 else 0)) :
    ∃ h n o d, getAt t (find_block t i).1 = some (.leaf h n o d) ∧
      (find_block t i).2 < n ∧ n ≤ S ∧
      WF S (propagate_update (setData t (find_block t i).1 (d1 d (find_block t i).2))
        (find_block t i).1 0 (dz d (find_block t i).2)) ∧
      totalNums (propagate_update (setData t (find_block t i).1 (d1 d (find_block t i).2))
        (find_block t i).1 0 (dz d (find_block t i).2)) = totalNums t ∧
      ∃ b, (toList S t)[i]? = some b ∧
      toList S (propagate_update (setData t (find_block t i).1 (d1 d (find_block t i).2))
        (find_block t i).1 0 (dz d (find_block t i).2)) = (toList S t).set i (nv b) := by
  obtain ⟨h, n, o, d, g, p, _, b2⟩ := find_block_spec t i wf.sound
  have hj := b2 hi
  have ok : leafOK S (n, o, d) := by
    apply wf.leaf
    rw [leaves_decomp t _ _ g]
    simp [leaves]
  obtain ⟨e1, e2⟩ := hbits n o d _ ok hj
  have hlen : (leafBits S n d).length = n := by simp [leafBits]
  have hc := count_set (leafBits S n d) (find_block t i).2 (nv (gb S d (find_block t i).2))
    (by omega)
  rw [getElem_leafBits] at hc
  have ho := leafOK_ones S n o d ok
  obtain ⟨w, tn, tl, _⟩ := leaf_update_spec S t _ h n o d n _ (d1 d (find_block t i).2)
    0 (dz d (find_block t i).2) wf g (by omega)
    (by rw [hdz]; split_ifs at hc ⊢ <;> omega) e2 (by have := wf.rep; omega)
  refine ⟨h, n, o, d, g, hj, ok.1, w, by omega, gb S d (find_block t i).2, ?_, ?_⟩
  · have := (access_spec S t i wf.sound (LeafOK_nums_le S t wf.leaf) hi).1
    rw [← this]
    simp [access, g, bitpos_of_lt S _ (lt_of_lt_of_le hj ok.1), gb]
  · rw [tl, e1, toList_decomp S t _ _ g, toList_leaf]
    have hlen2 : ((preL t (find_block t i).1).flatMap (bitsOf S)).length + (find_block t i).2 = i := by
      rw [length_flatMap_bitsOf]; exact p
    have key := set_in_ctx ((preL t (find_block t i).1).flatMap (bitsOf S)) (leafBits S n d)
      ((postL t (find_block t i).1).flatMap (bitsOf S)) (find_block t i).2
      (nv (gb S d (find_block t i).2)) (by omega)
    rw [hlen2] at key
    rw [key]

/-! ## Rotations -/

theorem heightOf_pos (t : BVNode) : 1 ≤ heightOf t := by
  cases t <;> simp [heightOf]

theorem height_eq_of_fresh (t : BVNode) (h : HFresh t) : t.height = u8 (heightOf t) := by
  cases t with
  | leaf hh n o d => simp [HFresh] at h; simp [BVNode.height, heightOf, u8, h]
  | inner hh n o l r => simp [HFresh] at h; simp [BVNode.height, heightOf, h.1]

@[simp]
theorem leaves_leaf (h n o d : Nat) : leaves (.leaf h n o d) = [(n, o, d)] := rfl

@[simp]
theorem leaves_inner (h n o : Nat) (l r : BVNode) :
    leaves (.inner h n o l r) = leaves l ++ leaves r := rfl

theorem rotate_left_local (h n o hr nr o1 : Nat) (a b c : BVNode) (rest : List Dir)
    (lf : BVNode) (hlf : ∀ hh nn oo l r, lf ≠ .inner hh nn oo l r)
    (hs : Sound (.inner h n o a (.inner hr nr o1 b c)))
    (hf : HFresh a ∧ HFresh b ∧ HFresh c)
    (hN : totalNums (.inner h n o a (.inner hr nr o1 b c)) < 4294967296)
    (hO : totalOnes (.inner h n o a (.inner hr nr o1 b c)) < 4294967296)
    (hg : getAt (.inner h n o a (.inner hr nr o1 b c)) rest = some lf) :
    ∃ s x, rotate_left (.inner h n o a (.inner hr nr o1 b c)) [] rest = some (s, x) ∧
      Sound s ∧ HFresh s ∧ leaves s = leaves (.inner h n o a (.inner hr nr o1 b c)) ∧
      Tracks s x (.inner h n o a (.inner hr nr o1 b c)) rest ∧
      ∃ h1 n1 o2 l1 r1, s = .inner h1 n1 o2 l1 r1 := by
  simp only [Sound, totalNums_inner, totalOnes_inner] at hs hN hO
  obtain ⟨e1, e2, sa, e3, e4, sb, sc⟩ := hs
  refine ⟨_, _, by simp only [rotate_left, getAt, setAt, List.nil_append, propagate_update]; rfl,
    ?_, ?_, ?_, ?_, ⟨_, _, _, _, _, rfl⟩⟩
  · simp only [Sound, totalNums_inner, totalOnes_inner, u32]
    refine ⟨by omega, by omega, ⟨e1, e2, sa, sb⟩, sc⟩
  · simp only [HFresh, BVNode.height]
    exact ⟨trivial, ⟨trivial, hf.1, hf.2.1⟩, hf.2.2⟩
  · simp [List.append_assoc]
  · simp only [relocate, List.nil_prefix, if_true, List.nil_append, List.length_nil, List.drop_zero]
    match rest, hg with
    | [], hg => simp [getAt] at hg; exact absurd hg.symm (hlf _ _ _ _ _)
    | [Dir.R], hg => simp [getAt] at hg; exact absurd hg.symm (hlf _ _ _ _ _)
    | Dir.L :: x, _ => simp [Tracks, reloc_left, getAt, preL, postL, List.append_assoc]
    | Dir.R :: Dir.L :: x, _ => simp [Tracks, reloc_left, getAt, preL, postL, List.append_assoc]
    | Dir.R :: Dir.R :: x, _ => simp [Tracks, reloc_left, getAt, preL, postL, List.append_assoc]

theorem rotate_right_local (h n o hl nl o1 : Nat) (a b c : BVNode) (rest : List Dir)
    (lf : BVNode) (hlf : ∀ hh nn oo l r, lf ≠ .inner hh nn oo l r)
    (hs : Sound (.inner h n o (.inner hl nl o1 a b) c))
    (hf : HFresh a ∧ HFresh b ∧ HFresh c)
    (hN : totalNums (.inner h n o (.inner hl nl o1 a b) c) < 4294967296)
    (hO : totalOnes (.inner h n o (.inner hl nl o1 a b) c) < 4294967296)
    (hg : getAt (.inner h n o (.inner hl nl o1 a b) c) rest = some lf) :
    ∃ s x, rotate_right (.inner h n o (.inner hl nl o1 a b) c) [] rest = some (s, x) ∧
      Sound s ∧ HFresh s ∧ leaves s = leaves (.inner h n o (.inner hl nl o1 a b) c) ∧
      Tracks s x (.inner h n o (.inner hl nl o1 a b) c) rest ∧
      ∃ h1 n1 o2 l1 r1, s = .inner h1 n1 o2 l1 r1 := by
  simp only [Sound, totalNums_inner, totalOnes_inner] at hs hN hO
  obtain ⟨e1, e2, ⟨e3, e4, sa, sb⟩, sc⟩ := hs
  refine ⟨_, _, by simp only [rotate_right, getAt, setAt, List.nil_append, propagate_update]; rfl,
    ?_, ?_, ?_, ?_, ⟨_, _, _, _, _, rfl⟩⟩
  · simp only [Sound, totalNums_inner, totalOnes_inner, u32]
    refine ⟨by omega, by omega, sa, ⟨by omega, by omega, sb, sc⟩⟩
  · simp only [HFresh, BVNode.height]
    exact ⟨trivial, hf.1, ⟨trivial, hf.2.1, hf.2.2⟩⟩
  · simp [List.append_assoc]
  · simp only [relocate, List.nil_prefix, if_true, List.nil_append, List.length_nil, List.drop_zero]
    match rest, hg with
    | [], hg => simp [getAt] at hg; exact absurd hg.symm (hlf _ _ _ _ _)
    | [Dir.L], hg => simp [getAt] at hg; exact absurd hg.symm (hlf _ _ _ _ _)
    | Dir.R :: x, _ => simp [Tracks, reloc_right, getAt, preL, postL, List.append_assoc]
    | Dir.L :: Dir.R :: x, _ => simp [Tracks, reloc_right, getAt, preL, postL, List.append_assoc]
    | Dir.L :: Dir.L :: x, _ => simp [Tracks, reloc_right, getAt, preL, postL, List.append_assoc]

theorem rotate_left_right_local (h n o hl nl o1 hb nb o2 : Nat) (a b1 b2 c : BVNode)
    (rest : List Dir) (lf : BVNode) (hlf : ∀ hh nn oo l r, lf ≠ .inner hh nn oo l r)
    (hs : Sound (.inner h n o (.inner hl nl o1 a (.inner hb nb o2 b1 b2)) c))
    (hf : HFresh a ∧ HFresh b1 ∧ HFresh b2 ∧ HFresh c)
    (hN : totalNums (.inner h n o (.inner hl nl o1 a (.inner hb nb o2 b1 b2)) c) < 4294967296)
    (hO : totalOnes (.inner h n o (.inner hl nl o1 a (.inner hb nb o2 b1 b2)) c) < 4294967296)
    (hg : getAt (.inner h n o (.inner hl nl o1 a (.inner hb nb o2 b1 b2)) c) rest = some lf) :
    ∃ s x, rotate_left_right (.inner h n o (.inner hl nl o1 a (.inner hb nb o2 b1 b2)) c) [] rest
        = some (s, x) ∧
      Sound s ∧ HFresh s ∧
      leaves s = leaves (.inner h n o (.inner hl nl o1 a (.inner hb nb o2 b1 b2)) c) ∧
      Tracks s x (.inner h n o (.inner hl nl o1 a (.inner hb nb o2 b1 b2)) c) rest ∧
      ∃ h1 n1 o3 l1 r1, s = .inner h1 n1 o3 l1 r1 := by
  simp only [Sound, totalNums_inner, totalOnes_inner] at hs hN hO
  obtain ⟨e1, e2, ⟨e3, e4, sa, e5, e6, sb1, sb2⟩, sc⟩ := hs
  refine ⟨_, _, by simp only [rotate_left_right, rotate_left, rotate_right, getAt, setAt,
    List.nil_append, List.cons_append, propagate_update]; rfl, ?_, ?_, ?_, ?_, ⟨_, _, _, _, _, rfl⟩⟩
  · simp only [Sound, totalNums_inner, totalOnes_inner, u32]
    refine ⟨by omega, by omega, ⟨by omega, by omega, sa, sb1⟩, ⟨by omega, by omega, sb2, sc⟩⟩
  · simp only [HFresh, BVNode.height]
    exact ⟨trivial, ⟨trivial, hf.1, hf.2.1⟩, ⟨trivial, hf.2.2.1, hf.2.2.2⟩⟩
  · simp [List.append_assoc]
  · match rest, hg with
    | [], hg => simp [getAt] at hg; exact absurd hg.symm (hlf _ _ _ _ _)
    | [Dir.L], hg => simp [getAt] at hg; exact absurd hg.symm (hlf _ _ _ _ _)
    | [Dir.L, Dir.R], hg => simp [getAt] at hg; exact absurd hg.symm (hlf _ _ _ _ _)
    | Dir.R :: x, _ =>
      simp [Tracks, relocate, reloc_left, reloc_right, getAt, preL, postL, List.append_assoc]
    | Dir.L :: Dir.L :: x, _ =>
      simp [Tracks, relocate, reloc_left, reloc_right, getAt, preL, postL, List.append_assoc]
    | Dir.L :: Dir.R :: Dir.L :: x, _ =>
      simp [Tracks, relocate, reloc_left, reloc_right, getAt, preL, postL, List.append_assoc]
    | Dir.L :: Dir.R :: Dir.R :: x, _ =>
      simp [Tracks, relocate, reloc_left, reloc_right, getAt, preL, postL, List.append_assoc]

theorem rotate_right_left_local (h n o hr nr o1 hb nb o2 : Nat) (a b1 b2 c : BVNode)
    (rest : List Dir) (lf : BVNode) (hlf : ∀ hh nn oo l r, lf ≠ .inner hh nn oo l r)
    (hs : Sound (.inner h n o a (.inner hr nr o1 (.inner hb nb o2 b1 b2) c)))
    (hf : HFresh a ∧ HFresh b1 ∧ HFresh b2 ∧ HFresh c)
    (hN : totalNums (.inner h n o a (.inner hr nr o1 (.inner hb nb o2 b1 b2) c)) < 4294967296)
    (hO : totalOnes (.inner h n o a (.inner hr nr o1 (.inner hb nb o2 b1 b2) c)) < 4294967296)
    (hg : getAt (.inner h n o a (.inner hr nr o1 (.inner hb nb o2 b1 b2) c)) rest = some lf) :
    ∃ s x, rotate_right_left (.inner h n o a (.inner hr nr o1 (.inner hb nb o2 b1 b2) c)) [] rest
        = some (s, x) ∧
      Sound s ∧ HFresh s ∧
      leaves s = leaves (.inner h n o a (.inner hr nr o1 (.inner hb nb o2 b1 b2) c)) ∧
      Tracks s x (.inner h n o a (.inner hr nr o1 (.inner hb nb o2 b1 b2) c)) rest ∧
      ∃ h1 n1 o3 l1 r1, s = .inner h1 n1 o3 l1 r1 := by
  simp only [Sound, totalNums_inner, totalOnes_inner] at hs hN hO
  obtain ⟨e1, e2, sa, e3, e4, ⟨e5, e6, sb1, sb2⟩, sc⟩ := hs
  refine ⟨_, _, by simp only [rotate_right_left, rotate_left, rotate_right, getAt, setAt,
    List.nil_append, List.cons_append, propagate_update]; rfl, ?_, ?_, ?_, ?_, ⟨_, _, _, _, _, rfl⟩⟩
  · simp only [Sound, totalNums_inner, totalOnes_inner, u32]
    refine ⟨by omega, by omega, ⟨by omega, by omega, sa, sb1⟩, ⟨by omega, by omega, sb2, sc⟩⟩
  · simp only [HFresh, BVNode.height]
    exact ⟨trivial, ⟨trivial, hf.1, hf.2.1⟩, ⟨trivial, hf.2.2.1, hf.2.2.2⟩⟩
  · simp [List.append_assoc]
  · match rest, hg with
    | [], hg => simp [getAt] at hg; exact absurd hg.symm (hlf _ _ _ _ _)
    | [Dir.R], hg => simp [getAt] at hg; exact absurd hg.symm (hlf _ _ _ _ _)
    | [Dir.R, Dir.L], hg => simp [getAt] at hg; exact absurd hg.symm (hlf _ _ _ _ _)
    | Dir.L :: x, _ =>
      simp [Tracks, relocate, reloc_left, reloc_right, getAt, preL, postL, List.append_assoc]
    | Dir.R :: Dir.R :: x, _ =>
      simp [Tracks, relocate, reloc_left, reloc_right, getAt, preL, postL, List.append_assoc]
    | Dir.R :: Dir.L :: Dir.L :: x, _ =>
      simp [Tracks, relocate, reloc_left, reloc_right, getAt, preL, postL, List.append_assoc]
    | Dir.R :: Dir.L :: Dir.R :: x, _ =>
      simp [Tracks, relocate, reloc_left, reloc_right, getAt, preL, postL, List.append_assoc]

/-! ## Rebalancing along the path to the root -/

theorem u32_u32_zero (m : Nat) : u32 ((u32 ((m : Int) + 0) : Nat) + 0) = u32 ((m : Int) + 0) := by
  simp only [u32]; omega

theorem relocate_append (f : List Dir → List Dir) (p q rest : List Dir) :
    relocate f (p ++ q) (p ++ rest) = p ++ relocate f q rest := by
  simp only [relocate, List.prefix_append_right_inj, List.length_append, List.append_assoc]
  split_ifs with h
  · congr 2
    rw [List.drop_append_eq_append_drop, List.drop_of_length_le (by omega)]
    simp
  · rfl

theorem relocate_nil (f : List Dir → List Dir) (rest : List Dir) :
    relocate f [] rest = f rest := by
  simp [relocate]

theorem rotate_left_lift (t sub s : BVNode) (p q rest x : List Dir)
    (hg : getAt t p = some sub) (h : rotate_left sub q rest = some (s, x)) :
    rotate_left t (p ++ q) (p ++ rest)
      = some (graft (fun m => u32 (m + 0)) (fun m => u32 (m + 0)) t p s, p ++ x) := by
  unfold rotate_left at h ⊢
  rw [getAt_append_of t sub p q hg]
  split at h
  · rename_i hh n o a hr nr o1 b c heq
    simp only [Option.some.injEq, Prod.mk.injEq] at h
    obtain ⟨h1, h2⟩ := h
    simp only [heq, relocate_append, h2, Option.some.injEq, Prod.mk.injEq, and_true]
    rw [setAt_append t sub _ p q hg, List.append_assoc,
      propagate_eq_graft _ _ p (q ++ [Dir.L]) 0 0 (getAt_setAt_same t sub _ p hg), graft_setAt, h1]
  · simp at h

theorem rotate_right_lift (t sub s : BVNode) (p q rest x : List Dir)
    (hg : getAt t p = some sub) (h : rotate_right sub q rest = some (s, x)) :
    rotate_right t (p ++ q) (p ++ rest)
      = some (graft (fun m => u32 (m + 0)) (fun m => u32 (m + 0)) t p s, p ++ x) := by
  unfold rotate_right at h ⊢
  rw [getAt_append_of t sub p q hg]
  split at h
  · rename_i hh n o hl nl o1 a b c heq
    simp only [Option.some.injEq, Prod.mk.injEq] at h
    obtain ⟨h1, h2⟩ := h
    simp only [heq, relocate_append, h2, Option.some.injEq, Prod.mk.injEq, and_true]
    rw [setAt_append t sub _ p q hg, List.append_assoc,
      propagate_eq_graft _ _ p (q ++ [Dir.R]) 0 0 (getAt_setAt_same t sub _ p hg), graft_setAt, h1]
  · simp at h

theorem graft_zero_twice (t s0 s : BVNode) (p : List Dir) :
    graft (fun m => u32 (m + 0)) (fun m => u32 (m + 0))
      (graft (fun m => u32 (m + 0)) (fun m => u32 (m + 0)) t p s0) p s
      = graft (fun m => u32 (m + 0)) (fun m => u32 (m + 0)) t p s := by
  rw [graft_graft]
  congr 1 <;> funext m <;> exact u32_u32_zero m

theorem rotate_left_right_lift (t sub s : BVNode) (p rest x : List Dir)
    (hg : getAt t p = some sub) (h : rotate_left_right sub [] rest = some (s, x)) :
    rotate_left_right t p (p ++ rest)
      = some (graft (fun m => u32 (m + 0)) (fun m => u32 (m + 0)) t p s, p ++ x) := by
  unfold rotate_left_right at h ⊢
  cases h1 : rotate_left sub [Dir.L] rest with
  | none => simp [List.nil_append, h1] at h
  | some y =>
    obtain ⟨u1, r1⟩ := y
    simp only [List.nil_append, h1] at h
    rw [rotate_left_lift t sub u1 p [Dir.L] rest r1 hg h1]
    simp only
    have h2 := rotate_right_lift (graft (fun m => u32 (m + 0)) (fun m => u32 (m + 0)) t p u1)
      u1 s p [] r1 x (getAt_graft_same _ _ t sub u1 p hg) h
    rw [List.append_nil] at h2
    rw [h2, graft_zero_twice]

theorem rotate_right_left_lift (t sub s : BVNode) (p rest x : List Dir)
    (hg : getAt t p = some sub) (h : rotate_right_left sub [] rest = some (s, x)) :
    rotate_right_left t p (p ++ rest)
      = some (graft (fun m => u32 (m + 0)) (fun m => u32 (m + 0)) t p s, p ++ x) := by
  unfold rotate_right_left at h ⊢
  cases h1 : rotate_right sub [Dir.R] rest with
  | none => simp [List.nil_append, h1] at h
  | some y =>
    obtain ⟨u1, r1⟩ := y
    simp only [List.nil_append, h1] at h
    rw [rotate_right_lift t sub u1 p [Dir.R] rest r1 hg h1]
    simp only
    have h2 := rotate_left_lift (graft (fun m => u32 (m + 0)) (fun m => u32 (m + 0)) t p u1)
      u1 s p [] r1 x (getAt_graft_same _ _ t sub u1 p hg) h
    rw [List.append_nil] at h2
    rw [h2, graft_zero_twice]

theorem graft_self (t sub : BVNode) (p : List Dir) (hg : getAt t p = some sub)
    (hs : Sound t) (hf : HFresh t) (hN : totalNums t < 4294967296)
    (hO : totalOnes t < 4294967296) :
    graft (fun m => u32 (m + 0)) (fun m => u32 (m + 0)) t p sub = t := by
  induction p generalizing t with
  | nil =>
    simp only [getAt, Option.some.injEq] at hg
    subst hg
    simp [graft]
  | cons d p ih =>
    cases t with
    | leaf h n o dd => simp [getAt] at hg
    | inner hh n o l r =>
      obtain ⟨e1, e2, sl, sr⟩ := hs
      obtain ⟨f1, fl, fr⟩ := hf
      simp only [totalNums_inner, totalOnes_inner] at hN hO
      cases d <;> simp only [getAt] at hg
      · have a1 : u32 ((n : Int) + 0) = n := by simp only [u32]; omega
        have a2 : u32 ((o : Int) + 0) = o := by simp only [u32]; omega
        simp only [graft, ih l hg sl fl (by omega) (by omega), ← f1, a1, a2]
      · simp only [graft, ih r hg sr fr (by omega) (by omega), ← f1]

theorem leaves_eq_totals (s sub : BVNode) (h : leaves s = leaves sub) :
    totalNums s = totalNums sub ∧ totalOnes s = totalOnes sub := by
  simp [totalNums, totalOnes, h]

/-- Replacing a subtree by one with the same leaves, sound counters and heights in step
keeps the whole tree well formed and keeps track of every leaf. -/
theorem graft_lift (S : Nat) (t sub s : BVNode) (p : List Dir) (wf : WF S t)
    (hg : getAt t p = some sub) (hs : Sound s) (hf : HFresh s)
    (hl : leaves s = leaves sub) :
    WF S (graft (fun m => u32 (m + 0)) (fun m => u32 (m + 0)) t p s) ∧
    ∀ x y, Tracks s x sub y →
      Tracks (graft (fun m => u32 (m + 0)) (fun m => u32 (m + 0)) t p s) (p ++ x) t (p ++ y) := by
  obtain ⟨tn, tq⟩ := leaves_eq_totals s sub hl
  have hO := totalOnes_le_totalNums S t wf.leaf
  have hN := wf.rep
  have gN := totalNums_graft (fun m => u32 (m + 0)) (fun m => u32 (m + 0)) t sub s p hg
  refine ⟨⟨?_, ?_, ?_, by omega⟩, ?_⟩
  · apply Sound_graft _ _ t sub s p hg wf.sound hs
    · intro m _ h2; simp only [u32]; omega
    · intro m _ h2; simp only [u32]; omega
  · apply LeafOK_graft S _ _ t sub s p hg wf.leaf
    intro x hx
    rw [hl] at hx
    exact LeafOK_getAt S t sub p hg wf.leaf x hx
  · exact HFresh_graft _ _ t sub s p hg wf.fresh hf
  · intro x y ⟨h1, h2, h3⟩
    have gg := getAt_graft_same (fun m => u32 (m + 0)) (fun m => u32 (m + 0)) t sub s p hg
    refine ⟨?_, ?_, ?_⟩
    · rw [getAt_append_of _ s p x gg, getAt_append_of t sub p y hg, h1]
    · rw [preL_append _ s p x gg, preL_append t sub p y hg, preL_graft _ _ t sub s p hg, h2]
    · rw [postL_append _ s p x gg, postL_append t sub p y hg, postL_graft _ _ t sub s p hg, h3]

theorem balance_lift (S : Nat) (t sub s : BVNode) (p rest x : List Dir) (wf : WF S t)
    (hg : getAt t p = some sub) (h : balance sub [] rest = some (s, x)) :
    balance t p (p ++ rest)
      = some (graft (fun m => u32 (m + 0)) (fun m => u32 (m + 0)) t p s, p ++ x) := by
  have hO := totalOnes_le_totalNums S t wf.leaf
  have hN := wf.rep
  unfold balance at h ⊢
  rw [hg]
  simp only [getAt] at h
  cases sub with
  | leaf hh n o d =>
    simp only [Option.some.injEq, Prod.mk.injEq] at h ⊢
    obtain ⟨h1, h2⟩ := h
    subst h1 h2
    exact ⟨(graft_self t _ p hg wf.sound wf.fresh hN (by omega)).symm, rfl⟩
  | inner hh n o l r =>
    simp only at h ⊢
    split_ifs at h ⊢
    · have := rotate_right_lift t _ s p [] rest x hg h
      rwa [List.append_nil] at this
    · exact rotate_left_right_lift t _ s p rest x hg h
    · exact rotate_right_left_lift t _ s p rest x hg h
    · have := rotate_left_lift t _ s p [] rest x hg h
      rwa [List.append_nil] at this
    · simp only [Option.some.injEq, Prod.mk.injEq] at h ⊢
      obtain ⟨h1, h2⟩ := h
      subst h1 h2
      exact ⟨(graft_self t _ p hg wf.sound wf.fresh hN (by omega)).symm, rfl⟩

theorem difference_inner (h n o : Nat) (l r : BVNode) :
    difference (.inner h n o l r) = (heightOf l : Int) - (heightOf r : Int) := rfl

theorem heightOf_inner (h n o : Nat) (l r : BVNode) :
    heightOf (.inner h n o l r) = 1 + max l.height r.height := rfl

theorem heightOf_leaf (h n o d : Nat) : heightOf (.leaf h n o d) = 1 := rfl

theorem height_inner (h n o : Nat) (l r : BVNode) : (BVNode.inner h n o l r).height = h := rfl

theorem height_leaf (h n o d : Nat) : (BVNode.leaf h n o d).height = h := rfl

theorem Tracks_refl (t : BVNode) (x : List Dir) : Tracks t x t x := ⟨rfl, rfl, rfl⟩

theorem Tracks_trans (a b c : BVNode) (x y z : List Dir) (h1 : Tracks a x b y)
    (h2 : Tracks b y c z) : Tracks a x c z :=
  ⟨h1.1.trans h2.1, h1.2.1.trans h2.2.1, h1.2.2.trans h2.2.2⟩

theorem balance_local (sub : BVNode) (rest : List Dir) (lf : BVNode)
    (hlf : ∀ hh nn oo l r, lf ≠ .inner hh nn oo l r)
    (hs : Sound sub) (hf : HFresh sub) (hN : totalNums sub < 4294967296)
    (hO : totalOnes sub < 4294967296) (hg : getAt sub rest = some lf) :
    ∃ s x, balance sub [] rest = some (s, x) ∧ Sound s ∧ HFresh s ∧
      leaves s = leaves sub ∧ Tracks s x sub rest := by
  cases sub with
  | leaf hh n o d =>
    exact ⟨_, _, by simp [balance, getAt], hs, hf, rfl, Tracks_refl _ _⟩
  | inner hh n o l r =>
    simp only [balance, getAt]
    have hfl := hf.2.1
    have hfr := hf.2.2
    by_cases c1 : difference (.inner hh n o l r) > 1
    · simp only [c1, if_true]
      cases l with
      | leaf h1 n1 o1 d1 =>
        have := heightOf_pos r
        simp only [difference_inner, heightOf_leaf] at c1
        omega
      | inner h1 n1 o1 a b =>
        by_cases c2 : difference (.inner h1 n1 o1 a b) > 0
        · simp only [c2, if_true]
          obtain ⟨s, x, e, p1, p2, p3, p4, _⟩ := rotate_right_local hh n o h1 n1 o1 a b r rest lf hlf
            hs ⟨hfl.2.1, hfl.2.2, hfr⟩ hN hO hg
          exact ⟨s, x, e, p1, p2, p3, p4⟩
        · simp only [c2, if_false]
          cases b with
          | leaf h2 n2 o2 d2 =>
            exfalso
            have ha := height_eq_of_fresh a hfl.2.1
            have hb : h2 = 1 := hfl.2.2
            have hpa := heightOf_pos a
            have hpr := heightOf_pos r
            simp only [difference_inner, heightOf_inner, heightOf_leaf, height_leaf] at c1 c2
            have : heightOf a = 1 := by omega
            rw [this] at ha
            simp only [u8] at ha
            rw [ha, hb] at c1
            simp at c1
            omega
          | inner h2 n2 o2 b1 b2 =>
            obtain ⟨s, x, e, p1, p2, p3, p4, _⟩ := rotate_left_right_local hh n o h1 n1 o1 h2 n2 o2
              a b1 b2 r rest lf hlf hs ⟨hfl.2.1, hfl.2.2.2.1, hfl.2.2.2.2, hfr⟩ hN hO hg
            exact ⟨s, x, e, p1, p2, p3, p4⟩
    · simp only [c1, if_false]
      by_cases c3 : difference (.inner hh n o l r) < -1
      · simp only [c3, if_true]
        cases r with
        | leaf h1 n1 o1 d1 =>
          have := heightOf_pos l
          simp only [difference_inner, heightOf_leaf] at c3
          omega
        | inner h1 n1 o1 a b =>
          by_cases c2 : difference (.inner h1 n1 o1 a b) > 0
          · simp only [c2, if_true]
            cases a with
            | leaf h2 n2 o2 d2 =>
              have := heightOf_pos b
              simp only [difference_inner, heightOf_leaf] at c2
              omega
            | inner h2 n2 o2 a1 a2 =>
              obtain ⟨s, x, e, p1, p2, p3, p4, _⟩ := rotate_right_left_local hh n o h1 n1 o1
                h2 n2 o2 l a1 a2 b rest lf hlf hs ⟨hfl, hfr.2.1.2.1, hfr.2.1.2.2, hfr.2.2⟩ hN hO hg
              exact ⟨s, x, e, p1, p2, p3, p4⟩
          · simp only [c2, if_false]
            obtain ⟨s, x, e, p1, p2, p3, p4, _⟩ := rotate_left_local hh n o h1 n1 o1 l a b rest lf
              hlf hs ⟨hfl, hfr.2.1, hfr.2.2⟩ hN hO hg
            exact ⟨s, x, e, p1, p2, p3, p4⟩
      · simp only [c3, if_false]
        exact ⟨_, _, rfl, hs, hf, rfl, Tracks_refl _ _⟩

/-- One step of the climb of `fix_tree`: `balance` at an ancestor of a leaf returns, keeps
the tree well formed and keeps track of the leaf. -/
theorem balance_spec (S : Nat) (t : BVNode) (p rest : List Dir) (lf : BVNode)
    (hlf : ∀ hh nn oo l r, lf ≠ .inner hh nn oo l r) (wf : WF S t)
    (hg : getAt t (p ++ rest) = some lf) :
    ∃ t1 x, balance t p (p ++ rest) = some (t1, p ++ x) ∧ WF S t1 ∧
      Tracks t1 (p ++ x) t (p ++ rest) := by
  rw [getAt_append] at hg
  cases hp : getAt t p with
  | none => simp [hp] at hg
  | some sub =>
    simp only [hp, Option.bind] at hg
    have hO := totalOnes_le_totalNums S t wf.leaf
    have hN := wf.rep
    have b1 := totalNums_sub_le t sub p hp
    have b2 := totalOnes_sub_le t sub p hp
    obtain ⟨s, x, e, p1, p2, p3, p4⟩ := balance_local sub rest lf hlf (Sound_getAt t sub p hp wf.sound)
      (HFresh_getAt t sub p hp wf.fresh) (by omega) (by omega) hg
    obtain ⟨w, tr⟩ := graft_lift S t sub s p wf hp p1 p2 p3
    exact ⟨_, x, balance_lift S t sub s p rest x wf hp e, w, tr x rest p4⟩

theorem fix_tree_loop_spec (S : Nat) (k : Nat) (t : BVNode) (tr : List Dir) (lf : BVNode)
    (hlf : ∀ hh nn oo l r, lf ≠ .inner hh nn oo l r) (wf : WF S t)
    (hg : getAt t tr = some lf) (hk : k ≤ tr.length) :
    ∃ t1 tr1, fix_tree_loop k t tr = some (t1, tr1) ∧ WF S t1 ∧ Tracks t1 tr1 t tr := by
  induction k generalizing t tr with
  | zero => exact ⟨t, tr, rfl, wf, Tracks_refl _ _⟩
  | succ k ih =>
    have e : tr = tr.take k ++ tr.drop k := (List.take_append_drop k tr).symm
    have hg1 : getAt t (tr.take k ++ tr.drop k) = some lf := by rw [← e]; exact hg
    obtain ⟨t1, x, b, w1, tk1⟩ := balance_spec S t (tr.take k) (tr.drop k) lf hlf wf hg1
    rw [← e] at b tk1
    have hg2 : getAt t1 (tr.take k ++ x) = some lf := by rw [tk1.1]; exact hg
    obtain ⟨t2, tr2, f2, w2, tk2⟩ := ih t1 (tr.take k ++ x) w1 hg2
      (by simp [List.length_take]; omega)
    refine ⟨t2, tr2, ?_, w2, Tracks_trans _ _ _ _ _ _ tk2 tk1⟩
    simp only [fix_tree_loop, b, f2]

/-- The operation `fix_tree` started at a leaf returns, keeps the tree well formed and keeps track of the
leaf. -/
theorem fix_tree_spec (S : Nat) (t : BVNode) (tr : List Dir) (lf : BVNode)
    (hlf : ∀ hh nn oo l r, lf ≠ .inner hh nn oo l r) (wf : WF S t)
    (hg : getAt t tr = some lf) :
    ∃ t1 tr1, fix_tree t tr = some (t1, tr1) ∧ WF S t1 ∧ Tracks t1 tr1 t tr :=
  fix_tree_loop_spec S tr.length t tr lf hlf wf hg (le_refl _)

theorem Tracks_leaves (t1 t : BVNode) (x y : List Dir) (lf : BVNode)
    (hg : getAt t y = some lf) (h : Tracks t1 x t y) : leaves t1 = leaves t := by
  rw [leaves_decomp t1 lf x (h.1.trans hg), leaves_decomp t lf y hg, h.2.1, h.2.2]

/-! ## Insertion -/

theorem leaf_insert (S n o d idx nb : Nat) (v : Bool) (ok : leafOK S (n, o, d)) (hn : n < S)
    (hidx : idx ≤ n) (hnb : ∀ p, nb.testBit p = (decide (S - idx - 1 = p) && v))
    (hnb2 : nb < 2 ^ S) :
    leafBits S (n + 1)
        (d &&& bnot S (FULL_MASK S >>> idx) ||| nb ||| ((d &&& (FULL_MASK S >>> idx)) >>> 1))
      = (leafBits S n d).insertIdx idx v ∧
    leafOK S (n + 1, ((leafBits S n d).insertIdx idx v).count true,
      d &&& bnot S (FULL_MASK S >>> idx) ||| nb ||| ((d &&& (FULL_MASK S >>> idx)) >>> 1)) := by
  have e : leafBits S (n + 1)
        (d &&& bnot S (FULL_MASK S >>> idx) ||| nb ||| ((d &&& (FULL_MASK S >>> idx)) >>> 1))
      = (leafBits S n d).insertIdx idx v := by
    rw [leafBits_eq, leafBits_eq, ← map_range_insert n idx v _ hidx]
    apply map_range_congr
    intro j hj
    exact gb_insert S d idx j nb v (by omega) (by omega) hnb
  refine ⟨e, ?_⟩
  rw [← e]
  apply leafOK_of S (n + 1) _ (by omega)
  · exact Nat.or_lt_two_pow (Nat.or_lt_two_pow (and_lt_left S _ _ ok.2.1) hnb2)
      (shr_lt S _ 1 (and_lt_left S _ _ ok.2.1))
  · intro j hj hjS
    rw [gb_insert S d idx j nb v hjS (by omega) hnb]
    have h1 : ¬ j < idx := by omega
    have h2 : ¬ j = idx := by omega
    simp only [h1, h2, if_false]
    exact leafOK_clean S n o d ok (j - 1) (by omega) (by omega)

/-- Writing the new bit into a leaf that has room. -/
theorem insert_bit_spec (S : Nat) (t : BVNode) (a : List Dir) (h n o d idx : Nat) (v : Bool)
    (wf : WF S t) (hg : getAt t a = some (.leaf h n o d)) (hn : n < S) (hidx : idx ≤ n)
    (hrep : totalNums t + 1 < 4294967296) :
    ∃ t1, insert_bit S t a idx v = some t1 ∧ WF S t1 ∧ totalNums t1 = totalNums t + 1 ∧
      toList S t1 = (preL t a).flatMap (bitsOf S) ++ (leafBits S n d).insertIdx idx v
        ++ (postL t a).flatMap (bitsOf S) := by
  have ok : leafOK S (n, o, d) := by
    apply wf.leaf
    rw [leaves_decomp t _ _ hg]
    simp [leaves]
  have hdn : (1 : Int) + max (0 : Int) ((idx : Int) - (n : Int)) = 1 := by omega
  have ho := leafOK_ones S n o d ok
  have hlen : (leafBits S n d).length = n := by simp [leafBits]
  have hc := count_insertIdx (leafBits S n d) idx v (by omega)
  simp only [insert_bit, hg, hdn]
  cases v with
  | true =>
    simp only [if_true, bitpos_of_lt S idx (by omega)]
    obtain ⟨e1, e2⟩ := leaf_insert S n o d idx (2 ^ (S - idx - 1)) true ok hn hidx
      (by intro p; simp [Nat.testBit_two_pow]) (two_pow_lt S _ (by omega))
    obtain ⟨w, tn, tl, _⟩ := leaf_update_spec S t a h n o d (n + 1) _ _ 1 1 wf hg (by simp)
      (by simp at hc; rw [hc, ← ho]; simp) e2 (by omega)
    exact ⟨_, rfl, w, by omega, by rw [tl, e1]⟩
  | false =>
    simp only [Bool.false_eq_true, if_false]
    obtain ⟨e1, e2⟩ := leaf_insert S n o d idx 0 false ok hn hidx
      (by intro p; simp) (Nat.pos_pow_of_pos S (by decide))
    obtain ⟨w, tn, tl, _⟩ := leaf_update_spec S t a h n o d (n + 1) _ _ 1 0 wf hg (by simp)
      (by simp at hc; rw [hc, ← ho]; simp) e2 (by omega)
    exact ⟨_, rfl, w, by omega, by rw [tl, e1]⟩

theorem leaf_split (S o d : Nat) (hS : S % 2 = 0) (ok : leafOK S (S, o, d)) :
    leafBits S (TARGET_SIZE S) (d &&& MSB_MASK S)
        ++ leafBits S (TARGET_SIZE S) (shl S (d &&& LSB_MASK S) (TARGET_SIZE S))
      = leafBits S S d ∧
    leafOK S (TARGET_SIZE S, count S (d &&& MSB_MASK S), d &&& MSB_MASK S) ∧
    leafOK S (TARGET_SIZE S, count S (shl S (d &&& LSB_MASK S) (TARGET_SIZE S)),
      shl S (d &&& LSB_MASK S) (TARGET_SIZE S)) ∧
    count S (d &&& MSB_MASK S) + count S (shl S (d &&& LSB_MASK S) (TARGET_SIZE S)) = o := by
  have hT : TARGET_SIZE S + TARGET_SIZE S = S := by simp only [TARGET_SIZE]; omega
  have c1 : ∀ j, TARGET_SIZE S ≤ j → j < S → gb S (d &&& MSB_MASK S) j = false := by
    intro j hj hjS
    rw [gb_split_left S d j hS hjS]
    simp; intro _; omega
  have c2 : ∀ j, TARGET_SIZE S ≤ j → j < S →
      gb S (shl S (d &&& LSB_MASK S) (TARGET_SIZE S)) j = false := by
    intro j hj hjS
    rw [gb_split_right S d j hS hjS]
    simp; intro h; omega
  have k1 := leafOK_of S (TARGET_SIZE S) (d &&& MSB_MASK S) (by omega)
    (and_lt_left S _ _ ok.2.1) c1
  have k2 := leafOK_of S (TARGET_SIZE S) (shl S (d &&& LSB_MASK S) (TARGET_SIZE S)) (by omega)
    (shl_lt S _ _) c2
  have e : leafBits S (TARGET_SIZE S) (d &&& MSB_MASK S)
        ++ leafBits S (TARGET_SIZE S) (shl S (d &&& LSB_MASK S) (TARGET_SIZE S))
      = leafBits S S d := by
    have h2 := map_range_append (TARGET_SIZE S) (TARGET_SIZE S) (gb S d)
      (fun j => gb S d (j + TARGET_SIZE S))
    rw [hT] at h2
    rw [leafBits_eq, leafBits_eq, leafBits_eq]
    rw [map_range_congr (TARGET_SIZE S) (gb S (d &&& MSB_MASK S)) (gb S d),
      map_range_congr (TARGET_SIZE S) (gb S (shl S (d &&& LSB_MASK S) (TARGET_SIZE S)))
        (fun j => gb S d (j + TARGET_SIZE S)), ← h2]
    · apply map_range_congr
      intro j hj
      by_cases h : j < TARGET_SIZE S
      · simp [h]
      · simp only [h, if_false]
        congr 1; omega
    · intro j hj
      rw [gb_split_right S d j hS (by omega)]
      simp [hj]
    · intro j hj
      rw [gb_split_left S d j hS (by omega)]
      simp [hj]
  refine ⟨e, ?_, ?_, ?_⟩
  · rw [count_clean S _ _ (by omega) c1]; exact k1
  · rw [count_clean S _ _ (by omega) c2]; exact k2
  · rw [count_clean S _ _ (by omega) c1, count_clean S _ _ (by omega) c2, ← List.count_append, e]
    exact (leafOK_ones S S o d ok).symm

/-- Splitting a full leaf: the tree stays well formed and the two new leaves hold the two
halves of the block. -/
theorem split_block_spec (S : Nat) (t : BVNode) (a : List Dir) (h o d : Nat)
    (hS : S % 2 = 0) (wf : WF S t) (hg : getAt t a = some (.leaf h S o d)) :
    ∃ t1 hh cl cr dl dr, split_block S t a = some t1 ∧ WF S t1 ∧
      getAt t1 a = some (.inner hh (TARGET_SIZE S) cl (.leaf 1 (TARGET_SIZE S) cl dl)
        (.leaf 1 (TARGET_SIZE S) cr dr)) ∧
      preL t1 a = preL t a ∧ postL t1 a = postL t a ∧ totalNums t1 = totalNums t ∧
      leafBits S (TARGET_SIZE S) dl ++ leafBits S (TARGET_SIZE S) dr = leafBits S S d := by
  have ok : leafOK S (S, o, d) := by
    apply wf.leaf
    rw [leaves_decomp t _ _ hg]
    simp [leaves]
  obtain ⟨e, k1, k2, kc⟩ := leaf_split S o d hS ok
  have hT : TARGET_SIZE S + TARGET_SIZE S = S := by simp only [TARGET_SIZE]; omega
  have b1 := totalNums_sub_le t _ a hg
  have b2 := totalOnes_sub_le t _ a hg
  have hO := totalOnes_le_totalNums S t wf.leaf
  have hN := wf.rep
  simp only [totalNums_leaf, totalOnes_leaf] at b1 b2
  have u1 : u32 (TARGET_SIZE S) = TARGET_SIZE S := by simp only [u32]; omega
  have u2 : u32 (count S (d &&& MSB_MASK S)) = count S (d &&& MSB_MASK S) := by
    simp only [u32]; omega
  have u3 : u32 (count S (shl S (d &&& LSB_MASK S) (TARGET_SIZE S)))
      = count S (shl S (d &&& LSB_MASK S) (TARGET_SIZE S)) := by
    simp only [u32]; omega
  have heq : split_block S t a = some (graft (fun m => u32 (m + 0)) (fun m => u32 (m + 0)) t a
      (.inner (u8 (1 + max 1 1)) (TARGET_SIZE S) (count S (d &&& MSB_MASK S))
        (.leaf 1 (TARGET_SIZE S) (count S (d &&& MSB_MASK S)) (d &&& MSB_MASK S))
        (.leaf 1 (TARGET_SIZE S) (count S (shl S (d &&& LSB_MASK S) (TARGET_SIZE S)))
          (shl S (d &&& LSB_MASK S) (TARGET_SIZE S))))) := by
    simp only [split_block, hg, u1, u2, u3]
    have g2 := getAt_setAt_same t _ (.inner h (TARGET_SIZE S) (count S (d &&& MSB_MASK S))
        (.leaf 1 (TARGET_SIZE S) (count S (d &&& MSB_MASK S)) (d &&& MSB_MASK S))
        (.leaf 1 (TARGET_SIZE S) (count S (shl S (d &&& LSB_MASK S) (TARGET_SIZE S)))
          (shl S (d &&& LSB_MASK S) (TARGET_SIZE S)))) a hg
    have := propagate_eq_graft _ _ a [] 0 0 g2
    rw [List.append_nil] at this
    rw [this, graft_setAt]
    rfl
  have gN := totalNums_graft (fun m => u32 (m + 0)) (fun m => u32 (m + 0)) t _
      (.inner (u8 (1 + max 1 1)) (TARGET_SIZE S) (count S (d &&& MSB_MASK S))
        (.leaf 1 (TARGET_SIZE S) (count S (d &&& MSB_MASK S)) (d &&& MSB_MASK S))
        (.leaf 1 (TARGET_SIZE S) (count S (shl S (d &&& LSB_MASK S) (TARGET_SIZE S)))
          (shl S (d &&& LSB_MASK S) (TARGET_SIZE S)))) a hg
  simp only [totalNums_inner, totalNums_leaf] at gN
  refine ⟨_, _, _, _, _, _, heq, ⟨?_, ?_, ?_, by omega⟩, getAt_graft_same _ _ t _ _ a hg,
    preL_graft _ _ t _ _ a hg, postL_graft _ _ t _ _ a hg, by omega, e⟩
  · apply Sound_graft _ _ t _ _ a hg wf.sound
    · simp [Sound]
    · intro m h1 h2
      simp only [totalNums_inner, totalNums_leaf, u32]
      omega
    · intro m h1 h2
      simp only [totalOnes_inner, totalOnes_leaf, u32]
      omega
  · apply LeafOK_graft S _ _ t _ _ a hg wf.leaf
    intro x hx
    simp only [leaves_inner, leaves_leaf, List.mem_append, List.mem_singleton] at hx
    rcases hx with hx | hx <;> subst hx
    · exact k1
    · exact k2
  · apply HFresh_graft _ _ t _ _ a hg wf.fresh
    simp [HFresh, BVNode.height]

theorem leaf_not_inner (h n o d : Nat) :
    ∀ hh nn oo l r, BVNode.leaf h n o d ≠ .inner hh nn oo l r := by
  intro hh nn oo l r hc
  exact BVNode.noConfusion hc

/-- The operation `insert` on a well-formed tree: it returns, the tree stays well formed and the sequence
gets the new bit at index `i`. -/
theorem insert_spec (S : Nat) (t : BVNode) (i : Nat) (v : Bool) (hS : S % 2 = 0)
    (hS0 : 0 < S) (wf : WF S t) (hi : i ≤ totalNums t) (hrep : totalNums t + 1 < 4294967296) :
    ∃ t1, insert S t i v = some t1 ∧ WF S t1 ∧ totalNums t1 = totalNums t + 1 ∧
      toList S t1 = (toList S t).insertIdx i v := by
  obtain ⟨h, n, o, d, g, p, b1, _⟩ := find_block_spec t i wf.sound
  have hj := b1 hi
  have ok : leafOK S (n, o, d) := by
    apply wf.leaf
    rw [leaves_decomp t _ _ g]
    simp [leaves]
  have hnS := ok.1
  have hlen : ((preL t (find_block t i).1).flatMap (bitsOf S)).length + (find_block t i).2 = i := by
    rw [length_flatMap_bitsOf]; exact p
  have hbl : (leafBits S n d).length = n := by simp [leafBits]
  have hgt : ¬ (find_block t i).2 > S := by omega
  simp only [insert, hgt, if_false, g]
  by_cases hfull : n ≥ S
  · have hn : n = S := by omega
    simp only [hfull, if_true]
    rw [hn] at g
    obtain ⟨t1, hh, cl, cr, dl, dr, e1, w1, g1, pr1, po1, tn1, eb⟩ :=
      split_block_spec S t _ h o d hS wf g
    simp only [e1, g1]
    have hT : TARGET_SIZE S + TARGET_SIZE S = S := by simp only [TARGET_SIZE]; omega
    have hTS : TARGET_SIZE S < S := by omega
    have hl1 : (leafBits S (TARGET_SIZE S) dl).length = TARGET_SIZE S := by simp [leafBits]
    by_cases hlt : (find_block t i).2 < TARGET_SIZE S
    · have fb : find_block (.inner hh (TARGET_SIZE S) cl (.leaf 1 (TARGET_SIZE S) cl dl)
          (.leaf 1 (TARGET_SIZE S) cr dr)) (find_block t i).2 = ([Dir.L], (find_block t i).2) := by
        simp [find_block, hlt]
      have gl : getAt t1 ((find_block t i).1 ++ [Dir.L]) = some (.leaf 1 (TARGET_SIZE S) cl dl) := by
        rw [getAt_append_of t1 _ _ _ g1]; rfl
      obtain ⟨t2, a2, f2, w2, tk⟩ := fix_tree_spec S t1 _ _ (leaf_not_inner _ _ _ _) w1 gl
      have tn2 : totalNums t2 = totalNums t1 := by
        simp only [totalNums, Tracks_leaves t2 t1 _ _ _ gl tk]
      obtain ⟨t3, e3, w3, tn3, tl3⟩ := insert_bit_spec S t2 a2 1 (TARGET_SIZE S) cl dl
        (find_block t i).2 v w2 (tk.1.trans gl) hTS (by omega) (by omega)
      refine ⟨t3, by simp only [fb, f2, e3], w3, by omega, ?_⟩
      rw [tl3, tk.2.1, tk.2.2, preL_append t1 _ _ _ g1, postL_append t1 _ _ _ g1, pr1, po1,
        toList_decomp S t _ _ g, toList_leaf, ← eb]
      simp only [preL, postL, List.append_nil, leaves_leaf, List.flatMap_append,
        List.flatMap_cons, List.flatMap_nil, bitsOf]
      have key := insert_in_ctx ((preL t (find_block t i).1).flatMap (bitsOf S))
        (leafBits S (TARGET_SIZE S) dl ++ leafBits S (TARGET_SIZE S) dr)
        ((postL t (find_block t i).1).flatMap (bitsOf S)) (find_block t i).2 v
        (by simp [leafBits]; omega)
      rw [hlen] at key
      rw [key, insertIdx_append_left _ _ _ _ (by omega)]
      simp [List.append_assoc]
    · have fb : find_block (.inner hh (TARGET_SIZE S) cl (.leaf 1 (TARGET_SIZE S) cl dl)
          (.leaf 1 (TARGET_SIZE S) cr dr)) (find_block t i).2
          = ([Dir.R], (find_block t i).2 - TARGET_SIZE S) := by
        simp [find_block, hlt]
      have gl : getAt t1 ((find_block t i).1 ++ [Dir.R]) = some (.leaf 1 (TARGET_SIZE S) cr dr) := by
        rw [getAt_append_of t1 _ _ _ g1]; rfl
      obtain ⟨t2, a2, f2, w2, tk⟩ := fix_tree_spec S t1 _ _ (leaf_not_inner _ _ _ _) w1 gl
      have tn2 : totalNums t2 = totalNums t1 := by
        simp only [totalNums, Tracks_leaves t2 t1 _ _ _ gl tk]
      obtain ⟨t3, e3, w3, tn3, tl3⟩ := insert_bit_spec S t2 a2 1 (TARGET_SIZE S) cr dr
        ((find_block t i).2 - TARGET_SIZE S) v w2 (tk.1.trans gl) hTS (by omega) (by omega)
      refine ⟨t3, by simp only [fb, f2, e3], w3, by omega, ?_⟩
      rw [tl3, tk.2.1, tk.2.2, preL_append t1 _ _ _ g1, postL_append t1 _ _ _ g1, pr1, po1,
        toList_decomp S t _ _ g, toList_leaf, ← eb]
      simp only [preL, postL, List.append_nil, List.nil_append, leaves_leaf, List.flatMap_append,
        List.flatMap_cons, List.flatMap_nil, bitsOf]
      have key := insert_in_ctx ((preL t (find_block t i).1).flatMap (bitsOf S)
          ++ leafBits S (TARGET_SIZE S) dl)
        (leafBits S (TARGET_SIZE S) dr)
        ((postL t (find_block t i).1).flatMap (bitsOf S)) ((find_block t i).2 - TARGET_SIZE S) v
        (by simp [leafBits]; omega)
      have hl2 : ((preL t (find_block t i).1).flatMap (bitsOf S)
          ++ leafBits S (TARGET_SIZE S) dl).length + ((find_block t i).2 - TARGET_SIZE S) = i := by
        rw [List.length_append, hl1]; omega
      rw [hl2] at key
      simp only [List.append_assoc] at key ⊢
      rw [key]
  · simp only [hfull, if_false]
    obtain ⟨t1, e1, w1, tn1, tl1⟩ := insert_bit_spec S t _ h n o d (find_block t i).2 v wf g
      (by omega) hj hrep
    refine ⟨t1, e1, w1, tn1, ?_⟩
    rw [tl1, toList_decomp S t _ _ g, toList_leaf]
    have key := insert_in_ctx ((preL t (find_block t i).1).flatMap (bitsOf S)) (leafBits S n d)
      ((postL t (find_block t i).1).flatMap (bitsOf S)) (find_block t i).2 v (by omega)
    rw [hlen] at key
    rw [key]

/-! ## Updates of two neighbouring leaves -/

/-- Counter and height part of well-formedness, without the leaves. -/
theorem leaf_update_weak (t : BVNode) (a : List Dir) (h n o d n1 o1 d1 : Nat)
    (dn dz : Int) (hs : Sound t) (hf : HFresh t) (hg : getAt t a = some (.leaf h n o d))
    (hn : (n : Int) + dn = n1) (ho : (o : Int) + dz = o1)
    (hN1 : (totalNums t : Int) + dn < 4294967296) (hO1 : (totalOnes t : Int) + dz < 4294967296) :
    Sound (propagate_update (setData t a d1) a dn dz) ∧
    HFresh (propagate_update (setData t a d1) a dn dz) ∧
    leaves (propagate_update (setData t a d1) a dn dz)
      = preL t a ++ [(n1, o1, d1)] ++ postL t a ∧
    getAt (propagate_update (setData t a d1) a dn dz) a = some (.leaf 1 n1 o1 d1) ∧
    preL (propagate_update (setData t a d1) a dn dz) a = preL t a ∧
    postL (propagate_update (setData t a d1) a dn dz) a = postL t a ∧
    totalNums (propagate_update (setData t a d1) a dn dz) + n = totalNums t + n1 ∧
    totalOnes (propagate_update (setData t a d1) a dn dz) + o = totalOnes t + o1 := by
  have b1 := totalNums_sub_le t _ a hg
  have b2 := totalOnes_sub_le t _ a hg
  simp only [totalNums_leaf, totalOnes_leaf] at b1 b2
  have e1 : u32 (n + dn) = n1 := by simp only [u32]; omega
  have e2 : u32 (o + dz) = o1 := by simp only [u32]; omega
  rw [leaf_update_eq t a h n o d d1 dn dz hg, e1, e2]
  have gN := totalNums_graft (fun m => u32 (m + dn)) (fun m => u32 (m + dz)) t _
    (.leaf 1 n1 o1 d1) a hg
  have gO := totalOnes_graft (fun m => u32 (m + dn)) (fun m => u32 (m + dz)) t _
    (.leaf 1 n1 o1 d1) a hg
  simp only [totalNums_leaf, totalOnes_leaf] at gN gO
  refine ⟨?_, ?_, ?_, getAt_graft_same _ _ t _ _ a hg, preL_graft _ _ t _ _ a hg,
    postL_graft _ _ t _ _ a hg, gN, gO⟩
  · apply Sound_graft _ _ t _ (.leaf 1 n1 o1 d1) a hg hs (by simp [Sound])
    · intro m h1 h2
      simp only [totalNums_leaf, u32] at h1 h2 ⊢
      omega
    · intro m h1 h2
      simp only [totalOnes_leaf, u32] at h1 h2 ⊢
      omega
  · exact HFresh_graft _ _ t _ (.leaf 1 n1 o1 d1) a hg hf (by simp [HFresh])
  · rw [leaves_graft _ _ t _ _ a hg]; rfl

theorem leftmost_eq_of_prev_none (t : BVNode) (a : List Dir) (x : BVNode)
    (hlf : ∀ hh nn oo l r, x ≠ .inner hh nn oo l r)
    (hg : getAt t a = some x) (hc : climb_left a = none) : a = leftmost t := by
  induction a generalizing t with
  | nil =>
    simp only [getAt, Option.some.injEq] at hg
    subst hg
    cases t with
    | leaf h n o d => rfl
    | inner h n o l r => exact absurd rfl (hlf _ _ _ _ _)
  | cons d a ih =>
    cases t with
    | leaf h n o dd => simp [getAt] at hg
    | inner hh n o l r =>
      simp only [climb_left] at hc
      cases hca : climb_left a with
      | some q => simp [hca] at hc
      | none =>
        rw [hca] at hc
        cases d with
        | R => simp at hc
        | L =>
          simp only [getAt] at hg
          simp [leftmost, ih l hg hca]

theorem rightmost_eq_of_next_none (t : BVNode) (a : List Dir) (x : BVNode)
    (hlf : ∀ hh nn oo l r, x ≠ .inner hh nn oo l r)
    (hg : getAt t a = some x) (hc : climb_right a = none) : a = rightmost t := by
  induction a generalizing t with
  | nil =>
    simp only [getAt, Option.some.injEq] at hg
    subst hg
    cases t with
    | leaf h n o d => rfl
    | inner h n o l r => exact absurd rfl (hlf _ _ _ _ _)
  | cons d a ih =>
    cases t with
    | leaf h n o dd => simp [getAt] at hg
    | inner hh n o l r =>
      simp only [climb_right] at hc
      cases hca : climb_right a with
      | some q => simp [hca] at hc
      | none =>
        rw [hca] at hc
        cases d with
        | L => simp at hc
        | R =>
          simp only [getAt] at hg
          simp [rightmost, ih r hg hca]

/-- The leaf at `a` and its left neighbour are the leftmost leaf of the right subtree and the
rightmost leaf of the left subtree of one inner node. -/
theorem prev_leaf_lca (t : BVNode) (a b : List Dir) (x : BVNode)
    (hlf : ∀ hh nn oo l r, x ≠ .inner hh nn oo l r)
    (hg : getAt t a = some x) (hp : prev_leaf t a = some b) :
    ∃ q hh nn oo l r, getAt t q = some (.inner hh nn oo l r) ∧
      a = q ++ Dir.R :: leftmost r ∧ b = q ++ Dir.L :: rightmost l := by
  induction a generalizing t b with
  | nil => simp [prev_leaf, climb_left] at hp
  | cons d a ih =>
    cases t with
    | leaf h n o dd => simp [getAt] at hg
    | inner hh n o l r =>
      cases d with
      | L =>
        simp only [getAt] at hg
        rw [prev_leaf_L] at hp
        cases hpl : prev_leaf l a with
        | none => simp [hpl] at hp
        | some b1 =>
          simp only [hpl, Option.map_some', Option.some.injEq] at hp
          obtain ⟨q, h1, n1, o1, l1, r1, g1, ea, eb⟩ := ih l b1 hg hpl
          exact ⟨Dir.L :: q, h1, n1, o1, l1, r1, by simpa [getAt] using g1,
            by simp [ea], by simp [← hp, eb]⟩
      | R =>
        simp only [getAt] at hg
        rw [prev_leaf_R hh n o l r a x hg] at hp
        simp only [Option.some.injEq] at hp
        cases hpl : prev_leaf r a with
        | none =>
          simp only [hpl] at hp
          have := leftmost_eq_of_prev_none r a x hlf hg
            ((prev_leaf_none_iff r a x hg).mp hpl)
          exact ⟨[], hh, n, o, l, r, rfl, by simp [this], by simp [← hp]⟩
        | some b1 =>
          simp only [hpl] at hp
          obtain ⟨q, h1, n1, o1, l1, r1, g1, ea, eb⟩ := ih r b1 hg hpl
          exact ⟨Dir.R :: q, h1, n1, o1, l1, r1, by simpa [getAt] using g1,
            by simp [ea], by simp [← hp, eb]⟩

theorem next_leaf_lca (t : BVNode) (a b : List Dir) (x : BVNode)
    (hlf : ∀ hh nn oo l r, x ≠ .inner hh nn oo l r)
    (hg : getAt t a = some x) (hp : next_leaf t a = some b) :
    ∃ q hh nn oo l r, getAt t q = some (.inner hh nn oo l r) ∧
      a = q ++ Dir.L :: rightmost l ∧ b = q ++ Dir.R :: leftmost r := by
  induction a generalizing t b with
  | nil => simp [next_leaf, climb_right] at hp
  | cons d a ih =>
    cases t with
    | leaf h n o dd => simp [getAt] at hg
    | inner hh n o l r =>
      cases d with
      | R =>
        simp only [getAt] at hg
        rw [next_leaf_R] at hp
        cases hpl : next_leaf r a with
        | none => simp [hpl] at hp
        | some b1 =>
          simp only [hpl, Option.map_some', Option.some.injEq] at hp
          obtain ⟨q, h1, n1, o1, l1, r1, g1, ea, eb⟩ := ih r b1 hg hpl
          exact ⟨Dir.R :: q, h1, n1, o1, l1, r1, by simpa [getAt] using g1,
            by simp [ea], by simp [← hp, eb]⟩
      | L =>
        simp only [getAt] at hg
        rw [next_leaf_L hh n o l r a x hg] at hp
        simp only [Option.some.injEq] at hp
        cases hpl : next_leaf l a with
        | none =>
          simp only [hpl] at hp
          have := rightmost_eq_of_next_none l a x hlf hg
            ((next_leaf_none_iff l a x hg).mp hpl)
          exact ⟨[], hh, n, o, l, r, rfl, by simp [this], by simp [← hp]⟩
        | some b1 =>
          simp only [hpl] at hp
          obtain ⟨q, h1, n1, o1, l1, r1, g1, ea, eb⟩ := ih l b1 hg hpl
          exact ⟨Dir.L :: q, h1, n1, o1, l1, r1, by simpa [getAt] using g1,
            by simp [ea], by simp [← hp, eb]⟩

theorem setAt_setAt (t s0 s : BVNode) (q : List Dir) :
    setAt (setAt t q s0) q s = setAt t q s := by
  induction q generalizing t with
  | nil => simp [setAt]
  | cons d q ih =>
    cases t with
    | leaf h n o dd => simp [setAt]
    | inner hh n o l r => cases d <;> simp only [setAt, ih]

theorem setAt_self (t sub : BVNode) (q : List Dir) (hg : getAt t q = some sub) :
    setAt t q sub = t := by
  induction q generalizing t with
  | nil => simp only [getAt, Option.some.injEq] at hg; subst hg; simp [setAt]
  | cons dd q ih =>
    cases t with
    | leaf h n o d2 => simp [getAt] at hg
    | inner hh n o l r =>
      cases dd <;> simp only [getAt] at hg <;> simp only [setAt] <;> rw [ih _ hg]

theorem setData_lift (t sub : BVNode) (q x : List Dir) (d : Nat)
    (hg : getAt t q = some sub) : setData t (q ++ x) d = setAt t q (setData sub x d) := by
  unfold setData
  rw [getAt_append_of t sub q x hg]
  cases hx : getAt sub x with
  | none => simp only; exact (setAt_self t sub q hg).symm
  | some y =>
    cases y with
    | leaf h n o d2 => simp only; exact setAt_append t sub _ q x hg
    | inner hh n o l r => simp only; exact (setAt_self t sub q hg).symm

/-- Two stores and two climbs below the node at `q` are one grafting at `q`. -/
theorem two_lift (t sub : BVNode) (q xa xb : List Dir) (d1 d2 : Nat) (dn1 dz1 dn2 dz2 : Int)
    (hg : getAt t q = some sub) :
    propagate_update (propagate_update (setData (setData t (q ++ xb) d2) (q ++ xa) d1)
        (q ++ xa) dn1 dz1) (q ++ xb) dn2 dz2
      = graft (fun m => u32 ((u32 (m + dn1) : Nat) + dn2)) (fun m => u32 ((u32 (m + dz1) : Nat) + dz2))
          t q (propagate_update (propagate_update (setData (setData sub xb d2) xa d1)
            xa dn1 dz1) xb dn2 dz2) := by
  rw [setData_lift t sub q xb d2 hg]
  have g1 := getAt_setAt_same t sub (setData sub xb d2) q hg
  rw [setData_lift _ _ q xa d1 g1, setAt_setAt]
  have g2 := getAt_setAt_same t sub (setData (setData sub xb d2) xa d1) q hg
  rw [propagate_eq_graft _ _ q xa dn1 dz1 g2, graft_setAt]
  have g3 := getAt_graft_same (fun n => u32 (n + dn1)) (fun o => u32 (o + dz1)) t sub
    (propagate_update (setData (setData sub xb d2) xa d1) xa dn1 dz1) q hg
  rw [propagate_eq_graft _ _ q xb dn2 dz2 g3, graft_graft]

theorem setData_inner_L (hh nn oo : Nat) (l r : BVNode) (z : List Dir) (e : Nat) :
    setData (.inner hh nn oo l r) (Dir.L :: z) e = .inner hh nn oo (setData l z e) r := by
  unfold setData
  simp only [getAt]
  cases hx : getAt l z with
  | none => rfl
  | some y => cases y <;> rfl

theorem setData_inner_R (hh nn oo : Nat) (l r : BVNode) (z : List Dir) (e : Nat) :
    setData (.inner hh nn oo l r) (Dir.R :: z) e = .inner hh nn oo l (setData r z e) := by
  unfold setData
  simp only [getAt]
  cases hx : getAt r z with
  | none => rfl
  | some y => cases y <;> rfl

/-- The result of updating one leaf in each subtree of the node at `q`, when the counter
differences of the two leaves cancel. -/
theorem two_leaf_graft (t : BVNode) (q zl zr : List Dir) (hh nn oo : Nat) (l r : BVNode)
    (F G : Nat → Nat) (h1 n1 o1 d1 h2 n2 o2 d2 m1 p1 e1 m2 p2 e2 : Nat)
    (dn1 dz1 dn2 dz2 : Int) (nn1 oo1 : Nat)
    (hs : Sound t) (hf : HFresh t) (hN : totalNums t < 4294967296)
    (hO : totalOnes t < 4294967296)
    (hg : getAt t q = some (.inner hh nn oo l r))
    (hgl : getAt l zl = some (.leaf h2 n2 o2 d2)) (hgr : getAt r zr = some (.leaf h1 n1 o1 d1))
    (hn1 : (n1 : Int) + dn1 = m1) (ho1 : (o1 : Int) + dz1 = p1)
    (hn2 : (n2 : Int) + dn2 = m2) (ho2 : (o2 : Int) + dz2 = p2)
    (hdn : dn1 + dn2 = 0) (hdz : dz1 + dz2 = 0)
    (hF : ∀ m, m < 4294967296 → F m = m) (hG : ∀ m, m < 4294967296 → G m = m)
    (hnn : (nn1 : Int) = nn + dn2) (hoo : (oo1 : Int) = oo + dz2) :
    Sound (graft F G t q (.inner
        (u8 (1 + max (propagate_update (setData l zl e2) zl dn2 dz2).height
          (propagate_update (setData r zr e1) zr dn1 dz1).height)) nn1 oo1
        (propagate_update (setData l zl e2) zl dn2 dz2)
        (propagate_update (setData r zr e1) zr dn1 dz1))) ∧
    HFresh (graft F G t q (.inner
        (u8 (1 + max (propagate_update (setData l zl e2) zl dn2 dz2).height
          (propagate_update (setData r zr e1) zr dn1 dz1).height)) nn1 oo1
        (propagate_update (setData l zl e2) zl dn2 dz2)
        (propagate_update (setData r zr e1) zr dn1 dz1))) ∧
    leaves (graft F G t q (.inner
        (u8 (1 + max (propagate_update (setData l zl e2) zl dn2 dz2).height
          (propagate_update (setData r zr e1) zr dn1 dz1).height)) nn1 oo1
        (propagate_update (setData l zl e2) zl dn2 dz2)
        (propagate_update (setData r zr e1) zr dn1 dz1)))
      = preL t q ++ (preL l zl ++ [(m2, p2, e2)] ++ postL l zl)
          ++ (preL r zr ++ [(m1, p1, e1)] ++ postL r zr) ++ postL t q ∧
    totalNums (graft F G t q (.inner
        (u8 (1 + max (propagate_update (setData l zl e2) zl dn2 dz2).height
          (propagate_update (setData r zr e1) zr dn1 dz1).height)) nn1 oo1
        (propagate_update (setData l zl e2) zl dn2 dz2)
        (propagate_update (setData r zr e1) zr dn1 dz1))) = totalNums t := by
  have ssub := Sound_getAt t _ q hg hs
  have fsub := HFresh_getAt t _ q hg hf
  have b1 := totalNums_sub_le t _ q hg
  have b2 := totalOnes_sub_le t _ q hg
  simp only [totalNums_inner, totalOnes_inner] at b1 b2
  obtain ⟨en, eo, sl, sr⟩ := ssub
  have bl1 := totalNums_sub_le l _ zl hgl
  have bl2 := totalOnes_sub_le l _ zl hgl
  have br1 := totalNums_sub_le r _ zr hgr
  have br2 := totalOnes_sub_le r _ zr hgr
  simp only [totalNums_leaf, totalOnes_leaf] at bl1 bl2 br1 br2
  obtain ⟨sL, fL, lL, _, _, _, tL, oL⟩ := leaf_update_weak l zl h2 n2 o2 d2 m2 p2 e2 dn2 dz2 sl
    fsub.2.1 hgl hn2 ho2 (by omega) (by omega)
  obtain ⟨sR, fR, lR, _, _, _, tR, oR⟩ := leaf_update_weak r zr h1 n1 o1 d1 m1 p1 e1 dn1 dz1 sr
    fsub.2.2 hgr hn1 ho1 (by omega) (by omega)
  have gN := totalNums_graft F G t _ (.inner
        (u8 (1 + max (propagate_update (setData l zl e2) zl dn2 dz2).height
          (propagate_update (setData r zr e1) zr dn1 dz1).height)) nn1 oo1
        (propagate_update (setData l zl e2) zl dn2 dz2)
        (propagate_update (setData r zr e1) zr dn1 dz1)) q hg
  simp only [totalNums_inner] at gN
  refine ⟨?_, ?_, ?_, by omega⟩
  · apply Sound_graft F G t _ _ q hg hs
    · exact ⟨by omega, by omega, sL, sR⟩
    · intro m _ h2
      rw [hF m (by omega)]
      simp only [totalNums_inner]
      omega
    · intro m _ h2
      rw [hG m (by omega)]
      simp only [totalOnes_inner]
      omega
  · exact HFresh_graft F G t _ _ q hg hf ⟨rfl, fL, fR⟩
  · rw [leaves_graft F G t _ _ q hg, leaves_inner, lL, lR]
    simp only [List.append_assoc]

/-! ## Leaf-level facts for delete, steal and merge -/

theorem leaf_delete (S n o d idx : Nat) (ok : leafOK S (n, o, d)) (hidx : idx < n) :
    leafBits S (n - 1)
        (d &&& bnot S (FULL_MASK S >>> idx) ||| shl S (d &&& (FULL_MASK S >>> (idx + 1))) 1)
      = (leafBits S n d).eraseIdx idx ∧
    leafOK S (n - 1, ((leafBits S n d).eraseIdx idx).count true,
      d &&& bnot S (FULL_MASK S >>> idx) ||| shl S (d &&& (FULL_MASK S >>> (idx + 1))) 1) := by
  have hn := ok.1
  have e : leafBits S (n - 1)
        (d &&& bnot S (FULL_MASK S >>> idx) ||| shl S (d &&& (FULL_MASK S >>> (idx + 1))) 1)
      = (leafBits S n d).eraseIdx idx := by
    rw [leafBits_eq, leafBits_eq, ← map_range_erase n idx _ hidx]
    apply map_range_congr
    intro j hj
    rw [gb_del S d idx j (by omega) (by omega)]
    have : j + 1 < S := by omega
    simp [this]
  refine ⟨e, ?_⟩
  rw [← e]
  apply leafOK_of S (n - 1) _ (by omega)
  · exact Nat.or_lt_two_pow (and_lt_left S _ _ ok.2.1) (shl_lt S _ _)
  · intro j hj hjS
    rw [gb_del S d idx j hjS (by omega)]
    have h1 : ¬ j < idx := by omega
    simp only [h1, if_false]
    by_cases h2 : j + 1 < S
    · simp [h2, leafOK_clean S n o d ok (j + 1) (by omega) h2]
    · simp [h2]

theorem leaf_concat (S n1 o1 d1 n2 o2 d2 : Nat) (ok1 : leafOK S (n1, o1, d1))
    (ok2 : leafOK S (n2, o2, d2)) (hn : n1 + n2 ≤ S) :
    leafBits S (n1 + n2) (d1 ||| (d2 >>> n1)) = leafBits S n1 d1 ++ leafBits S n2 d2 ∧
    leafOK S (n1 + n2, o1 + o2, d1 ||| (d2 >>> n1)) := by
  have e : leafBits S (n1 + n2) (d1 ||| (d2 >>> n1)) = leafBits S n1 d1 ++ leafBits S n2 d2 := by
    rw [leafBits_eq, leafBits_eq, leafBits_eq, ← map_range_append]
    apply map_range_congr
    intro j hj
    exact gb_or_shr S d1 d2 n1 j (by omega) ok2.2.1 (leafOK_clean S n1 o1 d1 ok1)
  refine ⟨e, ?_⟩
  have k := leafOK_of S (n1 + n2) (d1 ||| (d2 >>> n1)) hn
    (Nat.or_lt_two_pow ok1.2.1 (shr_lt S _ _ ok2.2.1)) (by
      intro j hj hjS
      rw [gb_or_shr S d1 d2 n1 j hjS ok2.2.1 (leafOK_clean S n1 o1 d1 ok1)]
      have : ¬ j < n1 := by omega
      simp only [this, if_false]
      exact leafOK_clean S n2 o2 d2 ok2 (j - n1) (by omega) (by omega))
  rw [e, List.count_append, ← leafOK_ones S n1 o1 d1 ok1, ← leafOK_ones S n2 o2 d2 ok2] at k
  exact k

theorem leaf_steal_left (S n o d pn po pd sb : Nat) (ok : leafOK S (n, o, d))
    (okp : leafOK S (pn, po, pd)) (hsb : sb ≤ pn) (hn : n + sb ≤ S) :
    leafBits S (pn - sb) (pd &&& shl S (FULL_MASK S) (S - (pn - sb)))
      = (leafBits S pn pd).take (pn - sb) ∧
    leafBits S (n + sb)
        (shl S ((pd >>> (S - pn)) &&& (FULL_MASK S >>> (S - sb))) (S - sb) ||| (d >>> sb))
      = (leafBits S pn pd).drop (pn - sb) ++ leafBits S n d ∧
    count S ((pd >>> (S - pn)) &&& (FULL_MASK S >>> (S - sb)))
      = ((leafBits S pn pd).drop (pn - sb)).count true ∧
    leafOK S (pn - sb, ((leafBits S pn pd).take (pn - sb)).count true,
      pd &&& shl S (FULL_MASK S) (S - (pn - sb))) ∧
    leafOK S (n + sb, ((leafBits S pn pd).drop (pn - sb)).count true + o,
      shl S ((pd >>> (S - pn)) &&& (FULL_MASK S >>> (S - sb))) (S - sb) ||| (d >>> sb)) := by
  have hpn := okp.1
  have hdrop : (leafBits S pn pd).drop (pn - sb)
      = (List.range sb).map (fun j => gb S pd (pn - sb + j)) := by
    rw [leafBits_eq, map_range_drop, show pn - (pn - sb) = sb by omega]
  have e1 : leafBits S (pn - sb) (pd &&& shl S (FULL_MASK S) (S - (pn - sb)))
      = (leafBits S pn pd).take (pn - sb) := by
    rw [leafBits_eq, leafBits_eq, map_range_take _ _ _ (by omega)]
    apply map_range_congr
    intro j hj
    rw [gb_keep_top S pd (pn - sb) j (by omega) (by omega)]
    simp [hj]
  have e2 : leafBits S (n + sb)
        (shl S ((pd >>> (S - pn)) &&& (FULL_MASK S >>> (S - sb))) (S - sb) ||| (d >>> sb))
      = (leafBits S pn pd).drop (pn - sb) ++ leafBits S n d := by
    rw [hdrop, leafBits_eq, leafBits_eq, ← map_range_append, show sb + n = n + sb by omega]
    apply map_range_congr
    intro j hj
    exact gb_steal_left_node S pd d pn sb j (by omega) hsb hpn ok.2.1
  have e3 : count S ((pd >>> (S - pn)) &&& (FULL_MASK S >>> (S - sb)))
      = ((leafBits S pn pd).drop (pn - sb)).count true := by
    rw [count_eq, hdrop]
    have h2 := map_range_append (S - sb) sb (fun _ => false) (fun j => gb S pd (pn - sb + j))
    rw [show S - sb + sb = S by omega] at h2
    rw [map_range_congr S (gb S ((pd >>> (S - pn)) &&& (FULL_MASK S >>> (S - sb))))
      (fun j => if j < S - sb then (fun _ => false) j else (fun j => gb S pd (pn - sb + j)) (j - (S - sb)))
      (by intro j hj; exact gb_steal_data_left S pd pn sb j hj hsb hpn)]
    rw [h2, List.count_append]
    have z : List.count true (List.map (fun _ => false) (List.range (S - sb))) = 0 := by
      rw [List.count_eq_zero]; simp
    rw [z]; simp
  refine ⟨e1, e2, e3, ?_, ?_⟩
  · rw [← e1]
    apply leafOK_of S (pn - sb) _ (by omega) (and_lt_left S _ _ okp.2.1)
    intro j hj hjS
    rw [gb_keep_top S pd (pn - sb) j hjS (by omega)]
    simp; intro _; omega
  · have k := leafOK_of S (n + sb)
      (shl S ((pd >>> (S - pn)) &&& (FULL_MASK S >>> (S - sb))) (S - sb) ||| (d >>> sb)) hn
      (Nat.or_lt_two_pow (shl_lt S _ _) (shr_lt S _ _ ok.2.1)) (by
        intro j hj hjS
        rw [gb_steal_left_node S pd d pn sb j hjS hsb hpn ok.2.1]
        have : ¬ j < sb := by omega
        simp only [this, if_false]
        exact leafOK_clean S n o d ok (j - sb) (by omega) (by omega))
    rw [e2, List.count_append, ← leafOK_ones S n o d ok] at k
    exact k

theorem leaf_steal_right (S n o d nn no nd sb : Nat) (ok : leafOK S (n, o, d))
    (okn : leafOK S (nn, no, nd)) (hsb : sb ≤ nn) (hn : n + sb ≤ S) :
    leafBits S (nn - sb) (shl S nd sb) = (leafBits S nn nd).drop sb ∧
    leafBits S (n + sb) (d ||| shl S (nd >>> (S - sb)) (S - n - sb))
      = leafBits S n d ++ (leafBits S nn nd).take sb ∧
    count S (nd >>> (S - sb)) = ((leafBits S nn nd).take sb).count true ∧
    leafOK S (nn - sb, ((leafBits S nn nd).drop sb).count true, shl S nd sb) ∧
    leafOK S (n + sb, o + ((leafBits S nn nd).take sb).count true,
      d ||| shl S (nd >>> (S - sb)) (S - n - sb)) := by
  have hnn := okn.1
  have htake : (leafBits S nn nd).take sb = (List.range sb).map (gb S nd) := by
    rw [leafBits_eq, map_range_take _ _ _ hsb]
  have e1 : leafBits S (nn - sb) (shl S nd sb) = (leafBits S nn nd).drop sb := by
    rw [leafBits_eq, leafBits_eq, map_range_drop]
    apply map_range_congr
    intro j hj
    rw [gb_shl S nd sb j (by omega)]
    have h1 : j + sb < S := by omega
    rw [show sb + j = j + sb by omega]
    simp [h1]
  have e2 : leafBits S (n + sb) (d ||| shl S (nd >>> (S - sb)) (S - n - sb))
      = leafBits S n d ++ (leafBits S nn nd).take sb := by
    rw [htake, leafBits_eq, leafBits_eq, ← map_range_append]
    apply map_range_congr
    intro j hj
    rw [gb_steal_right_node S nd d n sb j (by omega) hn okn.2.1 (leafOK_clean S n o d ok)]
    by_cases h : j < n
    · simp [h]
    · simp [h, hj]
  have e3 : count S (nd >>> (S - sb)) = ((leafBits S nn nd).take sb).count true := by
    rw [count_eq, htake]
    have h2 := map_range_append (S - sb) sb (fun _ => false) (gb S nd)
    rw [show S - sb + sb = S by omega] at h2
    rw [map_range_congr S (gb S (nd >>> (S - sb)))
      (fun j => if j < S - sb then (fun _ => false) j else gb S nd (j - (S - sb)))
      (by intro j hj; exact gb_steal_data_right S nd sb j hj okn.2.1)]
    rw [h2, List.count_append]
    have z : List.count true (List.map (fun _ => false) (List.range (S - sb))) = 0 := by
      rw [List.count_eq_zero]; simp
    rw [z]; simp
  refine ⟨e1, e2, e3, ?_, ?_⟩
  · rw [← e1]
    apply leafOK_of S (nn - sb) _ (by omega) (shl_lt S _ _)
    intro j hj hjS
    rw [gb_shl S nd sb j hjS]
    by_cases h : j + sb < S
    · simp [h, leafOK_clean S nn no nd okn (j + sb) (by omega) h]
    · simp [h]
  · have k := leafOK_of S (n + sb) (d ||| shl S (nd >>> (S - sb)) (S - n - sb)) hn
      (Nat.or_lt_two_pow ok.2.1 (shl_lt S _ _)) (by
        intro j hj hjS
        rw [gb_steal_right_node S nd d n sb j hjS hn okn.2.1 (leafOK_clean S n o d ok)]
        have h1 : ¬ j < n := by omega
        have h2 : ¬ j < n + sb := by omega
        simp [h1, h2])
    rw [e2, List.count_append, ← leafOK_ones S n o d ok] at k
    exact k

/-! ## Stealing -/

theorem two_leaf_ctx (t : BVNode) (q zl zr : List Dir) (hh nn oo : Nat) (l r : BVNode)
    (F G : Nat → Nat) (h1 n1 o1 d1 h2 n2 o2 d2 m1 p1 e1 m2 p2 e2 : Nat)
    (dn1 dz1 dn2 dz2 : Int) (nn1 oo1 hx : Nat)
    (hs : Sound t) (hN : totalNums t < 4294967296) (hO : totalOnes t < 4294967296)
    (hg : getAt t q = some (.inner hh nn oo l r))
    (hgl : getAt l zl = some (.leaf h2 n2 o2 d2)) (hgr : getAt r zr = some (.leaf h1 n1 o1 d1))
    (hn1 : (n1 : Int) + dn1 = m1) (ho1 : (o1 : Int) + dz1 = p1)
    (hn2 : (n2 : Int) + dn2 = m2) (ho2 : (o2 : Int) + dz2 = p2)
    (hdn : dn1 + dn2 = 0) (hdz : dz1 + dz2 = 0) :
    getAt (graft F G t q (.inner hx nn1 oo1
        (propagate_update (setData l zl e2) zl dn2 dz2)
        (propagate_update (setData r zr e1) zr dn1 dz1))) (q ++ Dir.L :: zl)
      = some (.leaf 1 m2 p2 e2) ∧
    getAt (graft F G t q (.inner hx nn1 oo1
        (propagate_update (setData l zl e2) zl dn2 dz2)
        (propagate_update (setData r zr e1) zr dn1 dz1))) (q ++ Dir.R :: zr)
      = some (.leaf 1 m1 p1 e1) ∧
    preL (graft F G t q (.inner hx nn1 oo1
        (propagate_update (setData l zl e2) zl dn2 dz2)
        (propagate_update (setData r zr e1) zr dn1 dz1))) (q ++ Dir.L :: zl)
      = preL t q ++ preL l zl ∧
    postL (graft F G t q (.inner hx nn1 oo1
        (propagate_update (setData l zl e2) zl dn2 dz2)
        (propagate_update (setData r zr e1) zr dn1 dz1))) (q ++ Dir.L :: zl)
      = postL l zl ++ (preL r zr ++ [(m1, p1, e1)] ++ postL r zr) ++ postL t q ∧
    preL (graft F G t q (.inner hx nn1 oo1
        (propagate_update (setData l zl e2) zl dn2 dz2)
        (propagate_update (setData r zr e1) zr dn1 dz1))) (q ++ Dir.R :: zr)
      = preL t q ++ (preL l zl ++ [(m2, p2, e2)] ++ postL l zl) ++ preL r zr ∧
    postL (graft F G t q (.inner hx nn1 oo1
        (propagate_update (setData l zl e2) zl dn2 dz2)
        (propagate_update (setData r zr e1) zr dn1 dz1))) (q ++ Dir.R :: zr)
      = postL r zr ++ postL t q := by
  have ssub := Sound_getAt t _ q hg hs
  have b1 := totalNums_sub_le t _ q hg
  have b2 := totalOnes_sub_le t _ q hg
  simp only [totalNums_inner, totalOnes_inner] at b1 b2
  obtain ⟨en, eo, sl, sr⟩ := ssub
  have bl1 := totalNums_sub_le l _ zl hgl
  have bl2 := totalOnes_sub_le l _ zl hgl
  have br1 := totalNums_sub_le r _ zr hgr
  have br2 := totalOnes_sub_le r _ zr hgr
  simp only [totalNums_leaf, totalOnes_leaf] at bl1 bl2 br1 br2
  have eL := leaf_update_eq l zl h2 n2 o2 d2 e2 dn2 dz2 hgl
  have eR := leaf_update_eq r zr h1 n1 o1 d1 e1 dn1 dz1 hgr
  have u1 : u32 (n2 + dn2) = m2 := by simp only [u32]; omega
  have u2 : u32 (o2 + dz2) = p2 := by simp only [u32]; omega
  have u3 : u32 (n1 + dn1) = m1 := by simp only [u32]; omega
  have u4 : u32 (o1 + dz1) = p1 := by simp only [u32]; omega
  rw [u1, u2] at eL
  rw [u3, u4] at eR
  have gg := getAt_graft_same F G t _ (.inner hx nn1 oo1
        (propagate_update (setData l zl e2) zl dn2 dz2)
        (propagate_update (setData r zr e1) zr dn1 dz1)) q hg
  refine ⟨?_, ?_, ?_, ?_, ?_, ?_⟩
  · rw [getAt_append_of _ _ q _ gg]
    simp only [getAt]
    rw [eL]; exact getAt_graft_same _ _ l _ _ zl hgl
  · rw [getAt_append_of _ _ q _ gg]
    simp only [getAt]
    rw [eR]; exact getAt_graft_same _ _ r _ _ zr hgr
  · rw [preL_append _ _ q _ gg, preL_graft F G t _ _ q hg]
    simp only [preL]
    rw [eL, preL_graft _ _ l _ _ zl hgl]
  · rw [postL_append _ _ q _ gg, postL_graft F G t _ _ q hg]
    simp only [postL]
    rw [eL, postL_graft _ _ l _ _ zl hgl, eR, leaves_graft _ _ r _ _ zr hgr]
    rfl
  · rw [preL_append _ _ q _ gg, preL_graft F G t _ _ q hg]
    simp only [preL]
    rw [eR, preL_graft _ _ r _ _ zr hgr, eL, leaves_graft _ _ l _ _ zl hgl]
    simp [List.append_assoc]
  · rw [postL_append _ _ q _ gg, postL_graft F G t _ _ q hg]
    simp only [postL]
    rw [eR, postL_graft _ _ r _ _ zr hgr]

/-- After an exchange of bits between two neighbouring leaves the tree is well formed again
and represents the same sequence. -/
theorem two_leaf_wf (S : Nat) (t T : BVNode) (q : List Dir) (hh nn oo : Nat) (l r : BVNode)
    (h1 n1 o1 d1 h2 n2 o2 d2 : Nat) (new1 new2 : Nat × Nat × Nat) (wf : WF S t)
    (hg : getAt t q = some (.inner hh nn oo l r))
    (hgl : getAt l (rightmost l) = some (.leaf h2 n2 o2 d2))
    (hgr : getAt r (leftmost r) = some (.leaf h1 n1 o1 d1))
    (hs : Sound T) (hf : HFresh T)
    (hl : leaves T = preL t q ++ (preL l (rightmost l) ++ [new2] ++ postL l (rightmost l))
      ++ (preL r (leftmost r) ++ [new1] ++ postL r (leftmost r)) ++ postL t q)
    (hN : totalNums T = totalNums t) (ok1 : leafOK S new1) (ok2 : leafOK S new2)
    (hb : bitsOf S new2 ++ bitsOf S new1 = leafBits S n2 d2 ++ leafBits S n1 d1) :
    WF S T ∧ toList S T = toList S t := by
  obtain ⟨_, _, _, _, gl, pl, el⟩ := rightmost_spec l
  obtain ⟨_, _, _, _, gr, pr, er⟩ := leftmost_spec r
  rw [hgl] at gl
  rw [hgr] at gr
  simp only [Option.some.injEq, BVNode.leaf.injEq] at gl gr
  obtain ⟨_, rfl, rfl, rfl⟩ := gl
  obtain ⟨_, rfl, rfl, rfl⟩ := gr
  have ht : leaves t = preL t q ++ (preL l (rightmost l) ++ [(n2, o2, d2)])
      ++ ((n1, o1, d1) :: postL r (leftmost r)) ++ postL t q := by
    rw [leaves_decomp t _ q hg, leaves_inner, el, er]
    simp [List.append_assoc]
  rw [pl, pr] at hl
  refine ⟨⟨hs, ?_, hf, by rw [hN]; exact wf.rep⟩, ?_⟩
  · intro x hx
    rw [hl] at hx
    simp only [List.mem_append, List.mem_singleton, List.append_nil, List.nil_append] at hx
    have old : ∀ y, y ∈ leaves t → leafOK S y := wf.leaf
    rw [ht] at old
    rcases hx with (((hx | (hx | hx)) | (hx | hx)) | hx)
    · exact old x (by simp [hx])
    · exact old x (by simp [hx])
    · subst hx; exact ok2
    · subst hx; exact ok1
    · exact old x (by simp [hx])
    · exact old x (by simp [hx])
  · simp only [toList, hl, ht, List.flatMap_append, List.flatMap_cons, List.flatMap_nil,
      List.append_nil, List.nil_append, List.append_assoc]
    have hb2 : bitsOf S new2 ++ (bitsOf S new1 ++ ((postL r (leftmost r)).flatMap (bitsOf S)
        ++ (postL t q).flatMap (bitsOf S)))
        = bitsOf S (n2, o2, d2) ++ (bitsOf S (n1, o1, d1) ++ ((postL r (leftmost r)).flatMap (bitsOf S)
        ++ (postL t q).flatMap (bitsOf S))) := by
      rw [← List.append_assoc, hb, List.append_assoc]; rfl
    rw [hb2]

theorem count_take_add_drop (l : List Bool) (k : Nat) :
    (l.take k).count true + (l.drop k).count true = l.count true := by
  rw [← List.count_append, List.take_append_drop]

theorem count_le_len (l : List Bool) : l.count true ≤ l.length := List.count_le_length _ _

/-- The operation `steal_left` moves the last bits of the left neighbour to the front of the leaf. -/
theorem steal_left_spec (S : Nat) (t : BVNode) (q : List Dir) (hh nn oo : Nat) (l r : BVNode)
    (h n o d hp pn po pd : Nat) (wf : WF S t)
    (hg : getAt t q = some (.inner hh nn oo l r))
    (hgl : getAt l (rightmost l) = some (.leaf hp pn po pd))
    (hgr : getAt r (leftmost r) = some (.leaf h n o d)) (hle : n ≤ pn) :
    ∃ t1, steal_left S t (q ++ Dir.R :: leftmost r) (q ++ Dir.L :: rightmost l) = some t1 ∧
      WF S t1 ∧ toList S t1 = toList S t ∧ totalNums t1 = totalNums t := by
  have hga : getAt t (q ++ Dir.R :: leftmost r) = some (.leaf h n o d) := by
    rw [getAt_append_of t _ q _ hg]; exact hgr
  have hgb : getAt t (q ++ Dir.L :: rightmost l) = some (.leaf hp pn po pd) := by
    rw [getAt_append_of t _ q _ hg]; exact hgl
  have ok : leafOK S (n, o, d) := by
    apply wf.leaf; rw [leaves_decomp t _ _ hga]; simp [leaves]
  have okp : leafOK S (pn, po, pd) := by
    apply wf.leaf; rw [leaves_decomp t _ _ hgb]; simp [leaves]
  have hO := totalOnes_le_totalNums S t wf.leaf
  have hN := wf.rep
  have bp1 := totalNums_sub_le t _ _ hgb
  have ba1 := totalNums_sub_le t _ _ hga
  simp only [totalNums_leaf] at bp1 ba1
  have hpS := okp.1
  have hsb : u32 ((pn : Int) - (n : Int)) / 2 = (pn - n) / 2 := by
    simp only [u32]; congr 1; omega
  have hsb1 : (pn - n) / 2 ≤ pn := by omega
  have hsb2 : n + (pn - n) / 2 ≤ S := by
    have : pn ≤ S := hpS
    omega
  obtain ⟨e1, e2, e3, k1, k2⟩ := leaf_steal_left S n o d pn po pd ((pn - n) / 2) ok okp hsb1 hsb2
  have hu : u32 ((pn : Int) - (((pn - n) / 2 : Nat) : Int)) = pn - (pn - n) / 2 := by
    simp only [u32]; omega
  have hc1 := count_take_add_drop (leafBits S pn pd) (pn - (pn - n) / 2)
  have hc2 := count_le_len ((leafBits S pn pd).drop (pn - (pn - n) / 2))
  have hc3 : ((leafBits S pn pd).drop (pn - (pn - n) / 2)).length = (pn - n) / 2 := by
    simp [leafBits]; omega
  have hpo := leafOK_ones S pn po pd okp
  have hcu : u32 (count S ((pd >>> (S - pn)) &&& (FULL_MASK S >>> (S - (pn - n) / 2))))
      = ((leafBits S pn pd).drop (pn - (pn - n) / 2)).count true := by
    rw [e3]; simp only [u32]; omega
  refine ⟨_, by simp only [steal_left, hga, hgb]; rfl, ?_⟩
  rw [two_lift t _ q _ _ _ _ _ _ _ _ hg]
  simp only [setData_inner_L, setData_inner_R, propagate_update, hsb,
    szsub_of_le S pn hpS, szsub_of_le S ((pn - n) / 2) (by omega), hu,
    szsub_of_le S (pn - (pn - n) / 2) (by omega), hcu]
  obtain ⟨p1, p2, p3, p4⟩ := two_leaf_graft t q (rightmost l) (leftmost r) hh nn oo l r
    (fun m => u32 ((u32 ((m : Int) + (((pn - n) / 2 : Nat) : Int)) : Nat)
      + -(((pn - n) / 2 : Nat) : Int)))
    (fun m => u32 ((u32 ((m : Int)
      + ((((leafBits S pn pd).drop (pn - (pn - n) / 2)).count true : Nat) : Int)) : Nat)
      + -((((leafBits S pn pd).drop (pn - (pn - n) / 2)).count true : Nat) : Int)))
    h n o d hp pn po pd
    (n + (pn - n) / 2) (((leafBits S pn pd).drop (pn - (pn - n) / 2)).count true + o)
    (shl S ((pd >>> (S - pn)) &&& (FULL_MASK S >>> (S - (pn - n) / 2))) (S - (pn - n) / 2)
      ||| (d >>> ((pn - n) / 2)))
    (pn - (pn - n) / 2) (((leafBits S pn pd).take (pn - (pn - n) / 2)).count true)
    (pd &&& shl S (FULL_MASK S) (S - (pn - (pn - n) / 2)))
    (((pn - n) / 2 : Nat) : Int)
    ((((leafBits S pn pd).drop (pn - (pn - n) / 2)).count true : Nat) : Int)
    (-(((pn - n) / 2 : Nat) : Int))
    (-((((leafBits S pn pd).drop (pn - (pn - n) / 2)).count true : Nat) : Int))
    (u32 ((nn : Int) + -(((pn - n) / 2 : Nat) : Int)))
    (u32 ((oo : Int) + -((((leafBits S pn pd).drop (pn - (pn - n) / 2)).count true : Nat) : Int)))
    wf.sound wf.fresh hN (by omega) hg hgl hgr (by push_cast; omega) (by push_cast; omega)
    (by omega) (by omega) (by omega) (by omega)
    (by intro m hm; simp only [u32]; omega) (by intro m hm; simp only [u32]; omega)
    (by
      have ssub := Sound_getAt t _ q hg wf.sound
      have b1 := totalNums_sub_le t _ q hg
      have bl1 := totalNums_sub_le l _ _ hgl
      simp only [totalNums_inner, totalNums_leaf] at b1 bl1
      have := ssub.1
      simp only [u32]; omega)
    (by
      have ssub := Sound_getAt t _ q hg wf.sound
      have b2 := totalOnes_sub_le t _ q hg
      have bl2 := totalOnes_sub_le l _ _ hgl
      simp only [totalOnes_inner, totalOnes_leaf] at b2 bl2
      have := ssub.2.1
      simp only [u32]; omega)
  obtain ⟨w, tl⟩ := two_leaf_wf S t _ q hh nn oo l r h n o d hp pn po pd _ _ wf hg hgl hgr
    p1 p2 p3 p4 k2 k1 (by simp only [bitsOf]; rw [e1, e2, ← List.append_assoc,
      List.take_append_drop])
  exact ⟨w, tl, p4⟩

/-- The operation `steal_right` moves the first bits of the right neighbour to the end of the leaf. -/
theorem steal_right_spec (S : Nat) (t : BVNode) (q : List Dir) (hh nn oo : Nat) (l r : BVNode)
    (h n o d hx xn xo xd : Nat) (wf : WF S t)
    (hg : getAt t q = some (.inner hh nn oo l r))
    (hgl : getAt l (rightmost l) = some (.leaf h n o d))
    (hgr : getAt r (leftmost r) = some (.leaf hx xn xo xd)) (hle : n ≤ xn) :
    ∃ t1, steal_right S t (q ++ Dir.L :: rightmost l) (q ++ Dir.R :: leftmost r) = some t1 ∧
      WF S t1 ∧ toList S t1 = toList S t ∧ totalNums t1 = totalNums t := by
  have hga : getAt t (q ++ Dir.L :: rightmost l) = some (.leaf h n o d) := by
    rw [getAt_append_of t _ q _ hg]; exact hgl
  have hgb : getAt t (q ++ Dir.R :: leftmost r) = some (.leaf hx xn xo xd) := by
    rw [getAt_append_of t _ q _ hg]; exact hgr
  have ok : leafOK S (n, o, d) := by
    apply wf.leaf; rw [leaves_decomp t _ _ hga]; simp [leaves]
  have okx : leafOK S (xn, xo, xd) := by
    apply wf.leaf; rw [leaves_decomp t _ _ hgb]; simp [leaves]
  have hO := totalOnes_le_totalNums S t wf.leaf
  have hN := wf.rep
  have hxS := okx.1
  have hnS := ok.1
  have bx1 := totalNums_sub_le t _ _ hgb
  have ba1 := totalNums_sub_le t _ _ hga
  simp only [totalNums_leaf] at bx1 ba1
  have hsb : u32 ((xn : Int) - (n : Int)) / 2 = (xn - n) / 2 := by
    simp only [u32]; congr 1; omega
  have hsb1 : (xn - n) / 2 ≤ xn := by omega
  have hsb2 : n + (xn - n) / 2 ≤ S := by
    have : xn ≤ S := hxS
    omega
  obtain ⟨e1, e2, e3, k1, k2⟩ := leaf_steal_right S n o d xn xo xd ((xn - n) / 2) ok okx hsb1 hsb2
  have hc1 := count_take_add_drop (leafBits S xn xd) ((xn - n) / 2)
  have hc2 := count_le_len ((leafBits S xn xd).take ((xn - n) / 2))
  have hc3 : ((leafBits S xn xd).take ((xn - n) / 2)).length = (xn - n) / 2 := by
    simp [leafBits]; omega
  have hxo := leafOK_ones S xn xo xd okx
  have hcu : u32 (count S (xd >>> (S - (xn - n) / 2)))
      = ((leafBits S xn xd).take ((xn - n) / 2)).count true := by
    rw [e3]; simp only [u32]; omega
  have hsz : szsub (szsub S n) ((xn - n) / 2) = S - n - (xn - n) / 2 := by
    rw [szsub_of_le S n hnS, szsub_of_le _ _ (by omega)]
  refine ⟨_, by simp only [steal_right, hga, hgb]; rfl, ?_⟩
  rw [two_lift t _ q _ _ _ _ _ _ _ _ hg]
  simp only [setData_inner_L, setData_inner_R, propagate_update, hsb, hsz,
    szsub_of_le S ((xn - n) / 2) (by omega), hcu]
  obtain ⟨p1, p2, p3, p4⟩ := two_leaf_graft t q (rightmost l) (leftmost r) hh nn oo l r
    (fun m => u32 ((u32 ((m : Int) + (((xn - n) / 2 : Nat) : Int)) : Nat)
      + -(((xn - n) / 2 : Nat) : Int)))
    (fun m => u32 ((u32 ((m : Int)
      + ((((leafBits S xn xd).take ((xn - n) / 2)).count true : Nat) : Int)) : Nat)
      + -((((leafBits S xn xd).take ((xn - n) / 2)).count true : Nat) : Int)))
    hx xn xo xd h n o d
    (xn - (xn - n) / 2) (((leafBits S xn xd).drop ((xn - n) / 2)).count true)
    (shl S xd ((xn - n) / 2))
    (n + (xn - n) / 2) (o + ((leafBits S xn xd).take ((xn - n) / 2)).count true)
    (d ||| shl S (xd >>> (S - (xn - n) / 2)) (S - n - (xn - n) / 2))
    (-(((xn - n) / 2 : Nat) : Int))
    (-((((leafBits S xn xd).take ((xn - n) / 2)).count true : Nat) : Int))
    (((xn - n) / 2 : Nat) : Int)
    ((((leafBits S xn xd).take ((xn - n) / 2)).count true : Nat) : Int)
    (u32 ((nn : Int) + (((xn - n) / 2 : Nat) : Int)))
    (u32 ((oo : Int) + ((((leafBits S xn xd).take ((xn - n) / 2)).count true : Nat) : Int)))
    wf.sound wf.fresh hN (by omega) hg hgl hgr (by omega) (by omega)
    (by push_cast; omega) (by push_cast; omega) (by omega) (by omega)
    (by intro m hm; simp only [u32]; omega) (by intro m hm; simp only [u32]; omega)
    (by
      have ssub := Sound_getAt t _ q hg wf.sound
      have b1 := totalNums_sub_le t _ q hg
      have br1 := totalNums_sub_le r _ _ hgr
      simp only [totalNums_inner, totalNums_leaf] at b1 br1
      have := ssub.1
      simp only [u32]; omega)
    (by
      have ssub := Sound_getAt t _ q hg wf.sound
      have b2 := totalOnes_sub_le t _ q hg
      have br2 := totalOnes_sub_le r _ _ hgr
      simp only [totalOnes_inner, totalOnes_leaf] at b2 br2
      have := ssub.2.1
      simp only [u32]; omega)
  obtain ⟨w, tl⟩ := two_leaf_wf S t _ q hh nn oo l r hx xn xo xd h n o d _ _ wf hg hgl hgr
    p1 p2 p3 p4 k1 k2 (by simp only [bitsOf]; rw [e1, e2, List.append_assoc,
      List.take_append_drop])
  exact ⟨w, tl, p4⟩

/-! ## Merging -/

theorem refresh_eq (nb : BVNode) (hf : HFresh nb) (hN : totalNums nb < 4294967296)
    (hO : totalOnes nb < 4294967296) : propagate_update nb [] 0 0 = nb := by
  cases nb with
  | leaf h n o d =>
    simp only [totalNums_leaf, totalOnes_leaf] at hN hO
    have e1 : u32 ((n : Int) + 0) = n := by simp only [u32]; omega
    have e2 : u32 ((o : Int) + 0) = o := by simp only [u32]; omega
    have e3 : h = 1 := hf
    simp only [propagate_update, e1, e2, e3]
  | inner h n o l r =>
    simp only [propagate_update]
    rw [← hf.1]

theorem getAt_leaf_some (h n o d : Nat) (a : List Dir) (x : BVNode)
    (hg : getAt (.leaf h n o d) a = some x) : a = [] := by
  cases a with
  | nil => rfl
  | cons dd a => simp [getAt] at hg

theorem getAt_graft_other (F G : Nat → Nat) (t s : BVNode) (p a : List Dir)
    (h1 : ¬ p <+: a) (h2 : ¬ a <+: p) : getAt (graft F G t p s) a = getAt t a := by
  induction p generalizing t a with
  | nil => exact absurd (List.nil_prefix) h1
  | cons d p ih =>
    cases a with
    | nil => exact absurd (List.nil_prefix) h2
    | cons d1 a =>
      cases t with
      | leaf h n o dd => simp [graft]
      | inner hh n o l r =>
        by_cases hd : d = d1
        · subst hd
          have h3 : ¬ p <+: a := fun hc => h1 ((List.prefix_cons_inj d).mpr hc)
          have h4 : ¬ a <+: p := fun hc => h2 ((List.prefix_cons_inj d).mpr hc)
          cases d <;> simp only [graft, getAt] <;> exact ih _ _ h3 h4
        · cases d <;> cases d1 <;> simp only [graft, getAt] <;> exact absurd rfl hd

theorem unlink_props (T : BVNode) (bp : List Dir) (h n o : Nat) (X Y nb : BVNode) (db : Dir)
    (hd dd : Nat) (hs : Sound T) (hf : HFresh T) (hN : totalNums T < 4294967296)
    (hO : totalOnes T < 4294967296) (hg : getAt T bp = some (.inner h n o X Y))
    (hdead : (db = Dir.L ∧ X = .leaf hd 0 0 dd ∧ nb = Y) ∨
      (db = Dir.R ∧ Y = .leaf hd 0 0 dd ∧ nb = X)) :
    propagate_update (setAt T bp nb) bp 0 0
      = graft (fun m => u32 (m + 0)) (fun m => u32 (m + 0)) T bp nb ∧
    getAt T (bp ++ [db.other]) = some nb ∧
    Sound (graft (fun m => u32 (m + 0)) (fun m => u32 (m + 0)) T bp nb) ∧
    HFresh (graft (fun m => u32 (m + 0)) (fun m => u32 (m + 0)) T bp nb) ∧
    leaves (graft (fun m => u32 (m + 0)) (fun m => u32 (m + 0)) T bp nb)
      = preL T (bp ++ [db]) ++ postL T (bp ++ [db]) ∧
    totalNums (graft (fun m => u32 (m + 0)) (fun m => u32 (m + 0)) T bp nb) = totalNums T := by
  have ssub := Sound_getAt T _ bp hg hs
  have fsub := HFresh_getAt T _ bp hg hf
  have b1 := totalNums_sub_le T _ bp hg
  have b2 := totalOnes_sub_le T _ bp hg
  simp only [totalNums_inner, totalOnes_inner] at b1 b2
  have hnb : Sound nb ∧ HFresh nb ∧ totalNums nb = totalNums X + totalNums Y ∧
      totalOnes nb = totalOnes X + totalOnes Y ∧
      getAt (.inner h n o X Y) [db.other] = some nb ∧
      preL (.inner h n o X Y) [db] ++ postL (.inner h n o X Y) [db] = leaves nb := by
    rcases hdead with ⟨e1, e2, e3⟩ | ⟨e1, e2, e3⟩
    · subst e1 e2 e3
      exact ⟨ssub.2.2.2, fsub.2.2, by simp, by simp, by simp [Dir.other, getAt], by simp [preL, postL]⟩
    · subst e1 e2 e3
      exact ⟨ssub.2.2.1, fsub.2.1, by simp, by simp, by simp [Dir.other, getAt], by simp [preL, postL]⟩
  obtain ⟨snb, fnb, tn, tq, gnb, lnb⟩ := hnb
  have g2 := getAt_setAt_same T _ nb bp hg
  have e := propagate_eq_graft (setAt T bp nb) nb bp [] 0 0 g2
  rw [List.append_nil, graft_setAt, refresh_eq nb fnb (by omega) (by omega)] at e
  have gN := totalNums_graft (fun m => u32 (m + 0)) (fun m => u32 (m + 0)) T _ nb bp hg
  simp only [totalNums_inner] at gN
  refine ⟨e, ?_, ?_, ?_, ?_, by omega⟩
  · rw [getAt_append_of T _ bp _ hg]; exact gnb
  · apply Sound_graft _ _ T _ nb bp hg hs snb
    · intro m _ h2; simp only [totalNums_inner, u32]; omega
    · intro m _ h2; simp only [totalOnes_inner, u32]; omega
  · exact HFresh_graft _ _ T _ nb bp hg hf fnb
  · rw [leaves_graft _ _ T _ nb bp hg, preL_append T _ bp _ hg, postL_append T _ bp _ hg,
      ← lnb]
    simp [List.append_assoc]

theorem merge_unlink_eq (T : BVNode) (a bp : List Dir) (db : Dir) (ha : a ≠ [])
    (hab : a ≠ bp ++ [db]) :
    merge_unlink T a (bp ++ [db])
      = match getAt T (bp ++ [db.other]) with
        | some nb =>
          match fix_tree (propagate_update (setAt T bp nb) bp 0 0)
              (if bp <+: a then bp ++ a.drop (bp.length + 1) else a) with
          | some (t1, _) => some t1
          | none => none
        | none => none := by
  unfold merge_unlink
  simp only [List.dropLast_concat, List.getLast?_concat]
  have hother : (if some db = some Dir.L then Dir.R else Dir.L) = db.other := by
    cases db <;> simp [Dir.other]
  rw [hother]
  by_cases hdl : a.dropLast = bp
  · simp only [hdl, if_true]
    have ea : a = bp ++ [a.getLast ha] := by
      rw [← hdl]; exact (List.dropLast_append_getLast ha).symm
    have hlast : a.getLast ha = db.other := by
      cases hl : a.getLast ha <;> cases db <;> simp only [Dir.other] <;>
        first | rfl | (exfalso; apply hab; rw [ea, hl])
    have ea2 : a = bp ++ [db.other] := by rw [← hlast]; exact ea
    have hpre : bp <+: a := by rw [ea2]; exact List.prefix_append _ _
    have hdrop : bp ++ a.drop (bp.length + 1) = bp := by
      rw [ea2]; simp
    simp only [hpre, if_true, hdrop]
    rw [← ea2]
  · simp only [hdl, if_false]

/-- The second half of a merge: the emptied leaf at `b` and its parent are taken out, the
tree is rebalanced from the surviving leaf at `a`, and what is left is well formed. -/
theorem merge_finish (S : Nat) (T : BVNode) (a b : List Dir) (ha na oa da hd dd : Nat)
    (hs : Sound T) (hf : HFresh T) (hN : totalNums T < 4294967296)
    (hO : totalOnes T < 4294967296)
    (hga : getAt T a = some (.leaf ha na oa da)) (hgb : getAt T b = some (.leaf hd 0 0 dd))
    (hab : a ≠ b) (hok : ∀ x ∈ preL T b ++ postL T b, leafOK S x) :
    ∃ T3, merge_unlink T a b = some T3 ∧ WF S T3 ∧ leaves T3 = preL T b ++ postL T b := by
  have hb0 : b ≠ [] := by
    intro hb
    subst hb
    simp only [getAt, Option.some.injEq] at hgb
    subst hgb
    exact hab (getAt_leaf_some _ _ _ _ a _ hga)
  have ha0 : a ≠ [] := by
    intro ha1
    subst ha1
    simp only [getAt, Option.some.injEq] at hga
    subst hga
    exact hab (getAt_leaf_some _ _ _ _ b _ hgb).symm
  have eb : b = b.dropLast ++ [b.getLast hb0] := (List.dropLast_append_getLast hb0).symm
  generalize b.dropLast = bp at eb
  generalize b.getLast hb0 = db at eb
  subst eb
  have hgb2 := hgb
  rw [getAt_append] at hgb2
  cases hp : getAt T bp with
  | none => simp [hp] at hgb2
  | some P =>
    simp only [hp, Option.bind] at hgb2
    cases P with
    | leaf h n o d => simp [getAt] at hgb2
    | inner h n o X Y =>
      have hdead : ∃ nb, (db = Dir.L ∧ X = .leaf hd 0 0 dd ∧ nb = Y) ∨
          (db = Dir.R ∧ Y = .leaf hd 0 0 dd ∧ nb = X) := by
        cases db with
        | L => simp only [getAt, Option.some.injEq] at hgb2; exact ⟨Y, Or.inl ⟨rfl, hgb2, rfl⟩⟩
        | R => simp only [getAt, Option.some.injEq] at hgb2; exact ⟨X, Or.inr ⟨rfl, hgb2, rfl⟩⟩
      obtain ⟨nb, hdead⟩ := hdead
      obtain ⟨e, gnb, s2, f2, l2, n2⟩ := unlink_props T bp h n o X Y nb db hd dd hs hf hN hO hp hdead
      rw [merge_unlink_eq T a bp db ha0 hab]
      simp only [gnb, e]
      have w2 : WF S (graft (fun m => u32 (m + 0)) (fun m => u32 (m + 0)) T bp nb) :=
        ⟨s2, by intro x hx; rw [l2] at hx; exact hok x hx, f2, by omega⟩
      have ga : getAt (graft (fun m => u32 (m + 0)) (fun m => u32 (m + 0)) T bp nb)
          (if bp <+: a then bp ++ a.drop (bp.length + 1) else a)
          = some (.leaf ha na oa da) := by
        by_cases hpre : bp <+: a
        · obtain ⟨w, rfl⟩ := hpre
          simp only [List.prefix_append, if_true]
          rw [getAt_append_of T _ bp w hp] at hga
          cases w with
          | nil => simp [getAt] at hga
          | cons d rest =>
            have hd1 : d = db.other := by
              cases d <;> cases db <;> simp only [Dir.other]
              · exfalso
                rcases hdead with ⟨e1, e2, _⟩ | ⟨e1, _, _⟩
                · subst e2
                  simp only [getAt] at hga
                  have := getAt_leaf_some _ _ _ _ rest _ hga
                  subst this
                  exact hab rfl
                · exact Dir.noConfusion e1
              · exfalso
                rcases hdead with ⟨e1, _, _⟩ | ⟨e1, e2, _⟩
                · exact Dir.noConfusion e1
                · subst e2
                  simp only [getAt] at hga
                  have := getAt_leaf_some _ _ _ _ rest _ hga
                  subst this
                  exact hab rfl
            subst hd1
            have hdrop : (bp ++ db.other :: rest).drop (bp.length + 1) = rest := by
              rw [List.drop_append_eq_append_drop]
              simp
            rw [hdrop, getAt_append_of _ nb bp rest (getAt_graft_same _ _ T _ nb bp hp)]
            rw [getAt_append_of T _ bp _ hp] at gnb
            have : getAt (BVNode.inner h n o X Y) (db.other :: rest) = getAt nb rest := by
              cases db <;> simp only [Dir.other, getAt, Option.some.injEq] at gnb ⊢ <;> rw [gnb]
            rw [← this]; exact hga
        · simp only [hpre, if_false]
          rw [getAt_graft_other _ _ T nb bp a hpre]
          · exact hga
          · intro hc
            obtain ⟨w, rfl⟩ := hc
            rw [getAt_append_of T _ a w hga] at hp
            have := getAt_leaf_some _ _ _ _ w _ hp
            subst this
            simp [getAt] at hp
      obtain ⟨T3, tr3, f3, w3, tk⟩ := fix_tree_spec S _ _ _ (leaf_not_inner ha na oa da) w2 ga
      refine ⟨T3, by simp only [f3], w3, ?_⟩
      rw [Tracks_leaves T3 _ _ _ _ ga tk, l2]

theorem setData_self (t : BVNode) (a : List Dir) (h n o d : Nat)
    (hg : getAt t a = some (.leaf h n o d)) : setData t a d = t := by
  rw [setData_eq t a h n o d d hg]
  exact setAt_self t _ a hg

theorem ne_of_LR (q x y : List Dir) : q ++ Dir.R :: x ≠ q ++ Dir.L :: y := by
  intro h
  have := List.append_cancel_left h
  simp at this

/-- The operation `merge_left` appends the leaf to its left neighbour and removes the neighbour. -/
theorem merge_left_spec (S : Nat) (t : BVNode) (q : List Dir) (hh nn oo : Nat) (l r : BVNode)
    (h n o d hp pn po pd : Nat) (wf : WF S t)
    (hg : getAt t q = some (.inner hh nn oo l r))
    (hgl : getAt l (rightmost l) = some (.leaf hp pn po pd))
    (hgr : getAt r (leftmost r) = some (.leaf h n o d)) (hle : n + pn ≤ S) :
    ∃ t1, merge_left t (q ++ Dir.R :: leftmost r) (q ++ Dir.L :: rightmost l) = some t1 ∧
      WF S t1 ∧ toList S t1 = toList S t ∧ totalNums t1 = totalNums t := by
  have hga : getAt t (q ++ Dir.R :: leftmost r) = some (.leaf h n o d) := by
    rw [getAt_append_of t _ q _ hg]; exact hgr
  have hgb : getAt t (q ++ Dir.L :: rightmost l) = some (.leaf hp pn po pd) := by
    rw [getAt_append_of t _ q _ hg]; exact hgl
  have ok : leafOK S (n, o, d) := by
    apply wf.leaf; rw [leaves_decomp t _ _ hga]; simp [leaves]
  have okp : leafOK S (pn, po, pd) := by
    apply wf.leaf; rw [leaves_decomp t _ _ hgb]; simp [leaves]
  have hO := totalOnes_le_totalNums S t wf.leaf
  have hN := wf.rep
  obtain ⟨e1, k1⟩ := leaf_concat S pn po pd n o d okp ok (by omega)
  have ssub := Sound_getAt t _ q hg wf.sound
  have b1 := totalNums_sub_le t _ q hg
  have bl1 := totalNums_sub_le l _ _ hgl
  have b2 := totalOnes_sub_le t _ q hg
  have bl2 := totalOnes_sub_le l _ _ hgl
  simp only [totalNums_inner, totalNums_leaf, totalOnes_inner, totalOnes_leaf] at b1 bl1 b2 bl2
  have hpre : merge_left_pre_update t (q ++ Dir.R :: leftmost r) (q ++ Dir.L :: rightmost l)
      = some (propagate_update (propagate_update
          (setData (setData t (q ++ Dir.L :: rightmost l) pd) (q ++ Dir.R :: leftmost r)
            (pd ||| (d >>> pn)))
          (q ++ Dir.R :: leftmost r) pn po) (q ++ Dir.L :: rightmost l) (-pn) (-po)) := by
    simp only [merge_left_pre_update, hga, hgb]
    rw [setData_self t _ hp pn po pd hgb]
  simp only [merge_left, hpre]
  rw [two_lift t _ q _ _ _ _ _ _ _ _ hg]
  simp only [setData_inner_L, setData_inner_R, propagate_update]
  obtain ⟨p1, p2, p3, p4⟩ := two_leaf_graft t q (rightmost l) (leftmost r) hh nn oo l r
    (fun m => u32 ((u32 ((m : Int) + (pn : Int)) : Nat) + -(pn : Int)))
    (fun m => u32 ((u32 ((m : Int) + (po : Int)) : Nat) + -(po : Int)))
    h n o d hp pn po pd (pn + n) (po + o) (pd ||| (d >>> pn)) 0 0 pd
    (pn : Int) (po : Int) (-(pn : Int)) (-(po : Int))
    (u32 ((nn : Int) + -(pn : Int))) (u32 ((oo : Int) + -(po : Int)))
    wf.sound wf.fresh hN (by omega) hg hgl hgr (by push_cast; omega) (by push_cast; omega)
    (by omega) (by omega) (by omega) (by omega)
    (by intro m hm; simp only [u32]; omega) (by intro m hm; simp only [u32]; omega)
    (by have := ssub.1; simp only [u32]; omega)
    (by have := ssub.2.1; simp only [u32]; omega)
  obtain ⟨c1, c2, c3, c4, _, _⟩ := two_leaf_ctx t q (rightmost l) (leftmost r) hh nn oo l r
    (fun m => u32 ((u32 ((m : Int) + (pn : Int)) : Nat) + -(pn : Int)))
    (fun m => u32 ((u32 ((m : Int) + (po : Int)) : Nat) + -(po : Int)))
    h n o d hp pn po pd (pn + n) (po + o) (pd ||| (d >>> pn)) 0 0 pd
    (pn : Int) (po : Int) (-(pn : Int)) (-(po : Int))
    (u32 ((nn : Int) + -(pn : Int))) (u32 ((oo : Int) + -(po : Int)))
    (u8 (1 + max (propagate_update (setData l (rightmost l) pd) (rightmost l) (-(pn : Int))
        (-(po : Int))).height
      (propagate_update (setData r (leftmost r) (pd ||| (d >>> pn))) (leftmost r) (pn : Int)
        (po : Int)).height))
    wf.sound hN (by omega) hg hgl hgr (by push_cast; omega) (by push_cast; omega)
    (by omega) (by omega) (by omega) (by omega)
  obtain ⟨_, _, _, _, gl, pl, el⟩ := rightmost_spec l
  obtain ⟨_, _, _, _, gr, pr, er⟩ := leftmost_spec r
  rw [hgl] at gl
  rw [hgr] at gr
  simp only [Option.some.injEq, BVNode.leaf.injEq] at gl gr
  obtain ⟨_, rfl, rfl, rfl⟩ := gl
  obtain ⟨_, rfl, rfl, rfl⟩ := gr
  have ht : leaves t = preL t q ++ (preL l (rightmost l) ++ [(pn, po, pd)])
      ++ ((n, o, d) :: postL r (leftmost r)) ++ postL t q := by
    rw [leaves_decomp t _ q hg, leaves_inner, el, er]
    simp [List.append_assoc]
  rw [pl, pr] at c4
  have old : ∀ y, y ∈ leaves t → leafOK S y := wf.leaf
  rw [ht] at old
  have tO := totalOnes_le_totalNums S t wf.leaf
  have hO1 : totalOnes (graft
      (fun m => u32 ((u32 ((m : Int) + (pn : Int)) : Nat) + -(pn : Int)))
      (fun m => u32 ((u32 ((m : Int) + (po : Int)) : Nat) + -(po : Int))) t q
      (.inner (u8 (1 + max (propagate_update (setData l (rightmost l) pd) (rightmost l)
          (-(pn : Int)) (-(po : Int))).height
        (propagate_update (setData r (leftmost r) (pd ||| (d >>> pn))) (leftmost r) (pn : Int)
          (po : Int)).height))
        (u32 ((nn : Int) + -(pn : Int))) (u32 ((oo : Int) + -(po : Int)))
        (propagate_update (setData l (rightmost l) pd) (rightmost l) (-(pn : Int)) (-(po : Int)))
        (propagate_update (setData r (leftmost r) (pd ||| (d >>> pn))) (leftmost r) (pn : Int)
          (po : Int)))) = totalOnes t := by
    simp only [totalOnes, p3, ht, pl, pr, List.map_append, List.sum_append, List.map_cons,
      List.sum_cons, List.map_nil, List.sum_nil]
    omega
  obtain ⟨T3, m3, w3, l3⟩ := merge_finish S _ (q ++ Dir.R :: leftmost r)
    (q ++ Dir.L :: rightmost l) 1 (pn + n) (po + o) (pd ||| (d >>> pn)) 1 pd p1 p2
    (by rw [p4]; exact hN) (by rw [hO1]; omega) c2 c1 (ne_of_LR q _ _) (by
      intro x hx
      rw [c3, c4] at hx
      simp only [List.mem_append, List.mem_singleton, List.append_nil, List.nil_append,
        List.not_mem_nil, false_or, or_false] at hx
      rcases hx with (hx | hx) | ((hx | hx) | hx)
      · exact old x (by simp [hx])
      · exact old x (by simp [hx])
      · subst hx; exact k1
      · exact old x (by simp [hx])
      · exact old x (by simp [hx]))
  refine ⟨T3, m3, w3, ?_, ?_⟩
  · simp only [toList, l3, c3, c4, ht, List.flatMap_append, List.flatMap_cons, List.flatMap_nil,
      List.append_nil, List.nil_append, List.append_assoc, bitsOf]
    rw [e1]
    simp [List.append_assoc]
  · simp only [totalNums, l3, c3, c4, ht, List.map_append, List.sum_append, List.map_cons,
      List.sum_cons, List.map_nil, List.sum_nil]
    omega

/-- The operation `merge_right` appends the right neighbour to the leaf and removes the neighbour. -/
theorem merge_right_spec (S : Nat) (t : BVNode) (q : List Dir) (hh nn oo : Nat) (l r : BVNode)
    (h n o d hx xn xo xd : Nat) (wf : WF S t)
    (hg : getAt t q = some (.inner hh nn oo l r))
    (hgl : getAt l (rightmost l) = some (.leaf h n o d))
    (hgr : getAt r (leftmost r) = some (.leaf hx xn xo xd)) (hle : n + xn ≤ S) :
    ∃ t1, merge_right t (q ++ Dir.L :: rightmost l) (q ++ Dir.R :: leftmost r) = some t1 ∧
      WF S t1 ∧ toList S t1 = toList S t ∧ totalNums t1 = totalNums t := by
  have hga : getAt t (q ++ Dir.L :: rightmost l) = some (.leaf h n o d) := by
    rw [getAt_append_of t _ q _ hg]; exact hgl
  have hgb : getAt t (q ++ Dir.R :: leftmost r) = some (.leaf hx xn xo xd) := by
    rw [getAt_append_of t _ q _ hg]; exact hgr
  have ok : leafOK S (n, o, d) := by
    apply wf.leaf; rw [leaves_decomp t _ _ hga]; simp [leaves]
  have okx : leafOK S (xn, xo, xd) := by
    apply wf.leaf; rw [leaves_decomp t _ _ hgb]; simp [leaves]
  have hO := totalOnes_le_totalNums S t wf.leaf
  have hN := wf.rep
  obtain ⟨e1, k1⟩ := leaf_concat S n o d xn xo xd ok okx hle
  have ssub := Sound_getAt t _ q hg wf.sound
  have b1 := totalNums_sub_le t _ q hg
  have br1 := totalNums_sub_le r _ _ hgr
  have b2 := totalOnes_sub_le t _ q hg
  have br2 := totalOnes_sub_le r _ _ hgr
  simp only [totalNums_inner, totalNums_leaf, totalOnes_inner, totalOnes_leaf] at b1 br1 b2 br2
  have hpre : merge_right_pre_update t (q ++ Dir.L :: rightmost l) (q ++ Dir.R :: leftmost r)
      = some (propagate_update (propagate_update
          (setData (setData t (q ++ Dir.R :: leftmost r) xd) (q ++ Dir.L :: rightmost l)
            (d ||| (xd >>> n)))
          (q ++ Dir.L :: rightmost l) xn xo) (q ++ Dir.R :: leftmost r) (-xn) (-xo)) := by
    simp only [merge_right_pre_update, hga, hgb]
    rw [setData_self t _ hx xn xo xd hgb]
  simp only [merge_right, hpre]
  rw [two_lift t _ q _ _ _ _ _ _ _ _ hg]
  simp only [setData_inner_L, setData_inner_R, propagate_update]
  obtain ⟨p1, p2, p3, p4⟩ := two_leaf_graft t q (rightmost l) (leftmost r) hh nn oo l r
    (fun m => u32 ((u32 ((m : Int) + (xn : Int)) : Nat) + -(xn : Int)))
    (fun m => u32 ((u32 ((m : Int) + (xo : Int)) : Nat) + -(xo : Int)))
    hx xn xo xd h n o d 0 0 xd (n + xn) (o + xo) (d ||| (xd >>> n))
    (-(xn : Int)) (-(xo : Int)) (xn : Int) (xo : Int)
    (u32 ((nn : Int) + (xn : Int))) (u32 ((oo : Int) + (xo : Int)))
    wf.sound wf.fresh hN (by omega) hg hgl hgr (by omega) (by omega)
    (by push_cast; omega) (by push_cast; omega) (by omega) (by omega)
    (by intro m hm; simp only [u32]; omega) (by intro m hm; simp only [u32]; omega)
    (by have := ssub.1; simp only [u32]; omega)
    (by have := ssub.2.1; simp only [u32]; omega)
  obtain ⟨c1, c2, _, _, c5, c6⟩ := two_leaf_ctx t q (rightmost l) (leftmost r) hh nn oo l r
    (fun m => u32 ((u32 ((m : Int) + (xn : Int)) : Nat) + -(xn : Int)))
    (fun m => u32 ((u32 ((m : Int) + (xo : Int)) : Nat) + -(xo : Int)))
    hx xn xo xd h n o d 0 0 xd (n + xn) (o + xo) (d ||| (xd >>> n))
    (-(xn : Int)) (-(xo : Int)) (xn : Int) (xo : Int)
    (u32 ((nn : Int) + (xn : Int))) (u32 ((oo : Int) + (xo : Int)))
    (u8 (1 + max (propagate_update (setData l (rightmost l) (d ||| (xd >>> n))) (rightmost l)
        (xn : Int) (xo : Int)).height
      (propagate_update (setData r (leftmost r) xd) (leftmost r) (-(xn : Int))
        (-(xo : Int))).height))
    wf.sound hN (by omega) hg hgl hgr (by omega) (by omega)
    (by push_cast; omega) (by push_cast; omega) (by omega) (by omega)
  obtain ⟨_, _, _, _, gl, pl, el⟩ := rightmost_spec l
  obtain ⟨_, _, _, _, gr, pr, er⟩ := leftmost_spec r
  rw [hgl] at gl
  rw [hgr] at gr
  simp only [Option.some.injEq, BVNode.leaf.injEq] at gl gr
  obtain ⟨_, rfl, rfl, rfl⟩ := gl
  obtain ⟨_, rfl, rfl, rfl⟩ := gr
  have ht : leaves t = preL t q ++ (preL l (rightmost l) ++ [(n, o, d)])
      ++ ((xn, xo, xd) :: postL r (leftmost r)) ++ postL t q := by
    rw [leaves_decomp t _ q hg, leaves_inner, el, er]
    simp [List.append_assoc]
  rw [pl, pr] at c5
  have old : ∀ y, y ∈ leaves t → leafOK S y := wf.leaf
  rw [ht] at old
  have tO := totalOnes_le_totalNums S t wf.leaf
  have hO1 : totalOnes (graft
      (fun m => u32 ((u32 ((m : Int) + (xn : Int)) : Nat) + -(xn : Int)))
      (fun m => u32 ((u32 ((m : Int) + (xo : Int)) : Nat) + -(xo : Int))) t q
      (.inner (u8 (1 + max (propagate_update (setData l (rightmost l) (d ||| (xd >>> n)))
          (rightmost l) (xn : Int) (xo : Int)).height
        (propagate_update (setData r (leftmost r) xd) (leftmost r) (-(xn : Int))
          (-(xo : Int))).height))
        (u32 ((nn : Int) + (xn : Int))) (u32 ((oo : Int) + (xo : Int)))
        (propagate_update (setData l (rightmost l) (d ||| (xd >>> n))) (rightmost l) (xn : Int)
          (xo : Int))
        (propagate_update (setData r (leftmost r) xd) (leftmost r) (-(xn : Int))
          (-(xo : Int))))) = totalOnes t := by
    simp only [totalOnes, p3, ht, pl, pr, List.map_append, List.sum_append, List.map_cons,
      List.sum_cons, List.map_nil, List.sum_nil]
    omega
  obtain ⟨T3, m3, w3, l3⟩ := merge_finish S _ (q ++ Dir.L :: rightmost l)
    (q ++ Dir.R :: leftmost r) 1 (n + xn) (o + xo) (d ||| (xd >>> n)) 1 xd p1 p2
    (by rw [p4]; exact hN) (by rw [hO1]; omega) c1 c2 (ne_of_LR q _ _).symm (by
      intro x hm
      rw [c5, c6] at hm
      simp only [List.mem_append, List.mem_singleton, List.append_nil, List.nil_append,
        List.not_mem_nil, false_or, or_false] at hm
      rcases hm with (hm | (hm | hm)) | (hm | hm)
      · exact old x (by simp [hm])
      · exact old x (by simp [hm])
      · subst hm; exact k1
      · exact old x (by simp [hm])
      · exact old x (by simp [hm]))
  refine ⟨T3, m3, w3, ?_, ?_⟩
  · simp only [toList, l3, c5, c6, ht, List.flatMap_append, List.flatMap_cons, List.flatMap_nil,
      List.append_nil, List.nil_append, List.append_assoc, bitsOf]
    rw [e1]
    simp [List.append_assoc]
  · simp only [totalNums, l3, c5, c6, ht, List.map_append, List.sum_append, List.map_cons,
      List.sum_cons, List.map_nil, List.sum_nil]
    omega

theorem steal_left_at (S : Nat) (t : BVNode) (a b : List Dir) (h n o d hp pn po pd : Nat)
    (wf : WF S t) (hga : getAt t a = some (.leaf h n o d)) (hpv : prev_leaf t a = some b)
    (hgb : getAt t b = some (.leaf hp pn po pd)) (hle : n ≤ pn) :
    ∃ t1, steal_left S t a b = some t1 ∧
      WF S t1 ∧ toList S t1 = toList S t ∧ totalNums t1 = totalNums t := by
  obtain ⟨q, hh, nn, oo, l, r, hg, ea, eb⟩ :=
    prev_leaf_lca t a b _ (leaf_not_inner h n o d) hga hpv
  subst ea; subst eb
  rw [getAt_append_of t _ q _ hg] at hga hgb
  exact steal_left_spec S t q hh nn oo l r h n o d hp pn po pd wf hg hgb hga hle

theorem merge_left_at (S : Nat) (t : BVNode) (a b : List Dir) (h n o d hp pn po pd : Nat)
    (wf : WF S t) (hga : getAt t a = some (.leaf h n o d)) (hpv : prev_leaf t a = some b)
    (hgb : getAt t b = some (.leaf hp pn po pd)) (hle : n + pn ≤ S) :
    ∃ t1, merge_left t a b = some t1 ∧
      WF S t1 ∧ toList S t1 = toList S t ∧ totalNums t1 = totalNums t := by
  obtain ⟨q, hh, nn, oo, l, r, hg, ea, eb⟩ :=
    prev_leaf_lca t a b _ (leaf_not_inner h n o d) hga hpv
  subst ea; subst eb
  rw [getAt_append_of t _ q _ hg] at hga hgb
  exact merge_left_spec S t q hh nn oo l r h n o d hp pn po pd wf hg hgb hga hle

theorem steal_right_at (S : Nat) (t : BVNode) (a b : List Dir) (h n o d hx xn xo xd : Nat)
    (wf : WF S t) (hga : getAt t a = some (.leaf h n o d)) (hnx : next_leaf t a = some b)
    (hgb : getAt t b = some (.leaf hx xn xo xd)) (hle : n ≤ xn) :
    ∃ t1, steal_right S t a b = some t1 ∧
      WF S t1 ∧ toList S t1 = toList S t ∧ totalNums t1 = totalNums t := by
  obtain ⟨q, hh, nn, oo, l, r, hg, ea, eb⟩ :=
    next_leaf_lca t a b _ (leaf_not_inner h n o d) hga hnx
  subst ea; subst eb
  rw [getAt_append_of t _ q _ hg] at hga hgb
  exact steal_right_spec S t q hh nn oo l r h n o d hx xn xo xd wf hg hga hgb hle

theorem merge_right_at (S : Nat) (t : BVNode) (a b : List Dir) (h n o d hx xn xo xd : Nat)
    (wf : WF S t) (hga : getAt t a = some (.leaf h n o d)) (hnx : next_leaf t a = some b)
    (hgb : getAt t b = some (.leaf hx xn xo xd)) (hle : n + xn ≤ S) :
    ∃ t1, merge_right t a b = some t1 ∧
      WF S t1 ∧ toList S t1 = toList S t ∧ totalNums t1 = totalNums t := by
  obtain ⟨q, hh, nn, oo, l, r, hg, ea, eb⟩ :=
    next_leaf_lca t a b _ (leaf_not_inner h n o d) hga hnx
  subst ea; subst eb
  rw [getAt_append_of t _ q _ hg] at hga hgb
  exact merge_right_spec S t q hh nn oo l r h n o d hx xn xo xd wf hg hga hgb hle

/-- The rebalancing policy of `del` returns on every well-formed tree and changes neither the
sequence nor the invariants, whichever of its five paths it takes. -/
theorem del_rebalance_spec (S : Nat) (t : BVNode) (a : List Dir) (h n o d : Nat)
    (wf : WF S t) (hg : getAt t a = some (.leaf h n o d)) :
    ∃ t1, del_rebalance S t a = some t1 ∧
      WF S t1 ∧ toList S t1 = toList S t ∧ totalNums t1 = totalNums t := by
  simp only [del_rebalance, hg]
  by_cases hb : n > LOWER_BOUND S
  · simp only [hb, if_true]
    exact ⟨t, rfl, wf, rfl, rfl⟩
  · simp only [hb, if_false]
    simp only [LOWER_BOUND] at hb
    rcases prev_leaf_spec t a h n o d hg with ⟨hp, _⟩ | ⟨p, h1, n1, o1, d1, hp, gp, _, _⟩ <;>
      rcases next_leaf_spec t a h n o d hg with ⟨hx, _⟩ | ⟨x, h2, n2, o2, d2, hx, gx, _, _⟩
    · simp only [hp, hx]
      exact ⟨t, rfl, wf, rfl, rfl⟩
    · simp only [hp, hx, gx, BVNode.nums, SPLIT_BOUND]
      by_cases c : n2 ≥ S * 3 / 4
      · simp only [c, if_true]
        exact steal_right_at S t a x h n o d h2 n2 o2 d2 wf hg hx gx (by omega)
      · simp only [c, if_false]
        exact merge_right_at S t a x h n o d h2 n2 o2 d2 wf hg hx gx (by omega)
    · simp only [hp, hx, gp, BVNode.nums, SPLIT_BOUND]
      by_cases c : n1 ≥ S * 3 / 4
      · simp only [c, if_true]
        exact steal_left_at S t a p h n o d h1 n1 o1 d1 wf hg hp gp (by omega)
      · simp only [c, if_false]
        exact merge_left_at S t a p h n o d h1 n1 o1 d1 wf hg hp gp (by omega)
    · simp only [hp, hx, gp, gx, BVNode.nums, SPLIT_BOUND]
      by_cases c : n1 ≥ S * 3 / 4 ∨ n2 ≥ S * 3 / 4
      · simp only [c, if_true]
        by_cases c2 : n1 > n2
        · simp only [c2, if_true]
          exact steal_left_at S t a p h n o d h1 n1 o1 d1 wf hg hp gp (by omega)
        · simp only [c2, if_false]
          exact steal_right_at S t a x h n o d h2 n2 o2 d2 wf hg hx gx (by omega)
      · simp only [c, if_false]
        by_cases c2 : n1 < n2
        · simp only [c2, if_true]
          exact merge_left_at S t a p h n o d h1 n1 o1 d1 wf hg hp gp (by omega)
        · simp only [c2, if_false]
          exact merge_right_at S t a x h n o d h2 n2 o2 d2 wf hg hx gx (by omega)

/-- The operation `del` on a well-formed tree: it returns, the tree stays well formed and the sequence
loses the bit at index `i`. -/
theorem del_spec (S : Nat) (t : BVNode) (i : Nat) (wf : WF S t) (hi : i < totalNums t) :
    ∃ t1, del S t i = some t1 ∧ WF S t1 ∧ totalNums t1 + 1 = totalNums t ∧
      toList S t1 = (toList S t).eraseIdx i := by
  obtain ⟨h, n, o, d, g, p, _, b2⟩ := find_block_spec t i wf.sound
  have hj := b2 hi
  have ok : leafOK S (n, o, d) := by
    apply wf.leaf
    rw [leaves_decomp t _ _ g]
    simp [leaves]
  have hnS := ok.1
  have hlen : ((preL t (find_block t i).1).flatMap (bitsOf S)).length + (find_block t i).2 = i := by
    rw [length_flatMap_bitsOf]; exact p
  have hbl : (leafBits S n d).length = n := by simp [leafBits]
  have hge : ¬ (find_block t i).2 ≥ S := by omega
  simp only [del, hge, if_false, g]
  obtain ⟨e1, k1⟩ := leaf_delete S n o d (find_block t i).2 ok hj
  have hcnt := count_eraseIdx (leafBits S n d) (find_block t i).2 (by omega)
  rw [getElem_leafBits] at hcnt
  have ho := leafOK_ones S n o d ok
  have b1 := totalNums_sub_le t _ _ g
  simp only [totalNums_leaf] at b1
  obtain ⟨w1, tn1, tl1, g1, _, _⟩ := leaf_update_spec S t (find_block t i).1 h n o d (n - 1)
    (((leafBits S n d).eraseIdx (find_block t i).2).count true)
    (d &&& bnot S (FULL_MASK S >>> (find_block t i).2)
      ||| shl S (d &&& (FULL_MASK S >>> ((find_block t i).2 + 1))) 1)
    (-1) (if d.testBit (S - (find_block t i).2 - 1) then -1 else 0) wf g (by omega)
    (by
      simp only [gb] at hcnt
      split_ifs with c
      · simp only [c, if_true] at hcnt; omega
      · simp only [c] at hcnt; simp at hcnt; omega)
    k1 (by have := wf.rep; omega)
  obtain ⟨t2, e2, w2, tl2, tn2⟩ := del_rebalance_spec S _ (find_block t i).1 1 _ _ _ w1 g1
  refine ⟨t2, e2, w2, by omega, ?_⟩
  rw [tl2, tl1, e1, toList_decomp S t _ _ g, toList_leaf]
  have key := erase_in_ctx ((preL t (find_block t i).1).flatMap (bitsOf S)) (leafBits S n d)
    ((postL t (find_block t i).1).flatMap (bitsOf S)) (find_block t i).2 (by omega)
  rw [hlen] at key
  rw [key]

theorem u32_nat (x : Nat) (h : x < 4294967296) : u32 (x : Int) = x := by
  simp only [u32]; omega

theorem replicate_add {α : Type} (a : α) (m n : Nat) :
    List.replicate m a ++ List.replicate n a = List.replicate (m + n) a := by
  induction m with
  | zero => simp
  | succ m ih =>
    rw [List.replicate_succ, List.cons_append, ih, show m + 1 + n = (m + n) + 1 by omega,
      List.replicate_succ]

/-- The tree built for `n` leaves has `max 1 n` leaves, all fresh. -/
theorem leaves_build (f n : Nat) (h : n ≤ f) :
    leaves (build_balanced_tree f n) = List.replicate (max 1 n) (0, 0, 0) := by
  induction f generalizing n with
  | zero =>
    have : n = 0 := by omega
    subst this
    rfl
  | succ f ih =>
    by_cases c : n ≤ 1
    · have e : max 1 n = 1 := by omega
      simp only [build_balanced_tree, c, if_true, e]
      rfl
    · simp only [build_balanced_tree, c, if_false, leaves_inner]
      rw [ih (n / 2) (by omega), ih (n - n / 2) (by omega), replicate_add]
      congr 1
      omega

/-- The inner loop of the constructor writes the bits of one chunk and counts them. -/
theorem fill_leaf_spec (S : Nat) (bits : List Bool) (i f j d : Nat) (hf : j + f ≤ S) :
    (fill_leaf S bits i f j d).2 = min (j + f) (max j (bits.length - i * TARGET_SIZE S)) ∧
    ∀ x, x < S → gb S (fill_leaf S bits i f j d).1 x
      = if j ≤ x ∧ x < (fill_leaf S bits i f j d).2 then bits.getD (i * TARGET_SIZE S + x) false
        else gb S d x := by
  induction f generalizing j d with
  | zero =>
    simp only [fill_leaf]
    refine ⟨by omega, ?_⟩
    intro x _
    have : ¬ (j ≤ x ∧ x < j) := by omega
    simp only [this, if_false]
  | succ f ih =>
    by_cases c : i * TARGET_SIZE S + j < bits.length
    · simp only [fill_leaf, c, if_true]
      obtain ⟨h1, h2⟩ := ih (j + 1)
        (assignBit d (S - j - 1) (bits.getD (i * TARGET_SIZE S + j) false)) (by omega)
      refine ⟨by rw [h1]; omega, ?_⟩
      intro x hx
      rw [h2 x hx, gb_assign S d j x _ hx (by omega)]
      have hj2 : j + 1 ≤ (fill_leaf S bits i f (j + 1)
          (assignBit d (S - j - 1) (bits.getD (i * TARGET_SIZE S + j) false))).2 := by
        rw [h1]; omega
      by_cases c1 : x = j
      · subst c1
        have a1 : ¬ (x + 1 ≤ x ∧ x < (fill_leaf S bits i f (x + 1)
          (assignBit d (S - x - 1) (bits.getD (i * TARGET_SIZE S + x) false))).2) := by omega
        have a2 : x ≤ x ∧ x < (fill_leaf S bits i f (x + 1)
          (assignBit d (S - x - 1) (bits.getD (i * TARGET_SIZE S + x) false))).2 :=
          ⟨le_refl _, by omega⟩
        rw [if_neg a1, if_pos a2, if_pos rfl]
      · by_cases c2 : j + 1 ≤ x ∧ x < (fill_leaf S bits i f (j + 1)
          (assignBit d (S - j - 1) (bits.getD (i * TARGET_SIZE S + j) false))).2
        · have a2 : j ≤ x ∧ x < (fill_leaf S bits i f (j + 1)
            (assignBit d (S - j - 1) (bits.getD (i * TARGET_SIZE S + j) false))).2 :=
            ⟨by omega, c2.2⟩
          simp only [c2, a2, and_self, if_true]
        · have a2 : ¬ (j ≤ x ∧ x < (fill_leaf S bits i f (j + 1)
            (assignBit d (S - j - 1) (bits.getD (i * TARGET_SIZE S + j) false))).2) := by
            omega
          simp only [c2, a2, c1, if_false]
    · simp only [fill_leaf, c, if_false]
      refine ⟨by omega, ?_⟩
      intro x _
      have : ¬ (j ≤ x ∧ x < j) := by omega
      simp only [this, if_false]

/-- The bits of a filled leaf are the chunk of the sequence it was filled from. -/
theorem fill_leaf_bits (S : Nat) (bits : List Bool) (i d : Nat) (hT : 2 * TARGET_SIZE S ≤ S) :
    (fill_leaf S bits i (TARGET_SIZE S) 0 d).2 ≤ TARGET_SIZE S ∧
    (fill_leaf S bits i (TARGET_SIZE S) 0 d).2 ≤ bits.length ∧
    leafBits S (fill_leaf S bits i (TARGET_SIZE S) 0 d).2
        (fill_leaf S bits i (TARGET_SIZE S) 0 d).1
      = (bits.drop (i * TARGET_SIZE S)).take (TARGET_SIZE S) := by
  obtain ⟨h1, h2⟩ := fill_leaf_spec S bits i (TARGET_SIZE S) 0 d (by omega)
  refine ⟨by omega, by omega, ?_⟩
  apply List.ext_getElem?
  intro x
  rw [leafBits_eq, List.getElem?_take, List.getElem?_drop, List.getElem?_map]
  by_cases c : x < (fill_leaf S bits i (TARGET_SIZE S) 0 d).2
  · rw [List.getElem?_range c]
    have a1 : x < TARGET_SIZE S := by omega
    have a2 : i * TARGET_SIZE S + x < bits.length := by omega
    have a3 : 0 ≤ x ∧ x < (fill_leaf S bits i (TARGET_SIZE S) 0 d).2 := ⟨by omega, c⟩
    simp only [Option.map_some', a1, if_true, h2 x (by omega), a3, and_self,
      List.getD_eq_getElem bits false a2, List.getElem?_eq_getElem a2]
  · have a0 : (List.range (fill_leaf S bits i (TARGET_SIZE S) 0 d).2)[x]? = none := by
      apply List.getElem?_eq_none
      simp only [List.length_range]
      omega
    rw [a0]
    by_cases a1 : x < TARGET_SIZE S
    · have a2 : bits.length ≤ i * TARGET_SIZE S + x := by omega
      simp only [Option.map_none', a1, if_true, List.getElem?_eq_none a2]
    · simp only [Option.map_none', a1, if_false]

/-- The outer loop of the constructor fills the `k` fresh leaves that follow `pre` with the
next `k` chunks of the sequence. -/
theorem fill_loop_spec (S : Nat) (bits : List Bool) (hT : 2 * TARGET_SIZE S ≤ S)
    (hL : bits.length < 4294967296) (k : Nat) :
    ∀ (i : Nat) (t : BVNode) (cur : Option (List Dir)) (pre : List (Nat × Nat × Nat)),
    leaves t = pre ++ List.replicate k (0, 0, 0) →
    (∀ x ∈ pre, x.1 ≤ S) →
    (∀ k1, k = k1 + 1 → ∃ a hh, cur = some a ∧ getAt t a = some (.leaf hh 0 0 0) ∧
      preL t a = pre ∧ postL t a = List.replicate k1 (0, 0, 0)) →
    ∃ t1, fill_loop S bits k i t cur = some t1 ∧ (∀ x ∈ leaves t1, x.1 ≤ S) ∧
      toList S t1 = pre.flatMap (bitsOf S)
        ++ (bits.drop (i * TARGET_SIZE S)).take (k * TARGET_SIZE S) := by
  induction k with
  | zero =>
    intro i t cur pre hl hp _
    refine ⟨t, rfl, ?_, ?_⟩
    · rw [hl]; simpa using hp
    · simp [toList, hl]
  | succ k ih =>
    intro i t cur pre hl hp hc
    obtain ⟨a, hh, rfl, hg, hpre, hpost⟩ := hc k rfl
    obtain ⟨w1, w2, w3⟩ := fill_leaf_bits S bits i 0 hT
    have e1 := leaf_update_eq t a hh 0 0 0 (fill_leaf S bits i (TARGET_SIZE S) 0 0).1
      ((fill_leaf S bits i (TARGET_SIZE S) 0 0).2 : Int)
      ((count S (fill_leaf S bits i (TARGET_SIZE S) 0 0).1 : Nat) : Int) hg
    have en : u32 (((0 : Nat) : Int) + ((fill_leaf S bits i (TARGET_SIZE S) 0 0).2 : Int))
        = (fill_leaf S bits i (TARGET_SIZE S) 0 0).2 := by
      simp only [u32]; omega
    rw [en] at e1
    simp only [fill_loop, hg, e1]
    have g1 := getAt_graft_same
      (fun m => u32 ((m : Int) + ((fill_leaf S bits i (TARGET_SIZE S) 0 0).2 : Int)))
      (fun m => u32 ((m : Int) + ((count S (fill_leaf S bits i (TARGET_SIZE S) 0 0).1 : Nat) : Int)))
      t _ (.leaf 1 (fill_leaf S bits i (TARGET_SIZE S) 0 0).2
        (u32 (((0 : Nat) : Int) + ((count S (fill_leaf S bits i (TARGET_SIZE S) 0 0).1 : Nat) : Int)))
        (fill_leaf S bits i (TARGET_SIZE S) 0 0).1) a hg
    have l1 := leaves_graft
      (fun m => u32 ((m : Int) + ((fill_leaf S bits i (TARGET_SIZE S) 0 0).2 : Int)))
      (fun m => u32 ((m : Int) + ((count S (fill_leaf S bits i (TARGET_SIZE S) 0 0).1 : Nat) : Int)))
      t _ (.leaf 1 (fill_leaf S bits i (TARGET_SIZE S) 0 0).2
        (u32 (((0 : Nat) : Int) + ((count S (fill_leaf S bits i (TARGET_SIZE S) 0 0).1 : Nat) : Int)))
        (fill_leaf S bits i (TARGET_SIZE S) 0 0).1) a hg
    have p1 := preL_graft
      (fun m => u32 ((m : Int) + ((fill_leaf S bits i (TARGET_SIZE S) 0 0).2 : Int)))
      (fun m => u32 ((m : Int) + ((count S (fill_leaf S bits i (TARGET_SIZE S) 0 0).1 : Nat) : Int)))
      t _ (.leaf 1 (fill_leaf S bits i (TARGET_SIZE S) 0 0).2
        (u32 (((0 : Nat) : Int) + ((count S (fill_leaf S bits i (TARGET_SIZE S) 0 0).1 : Nat) : Int)))
        (fill_leaf S bits i (TARGET_SIZE S) 0 0).1) a hg
    have q1 := postL_graft
      (fun m => u32 ((m : Int) + ((fill_leaf S bits i (TARGET_SIZE S) 0 0).2 : Int)))
      (fun m => u32 ((m : Int) + ((count S (fill_leaf S bits i (TARGET_SIZE S) 0 0).1 : Nat) : Int)))
      t _ (.leaf 1 (fill_leaf S bits i (TARGET_SIZE S) 0 0).2
        (u32 (((0 : Nat) : Int) + ((count S (fill_leaf S bits i (TARGET_SIZE S) 0 0).1 : Nat) : Int)))
        (fill_leaf S bits i (TARGET_SIZE S) 0 0).1) a hg
    rw [hpre] at p1 l1
    rw [hpost] at q1 l1
    simp only [leaves_leaf] at l1
    obtain ⟨t2, f2, b2, tl2⟩ := ih (i + 1) _
      (next_leaf _ a)
      (pre ++ [((fill_leaf S bits i (TARGET_SIZE S) 0 0).2,
        u32 (((0 : Nat) : Int) + ((count S (fill_leaf S bits i (TARGET_SIZE S) 0 0).1 : Nat) : Int)),
        (fill_leaf S bits i (TARGET_SIZE S) 0 0).1)])
      l1
      (by
        intro x hx
        simp only [List.mem_append, List.mem_singleton] at hx
        rcases hx with hx | hx
        · exact hp x hx
        · subst hx
          show (fill_leaf S bits i (TARGET_SIZE S) 0 0).2 ≤ S
          omega)
      (by
        intro k1 hk1
        rcases next_leaf_spec _ a _ _ _ _ g1 with ⟨_, hn⟩ | ⟨b, h1, n1, o1, d1, hn, gb1, pb, qb⟩
        · rw [q1, hk1, List.replicate_succ] at hn
          exact absurd hn (List.cons_ne_nil _ _)
        · rw [q1, hk1, List.replicate_succ] at pb
          simp only [List.cons.injEq, Prod.mk.injEq] at pb
          obtain ⟨⟨rfl, rfl, rfl⟩, pb2⟩ := pb
          refine ⟨b, h1, hn, gb1, ?_, pb2.symm⟩
          rw [qb, p1])
    refine ⟨t2, f2, b2, ?_⟩
    rw [tl2, List.flatMap_append]
    simp only [List.flatMap_cons, List.flatMap_nil, List.append_nil, bitsOf]
    rw [w3, show (k + 1) * TARGET_SIZE S = TARGET_SIZE S + k * TARGET_SIZE S by
      rw [Nat.add_mul]; omega, List.take_add, List.drop_drop,
      show (i + 1) * TARGET_SIZE S = i * TARGET_SIZE S + TARGET_SIZE S by
        rw [Nat.add_mul]; omega, List.append_assoc]

/-- The sequence constructor returns a tree that `extract` reads back as the sequence. -/
theorem construct_spec (S : Nat) (bits : List Bool) (hS : 2 ≤ S)
    (hL : bits.length < 4294967296) :
    ∃ t, construct S bits = some t ∧ (∀ x ∈ leaves t, x.1 ≤ S) ∧ toList S t = bits := by
  have hT0 : 0 < TARGET_SIZE S := by simp only [TARGET_SIZE]; omega
  have hT : 2 * TARGET_SIZE S ≤ S := by simp only [TARGET_SIZE]; omega
  have hTn : ¬ TARGET_SIZE S = 0 := by omega
  have hm1 : (bits.length + TARGET_SIZE S - 1) / TARGET_SIZE S < bits.length + 1 := by
    apply Nat.div_lt_of_lt_mul
    have h1 := Nat.le_mul_of_pos_left bits.length hT0
    have h2 : TARGET_SIZE S * (bits.length + 1)
        = TARGET_SIZE S * bits.length + TARGET_SIZE S := by ring
    omega
  have hm2 := Nat.lt_mul_div_succ (bits.length + TARGET_SIZE S - 1) hT0
  rw [Nat.mul_add, Nat.mul_one] at hm2
  simp only [construct, hTn, if_false]
  have hu : u32 (((bits.length + TARGET_SIZE S - 1) / TARGET_SIZE S : Nat) : Int)
      = (bits.length + TARGET_SIZE S - 1) / TARGET_SIZE S := u32_nat _ (by omega)
  rw [hu]
  generalize hm : (bits.length + TARGET_SIZE S - 1) / TARGET_SIZE S = m at hm1 hm2
  rcases Nat.eq_zero_or_pos m with h0 | hpos
  · subst h0
    have hb : bits = [] := by
      apply List.eq_nil_of_length_eq_zero
      omega
    subst hb
    refine ⟨BVNode.fresh, rfl, ?_, rfl⟩
    intro x hx
    simp only [BVNode.fresh, leaves_leaf, List.mem_singleton] at hx
    subst hx
    exact Nat.zero_le _
  · have hl := leaves_build m m (le_refl _)
    rw [show max 1 m = (m - 1) + 1 by omega, List.replicate_succ] at hl
    obtain ⟨h, n, o, d, g, p, e⟩ := leftmost_spec (build_balanced_tree m m)
    rw [hl] at e
    simp only [List.cons.injEq, Prod.mk.injEq] at e
    obtain ⟨⟨rfl, rfl, rfl⟩, e2⟩ := e
    obtain ⟨t1, f1, b1, tl1⟩ := fill_loop_spec S bits hT hL m 0 (build_balanced_tree m m)
      (some (leftmost (build_balanced_tree m m))) []
      (by rw [leaves_build m m (le_refl _), List.nil_append]; congr 1; omega)
      (by intro x hx; exact absurd hx (List.not_mem_nil _))
      (by
        intro k1 hk1
        refine ⟨_, h, rfl, g, p, ?_⟩
        rw [← e2]
        congr 1
        omega)
    refine ⟨t1, f1, b1, ?_⟩
    rw [tl1]
    simp only [List.flatMap_nil, List.nil_append, Nat.zero_mul, List.drop_zero]
    apply List.take_of_length_le
    rw [Nat.mul_comm]
    omega

theorem WF_cap (S : Nat) (t : BVNode) (wf : WF S t) : ∀ x ∈ leaves t, x.1 ≤ S :=
  fun x hx => (wf.leaf x hx).1

/-- On a well-formed tree `extract` returns the represented sequence and `size` its
length. -/
theorem read_top (S : Nat) (t : BVNode) (wf : WF S t) :
    extract S t = some (toList S t) ∧ size t = totalNums t ∧
      (toList S t).length = totalNums t :=
  ⟨extract_eq S t (WF_cap S t wf), size_eq t wf.sound wf.rep, length_toList S t⟩

theorem size_le (t : BVNode) (hs : Sound t) : size t ≤ totalNums t := by
  induction t with
  | leaf h n o d => simp [size]
  | inner h n o l r _ ihr =>
    have := ihr hs.2.2.2
    have := hs.1
    simp only [size, totalNums_inner, u32]
    omega

theorem set_spec (S : Nat) (t : BVNode) (i : Nat) (wf : WF S t) (hi : i < totalNums t) :
    ∃ t1, set S t i = some t1 ∧ WF S t1 ∧ totalNums t1 = totalNums t ∧
      toList S t1 = (toList S t).set i true := by
  obtain ⟨h, n, o, d, g, hj, hn, w1, tn1, b, _, tl1⟩ := write_spec S t i wf hi
    (fun d idx => assignBit d (S - idx - 1) true)
    (fun d idx => if d.testBit (S - idx - 1) then 0 else 1) (fun _ => true)
    (fun n o d idx ok hidx => leaf_assign S n o d idx true ok hidx)
    (by intro d idx; simp only [gb]; split_ifs <;> simp_all)
  refine ⟨_, ?_, w1, tn1, tl1⟩
  simp only [set, g, bitpos_of_lt S _ (show (find_block t i).2 < S by omega)]

theorem unset_spec (S : Nat) (t : BVNode) (i : Nat) (wf : WF S t) (hi : i < totalNums t) :
    ∃ t1, unset S t i = some t1 ∧ WF S t1 ∧ totalNums t1 = totalNums t ∧
      toList S t1 = (toList S t).set i false := by
  obtain ⟨h, n, o, d, g, hj, hn, w1, tn1, b, _, tl1⟩ := write_spec S t i wf hi
    (fun d idx => assignBit d (S - idx - 1) false)
    (fun d idx => if d.testBit (S - idx - 1) then -1 else 0) (fun _ => false)
    (fun n o d idx ok hidx => leaf_assign S n o d idx false ok hidx)
    (by intro d idx; simp only [gb]; split_ifs <;> simp_all)
  refine ⟨_, ?_, w1, tn1, tl1⟩
  simp only [unset, g, bitpos_of_lt S _ (show (find_block t i).2 < S by omega)]

theorem flip_spec (S : Nat) (t : BVNode) (i : Nat) (wf : WF S t) (hi : i < totalNums t) :
    ∃ t1 b, flip S t i = some t1 ∧ WF S t1 ∧ totalNums t1 = totalNums t ∧
      (toList S t)[i]? = some b ∧ toList S t1 = (toList S t).set i (!b) := by
  obtain ⟨h, n, o, d, g, hj, hn, w1, tn1, b, hb, tl1⟩ := write_spec S t i wf hi
    (fun d idx => d ^^^ 2 ^ (S - idx - 1))
    (fun d idx => if d.testBit (S - idx - 1) then -1 else 1) (fun b => !b)
    (fun n o d idx ok hidx => leaf_flip S n o d idx ok hidx)
    (by intro d idx; simp only [gb]; split_ifs <;> simp_all)
  refine ⟨_, b, ?_, w1, tn1, hb, tl1⟩
  simp only [flip, g, bitpos_of_lt S _ (show (find_block t i).2 < S by omega)]

/-- Reading back the written position. -/
theorem access_after (S : Nat) (t1 : BVNode) (xs : List Bool) (i : Nat) (b : Bool)
    (wf : WF S t1) (hl : xs.length = totalNums t1) (hi : i < totalNums t1)
    (htl : toList S t1 = xs.set i b) : access S t1 i = some b := by
  rw [(access_spec S t1 i wf.sound (WF_cap S t1 wf) hi).1, htl, List.getElem?_set]
  simp [hl, hi]

theorem count_take_lt (xs : List Bool) (v : Bool) (r i : Nat) (hri : r < i)
    (hxr : xs[r]? = some v) : (xs.take r).count v < (xs.take i).count v := by
  have h1 : (xs.take (r + 1)).count v = (xs.take r).count v + 1 := by
    rw [List.take_succ, hxr]
    simp
  have h2 : (xs.take (r + 1)).count v ≤ (xs.take i).count v := by
    have e : xs.take (r + 1) = (xs.take i).take (r + 1) := by
      rw [List.take_take, Nat.min_eq_left (by omega)]
    rw [e]
    exact (List.take_sublist _ _).count_le v
  omega

theorem count_take_le (xs : List Bool) (v : Bool) (i : Nat) :
    (xs.take i).count v ≤ xs.count v :=
  (List.take_sublist _ _).count_le v

theorem count_le_length (xs : List Bool) (v : Bool) : xs.count v ≤ xs.length :=
  List.count_le_length v xs

/-- C1: on a tree satisfying the data-model invariants, with `S` even and positive and room
for one more bit in the 32-bit length, `insert(i, v)` for `i ≤ size()` returns, and `extract()`
afterwards is the previous `extract()` with `v` inserted at position `i`; this covers the path
on which the target leaf is full, is split, and the tree is rotated. -/
theorem insert_extract (S : Nat) (t : BVNode) (i : Nat) (v : Bool) (hS : S % 2 = 0)
    (hS0 : 0 < S) (hinv : Inv S t) (hi : i ≤ size t) (hrep : size t + 1 < 4294967296) :
    ∃ t1 xs, insert S t i v = some t1 ∧ extract S t = some xs ∧
      extract S t1 = some (xs.insertIdx i v) := by
  have wf := WF_of_Inv S t hinv
  obtain ⟨ex, sz, _⟩ := read_top S t wf
  rw [sz] at hi hrep
  obtain ⟨t1, e1, w1, _, tl1⟩ := insert_spec S t i v hS hS0 wf hi hrep
  refine ⟨t1, toList S t, e1, ex, ?_⟩
  rw [(read_top S t1 w1).1, tl1]

theorem insert_extract_witness :
    ∃ t1 xs, insert 4 (.leaf 1 4 2 10) 2 true = some t1 ∧
      extract 4 (.leaf 1 4 2 10) = some xs ∧ extract 4 t1 = some (xs.insertIdx 2 true) :=
  insert_extract 4 (.leaf 1 4 2 10) 2 true (by decide) (by decide) (by decide) (by decide)
    (by decide)

/-- C2: on a tree satisfying the data-model invariants, `del(i)` for `i < size()` returns, and
`extract()` afterwards is the previous `extract()` with the element at position `i` removed,
on each of the no-rebalance, steal-left, steal-right, merge-left and merge-right paths. -/
theorem del_extract (S : Nat) (t : BVNode) (i : Nat) (hinv : Inv S t) (hi : i < size t) :
    ∃ t1 xs, del S t i = some t1 ∧ extract S t = some xs ∧
      extract S t1 = some (xs.eraseIdx i) := by
  have wf := WF_of_Inv S t hinv
  obtain ⟨ex, sz, _⟩ := read_top S t wf
  rw [sz] at hi
  obtain ⟨t1, e1, w1, _, tl1⟩ := del_spec S t i wf hi
  refine ⟨t1, toList S t, e1, ex, ?_⟩
  rw [(read_top S t1 w1).1, tl1]

theorem del_extract_witness :
    ∃ t1 xs, del 4 (.inner 2 2 1 (.leaf 1 2 1 8) (.leaf 1 3 2 10)) 0 = some t1 ∧
      extract 4 (.inner 2 2 1 (.leaf 1 2 1 8) (.leaf 1 3 2 10)) = some xs ∧
      extract 4 t1 = some (xs.eraseIdx 0) :=
  del_extract 4 (.inner 2 2 1 (.leaf 1 2 1 8) (.leaf 1 3 2 10)) 0 (by decide) (by decide)

/-- C3: on a tree with sound counters whose leaves hold at most `S` bits each, `access(i)` for
`i < size()` returns the `i`-th element of `extract()`: the counter-guided descent ends in the
leaf that holds logical bit `i`, with the right offset. -/
theorem access_extract (S : Nat) (t : BVNode) (i : Nat) (hs : Sound t)
    (hcap : ∀ x ∈ leaves t, x.1 ≤ S) (hi : i < size t) :
    ∃ xs b, extract S t = some xs ∧ xs[i]? = some b ∧ access S t i = some b := by
  have hi2 : i < totalNums t := Nat.lt_of_lt_of_le hi (size_le t hs)
  obtain ⟨a1, a2⟩ := access_spec S t i hs hcap hi2
  refine ⟨toList S t, (toList S t)[i], extract_eq S t hcap, List.getElem?_eq_getElem a2, ?_⟩
  rw [a1, List.getElem?_eq_getElem a2]

theorem access_extract_witness :
    ∃ xs b, extract 4 (.inner 2 2 1 (.leaf 1 2 1 8) (.leaf 1 3 2 10)) = some xs ∧
      xs[3]? = some b ∧ access 4 (.inner 2 2 1 (.leaf 1 2 1 8) (.leaf 1 3 2 10)) 3 = some b :=
  access_extract 4 (.inner 2 2 1 (.leaf 1 2 1 8) (.leaf 1 3 2 10)) 3 (by decide) (by decide)
    (by decide)

/-- C4: on a tree satisfying the data-model invariants, `rank(i, v)` for `i ≤ size()` is the
number of positions `j < i` with `extract()[j] = v`; in particular `rank(0, v) = 0` and
`rank(size(), v)` is the number of occurrences of `v`. -/
theorem rank_extract (S : Nat) (t : BVNode) (i : Nat) (v : Bool) (hinv : Inv S t)
    (hi : i ≤ size t) :
    ∃ xs, extract S t = some xs ∧ rank S t i v = (xs.take i).count v ∧
      rank S t 0 v = 0 ∧ rank S t (size t) v = xs.count v := by
  have wf := WF_of_Inv S t hinv
  obtain ⟨ex, sz, len⟩ := read_top S t wf
  rw [sz] at hi
  refine ⟨toList S t, ex, rank_spec S t i v wf.sound wf.leaf wf.rep hi, ?_, ?_⟩
  · rw [rank_spec S t 0 v wf.sound wf.leaf wf.rep (Nat.zero_le _)]
    simp
  · rw [sz, rank_spec S t _ v wf.sound wf.leaf wf.rep (le_refl _), ← len, List.take_length]

theorem rank_extract_witness :
    ∃ xs, extract 4 (.inner 2 2 1 (.leaf 1 2 1 8) (.leaf 1 3 2 10)) = some xs ∧
      rank 4 (.inner 2 2 1 (.leaf 1 2 1 8) (.leaf 1 3 2 10)) 3 true = (xs.take 3).count true ∧
      rank 4 (.inner 2 2 1 (.leaf 1 2 1 8) (.leaf 1 3 2 10)) 0 true = 0 ∧
      rank 4 (.inner 2 2 1 (.leaf 1 2 1 8) (.leaf 1 3 2 10))
        (size (.inner 2 2 1 (.leaf 1 2 1 8) (.leaf 1 3 2 10))) true = xs.count true :=
  rank_extract 4 (.inner 2 2 1 (.leaf 1 2 1 8) (.leaf 1 3 2 10)) 3 true (by decide) (by decide)

/-- C5: on a tree satisfying the data-model invariants, for `1 ≤ k ≤` the number of
occurrences of `v` in `extract()`, `select(k, v)` returns (the descent never reaches an
absent child and the leaf scan finds its match), and the result is the 0-based index of the
`k`-th occurrence of `v`: a position holding `v` with exactly `k - 1` occurrences before
it. -/
theorem select_extract (S : Nat) (t : BVNode) (k : Nat) (v : Bool) (xs : List Bool)
    (hinv : Inv S t) (hx : extract S t = some xs) (hk1 : 1 ≤ k) (hk2 : k ≤ xs.count v) :
    ∃ r, select S t k v = some r ∧ r < xs.length ∧ xs[r]? = some v ∧
      (xs.take r).count v + 1 = k := by
  have wf := WF_of_Inv S t hinv
  obtain ⟨ex, _, _⟩ := read_top S t wf
  rw [ex] at hx
  cases hx
  exact select_spec S t k v wf.sound wf.leaf wf.rep hk1 hk2

theorem select_extract_witness :
    ∃ r, select 4 (.inner 2 2 1 (.leaf 1 2 1 8) (.leaf 1 3 2 10)) 2 true = some r ∧
      r < [true, false, true, false, true].length ∧
      [true, false, true, false, true][r]? = some true ∧
      ([true, false, true, false, true].take r).count true + 1 = 2 :=
  select_extract 4 (.inner 2 2 1 (.leaf 1 2 1 8) (.leaf 1 3 2 10)) 2 true
    [true, false, true, false, true] (by decide) (by decide) (by decide) (by decide)

/-- C6: for a block size `S ≥ 2` and every boolean sequence `B` whose length fits a 32-bit
counter (the empty sequence and lengths that are no multiple of `S / 2` included), the
sequence constructor returns a tree on which `extract()` returns exactly `B`. -/
theorem construct_extract (S : Nat) (B : List Bool) (hS : 2 ≤ S)
    (hL : B.length < 4294967296) :
    ∃ t, construct S B = some t ∧ extract S t = some B := by
  obtain ⟨t, e, c, tl⟩ := construct_spec S B hS hL
  exact ⟨t, e, by rw [extract_eq S t c, tl]⟩

theorem construct_extract_witness :
    ∃ t, construct 4 [true, false, true] = some t ∧ extract 4 t = some [true, false, true] :=
  construct_extract 4 [true, false, true] (by decide) (by decide)

/-- C7: rank/select duality, first half: on a tree satisfying the data-model invariants, for
`1 ≤ k ≤` the number of occurrences of `v` in `extract()`, `select(k, v)` returns some `r`
and `rank(r + 1, v) = k`, the sum `r + 1` taken in 32-bit arithmetic. -/
theorem rank_select (S : Nat) (t : BVNode) (k : Nat) (v : Bool) (xs : List Bool)
    (hinv : Inv S t) (hx : extract S t = some xs) (hk1 : 1 ≤ k) (hk2 : k ≤ xs.count v) :
    ∃ r, select S t k v = some r ∧ rank S t ((r + 1) % 4294967296) v = k := by
  have wf := WF_of_Inv S t hinv
  obtain ⟨ex, _, len⟩ := read_top S t wf
  rw [ex] at hx
  cases hx
  obtain ⟨r, e, hr, hv, hc⟩ := select_spec S t k v wf.sound wf.leaf wf.rep hk1 hk2
  have hrep := wf.rep
  refine ⟨r, e, ?_⟩
  rw [Nat.mod_eq_of_lt (by omega), rank_spec S t (r + 1) v wf.sound wf.leaf wf.rep (by omega),
    List.take_succ, hv]
  simp only [Option.toList, List.count_append, List.count_singleton_self]
  exact hc

theorem rank_select_witness :
    ∃ r, select 4 (.inner 2 2 1 (.leaf 1 2 1 8) (.leaf 1 3 2 10)) 3 true = some r ∧
      rank 4 (.inner 2 2 1 (.leaf 1 2 1 8) (.leaf 1 3 2 10)) ((r + 1) % 4294967296) true = 3 :=
  rank_select 4 (.inner 2 2 1 (.leaf 1 2 1 8) (.leaf 1 3 2 10)) 3 true
    [true, false, true, false, true] (by decide) (by decide) (by decide) (by decide)

/-- C8: rank/select duality, second half: on a tree satisfying the data-model invariants, for
`i < size()` with `access(i) = v`, `select(rank(i, v) + 1, v)` returns `i`, the sum taken in
32-bit arithmetic. -/
theorem select_rank (S : Nat) (t : BVNode) (i : Nat) (v : Bool) (hinv : Inv S t)
    (hi : i < size t) (ha : access S t i = some v) :
    select S t ((rank S t i v + 1) % 4294967296) v = some i := by
  have wf := WF_of_Inv S t hinv
  obtain ⟨_, sz, len⟩ := read_top S t wf
  rw [sz] at hi
  have hrep := wf.rep
  obtain ⟨a1, a2⟩ := access_spec S t i wf.sound (WF_cap S t wf) hi
  rw [a1] at ha
  have h1 := count_take_lt (toList S t) v i (i + 1) (by omega) ha
  have h2 := count_take_le (toList S t) v (i + 1)
  have h3 := count_le_length (toList S t) v
  rw [rank_spec S t i v wf.sound wf.leaf wf.rep (by omega), Nat.mod_eq_of_lt (by omega)]
  obtain ⟨r, e, hr, hv, hc⟩ := select_spec S t (((toList S t).take i).count v + 1) v
    wf.sound wf.leaf wf.rep (by omega) (by omega)
  rw [e]
  congr 1
  rcases Nat.lt_trichotomy r i with c | c | c
  · have := count_take_lt (toList S t) v r i c hv
    omega
  · exact c
  · have := count_take_lt (toList S t) v i r c ha
    omega

theorem select_rank_witness :
    select 4 (.inner 2 2 1 (.leaf 1 2 1 8) (.leaf 1 3 2 10))
      ((rank 4 (.inner 2 2 1 (.leaf 1 2 1 8) (.leaf 1 3 2 10)) 2 true + 1) % 4294967296) true
      = some 2 :=
  select_rank 4 (.inner 2 2 1 (.leaf 1 2 1 8) (.leaf 1 3 2 10)) 2 true (by decide) (by decide)
    (by decide)

/-- C9: on a tree satisfying the data-model invariants, for `i < size()`: `set(i)` returns and
afterwards `access(i)` is true, `unset(i)` returns and afterwards `access(i)` is false; in
both cases `size()` is unchanged and `extract()` is the previous `extract()` with position `i`
overwritten by the written value, so no other position changes, whether or not the bit
already had the written value. -/
theorem set_unset_extract (S : Nat) (t : BVNode) (i : Nat) (hinv : Inv S t) (hi : i < size t) :
    ∃ xs t1 t2, extract S t = some xs ∧
      set S t i = some t1 ∧ access S t1 i = some true ∧ size t1 = size t ∧
      extract S t1 = some (xs.set i true) ∧
      unset S t i = some t2 ∧ access S t2 i = some false ∧ size t2 = size t ∧
      extract S t2 = some (xs.set i false) := by
  have wf := WF_of_Inv S t hinv
  obtain ⟨ex, sz, len⟩ := read_top S t wf
  rw [sz] at hi
  obtain ⟨t1, e1, w1, tn1, tl1⟩ := set_spec S t i wf hi
  obtain ⟨t2, e2, w2, tn2, tl2⟩ := unset_spec S t i wf hi
  obtain ⟨ex1, sz1, _⟩ := read_top S t1 w1
  obtain ⟨ex2, sz2, _⟩ := read_top S t2 w2
  refine ⟨toList S t, t1, t2, ex, e1, ?_, by rw [sz1, sz, tn1], by rw [ex1, tl1], e2, ?_,
    by rw [sz2, sz, tn2], by rw [ex2, tl2]⟩
  · exact access_after S t1 (toList S t) i true w1 (by rw [len, tn1]) (by omega) tl1
  · exact access_after S t2 (toList S t) i false w2 (by rw [len, tn2]) (by omega) tl2

theorem set_unset_extract_witness :
    ∃ xs t1 t2, extract 4 (.inner 2 2 1 (.leaf 1 2 1 8) (.leaf 1 3 2 10)) = some xs ∧
      set 4 (.inner 2 2 1 (.leaf 1 2 1 8) (.leaf 1 3 2 10)) 1 = some t1 ∧
      access 4 t1 1 = some true ∧
      size t1 = size (.inner 2 2 1 (.leaf 1 2 1 8) (.leaf 1 3 2 10)) ∧
      extract 4 t1 = some (xs.set 1 true) ∧
      unset 4 (.inner 2 2 1 (.leaf 1 2 1 8) (.leaf 1 3 2 10)) 1 = some t2 ∧
      access 4 t2 1 = some false ∧
      size t2 = size (.inner 2 2 1 (.leaf 1 2 1 8) (.leaf 1 3 2 10)) ∧
      extract 4 t2 = some (xs.set 1 false) :=
  set_unset_extract 4 (.inner 2 2 1 (.leaf 1 2 1 8) (.leaf 1 3 2 10)) 1 (by decide) (by decide)

/-- C10: on a tree satisfying the data-model invariants, for `i < size()`: `flip(i)` returns
and afterwards `access(i)` is the negation of its previous value, `size()` is unchanged, and
`extract()` is the previous `extract()` with position `i` negated, so no other position
changes. -/
theorem flip_extract (S : Nat) (t : BVNode) (i : Nat) (hinv : Inv S t) (hi : i < size t) :
    ∃ xs t1 b, extract S t = some xs ∧ access S t i = some b ∧
      flip S t i = some t1 ∧ access S t1 i = some (!b) ∧ size t1 = size t ∧
      extract S t1 = some (xs.set i (!b)) := by
  have wf := WF_of_Inv S t hinv
  obtain ⟨ex, sz, len⟩ := read_top S t wf
  rw [sz] at hi
  obtain ⟨t1, b, e1, w1, tn1, hb, tl1⟩ := flip_spec S t i wf hi
  obtain ⟨ex1, sz1, _⟩ := read_top S t1 w1
  refine ⟨toList S t, t1, b, ex, ?_, e1, ?_, by rw [sz1, sz, tn1], by rw [ex1, tl1]⟩
  · rw [(access_spec S t i wf.sound (WF_cap S t wf) hi).1, hb]
  · exact access_after S t1 (toList S t) i (!b) w1 (by rw [len, tn1]) (by omega) tl1

theorem flip_extract_witness :
    ∃ xs t1 b, extract 4 (.inner 2 2 1 (.leaf 1 2 1 8) (.leaf 1 3 2 10)) = some xs ∧
      access 4 (.inner 2 2 1 (.leaf 1 2 1 8) (.leaf 1 3 2 10)) 4 = some b ∧
      flip 4 (.inner 2 2 1 (.leaf 1 2 1 8) (.leaf 1 3 2 10)) 4 = some t1 ∧
      access 4 t1 4 = some (!b) ∧
      size t1 = size (.inner 2 2 1 (.leaf 1 2 1 8) (.leaf 1 3 2 10)) ∧
      extract 4 t1 = some (xs.set 4 (!b)) :=
  flip_extract 4 (.inner 2 2 1 (.leaf 1 2 1 8) (.leaf 1 3 2 10)) 4 (by decide) (by decide)

/-! ## Complement -/

theorem bnot_lt (S x : Nat) (hx : x < 2 ^ S) : bnot S x < 2 ^ S := by
  apply lt_two_pow_of_testBit
  intro p hp
  rw [testBit_bnot, testBit_of_lt x S p hx hp]
  simp
  omega

theorem gb_bnot (S d j : Nat) (hj : j < S) : gb S (bnot S d) j = !gb S d j := by
  simp only [gb, testBit_bnot]
  have : S - j - 1 < S := by omega
  simp [this]

theorem count_map_not (l : List Bool) : (l.map (fun b => !b)).count true = l.count false := by
  induction l with
  | nil => rfl
  | cons b l ih => cases b <;> simp [List.count_cons, ih]

/-- Complementing a well-formed leaf negates its bits and keeps it well formed. -/
theorem leaf_complement (S n o d : Nat) (ok : leafOK S (n, o, d)) (hn : n < 4294967296) :
    leafBits S n (bnot S d &&& bnot S (FULL_MASK S >>> n))
      = (leafBits S n d).map (fun b => !b) ∧
    o ≤ n ∧
    leafOK S (n, u32 ((n : Int) - (o : Int)), bnot S d &&& bnot S (FULL_MASK S >>> n)) := by
  have hnS : n ≤ S := ok.1
  have hd : d < 2 ^ S := ok.2.1
  have ho := leafOK_ones S n o d ok
  have hlen : (leafBits S n d).length = n := by simp [leafBits]
  have hbits : leafBits S n (bnot S d &&& bnot S (FULL_MASK S >>> n))
      = (leafBits S n d).map (fun b => !b) := by
    rw [leafBits_eq, leafBits_eq, List.map_map]
    apply map_range_congr
    intro j hj
    have hjS : j < S := by omega
    rw [gb_mask S _ n j hjS, gb_bnot S d j hjS]
    simp [hj]
  have hcf := count_true_add_false (leafBits S n d)
  have hon : o ≤ n := by omega
  refine ⟨hbits, hon, ?_⟩
  have hu : u32 ((n : Int) - (o : Int)) = n - o := by simp only [u32]; omega
  rw [hu]
  have key := leafOK_of S n (bnot S d &&& bnot S (FULL_MASK S >>> n)) hnS
    (and_lt_left S _ _ (bnot_lt S d hd))
    (by
      intro j hj hjS
      rw [gb_mask S _ n j hjS]
      have : ¬ j < n := by omega
      simp [this])
  rw [hbits, count_map_not] at key
  have e : n - o = (leafBits S n d).count false := by omega
  rw [e]
  exact key

theorem complement_height (S : Nat) (t : BVNode) : (complement S t).height = t.height := by
  cases t <;> rfl

theorem complement_HeightOK (S : Nat) (t : BVNode) (h : HeightOK t) :
    HeightOK (complement S t) := by
  induction t with
  | leaf hh n o d => exact h
  | inner hh n o l r ihl ihr =>
    simp only [complement, HeightOK, complement_height]
    exact ⟨h.1, h.2.1, ihl h.2.2.1, ihr h.2.2.2⟩

theorem complement_Balanced (S : Nat) (t : BVNode) (h : Balanced t) :
    Balanced (complement S t) := by
  induction t with
  | leaf hh n o d => trivial
  | inner hh n o l r ihl ihr =>
    simp only [complement, Balanced, complement_height]
    exact ⟨h.1, h.2.1, ihl h.2.2.1, ihr h.2.2.2⟩

/-- Complement on a tree with sound counters and well-formed leaves: the counters stay sound,
the leaves stay well formed, and the sequence is negated element by element. -/
theorem complement_core (S : Nat) (t : BVNode) (hs : Sound t) (hl : LeafOK S t)
    (hr : totalNums t < 4294967296) :
    Sound (complement S t) ∧ LeafOK S (complement S t) ∧
    totalNums (complement S t) = totalNums t ∧
    totalOnes (complement S t) + totalOnes t = totalNums t ∧
    toList S (complement S t) = (toList S t).map (fun b => !b) := by
  induction t with
  | leaf h n o d =>
    have ok : leafOK S (n, o, d) := hl _ (by simp)
    simp only [totalNums_leaf] at hr
    obtain ⟨e1, e2, e3⟩ := leaf_complement S n o d ok hr
    have hu : u32 ((n : Int) - (o : Int)) = n - o := by simp only [u32]; omega
    refine ⟨trivial, ?_, rfl, ?_, ?_⟩
    · intro x hx
      simp only [complement, leaves_leaf, List.mem_singleton] at hx
      subst hx
      exact e3
    · simp only [complement, totalOnes_leaf, totalNums_leaf, hu]
      omega
    · simp only [complement, toList_leaf]
      exact e1
  | inner h n o l r ihl ihr =>
    simp only [totalNums_inner] at hr
    obtain ⟨a1, a2, a3, a4, a5⟩ := ihl hs.2.2.1 (LeafOK_left S h n o l r hl) (by omega)
    obtain ⟨b1, b2, b3, b4, b5⟩ := ihr hs.2.2.2 (LeafOK_right S h n o l r hl) (by omega)
    have hn := hs.1
    have ho := hs.2.1
    have hu : u32 ((n : Int) - (o : Int)) = n - o := by simp only [u32]; omega
    refine ⟨?_, ?_, ?_, ?_, ?_⟩
    · simp only [complement, Sound, hu]
      exact ⟨by omega, by omega, a1, b1⟩
    · intro x hx
      simp only [complement, leaves_inner, List.mem_append] at hx
      rcases hx with hx | hx
      · exact a2 x hx
      · exact b2 x hx
    · simp only [complement, totalNums_inner]
      omega
    · simp only [complement, totalOnes_inner, totalNums_inner]
      omega
    · simp only [complement, toList_inner, a5, b5, List.map_append]

theorem getElem?_map_not (xs : List Bool) (i : Nat) (b : Bool) (h : xs[i]? = some b) :
    (xs.map (fun b => !b))[i]? = some (!b) := by
  rw [List.getElem?_map, h]
  rfl

theorem count_take_map_not (xs : List Bool) (i : Nat) (hi : i ≤ xs.length) :
    ((xs.map (fun b => !b)).take i).count true + (xs.take i).count true = i := by
  rw [← List.map_take, count_map_not]
  have := count_true_add_false (xs.take i)
  rw [List.length_take, Nat.min_eq_left hi] at this
  omega

/-! ## Sequences of inserts and deletes -/

theorem del_all_append (S : Nat) (xs ys : List Nat) :
    ∀ t : BVNode, del_all S t (xs ++ ys) = (del_all S t xs).bind (fun t1 => del_all S t1 ys) := by
  induction xs with
  | nil => intro t; rfl
  | cons x xs ih =>
    intro t
    simp only [List.cons_append, del_all]
    cases del S t x with
    | none => rfl
    | some t1 => exact ih t1

/-- A sequence of in-range inserts followed by the deletes of the same positions in reverse
order brings a well-formed tree back to the sequence it started from. -/
theorem insert_del_all (S : Nat) (hS : S % 2 = 0) (hS0 : 0 < S) (ops : List (Nat × Bool)) :
    ∀ t : BVNode, WF S t → InRange (totalNums t) ops →
      totalNums t + ops.length < 4294967296 →
      ∃ t1 t2, insert_all S t ops = some t1 ∧
        del_all S t1 ((ops.map Prod.fst).reverse) = some t2 ∧
        WF S t2 ∧ toList S t2 = toList S t ∧ totalNums t2 = totalNums t := by
  induction ops with
  | nil =>
    intro t wf _ _
    exact ⟨t, t, rfl, rfl, wf, rfl, rfl⟩
  | cons op rest ih =>
    intro t wf hr hlen
    obtain ⟨i, v⟩ := op
    simp only [List.length_cons] at hlen
    obtain ⟨t0, e0, w0, tn0, tl0⟩ := insert_spec S t i v hS hS0 wf hr.1 (by omega)
    obtain ⟨t1, t2, e1, e2, w2, tl2, tn2⟩ := ih t0 w0 (by rw [tn0]; exact hr.2) (by omega)
    obtain ⟨t3, e3, w3, tn3, tl3⟩ := del_spec S t2 i w2 (by have := hr.1; omega)
    refine ⟨t1, t3, ?_, ?_, w3, ?_, by omega⟩
    · simp only [insert_all, e0, e1]
    · simp only [List.map_cons, List.reverse_cons]
      rw [del_all_append, e2]
      simp only [Option.bind, del_all, e3]
    · rw [tl3, tl2, tl0, List.eraseIdx_insertIdx]

/-- The descent of `find_block` for an index at or beyond the end ends in the last leaf. -/
theorem find_block_beyond (t : BVNode) (i : Nat) (hs : Sound t) (hi : totalNums t ≤ i) :
    (find_block t i).1 = rightmost t := by
  induction t generalizing i with
  | leaf h n o d => rfl
  | inner h n o l r _ ihr =>
    have hn := hs.1
    simp only [totalNums_inner] at hi
    have c : ¬ i < n := by omega
    simp only [find_block, c, if_false, rightmost]
    rw [ihr (i - n) hs.2.2.2 (by omega)]

/-! ## Inserting beyond the end of the last leaf -/

/-- Writing a bit at an offset at or beyond the end of a leaf that has room up to that
offset: the gap is filled with zeros. -/
theorem leaf_pad (S n o d idx nb : Nat) (v : Bool) (ok : leafOK S (n, o, d)) (hn : n ≤ idx)
    (hidx : idx < S) (hnb : ∀ p, nb.testBit p = (decide (S - idx - 1 = p) && v))
    (hnb2 : nb < 2 ^ S) :
    leafBits S (idx + 1)
        (d &&& bnot S (FULL_MASK S >>> idx) ||| nb ||| ((d &&& (FULL_MASK S >>> idx)) >>> 1))
      = leafBits S n d ++ List.replicate (idx - n) false ++ [v] ∧
    leafOK S (idx + 1, o + (if v then 1 else 0),
      d &&& bnot S (FULL_MASK S >>> idx) ||| nb ||| ((d &&& (FULL_MASK S >>> idx)) >>> 1)) := by
  have cl := leafOK_clean S n o d ok
  have e : leafBits S (idx + 1)
        (d &&& bnot S (FULL_MASK S >>> idx) ||| nb ||| ((d &&& (FULL_MASK S >>> idx)) >>> 1))
      = leafBits S n d ++ List.replicate (idx - n) false ++ [v] := by
    apply List.ext_getElem?
    intro k
    rw [leafBits_eq, leafBits_eq, List.getElem?_map]
    by_cases h1 : k < n
    · rw [List.append_assoc, List.getElem?_append_left (by simp; exact h1), List.getElem?_map,
        List.getElem?_range h1, List.getElem?_range (by omega)]
      simp only [Option.map_some']
      rw [gb_insert S d idx k nb v (by omega) hidx hnb]
      have : k < idx := by omega
      simp only [this, if_true]
    · by_cases h2 : k < idx
      · rw [List.getElem?_append_left (by simp; omega),
          List.getElem?_append_right (by simp; omega), List.getElem?_range (by omega)]
        simp only [Option.map_some', List.length_map, List.length_range]
        rw [gb_insert S d idx k nb v (by omega) hidx hnb, List.getElem?_replicate]
        have a1 : k - n < idx - n := by omega
        simp only [h2, if_true, a1]
        rw [cl k (by omega) (by omega)]
      · by_cases h3 : k = idx
        · subst h3
          rw [List.getElem?_append_right (by simp; omega), List.getElem?_range (by omega)]
          simp only [Option.map_some', List.length_append, List.length_map, List.length_range,
            List.length_replicate]
          rw [gb_insert S d k k nb v (by omega) hidx hnb]
          have a1 : k - (n + (k - n)) = 0 := by omega
          simp [a1]
        · have a1 : (List.range (idx + 1))[k]? = none := by
            apply List.getElem?_eq_none
            simp only [List.length_range]
            omega
          rw [a1, List.getElem?_eq_none (by simp; omega)]
          rfl
  refine ⟨e, ?_⟩
  have key := leafOK_of S (idx + 1) _ (by omega)
    (Nat.or_lt_two_pow (Nat.or_lt_two_pow (and_lt_left S _ (bnot S (FULL_MASK S >>> idx)) ok.2.1)
      hnb2) (shr_lt S _ 1 (and_lt_left S _ (FULL_MASK S >>> idx) ok.2.1)))
    (by
      intro j hj hjS
      rw [gb_insert S d idx j nb v hjS hidx hnb]
      have h1 : ¬ j < idx := by omega
      have h2 : ¬ j = idx := by omega
      simp only [h1, h2, if_false]
      exact cl (j - 1) (by omega) (by omega))
  rw [e] at key
  have ho := leafOK_ones S n o d ok
  have hc : (leafBits S n d ++ List.replicate (idx - n) false ++ [v]).count true
      = o + (if v then 1 else 0) := by
    rw [List.count_append, List.count_append, ← ho]
    cases v <;> simp [List.count_replicate]
  rw [hc] at key
  exact key

/-- The operation `insert` with an index beyond the end: the call is skipped when the offset
in the last leaf exceeds the block size, and pads the last leaf with zeros when the offset is
below the block size. -/
theorem insert_past_end_spec (S : Nat) (t : BVNode) (i : Nat) (v : Bool) (h n o d : Nat)
    (wf : WF S t) (hi : totalNums t < i)
    (hlast : getAt t (rightmost t) = some (.leaf h n o d)) :
    n ≤ totalNums t ∧
    (S < i + n - totalNums t → insert S t i v = some t) ∧
    (i + n - totalNums t < S → i + 1 < 4294967296 →
      ∃ t1, insert S t i v = some t1 ∧ WF S t1 ∧ totalNums t1 = i + 1 ∧
        toList S t1 = toList S t ++ List.replicate (i - totalNums t) false ++ [v]) := by
  have ha := find_block_beyond t i wf.sound (by omega)
  obtain ⟨h9, n9, o9, d9, g, p, _, _⟩ := find_block_spec t i wf.sound
  have g2 := g
  rw [ha, hlast] at g2
  simp only [Option.some.injEq, BVNode.leaf.injEq] at g2
  obtain ⟨rfl, rfl, rfl, rfl⟩ := g2
  obtain ⟨h2, n2, o2, d2, gr, pr, er⟩ := rightmost_spec t
  rw [hlast] at gr
  simp only [Option.some.injEq, BVNode.leaf.injEq] at gr
  obtain ⟨rfl, rfl, rfl, rfl⟩ := gr
  have htot : totalNums t = ((preL t (rightmost t)).map (fun x => x.1)).sum + n := by
    simp only [totalNums]
    rw [er]
    simp
  rw [ha] at p
  have ok : leafOK S (n, o, d) := by
    apply wf.leaf
    rw [er]
    simp
  have hnS := ok.1
  refine ⟨by omega, ?_, ?_⟩
  · intro hgt
    have c : (find_block t i).2 > S := by omega
    simp only [insert, c, if_true]
  · intro hlt hrep
    have c : ¬ (find_block t i).2 > S := by omega
    have c2 : ¬ n ≥ S := by omega
    have hidx : (find_block t i).2 < S := by omega
    have hn : n ≤ (find_block t i).2 := by omega
    have hdn : (1 : Int) + max (0 : Int) (((find_block t i).2 : Int) - (n : Int))
        = 1 + (((find_block t i).2 : Int) - (n : Int)) := by omega
    simp only [insert, c, if_false, g, c2, insert_bit, hdn]
    have hpost : (postL t (find_block t i).1) = [] := by rw [ha]; exact pr
    have hT : toList S t = (preL t (find_block t i).1).flatMap (bitsOf S) ++ leafBits S n d := by
      rw [toList_decomp S t _ _ g, toList_leaf, hpost]
      simp
    have hgap : (find_block t i).2 - n = i - totalNums t := by omega
    cases v with
    | true =>
      simp only [if_true, bitpos_of_lt S _ hidx]
      obtain ⟨e1, e2⟩ := leaf_pad S n o d (find_block t i).2 (2 ^ (S - (find_block t i).2 - 1))
        true ok hn hidx (by intro q; simp [Nat.testBit_two_pow]) (two_pow_lt S _ (by omega))
      obtain ⟨w, tn, tl, _⟩ := leaf_update_spec S t (find_block t i).1 h n o d
        ((find_block t i).2 + 1) (o + 1) _
        (1 + (((find_block t i).2 : Int) - (n : Int))) 1 wf g (by omega) (by simp) e2
        (by omega)
      refine ⟨_, rfl, w, by omega, ?_⟩
      rw [tl, e1, hpost, hT, hgap]
      simp
    | false =>
      simp only [Bool.false_eq_true, if_false]
      obtain ⟨e1, e2⟩ := leaf_pad S n o d (find_block t i).2 0
        false ok hn hidx (by intro q; simp) (Nat.pos_pow_of_pos S (by decide))
      obtain ⟨w, tn, tl, _⟩ := leaf_update_spec S t (find_block t i).1 h n o d
        ((find_block t i).2 + 1) o _
        (1 + (((find_block t i).2 : Int) - (n : Int))) 0 wf g (by omega) (by simp)
        (by
          have e3 := e2
          simp only [Bool.false_eq_true, if_false, Nat.add_zero] at e3
          exact e3) (by omega)
      refine ⟨_, rfl, w, by omega, ?_⟩
      rw [tl, e1, hpost, hT, hgap]
      simp

/-! ## The AVL shape under insertion -/

theorem u8_of_lt (x : Nat) (h : x < 256) : u8 x = x := by
  simp only [u8]; omega

theorem heightOf_eq (t : BVNode) (h : HeightOK t) : heightOf t = t.height := by
  cases t with
  | leaf hh n o d => simp only [HeightOK] at h; simp [heightOf, BVNode.height, h]
  | inner hh n o l r => simp only [HeightOK] at h; simp [heightOf, BVNode.height, h.1]

theorem height_pos (t : BVNode) (h : HeightOK t) : 1 ≤ t.height := by
  rw [← heightOf_eq t h]; exact heightOf_pos t

theorem HeightOK_getAt (t sub : BVNode) (p : List Dir) (h : HeightOK t)
    (hg : getAt t p = some sub) : HeightOK sub ∧ sub.height ≤ t.height := by
  induction p generalizing t with
  | nil => simp only [getAt, Option.some.injEq] at hg; subst hg; exact ⟨h, le_refl _⟩
  | cons d p ih =>
    cases t with
    | leaf hh n o dd => simp [getAt] at hg
    | inner hh n o l r =>
      simp only [HeightOK] at h
      cases d with
      | L =>
        simp only [getAt] at hg
        obtain ⟨a, b⟩ := ih l h.2.2.1 hg
        refine ⟨a, ?_⟩
        rw [height_inner]
        omega
      | R =>
        simp only [getAt] at hg
        obtain ⟨a, b⟩ := ih r h.2.2.2 hg
        refine ⟨a, ?_⟩
        rw [height_inner]
        omega

theorem graft_nil (F G : Nat → Nat) (t s : BVNode) : graft F G t [] s = s := by
  cases t <;> rfl

theorem Balanced_getAt (t sub : BVNode) (p : List Dir) (h : Balanced t)
    (hg : getAt t p = some sub) : Balanced sub := by
  induction p generalizing t with
  | nil => simp only [getAt, Option.some.injEq] at hg; subst hg; exact h
  | cons d p ih =>
    cases t with
    | leaf hh n o dd => simp [getAt] at hg
    | inner hh n o l r =>
      simp only [Balanced] at h
      cases d with
      | L => simp only [getAt] at hg; exact ih l h.2.2.1 hg
      | R => simp only [getAt] at hg; exact ih r h.2.2.2 hg

/-- Replacing a subtree by one of the same height keeps the AVL shape. -/
theorem graft_avl (F G : Nat → Nat) (t x s : BVNode) (p : List Dir)
    (hg : getAt t p = some x) (h1 : HeightOK t) (h2 : Balanced t)
    (hs1 : HeightOK s) (hs2 : Balanced s) (he : s.height = x.height) :
    HeightOK (graft F G t p s) ∧ Balanced (graft F G t p s) ∧
      (graft F G t p s).height = t.height := by
  induction p generalizing t with
  | nil =>
    simp only [getAt, Option.some.injEq] at hg
    subst hg
    rw [graft_nil]
    exact ⟨hs1, hs2, he⟩
  | cons d p ih =>
    cases t with
    | leaf hh n o dd => simp [getAt] at hg
    | inner hh n o l r =>
      simp only [HeightOK] at h1
      simp only [Balanced] at h2
      cases d with
      | L =>
        simp only [getAt] at hg
        obtain ⟨a, b, c⟩ := ih l hg h1.2.2.1 h2.2.2.1
        simp only [graft, HeightOK, Balanced, height_inner, c, u8]
        refine ⟨⟨?_, ?_, a, h1.2.2.2⟩, ⟨h2.1, h2.2.1, b, h2.2.2.2⟩, ?_⟩ <;> omega
      | R =>
        simp only [getAt] at hg
        obtain ⟨a, b, c⟩ := ih r hg h1.2.2.2 h2.2.2.2
        simp only [graft, HeightOK, Balanced, height_inner, c, u8]
        refine ⟨⟨?_, ?_, h1.2.2.1, a⟩, ⟨h2.1, h2.2.1, h2.2.2.1, b⟩, ?_⟩ <;> omega

/-- One step of the climb after an insertion below the left child: `balance` at a node whose
left subtree has been replaced returns an AVL subtree that has the height of the original
node or one more. -/
theorem balance_avl_left (h n o n1 o1 : Nat) (l r s : BVNode) (rest : List Dir)
    (h0 : HeightOK (.inner h n o l r)) (b0 : Balanced (.inner h n o l r)) (hh : h < 255)
    (hs : HeightOK s) (bs : Balanced s) (g : Grow l s) :
    ∃ s1 x1, balance (.inner (u8 (1 + max s.height r.height)) n1 o1 s r) [] rest
        = some (s1, x1) ∧
      HeightOK s1 ∧ Balanced s1 ∧ Grow (.inner h n o l r) s1 := by
  simp only [HeightOK] at h0
  simp only [Balanced] at b0
  obtain ⟨e0, _, hl, hr⟩ := h0
  obtain ⟨b1, b2, _, br⟩ := b0
  have ps := height_pos s hs
  have pr := height_pos r hr
  have pl := height_pos l hl
  have es := heightOf_eq s hs
  have er := heightOf_eq r hr
  simp only [balance, getAt]
  by_cases c1 : difference (.inner (u8 (1 + max s.height r.height)) n1 o1 s r) > 1
  · simp only [c1, if_true]
    simp only [difference_inner, es, er] at c1
    cases s with
    | leaf h1 n2 o2 d2 =>
      simp only [HeightOK] at hs
      simp only [height_leaf] at c1
      omega
    | inner h1 n2 o2 sl sr =>
      simp only [HeightOK] at hs
      simp only [Balanced] at bs
      obtain ⟨e1, q1, hsl, hsr⟩ := hs
      obtain ⟨b3, b4, bsl, bsr⟩ := bs
      have psl := height_pos sl hsl
      have psr := height_pos sr hsr
      have esl := heightOf_eq sl hsl
      have esr := heightOf_eq sr hsr
      simp only [height_inner] at c1
      have gt : Tilt (.inner h1 n2 o2 sl sr) := by
        rcases g with g | g
        · simp only [height_inner] at g; omega
        · exact g.2
      simp only [Tilt] at gt
      have hgrow : h1 = l.height + 1 := by
        rcases g with g | g
        · simp only [height_inner] at g; omega
        · have := g.1; simp only [height_inner] at this; exact this
      have hne : sl.height ≠ sr.height := by
        rcases gt with gt | gt
        · exact gt
        · omega
      by_cases c2 : difference (.inner h1 n2 o2 sl sr) > 0
      · simp only [c2, if_true, rotate_right, getAt, setAt, List.nil_append, propagate_update]
        simp only [difference_inner, esl, esr] at c2
        have K : sl.height = r.height + 1 ∧ sr.height = r.height ∧ l.height = r.height + 1 ∧
            h = r.height + 2 ∧ h1 = r.height + 2 := by omega
        clear e0 e1 b1 b2 b3 b4 c1 c2 hgrow hne g gt es er esl esr
        refine ⟨_, _, rfl, ?_, ?_, ?_⟩
        · simp only [HeightOK, height_inner, u8]
          exact ⟨by omega, by omega, hsl, ⟨by omega, by omega, hsr, hr⟩⟩
        · simp only [Balanced, height_inner, u8]
          exact ⟨by omega, by omega, bsl, ⟨by omega, by omega, bsr, br⟩⟩
        · left
          simp only [height_inner, u8]
          omega
      · simp only [c2, if_false]
        simp only [difference_inner, esl, esr] at c2
        cases sr with
        | leaf h2 n3 o3 d3 =>
          simp only [HeightOK] at hsr
          simp only [height_leaf] at c2 hne e1 b3 b4
          omega
        | inner h2 n3 o3 b1' b2' =>
          simp only [HeightOK] at hsr
          simp only [Balanced] at bsr
          obtain ⟨e2, q2, hb1, hb2⟩ := hsr
          obtain ⟨b5, b6, bb1, bb2⟩ := bsr
          have pb1 := height_pos b1' hb1
          have pb2 := height_pos b2' hb2
          simp only [height_inner] at c2 hne e1 b3 b4
          simp only [rotate_left_right, rotate_left, rotate_right, getAt, setAt, List.nil_append,
            List.cons_append, propagate_update]
          have K : sl.height = r.height ∧ h2 = r.height + 1 ∧ l.height = r.height + 1 ∧
              h = r.height + 2 ∧ h1 = r.height + 2 ∧ b1'.height ≤ r.height ∧
              b2'.height ≤ r.height ∧ r.height ≤ b1'.height + 1 ∧
              r.height ≤ b2'.height + 1 := by omega
          clear e0 e1 e2 b1 b2 b3 b4 b5 b6 c1 c2 hgrow hne g gt es er esl esr
          refine ⟨_, _, rfl, ?_, ?_, ?_⟩
          · simp only [HeightOK, height_inner, u8]
            exact ⟨by omega, by omega, ⟨by omega, by omega, hsl, hb1⟩,
              ⟨by omega, by omega, hb2, hr⟩⟩
          · simp only [Balanced, height_inner, u8]
            exact ⟨by omega, by omega, ⟨by omega, by omega, bsl, bb1⟩,
              ⟨by omega, by omega, bb2, br⟩⟩
          · left
            simp only [height_inner, u8]
            omega
  · simp only [c1, if_false]
    have c1' := c1
    simp only [difference_inner, es, er] at c1'
    by_cases c3 : difference (.inner (u8 (1 + max s.height r.height)) n1 o1 s r) < -1
    · exfalso
      simp only [difference_inner, es, er] at c3
      rcases g with g | g <;> omega
    · simp only [c3, if_false]
      simp only [difference_inner, es, er] at c3
      refine ⟨_, _, rfl, ?_, ?_, ?_⟩
      · simp only [HeightOK, u8]
        refine ⟨?_, ?_, hs, hr⟩
        · rcases g with g | g <;> omega
        · rcases g with g | g <;> omega
      · simp only [Balanced]
        exact ⟨by omega, by omega, bs, br⟩
      · simp only [Grow, height_inner, Tilt, u8]
        rcases g with g | g
        · left; omega
        · by_cases c4 : s.height ≤ r.height
          · left; omega
          · right; exact ⟨by omega, Or.inl (by omega)⟩

/-- One step of the climb after an insertion below the right child. -/
theorem balance_avl_right (h n o n1 o1 : Nat) (l r s : BVNode) (rest : List Dir)
    (h0 : HeightOK (.inner h n o l r)) (b0 : Balanced (.inner h n o l r)) (hh : h < 255)
    (hs : HeightOK s) (bs : Balanced s) (g : Grow r s) :
    ∃ s1 x1, balance (.inner (u8 (1 + max l.height s.height)) n1 o1 l s) [] rest
        = some (s1, x1) ∧
      HeightOK s1 ∧ Balanced s1 ∧ Grow (.inner h n o l r) s1 := by
  simp only [HeightOK] at h0
  simp only [Balanced] at b0
  obtain ⟨e0, _, hl, hr⟩ := h0
  obtain ⟨b1, b2, bl, _⟩ := b0
  have ps := height_pos s hs
  have pr := height_pos r hr
  have pl := height_pos l hl
  have es := heightOf_eq s hs
  have el := heightOf_eq l hl
  simp only [balance, getAt]
  by_cases c1 : difference (.inner (u8 (1 + max l.height s.height)) n1 o1 l s) > 1
  · exfalso
    simp only [difference_inner, es, el] at c1
    rcases g with g | g <;> omega
  · simp only [c1, if_false]
    have c1' := c1
    simp only [difference_inner, es, el] at c1'
    by_cases c3 : difference (.inner (u8 (1 + max l.height s.height)) n1 o1 l s) < -1
    · simp only [c3, if_true]
      simp only [difference_inner, es, el] at c3
      cases s with
      | leaf h1 n2 o2 d2 =>
        simp only [HeightOK] at hs
        simp only [height_leaf] at c3
        omega
      | inner h1 n2 o2 sl sr =>
        simp only [HeightOK] at hs
        simp only [Balanced] at bs
        obtain ⟨e1, q1, hsl, hsr⟩ := hs
        obtain ⟨b3, b4, bsl, bsr⟩ := bs
        have psl := height_pos sl hsl
        have psr := height_pos sr hsr
        have esl := heightOf_eq sl hsl
        have esr := heightOf_eq sr hsr
        simp only [height_inner] at c3
        have gt : Tilt (.inner h1 n2 o2 sl sr) := by
          rcases g with g | g
          · simp only [height_inner] at g; omega
          · exact g.2
        simp only [Tilt] at gt
        have hgrow : h1 = r.height + 1 := by
          rcases g with g | g
          · simp only [height_inner] at g; omega
          · have := g.1; simp only [height_inner] at this; exact this
        have hne : sl.height ≠ sr.height := by
          rcases gt with gt | gt
          · exact gt
          · omega
        by_cases c2 : difference (.inner h1 n2 o2 sl sr) > 0
        · simp only [c2, if_true]
          simp only [difference_inner, esl, esr] at c2
          cases sl with
          | leaf h2 n3 o3 d3 =>
            simp only [HeightOK] at hsl
            simp only [height_leaf] at c2
            omega
          | inner h2 n3 o3 a1 a2 =>
            simp only [HeightOK] at hsl
            simp only [Balanced] at bsl
            obtain ⟨e2, q2, ha1, ha2⟩ := hsl
            obtain ⟨b5, b6, ba1, ba2⟩ := bsl
            have pa1 := height_pos a1 ha1
            have pa2 := height_pos a2 ha2
            simp only [height_inner] at c2 hne e1 b3 b4
            simp only [rotate_right_left, rotate_left, rotate_right, getAt, setAt,
              List.nil_append, List.cons_append, propagate_update]
            have K : sr.height = l.height ∧ h2 = l.height + 1 ∧ r.height = l.height + 1 ∧
                h = l.height + 2 ∧ h1 = l.height + 2 ∧ a1.height ≤ l.height ∧
                a2.height ≤ l.height ∧ l.height ≤ a1.height + 1 ∧
                l.height ≤ a2.height + 1 := by omega
            clear e0 e1 e2 b1 b2 b3 b4 b5 b6 c3 c2 c1 c1' hgrow hne g gt es el esl esr
            refine ⟨_, _, rfl, ?_, ?_, ?_⟩
            · simp only [HeightOK, height_inner, u8]
              exact ⟨by omega, by omega, ⟨by omega, by omega, hl, ha1⟩,
                ⟨by omega, by omega, ha2, hsr⟩⟩
            · simp only [Balanced, height_inner, u8]
              exact ⟨by omega, by omega, ⟨by omega, by omega, bl, ba1⟩,
                ⟨by omega, by omega, ba2, bsr⟩⟩
            · left
              simp only [height_inner, u8]
              omega
        · simp only [c2, if_false, rotate_left, getAt, setAt, List.nil_append, propagate_update]
          simp only [difference_inner, esl, esr] at c2
          have K : sr.height = l.height + 1 ∧ sl.height = l.height ∧ r.height = l.height + 1 ∧
              h = l.height + 2 ∧ h1 = l.height + 2 := by omega
          clear e0 e1 b1 b2 b3 b4 c3 c2 c1 c1' hgrow hne g gt es el esl esr
          refine ⟨_, _, rfl, ?_, ?_, ?_⟩
          · simp only [HeightOK, height_inner, u8]
            exact ⟨by omega, by omega, ⟨by omega, by omega, hl, hsl⟩, hsr⟩
          · simp only [Balanced, height_inner, u8]
            exact ⟨by omega, by omega, ⟨by omega, by omega, bl, bsl⟩, bsr⟩
          · left
            simp only [height_inner, u8]
            omega
    · simp only [c3, if_false]
      simp only [difference_inner, es, el] at c3
      refine ⟨_, _, rfl, ?_, ?_, ?_⟩
      · simp only [HeightOK, u8]
        refine ⟨?_, ?_, hl, hs⟩
        · rcases g with g | g <;> omega
        · rcases g with g | g <;> omega
      · simp only [Balanced]
        exact ⟨by omega, by omega, bl, bs⟩
      · simp only [Grow, height_inner, Tilt, u8]
        rcases g with g | g
        · left; omega
        · by_cases c4 : s.height ≤ l.height
          · left; omega
          · right; exact ⟨by omega, Or.inl (by omega)⟩

theorem getAt_snoc_inner (t x : BVNode) (p : List Dir) (d : Dir)
    (hg : getAt t (p ++ [d]) = some x) :
    ∃ h n o l r, getAt t p = some (.inner h n o l r) ∧
      ((d = Dir.L ∧ x = l) ∨ (d = Dir.R ∧ x = r)) := by
  rw [getAt_append] at hg
  cases hp : getAt t p with
  | none => simp [hp] at hg
  | some sub =>
    simp only [hp, Option.bind] at hg
    cases sub with
    | leaf h n o dd => simp [getAt] at hg
    | inner h n o l r =>
      refine ⟨h, n, o, l, r, rfl, ?_⟩
      cases d with
      | L => simp only [getAt, Option.some.injEq] at hg; exact Or.inl ⟨rfl, hg.symm⟩
      | R => simp only [getAt, Option.some.injEq] at hg; exact Or.inr ⟨rfl, hg.symm⟩

/-- The climb of `fix_tree` after an insertion: started below a replaced subtree that is AVL
and has grown by at most one level, it returns an AVL tree. -/
theorem fix_tree_loop_avl (S : Nat) (k : Nat) :
    ∀ (T : BVNode) (tr : List Dir) (t0 x s lf : BVNode),
    (∀ hh nn oo l r, lf ≠ .inner hh nn oo l r) → WF S T → getAt T tr = some lf →
    k ≤ tr.length →
    T = graft (fun m => u32 (m + 0)) (fun m => u32 (m + 0)) t0 (tr.take k) s →
    HeightOK t0 → Balanced t0 → t0.height < 255 → getAt t0 (tr.take k) = some x →
    HeightOK s → Balanced s → Grow x s →
    ∃ T1 tr1, fix_tree_loop k T tr = some (T1, tr1) ∧ WF S T1 ∧ Tracks T1 tr1 T tr ∧
      HeightOK T1 ∧ Balanced T1 := by
  induction k with
  | zero =>
    intro T tr t0 x s lf _ wf _ _ hT _ _ _ _ hs bs _
    simp only [List.take_zero, graft_nil] at hT
    subst hT
    exact ⟨_, _, rfl, wf, Tracks_refl _ _, hs, bs⟩
  | succ k ih =>
    intro T tr t0 x s lf hlf wf hg hk hT h0 b0 hh hx hs bs g
    have hd : k < tr.length := by omega
    have etake : tr.take (k + 1) = tr.take k ++ [tr[k]] := by
      rw [List.take_succ, List.getElem?_eq_getElem hd]
      rfl
    have hpl : (tr.take k).length = k := by rw [List.length_take]; omega
    have e : tr = tr.take k ++ tr.drop k := (List.take_append_drop k tr).symm
    rw [etake] at hT hx
    obtain ⟨h, n, o, l, r, hp, hdir⟩ := getAt_snoc_inner t0 x _ _ hx
    obtain ⟨h0s, hle⟩ := HeightOK_getAt t0 _ _ h0 hp
    have b0s := Balanced_getAt t0 _ _ b0 hp
    simp only [height_inner] at hle
    rw [graft_append _ _ t0 _ s _ _ hp] at hT
    have hg1 : getAt T (tr.take k ++ tr.drop k) = some lf := by rw [← e]; exact hg
    obtain ⟨t1, x2, bq, w1, tk1⟩ := balance_spec S T (tr.take k) (tr.drop k) lf hlf wf hg1
    have key : ∃ s1 x1, balance (graft (fun m => u32 (m + 0)) (fun m => u32 (m + 0))
          (.inner h n o l r) [tr[k]] s) [] (tr.drop k) = some (s1, x1) ∧
        HeightOK s1 ∧ Balanced s1 ∧ Grow (.inner h n o l r) s1 := by
      rcases hdir with ⟨hd1, hx1⟩ | ⟨hd1, hx1⟩
      · rw [hd1]
        simp only [graft, graft_nil]
        subst hx1
        exact balance_avl_left h n o _ _ x r s _ h0s b0s (by omega) hs bs g
      · rw [hd1]
        simp only [graft, graft_nil]
        subst hx1
        exact balance_avl_right h n o _ _ l x s _ h0s b0s (by omega) hs bs g
    obtain ⟨s1, x1, eb, hs1, bs1, g1⟩ := key
    have hgT : getAt T (tr.take k) = some (graft (fun m => u32 (m + 0)) (fun m => u32 (m + 0))
        (.inner h n o l r) [tr[k]] s) := by
      rw [hT]
      exact getAt_graft_same _ _ t0 _ _ _ hp
    have bl := balance_lift S T _ s1 (tr.take k) (tr.drop k) x1 wf hgT eb
    rw [bl] at bq
    simp only [Option.some.injEq, Prod.mk.injEq] at bq
    obtain ⟨bq1, bq2⟩ := bq
    have hT1 : t1 = graft (fun m => u32 (m + 0)) (fun m => u32 (m + 0)) t0 (tr.take k) s1 := by
      rw [← bq1, hT, graft_zero_twice]
    rw [← e] at bl tk1
    have htr1 : (tr.take k ++ x2).take k = tr.take k := by
      rw [List.take_append_of_le_length (by omega), List.take_of_length_le (by omega)]
    have hg2 : getAt t1 (tr.take k ++ x2) = some lf := by rw [tk1.1]; exact hg
    obtain ⟨T2, tr2, f2, w2, tk2, a2, c2⟩ := ih t1 (tr.take k ++ x2) t0 (.inner h n o l r) s1 lf
      hlf w1 hg2 (by simp only [List.length_append]; omega) (by rw [htr1]; exact hT1) h0 b0 hh
      (by rw [htr1]; exact hp) hs1 bs1 g1
    refine ⟨T2, tr2, ?_, w2, Tracks_trans _ _ _ _ _ _ tk2 tk1, a2, c2⟩
    simp only [fix_tree_loop, bl, bq1, bq2, f2]

/-- The shape of the tree after `split_block`: the leaf is replaced by a node of height 2
over two leaves, and the heights above are recomputed. -/
theorem split_block_shape (S : Nat) (t : BVNode) (a : List Dir) (h n o d : Nat)
    (hg : getAt t a = some (.leaf h n o d)) :
    ∃ nn oo n1 o1 d1 n2 o2 d2, split_block S t a
      = some (graft (fun m => u32 (m + 0)) (fun m => u32 (m + 0)) t a
          (.inner 2 nn oo (.leaf 1 n1 o1 d1) (.leaf 1 n2 o2 d2))) := by
  refine ⟨u32 (TARGET_SIZE S), u32 (count S (d &&& MSB_MASK S)),
    u32 (TARGET_SIZE S), u32 (count S (d &&& MSB_MASK S)), d &&& MSB_MASK S,
    u32 (TARGET_SIZE S), u32 (count S (shl S (d &&& LSB_MASK S) (TARGET_SIZE S))),
    shl S (d &&& LSB_MASK S) (TARGET_SIZE S), ?_⟩
  simp only [split_block, hg]
  have g2 := getAt_setAt_same t _ (.inner h (u32 (TARGET_SIZE S)) (u32 (count S (d &&& MSB_MASK S)))
      (.leaf 1 (u32 (TARGET_SIZE S)) (u32 (count S (d &&& MSB_MASK S))) (d &&& MSB_MASK S))
      (.leaf 1 (u32 (TARGET_SIZE S)) (u32 (count S (shl S (d &&& LSB_MASK S) (TARGET_SIZE S))))
        (shl S (d &&& LSB_MASK S) (TARGET_SIZE S)))) a hg
  have := propagate_eq_graft _ _ a [] 0 0 g2
  rw [List.append_nil] at this
  rw [this, graft_setAt]
  rfl

/-- Writing the bit into the leaf does not change the shape. -/
theorem insert_bit_avl (S : Nat) (T : BVNode) (a : List Dir) (idx : Nat) (v : Bool)
    (t3 : BVNode) (h n o d : Nat) (hg : getAt T a = some (.leaf h n o d))
    (e : insert_bit S T a idx v = some t3) (H : HeightOK T) (B : Balanced T) :
    HeightOK t3 ∧ Balanced t3 := by
  have hl := (HeightOK_getAt T _ a H hg).1
  simp only [HeightOK] at hl
  have key : ∀ (F G : Nat → Nat) (n1 o1 d1 : Nat),
      HeightOK (graft F G T a (.leaf 1 n1 o1 d1)) ∧
        Balanced (graft F G T a (.leaf 1 n1 o1 d1)) := by
    intro F G n1 o1 d1
    have := graft_avl F G T _ (.leaf 1 n1 o1 d1) a hg H B rfl trivial
      (by simp only [height_leaf]; exact hl.symm)
    exact ⟨this.1, this.2.1⟩
  simp only [insert_bit, hg] at e
  cases v with
  | true =>
    simp only [if_true] at e
    cases hb : bitpos S idx with
    | none => simp [hb] at e
    | some pos =>
      simp only [hb, Option.some.injEq] at e
      rw [leaf_update_eq T a h n o d _ _ _ hg] at e
      subst e
      exact key _ _ _ _ _
  | false =>
    simp only [Bool.false_eq_true, if_false, Option.some.injEq] at e
    rw [leaf_update_eq T a h n o d _ _ _ hg] at e
    subst e
    exact key _ _ _ _ _

/-- The climb of `fix_tree` from one of the two leaves made by a split returns an AVL tree. -/
theorem fix_after_split_avl (S : Nat) (t : BVNode) (a : List Dir) (dir : Dir)
    (h n o d nn oo n1 o1 d1 n2 o2 d2 : Nat)
    (w1 : WF S (graft (fun m => u32 (m + 0)) (fun m => u32 (m + 0)) t a
      (.inner 2 nn oo (.leaf 1 n1 o1 d1) (.leaf 1 n2 o2 d2))))
    (g : getAt t a = some (.leaf h n o d)) (H : HeightOK t) (B : Balanced t)
    (hh : t.height < 255) :
    ∃ T2 tr2 h3 n3 o3 d3, fix_tree (graft (fun m => u32 (m + 0)) (fun m => u32 (m + 0)) t a
        (.inner 2 nn oo (.leaf 1 n1 o1 d1) (.leaf 1 n2 o2 d2))) (a ++ [dir]) = some (T2, tr2) ∧
      HeightOK T2 ∧ Balanced T2 ∧ getAt T2 tr2 = some (.leaf h3 n3 o3 d3) := by
  have hl := (HeightOK_getAt t _ a H g).1
  simp only [HeightOK] at hl
  have gs := getAt_graft_same (fun m => u32 (m + 0)) (fun m => u32 (m + 0)) t _
    (.inner 2 nn oo (.leaf 1 n1 o1 d1) (.leaf 1 n2 o2 d2)) a g
  have htake : (a ++ [dir]).take a.length = a := List.take_left' rfl
  have hbal : balance (graft (fun m => u32 (m + 0)) (fun m => u32 (m + 0)) t a
      (.inner 2 nn oo (.leaf 1 n1 o1 d1) (.leaf 1 n2 o2 d2))) a (a ++ [dir])
      = some (graft (fun m => u32 (m + 0)) (fun m => u32 (m + 0)) t a
      (.inner 2 nn oo (.leaf 1 n1 o1 d1) (.leaf 1 n2 o2 d2)), a ++ [dir]) := by
    simp only [balance, gs, difference_inner, heightOf_leaf]
    simp
  have hleaf : ∃ h3 n3 o3 d3, getAt (graft (fun m => u32 (m + 0)) (fun m => u32 (m + 0)) t a
      (.inner 2 nn oo (.leaf 1 n1 o1 d1) (.leaf 1 n2 o2 d2))) (a ++ [dir])
      = some (.leaf h3 n3 o3 d3) := by
    rw [getAt_append_of _ _ a _ gs]
    cases dir
    · exact ⟨_, _, _, _, rfl⟩
    · exact ⟨_, _, _, _, rfl⟩
  obtain ⟨h3, n3, o3, d3, hg3⟩ := hleaf
  obtain ⟨T2, tr2, f2, _, tk, A2, C2⟩ := fix_tree_loop_avl S a.length _ (a ++ [dir]) t
    (.leaf h n o d) (.inner 2 nn oo (.leaf 1 n1 o1 d1) (.leaf 1 n2 o2 d2)) (.leaf h3 n3 o3 d3)
    (leaf_not_inner _ _ _ _) w1 hg3 (by simp) (by rw [htake]) H B hh (by rw [htake]; exact g)
    (by simp [HeightOK, BVNode.height]) (by simp [Balanced, BVNode.height])
    (Or.inr ⟨by simp only [height_inner, height_leaf]; omega, Or.inr ⟨rfl, rfl⟩⟩)
  refine ⟨T2, tr2, h3, n3, o3, d3, ?_, A2, C2, by rw [tk.1]; exact hg3⟩
  simp only [fix_tree, List.length_append, List.length_singleton, fix_tree_loop, htake, hbal, f2]

/-- The operation `insert` keeps the AVL shape: stored heights are one more than the larger
child height and sibling heights differ by at most one. -/
theorem insert_avl (S : Nat) (t : BVNode) (i : Nat) (v : Bool) (hS : S % 2 = 0) (hS0 : 0 < S)
    (wf : WF S t) (H : HeightOK t) (B : Balanced t) (hh : t.height < 255)
    (hi : i ≤ totalNums t) (hrep : totalNums t + 1 < 4294967296) :
    ∃ t1, insert S t i v = some t1 ∧ HeightOK t1 ∧ Balanced t1 := by
  obtain ⟨tf, ef, _, _, _⟩ := insert_spec S t i v hS hS0 wf hi hrep
  refine ⟨tf, ef, ?_⟩
  obtain ⟨h, n, o, d, g, p, b1, _⟩ := find_block_spec t i wf.sound
  have hj := b1 hi
  have ok : leafOK S (n, o, d) := by
    apply wf.leaf
    rw [leaves_decomp t _ _ g]
    simp [leaves]
  have hnS := ok.1
  have hgt : ¬ (find_block t i).2 > S := by omega
  simp only [insert, hgt, if_false, g] at ef
  by_cases hfull : n ≥ S
  · simp only [hfull, if_true] at ef
    have hn : n = S := by omega
    obtain ⟨nn, oo, n1, o1, d1, n2, o2, d2, es⟩ := split_block_shape S t _ h n o d g
    have g0 := g
    rw [hn] at g0
    obtain ⟨t1, _, _, _, _, _, e1, w1, _⟩ := split_block_spec S t _ h o d hS wf g0
    rw [es] at e1
    simp only [Option.some.injEq] at e1
    subst e1
    have gs := getAt_graft_same (fun m => u32 (m + 0)) (fun m => u32 (m + 0)) t _
      (.inner 2 nn oo (.leaf 1 n1 o1 d1) (.leaf 1 n2 o2 d2)) (find_block t i).1 g
    simp only [es, gs] at ef
    by_cases c : (find_block t i).2 < nn
    · obtain ⟨T2, tr2, h3, n3, o3, d3, f2, A2, C2, g2⟩ := fix_after_split_avl S t
        (find_block t i).1 Dir.L h n o d nn oo n1 o1 d1 n2 o2 d2 w1 g H B hh
      simp only [find_block, c, if_true, f2] at ef
      exact insert_bit_avl S T2 tr2 _ v tf h3 n3 o3 d3 g2 ef A2 C2
    · obtain ⟨T2, tr2, h3, n3, o3, d3, f2, A2, C2, g2⟩ := fix_after_split_avl S t
        (find_block t i).1 Dir.R h n o d nn oo n1 o1 d1 n2 o2 d2 w1 g H B hh
      simp only [find_block, c, if_false, f2] at ef
      exact insert_bit_avl S T2 tr2 _ v tf h3 n3 o3 d3 g2 ef A2 C2
  · simp only [hfull, if_false] at ef
    exact insert_bit_avl S t _ _ v tf h n o d g ef H B

/-- C11: on a tree satisfying the data-model invariants, `complement()` leaves `size()`
unchanged, turns `extract()` into its element-wise negation, and for every `i < size()` makes
`access(i)` the negation of what it was. -/
theorem complement_extract (S : Nat) (t : BVNode) (i : Nat) (hinv : Inv S t)
    (hi : i < size t) :
    ∃ xs b, extract S t = some xs ∧
      extract S (complement S t) = some (xs.map (fun c => !c)) ∧
      size (complement S t) = size t ∧
      access S t i = some b ∧ access S (complement S t) i = some (!b) := by
  have wf := WF_of_Inv S t hinv
  obtain ⟨ex, sz, len⟩ := read_top S t wf
  obtain ⟨c1, c2, c3, _, c5⟩ := complement_core S t wf.sound wf.leaf wf.rep
  have wc : WF S (complement S t) :=
    ⟨c1, c2, HFresh_of_HeightOK _ (complement_HeightOK S t hinv.1), by rw [c3]; exact wf.rep⟩
  obtain ⟨exc, szc, _⟩ := read_top S (complement S t) wc
  rw [sz] at hi
  obtain ⟨a1, a2⟩ := access_spec S t i wf.sound (WF_cap S t wf) hi
  obtain ⟨a3, _⟩ := access_spec S (complement S t) i c1 (WF_cap S _ wc) (by rw [c3]; exact hi)
  refine ⟨toList S t, (toList S t)[i], ex, by rw [exc, c5], by rw [szc, sz, c3], ?_, ?_⟩
  · rw [a1, List.getElem?_eq_getElem a2]
  · rw [a3, c5]
    exact getElem?_map_not _ _ _ (List.getElem?_eq_getElem a2)

theorem complement_extract_witness :
    ∃ xs b, extract 4 (.inner 2 2 1 (.leaf 1 2 1 8) (.leaf 1 3 2 10)) = some xs ∧
      extract 4 (complement 4 (.inner 2 2 1 (.leaf 1 2 1 8) (.leaf 1 3 2 10)))
        = some (xs.map (fun c => !c)) ∧
      size (complement 4 (.inner 2 2 1 (.leaf 1 2 1 8) (.leaf 1 3 2 10)))
        = size (.inner 2 2 1 (.leaf 1 2 1 8) (.leaf 1 3 2 10)) ∧
      access 4 (.inner 2 2 1 (.leaf 1 2 1 8) (.leaf 1 3 2 10)) 3 = some b ∧
      access 4 (complement 4 (.inner 2 2 1 (.leaf 1 2 1 8) (.leaf 1 3 2 10))) 3 = some (!b) :=
  complement_extract 4 (.inner 2 2 1 (.leaf 1 2 1 8) (.leaf 1 3 2 10)) 3 (by decide) (by decide)

/-- C12: on a tree satisfying the data-model invariants, for `i ≤ size()`: `rank(i, 1)` after
`complement()` is `i` minus `rank(i, 1)` before it. -/
theorem complement_rank (S : Nat) (t : BVNode) (i : Nat) (hinv : Inv S t) (hi : i ≤ size t) :
    rank S t i true ≤ i ∧ rank S (complement S t) i true = i - rank S t i true := by
  have wf := WF_of_Inv S t hinv
  obtain ⟨_, sz, len⟩ := read_top S t wf
  obtain ⟨c1, c2, c3, _, c5⟩ := complement_core S t wf.sound wf.leaf wf.rep
  rw [sz] at hi
  rw [rank_spec S t i true wf.sound wf.leaf wf.rep hi,
    rank_spec S (complement S t) i true c1 c2 (by rw [c3]; exact wf.rep) (by rw [c3]; exact hi),
    c5]
  have := count_take_map_not (toList S t) i (by rw [len]; exact hi)
  omega

theorem complement_rank_witness :
    rank 4 (.inner 2 2 1 (.leaf 1 2 1 8) (.leaf 1 3 2 10)) 4 true ≤ 4 ∧
      rank 4 (complement 4 (.inner 2 2 1 (.leaf 1 2 1 8) (.leaf 1 3 2 10))) 4 true
        = 4 - rank 4 (.inner 2 2 1 (.leaf 1 2 1 8) (.leaf 1 3 2 10)) 4 true :=
  complement_rank 4 (.inner 2 2 1 (.leaf 1 2 1 8) (.leaf 1 3 2 10)) 4 (by decide) (by decide)

/-- C13: insert/delete inverse: on a tree satisfying the data-model invariants, with `S` even
and positive and a final length that fits 32 bits, a sequence of inserts whose indices are
each in range when applied, followed by the deletes of the same indices in reverse order,
returns a vector whose `extract()` is the original `extract()`. -/
theorem insert_del_inverse (S : Nat) (t : BVNode) (ops : List (Nat × Bool)) (hS : S % 2 = 0)
    (hS0 : 0 < S) (hinv : Inv S t) (hr : InRange (size t) ops)
    (hrep : size t + ops.length < 4294967296) :
    ∃ t1 t2 xs, insert_all S t ops = some t1 ∧
      del_all S t1 ((ops.map Prod.fst).reverse) = some t2 ∧
      extract S t = some xs ∧ extract S t2 = some xs := by
  have wf := WF_of_Inv S t hinv
  obtain ⟨ex, sz, _⟩ := read_top S t wf
  rw [sz] at hr hrep
  obtain ⟨t1, t2, e1, e2, w2, tl2, _⟩ := insert_del_all S hS hS0 ops t wf hr hrep
  exact ⟨t1, t2, toList S t, e1, e2, ex, by rw [(read_top S t2 w2).1, tl2]⟩

theorem insert_del_inverse_witness :
    ∃ t1 t2 xs, insert_all 4 (.leaf 1 4 2 10) [(2, true), (5, false), (0, true)] = some t1 ∧
      del_all 4 t1 (([(2, true), (5, false), (0, true)].map Prod.fst).reverse) = some t2 ∧
      extract 4 (.leaf 1 4 2 10) = some xs ∧ extract 4 t2 = some xs :=
  insert_del_inverse 4 (.leaf 1 4 2 10) [(2, true), (5, false), (0, true)] (by decide)
    (by decide) (by decide) (by decide) (by decide)

/-- C14: on a tree with sound counters (and well-formed leaves, heights in step with the
shape, and a length that fits 32 bits), `size()` is the sum of `nums` over all leaves and the
length of `extract()`; the empty vector has size 0; with `S` even and positive an in-range
`insert` raises `size()` by exactly one and an in-range `del` lowers it by exactly one. -/
theorem size_sum (S : Nat) (t : BVNode) (i j : Nat) (v : Bool) (hS : S % 2 = 0) (hS0 : 0 < S)
    (hs : Sound t) (hl : LeafOK S t) (hf : HFresh t) (hr : totalNums t < 4294967296) :
    size t = totalNums t ∧ (∃ xs, extract S t = some xs ∧ xs.length = size t) ∧
      size BVNode.fresh = 0 ∧
      (i ≤ size t → size t + 1 < 4294967296 →
        ∃ t1, insert S t i v = some t1 ∧ size t1 = size t + 1) ∧
      (j < size t → ∃ t1, del S t j = some t1 ∧ size t1 + 1 = size t) := by
  have wf : WF S t := ⟨hs, hl, hf, hr⟩
  obtain ⟨ex, sz, len⟩ := read_top S t wf
  refine ⟨sz, ⟨toList S t, ex, by rw [len, sz]⟩, rfl, ?_, ?_⟩
  · intro hi hrep
    rw [sz] at hi hrep
    obtain ⟨t1, e1, w1, tn1, _⟩ := insert_spec S t i v hS hS0 wf hi hrep
    exact ⟨t1, e1, by rw [(read_top S t1 w1).2.1, sz, tn1]⟩
  · intro hj
    rw [sz] at hj
    obtain ⟨t1, e1, w1, tn1, _⟩ := del_spec S t j wf hj
    exact ⟨t1, e1, by rw [(read_top S t1 w1).2.1, sz, tn1]⟩

theorem size_sum_witness :
    size (.inner 2 2 1 (.leaf 1 2 1 8) (.leaf 1 3 2 10))
        = totalNums (.inner 2 2 1 (.leaf 1 2 1 8) (.leaf 1 3 2 10)) ∧
      (∃ xs, extract 4 (.inner 2 2 1 (.leaf 1 2 1 8) (.leaf 1 3 2 10)) = some xs ∧
        xs.length = size (.inner 2 2 1 (.leaf 1 2 1 8) (.leaf 1 3 2 10))) ∧
      size BVNode.fresh = 0 ∧
      (5 ≤ size (.inner 2 2 1 (.leaf 1 2 1 8) (.leaf 1 3 2 10)) →
        size (.inner 2 2 1 (.leaf 1 2 1 8) (.leaf 1 3 2 10)) + 1 < 4294967296 →
        ∃ t1, insert 4 (.inner 2 2 1 (.leaf 1 2 1 8) (.leaf 1 3 2 10)) 5 true = some t1 ∧
          size t1 = size (.inner 2 2 1 (.leaf 1 2 1 8) (.leaf 1 3 2 10)) + 1) ∧
      (0 < size (.inner 2 2 1 (.leaf 1 2 1 8) (.leaf 1 3 2 10)) →
        ∃ t1, del 4 (.inner 2 2 1 (.leaf 1 2 1 8) (.leaf 1 3 2 10)) 0 = some t1 ∧
          size t1 + 1 = size (.inner 2 2 1 (.leaf 1 2 1 8) (.leaf 1 3 2 10))) :=
  size_sum 4 (.inner 2 2 1 (.leaf 1 2 1 8) (.leaf 1 3 2 10)) 5 0 true (by decide) (by decide)
    (by decide) (by decide) (by decide) (by decide)

/-- C15 as stated fails: on the one-leaf vector `[1, 0]` with block size 4, `insert(3, true)`
has an index beyond `size() = 2`, yet it is not skipped: the vector becomes `[1, 0, 0, 1]`
and `size()` becomes 4. -/
theorem insert_beyond_counterexample :
    Inv 4 (.leaf 1 2 1 8) ∧ size (.leaf 1 2 1 8) < 3 ∧
      extract 4 (.leaf 1 2 1 8) = some [true, false] ∧
      insert 4 (.leaf 1 2 1 8) 3 true = some (.leaf 1 4 2 9) ∧
      extract 4 (.leaf 1 4 2 9) = some [true, false, false, true] ∧
      size (.leaf 1 4 2 9) = 4 := by
  decide

/-- C15 amended: on a tree satisfying the data-model invariants, for `i > size()`, with `n`
the number of bits in the last leaf: when the offset of `i` in the last leaf,
`i - (size() - n)`, exceeds `S`, `insert(i, v)` is skipped and returns the tree unchanged,
counters included; when the offset is below `S`, the call pads the vector with zeros up to
position `i` and writes `v` there, so that `size()` becomes `i + 1`. -/
theorem insert_beyond (S : Nat) (t : BVNode) (i : Nat) (v : Bool) (h n o d : Nat)
    (hinv : Inv S t) (hi : size t < i)
    (hlast : getAt t (rightmost t) = some (.leaf h n o d)) :
    (S < i - (size t - n) → insert S t i v = some t) ∧
    (i - (size t - n) < S → i + 1 < 4294967296 →
      ∃ t1 xs, insert S t i v = some t1 ∧ extract S t = some xs ∧
        extract S t1 = some (xs ++ List.replicate (i - size t) false ++ [v]) ∧
        size t1 = i + 1) := by
  have wf := WF_of_Inv S t hinv
  obtain ⟨ex, sz, _⟩ := read_top S t wf
  rw [sz] at hi ⊢
  obtain ⟨hn, p1, p2⟩ := insert_past_end_spec S t i v h n o d wf hi hlast
  refine ⟨fun hgt => p1 (by omega), ?_⟩
  intro hlt hrep
  obtain ⟨t1, e1, w1, tn1, tl1⟩ := p2 (by omega) hrep
  obtain ⟨ex1, sz1, _⟩ := read_top S t1 w1
  exact ⟨t1, toList S t, e1, ex, by rw [ex1, tl1], by rw [sz1, tn1]⟩

theorem insert_beyond_witness :
    (4 < 7 - (size (.leaf 1 2 1 8) - 2) → insert 4 (.leaf 1 2 1 8) 7 true = some (.leaf 1 2 1 8)) ∧
    (7 - (size (.leaf 1 2 1 8) - 2) < 4 → 7 + 1 < 4294967296 →
      ∃ t1 xs, insert 4 (.leaf 1 2 1 8) 7 true = some t1 ∧
        extract 4 (.leaf 1 2 1 8) = some xs ∧
        extract 4 t1 = some (xs ++ List.replicate (7 - size (.leaf 1 2 1 8)) false ++ [true]) ∧
        size t1 = 7 + 1) :=
  insert_beyond 4 (.leaf 1 2 1 8) 7 true 1 2 1 8 (by decide) (by decide) (by decide)

/-- C16 fails on the code: on the empty vector with block size 4, `del(0)` has an index that
is not below `size() = 0`, yet the call is not skipped: the leaf counter wraps to
`2 ^ 32 - 1`, which `size()` then reports, and `extract()` reads out of range.  On the
one-leaf vector `[1, 1]`, `del(2)` drops the last bit and leaves the stale one-counter 2. -/
theorem del_beyond_evaluation :
    Inv 4 BVNode.fresh ∧ size BVNode.fresh = 0 ∧
      del 4 BVNode.fresh 0 = some (.leaf 1 4294967295 0 0) ∧
      size (.leaf 1 4294967295 0 0) = 4294967295 ∧
      extract 4 (.leaf 1 4294967295 0 0) = none ∧
      Inv 4 (.leaf 1 2 2 12) ∧ size (.leaf 1 2 2 12) = 2 ∧
      del 4 (.leaf 1 2 2 12) 2 = some (.leaf 1 1 2 12) ∧
      extract 4 (.leaf 1 1 2 12) = some [true] ∧ ¬ Inv 4 (.leaf 1 1 2 12) := by
  decide

/-- C17 fails on the code: on the two-leaf vector `[1, 0, 1, 0]` with block size 4, which
holds two ones, `select(3, true)` returns 1 and not the sentinel `2 ^ 32 - 1`: the sentinel
of the right leaf is added to the counter of the root.  On a single leaf the sentinel comes
back. -/
theorem select_sentinel_evaluation :
    construct 4 [true, false, true, false]
        = some (.inner 2 2 1 (.leaf 1 2 1 8) (.leaf 1 2 1 8)) ∧
      Inv 4 (.inner 2 2 1 (.leaf 1 2 1 8) (.leaf 1 2 1 8)) ∧
      extract 4 (.inner 2 2 1 (.leaf 1 2 1 8) (.leaf 1 2 1 8))
        = some [true, false, true, false] ∧
      select 4 (.inner 2 2 1 (.leaf 1 2 1 8) (.leaf 1 2 1 8)) 3 true = some 1 ∧
      select 4 (.leaf 1 2 1 8) 2 true = some 4294967295 := by
  decide

/-- C18: counter soundness is kept by every in-range public mutation: on a tree with sound
counters (and well-formed leaves, heights in step with the shape, and a length that fits 32
bits, `S` even and positive), the counters are sound again after `insert(i, v)` for
`i ≤ size()`, after `del(j)`, `set(j)`, `unset(j)` and `flip(j)` for `j < size()`, and after
`complement()`; splits, steals, merges and rotations are covered. -/
theorem mutations_sound (S : Nat) (t : BVNode) (i j : Nat) (v : Bool) (hS : S % 2 = 0)
    (hS0 : 0 < S) (hs : Sound t) (hl : LeafOK S t) (hf : HFresh t)
    (hr : totalNums t < 4294967296) :
    (i ≤ size t → size t + 1 < 4294967296 → ∃ t1, insert S t i v = some t1 ∧ Sound t1) ∧
    (j < size t →
      (∃ t1, del S t j = some t1 ∧ Sound t1) ∧ (∃ t1, set S t j = some t1 ∧ Sound t1) ∧
      (∃ t1, unset S t j = some t1 ∧ Sound t1) ∧ (∃ t1, flip S t j = some t1 ∧ Sound t1)) ∧
    Sound (complement S t) := by
  have wf : WF S t := ⟨hs, hl, hf, hr⟩
  obtain ⟨_, sz, _⟩ := read_top S t wf
  rw [sz]
  refine ⟨?_, ?_, (complement_core S t hs hl hr).1⟩
  · intro hi hrep
    obtain ⟨t1, e1, w1, _, _⟩ := insert_spec S t i v hS hS0 wf hi hrep
    exact ⟨t1, e1, w1.sound⟩
  · intro hj
    obtain ⟨t1, e1, w1, _, _⟩ := del_spec S t j wf hj
    obtain ⟨t2, e2, w2, _, _⟩ := set_spec S t j wf hj
    obtain ⟨t3, e3, w3, _, _⟩ := unset_spec S t j wf hj
    obtain ⟨t4, _, e4, w4, _, _, _⟩ := flip_spec S t j wf hj
    exact ⟨⟨t1, e1, w1.sound⟩, ⟨t2, e2, w2.sound⟩, ⟨t3, e3, w3.sound⟩, ⟨t4, e4, w4.sound⟩⟩

theorem mutations_sound_witness :
    (4 ≤ size (.inner 2 4 2 (.leaf 1 4 2 10) (.leaf 1 3 2 10)) →
      size (.inner 2 4 2 (.leaf 1 4 2 10) (.leaf 1 3 2 10)) + 1 < 4294967296 →
      ∃ t1, insert 4 (.inner 2 4 2 (.leaf 1 4 2 10) (.leaf 1 3 2 10)) 4 true = some t1 ∧
        Sound t1) ∧
    (1 < size (.inner 2 4 2 (.leaf 1 4 2 10) (.leaf 1 3 2 10)) →
      (∃ t1, del 4 (.inner 2 4 2 (.leaf 1 4 2 10) (.leaf 1 3 2 10)) 1 = some t1 ∧ Sound t1) ∧
      (∃ t1, set 4 (.inner 2 4 2 (.leaf 1 4 2 10) (.leaf 1 3 2 10)) 1 = some t1 ∧ Sound t1) ∧
      (∃ t1, unset 4 (.inner 2 4 2 (.leaf 1 4 2 10) (.leaf 1 3 2 10)) 1 = some t1 ∧ Sound t1) ∧
      (∃ t1, flip 4 (.inner 2 4 2 (.leaf 1 4 2 10) (.leaf 1 3 2 10)) 1 = some t1 ∧ Sound t1)) ∧
    Sound (complement 4 (.inner 2 4 2 (.leaf 1 4 2 10) (.leaf 1 3 2 10))) :=
  mutations_sound 4 (.inner 2 4 2 (.leaf 1 4 2 10) (.leaf 1 3 2 10)) 4 1 true (by decide)
    (by decide) (by decide) (by decide) (by decide) (by decide)

/-- C19: the AVL invariant is kept by `insert`: on a tree satisfying the data-model invariants
(stored height one more than the larger child height, sibling heights at most one apart, sound
counters, well-formed leaves), with `S` even and positive, room for one more bit in the 32-bit
length and a root height below 255 so that the 8-bit height field can hold one more level,
`insert(i, v)` for `i ≤ size()` returns a tree in which every inner node again stores one more
than the larger child height and has sibling heights at most one apart. -/
theorem insert_keeps_avl (S : Nat) (t : BVNode) (i : Nat) (v : Bool) (hS : S % 2 = 0)
    (hS0 : 0 < S) (hinv : Inv S t) (hh : t.height < 255) (hi : i ≤ size t)
    (hrep : size t + 1 < 4294967296) :
    ∃ t1, insert S t i v = some t1 ∧ HeightOK t1 ∧ Balanced t1 := by
  have wf := WF_of_Inv S t hinv
  obtain ⟨_, sz, _⟩ := read_top S t wf
  rw [sz] at hi hrep
  exact insert_avl S t i v hS hS0 wf hinv.1 hinv.2.1 hh hi hrep

theorem insert_keeps_avl_witness :
    ∃ t1, insert 4 (.inner 2 4 2 (.leaf 1 4 2 10) (.leaf 1 4 2 10)) 6 true = some t1 ∧
      HeightOK t1 ∧ Balanced t1 :=
  insert_keeps_avl 4 (.inner 2 4 2 (.leaf 1 4 2 10) (.leaf 1 4 2 10)) 6 true (by decide)
    (by decide) (by decide) (by decide) (by decide) (by decide)

/-- C20 fails on the code: the vector built from 18 zero bits with block size 4 satisfies
the data-model invariants, and `del(6)` returns a tree that is no longer balanced.  The
delete merges the fourth leaf with its successor, which hangs under another parent; the
parent of the successor is replaced by its remaining leaf, and the climb of `fix_tree`
starts at the surviving leaf, so the node above the removed parent, now of child heights 1
and 3, is never visited.  A second tree that satisfies the invariants shows the other
case: `del(12)` merges two sibling leaves, the root becomes left-heavy by two over a left
child with children of equal height, `balance` takes the double rotation, and the new left
subtree has child heights 3 and 1. -/
theorem del_breaks_avl :
    construct 4 (List.replicate 18 false)
      = some (.inner 5 8 0
          (.inner 3 4 0 (.inner 2 2 0 (.leaf 1 2 0 0) (.leaf 1 2 0 0))
            (.inner 2 2 0 (.leaf 1 2 0 0) (.leaf 1 2 0 0)))
          (.inner 4 4 0 (.inner 2 2 0 (.leaf 1 2 0 0) (.leaf 1 2 0 0))
            (.inner 3 2 0 (.leaf 1 2 0 0)
              (.inner 2 2 0 (.leaf 1 2 0 0) (.leaf 1 2 0 0))))) ∧
    Inv 4 (.inner 5 8 0
          (.inner 3 4 0 (.inner 2 2 0 (.leaf 1 2 0 0) (.leaf 1 2 0 0))
            (.inner 2 2 0 (.leaf 1 2 0 0) (.leaf 1 2 0 0)))
          (.inner 4 4 0 (.inner 2 2 0 (.leaf 1 2 0 0) (.leaf 1 2 0 0))
            (.inner 3 2 0 (.leaf 1 2 0 0)
              (.inner 2 2 0 (.leaf 1 2 0 0) (.leaf 1 2 0 0))))) ∧
    del 4 (.inner 5 8 0
          (.inner 3 4 0 (.inner 2 2 0 (.leaf 1 2 0 0) (.leaf 1 2 0 0))
            (.inner 2 2 0 (.leaf 1 2 0 0) (.leaf 1 2 0 0)))
          (.inner 4 4 0 (.inner 2 2 0 (.leaf 1 2 0 0) (.leaf 1 2 0 0))
            (.inner 3 2 0 (.leaf 1 2 0 0)
              (.inner 2 2 0 (.leaf 1 2 0 0) (.leaf 1 2 0 0))))) 6
      = some (.inner 5 9 0
          (.inner 3 4 0 (.inner 2 2 0 (.leaf 1 2 0 0) (.leaf 1 2 0 0))
            (.inner 2 2 0 (.leaf 1 2 0 0) (.leaf 1 3 0 0)))
          (.inner 4 2 0 (.leaf 1 2 0 0)
            (.inner 3 2 0 (.leaf 1 2 0 0)
              (.inner 2 2 0 (.leaf 1 2 0 0) (.leaf 1 2 0 0))))) ∧
    ¬ Balanced (.inner 5 9 0
          (.inner 3 4 0 (.inner 2 2 0 (.leaf 1 2 0 0) (.leaf 1 2 0 0))
            (.inner 2 2 0 (.leaf 1 2 0 0) (.leaf 1 3 0 0)))
          (.inner 4 2 0 (.leaf 1 2 0 0)
            (.inner 3 2 0 (.leaf 1 2 0 0)
              (.inner 2 2 0 (.leaf 1 2 0 0) (.leaf 1 2 0 0))))) ∧
    Inv 4 (.inner 5 12 0
          (.inner 4 6 0
            (.inner 3 4 0 (.inner 2 2 0 (.leaf 1 2 0 0) (.leaf 1 2 0 0)) (.leaf 1 2 0 0))
            (.inner 3 2 0 (.leaf 1 2 0 0) (.inner 2 2 0 (.leaf 1 2 0 0) (.leaf 1 2 0 0))))
          (.inner 3 4 0 (.inner 2 2 0 (.leaf 1 2 0 0) (.leaf 1 2 0 0)) (.leaf 1 2 0 0))) ∧
    del 4 (.inner 5 12 0
          (.inner 4 6 0
            (.inner 3 4 0 (.inner 2 2 0 (.leaf 1 2 0 0) (.leaf 1 2 0 0)) (.leaf 1 2 0 0))
            (.inner 3 2 0 (.leaf 1 2 0 0) (.inner 2 2 0 (.leaf 1 2 0 0) (.leaf 1 2 0 0))))
          (.inner 3 4 0 (.inner 2 2 0 (.leaf 1 2 0 0) (.leaf 1 2 0 0)) (.leaf 1 2 0 0))) 12
      = some (.inner 5 8 0
          (.inner 4 6 0
            (.inner 3 4 0 (.inner 2 2 0 (.leaf 1 2 0 0) (.leaf 1 2 0 0)) (.leaf 1 2 0 0))
            (.leaf 1 2 0 0))
          (.inner 3 4 0 (.inner 2 2 0 (.leaf 1 2 0 0) (.leaf 1 2 0 0))
            (.inner 2 3 0 (.leaf 1 3 0 0) (.leaf 1 2 0 0)))) ∧
    ¬ Balanced (.inner 5 8 0
          (.inner 4 6 0
            (.inner 3 4 0 (.inner 2 2 0 (.leaf 1 2 0 0) (.leaf 1 2 0 0)) (.leaf 1 2 0 0))
            (.leaf 1 2 0 0))
          (.inner 3 4 0 (.inner 2 2 0 (.leaf 1 2 0 0) (.leaf 1 2 0 0))
            (.inner 2 3 0 (.leaf 1 3 0 0) (.leaf 1 2 0 0)))) := by
  decide

/-! ## The shape built by `build_balanced_tree` -/

theorem clog_half (n : Nat) (h : 2 ≤ n) : Nat.clog 2 n = Nat.clog 2 (n - n / 2) + 1 := by
  rw [Nat.clog_of_two_le (by decide) h]
  congr 2
  omega

theorem clog_succ_le (m : Nat) (h : 1 ≤ m) : Nat.clog 2 (m + 1) ≤ Nat.clog 2 m + 1 := by
  have e : Nat.clog 2 (2 * m) = Nat.clog 2 m + 1 := by
    rw [Nat.clog_of_two_le (by decide) (by omega)]
    congr 2
    omega
  rw [← e]
  exact Nat.clog_mono_right 2 (by omega)

/-- The tree built for `n ≥ 1` leaves: `n` leaves, structural height `⌈log₂ n⌉ + 1`, and
children of every inner node at most one apart in height. -/
theorem build_shape_spec (f n : Nat) (h1 : 1 ≤ n) (h : n ≤ f) :
    (leaves (build_balanced_tree f n)).length = n ∧
    sheight (build_balanced_tree f n) = Nat.clog 2 n + 1 ∧
    SBalanced (build_balanced_tree f n) := by
  induction f generalizing n with
  | zero => omega
  | succ f ih =>
    by_cases c : n ≤ 1
    · have e : n = 1 := by omega
      subst e
      simp only [build_balanced_tree, le_refl, if_true]
      exact ⟨rfl, by simp [BVNode.fresh, sheight], trivial⟩
    · simp only [build_balanced_tree, c, if_false]
      obtain ⟨a1, a2, a3⟩ := ih (n / 2) (by omega) (by omega)
      obtain ⟨b1, b2, b3⟩ := ih (n - n / 2) (by omega) (by omega)
      have m1 : Nat.clog 2 (n / 2) ≤ Nat.clog 2 (n - n / 2) :=
        Nat.clog_mono_right 2 (by omega)
      have m2 : Nat.clog 2 (n - n / 2) ≤ Nat.clog 2 (n / 2) + 1 :=
        le_trans (Nat.clog_mono_right 2 (by omega)) (clog_succ_le (n / 2) (by omega))
      have e := clog_half n (by omega)
      refine ⟨?_, ?_, ?_⟩
      · simp only [leaves_inner, List.length_append, a1, b1]
        omega
      · simp only [sheight, a2, b2]
        omega
      · simp only [SBalanced, a2, b2]
        exact ⟨by omega, by omega, a3, b3⟩

/-! ## Rank past the end -/

/-- Masking a well-formed leaf at or past its last bit keeps all its ones. -/
theorem count_mask_beyond (S n o d i : Nat) (h : leafOK S (n, o, d)) (hi : n ≤ i) :
    count S (d &&& bnot S (FULL_MASK S >>> i)) = (leafBits S n d).count true := by
  have hc := leafOK_clean S n o d h
  have ho : o = count S d := h.2.2.1
  rw [count_eq, ← leafOK_ones S n o d h, ho, count_eq]
  congr 1
  apply map_range_congr
  intro j hj
  rw [gb_mask S d i j hj]
  by_cases c : j < i
  · simp [c]
  · simp only [c, decide_False, Bool.and_false]
    exact (hc j (by omega) hj).symm

/-- The operation `rank` with an index at or past the end counts the whole sequence. -/
theorem rank_beyond_spec (S : Nat) (t : BVNode) (i : Nat) (v : Bool) (hs : Sound t)
    (hl : LeafOK S t) (hr : totalNums t < 4294967296) (hi : totalNums t ≤ i) :
    rank S t i v = (toList S t).count v := by
  induction t generalizing i with
  | leaf hh n o d =>
    have ok : leafOK S (n, o, d) := hl (n, o, d) (by simp [leaves])
    simp only [totalNums_leaf] at hi hr
    simp only [rank, toList_leaf]
    rw [count_mask_beyond S n o d i ok hi]
    have hlen : (leafBits S n d).length = n := by simp [leafBits]
    have hc := count_true_add_false (leafBits S n d)
    cases v
    · simp only [Bool.false_eq_true, if_false, u32, Nat.min_def]
      split_ifs
      omega
    · simp only [if_true, u32]
      omega
  | inner hh n o l r ihl ihr =>
    obtain ⟨e1, e2, sl, sr⟩ := hs
    have hll := LeafOK_left S hh n o l r hl
    have hlr := LeafOK_right S hh n o l r hl
    simp only [totalNums_inner] at hi hr
    have lenl := length_toList S l
    have lenr := length_toList S r
    have o1 := totalOnes_eq_count S l hll
    have ct := count_true_add_false (toList S l)
    have h : ¬ i < n := by omega
    simp only [rank, h, if_false, toList_inner]
    rw [ihr (i - n) sr hlr (by omega) (by omega), List.count_append]
    have hc : (toList S r).count v ≤ (toList S r).length := List.count_le_length _ _
    cases v
    · simp only [Bool.false_eq_true, if_false, u32]
      omega
    · simp only [if_true, u32]
      omega

/-- C23: on a tree satisfying the data-model invariants, `rank(i, v)` for an index past the
end gives what it gives at the end: for `i > size()`, `rank(i, v) = rank(size(), v)`, and
both are the number of occurrences of `v` in the whole sequence.  The leaf case masks the
block with `~(FULL_MASK >> i)`, takes `min(nums, i)`, and the tail of a leaf is clean. -/
theorem rank_clamps (S : Nat) (t : BVNode) (i : Nat) (v : Bool) (hinv : Inv S t)
    (hi : size t < i) :
    rank S t i v = rank S t (size t) v ∧ rank S t (size t) v = (toList S t).count v ∧
      extract S t = some (toList S t) := by
  have wf := WF_of_Inv S t hinv
  obtain ⟨ex, sz, len⟩ := read_top S t wf
  rw [sz] at hi
  have e1 := rank_beyond_spec S t i v wf.sound wf.leaf wf.rep (by omega)
  have e2 := rank_beyond_spec S t (totalNums t) v wf.sound wf.leaf wf.rep (le_refl _)
  rw [sz, e1, e2]
  exact ⟨rfl, rfl, ex⟩

theorem rank_clamps_witness :
    rank 4 (.inner 2 2 1 (.leaf 1 2 1 8) (.leaf 1 3 2 10)) 9 false
        = rank 4 (.inner 2 2 1 (.leaf 1 2 1 8) (.leaf 1 3 2 10))
            (size (.inner 2 2 1 (.leaf 1 2 1 8) (.leaf 1 3 2 10))) false ∧
      rank 4 (.inner 2 2 1 (.leaf 1 2 1 8) (.leaf 1 3 2 10))
          (size (.inner 2 2 1 (.leaf 1 2 1 8) (.leaf 1 3 2 10))) false
        = (toList 4 (.inner 2 2 1 (.leaf 1 2 1 8) (.leaf 1 3 2 10))).count false ∧
      extract 4 (.inner 2 2 1 (.leaf 1 2 1 8) (.leaf 1 3 2 10))
        = some (toList 4 (.inner 2 2 1 (.leaf 1 2 1 8) (.leaf 1 3 2 10))) :=
  rank_clamps 4 (.inner 2 2 1 (.leaf 1 2 1 8) (.leaf 1 3 2 10)) 9 false (by decide) (by decide)

/-- C25: for `k ≥ 1` the tree returned by `build_balanced_tree(k)` has exactly `k` leaves, its
structural height (a leaf counting 1) is `⌈log₂ k⌉ + 1`, and the structural heights of the
two children of every inner node differ by at most 1.  Every inner node of the model has two
children; the source leaves a child null only for `num_leafs == 0`, and a node with
`num_leafs ≥ 2` asks for `num_leafs / 2 ≥ 1` and `num_leafs - num_leafs / 2 ≥ 1` leaves. -/
theorem build_balanced_tree_shape (k : Nat) (hk : 1 ≤ k) :
    (leaves (build_balanced_tree k k)).length = k ∧
    tree_size (build_balanced_tree k k) = 2 * k - 1 ∧
    sheight (build_balanced_tree k k) = Nat.clog 2 k + 1 ∧
    SBalanced (build_balanced_tree k k) := by
  obtain ⟨a, b, c⟩ := build_shape_spec k k hk (le_refl _)
  refine ⟨a, ?_, b, c⟩
  have key : ∀ t : BVNode, tree_size t + 1 = 2 * (leaves t).length := by
    intro t
    induction t with
    | leaf h n o d => rfl
    | inner h n o l r ihl ihr =>
      simp only [tree_size, leaves_inner, List.length_append]
      omega
  have := key (build_balanced_tree k k)
  omega

theorem build_balanced_tree_shape_witness :
    (leaves (build_balanced_tree 5 5)).length = 5 ∧
    tree_size (build_balanced_tree 5 5) = 2 * 5 - 1 ∧
    sheight (build_balanced_tree 5 5) = Nat.clog 2 5 + 1 ∧
    SBalanced (build_balanced_tree 5 5) :=
  build_balanced_tree_shape 5 (by decide)

/-- C27: the rotations keep the in-order sequence of leaves and the soundness of the counters.
On a tree with sound counters whose totals fit 32 bits: `rotate_left` at a node `N` with an
inner right child `R` gives `R` over `N` with `R.nums + N.nums` and `R.ones + N.ones` in the
promoted node; `rotate_right` at a node `N` with an inner left child `L` gives `L` over `N`
with `N.nums - L.nums` and `N.ones - L.ones` in the demoted node; the two double rotations,
where the grandchild they promote is an inner node, return as well; in all four cases the
leaves are the same in the same order and the counters are sound. -/
theorem rotations_keep_leaves (t : BVNode) (hs : Sound t) (hN : totalNums t < 4294967296)
    (hO : totalOnes t < 4294967296) :
    (∀ h n o a hr nr o1 b c, t = .inner h n o a (.inner hr nr o1 b c) →
      ∃ h1 h2 x, rotate_left t [] [] = some (.inner h1 (nr + n) (o1 + o) (.inner h2 n o a b) c, x) ∧
        leaves (.inner h1 (nr + n) (o1 + o) (.inner h2 n o a b) c) = leaves t ∧
        Sound (.inner h1 (nr + n) (o1 + o) (.inner h2 n o a b) c)) ∧
    (∀ h n o hl nl ol a b c, t = .inner h n o (.inner hl nl ol a b) c →
      ∃ h1 h2 x, rotate_right t [] [] = some (.inner h1 nl ol a (.inner h2 (n - nl) (o - ol) b c), x) ∧
        nl ≤ n ∧ ol ≤ o ∧
        leaves (.inner h1 nl ol a (.inner h2 (n - nl) (o - ol) b c)) = leaves t ∧
        Sound (.inner h1 nl ol a (.inner h2 (n - nl) (o - ol) b c))) ∧
    (∀ h n o hl nl ol hb nb ob a b1 b2 c,
      t = .inner h n o (.inner hl nl ol a (.inner hb nb ob b1 b2)) c →
      ∃ s x, rotate_left_right t [] [] = some (s, x) ∧ leaves s = leaves t ∧ Sound s) ∧
    (∀ h n o hr nr o1 hb nb ob a b1 b2 c,
      t = .inner h n o a (.inner hr nr o1 (.inner hb nb ob b1 b2) c) →
      ∃ s x, rotate_right_left t [] [] = some (s, x) ∧ leaves s = leaves t ∧ Sound s) := by
  refine ⟨?_, ?_, ?_, ?_⟩
  · intro h n o a hr nr o1 b c e
    subst e
    simp only [Sound, totalNums_inner, totalOnes_inner] at hs hN hO
    obtain ⟨e1, e2, sa, e3, e4, sb, sc⟩ := hs
    have u1 : u32 ((u32 ((nr : Int) + (n : Int)) : Nat) + 0) = nr + n := by
      simp only [u32]; omega
    have u2 : u32 ((u32 ((o1 : Int) + (o : Int)) : Nat) + 0) = o1 + o := by
      simp only [u32]; omega
    refine ⟨_, _, _, by
      simp only [rotate_left, getAt, setAt, List.nil_append, propagate_update, u1, u2]; rfl,
      by simp [List.append_assoc], ?_⟩
    simp only [Sound, totalNums_inner, totalOnes_inner]
    exact ⟨by omega, by omega, ⟨e1, e2, sa, sb⟩, sc⟩
  · intro h n o hl nl ol a b c e
    subst e
    simp only [Sound, totalNums_inner, totalOnes_inner] at hs hN hO
    obtain ⟨e1, e2, ⟨e3, e4, sa, sb⟩, sc⟩ := hs
    have u1 : u32 ((n : Int) - (nl : Int)) = n - nl := by simp only [u32]; omega
    have u2 : u32 ((o : Int) - (ol : Int)) = o - ol := by simp only [u32]; omega
    refine ⟨_, _, _, by
      simp only [rotate_right, getAt, setAt, List.nil_append, propagate_update, u1, u2]; rfl,
      by omega, by omega, by simp [List.append_assoc], ?_⟩
    simp only [Sound, totalNums_inner, totalOnes_inner]
    exact ⟨e3, e4, sa, ⟨by omega, by omega, sb, sc⟩⟩
  · intro h n o hl nl ol hb nb ob a b1 b2 c e
    subst e
    simp only [Sound, totalNums_inner, totalOnes_inner] at hs hN hO
    obtain ⟨e1, e2, ⟨e3, e4, sa, e5, e6, sb1, sb2⟩, sc⟩ := hs
    refine ⟨_, _, by simp only [rotate_left_right, rotate_left, rotate_right, getAt, setAt,
      List.nil_append, List.cons_append, propagate_update]; rfl, by simp [List.append_assoc], ?_⟩
    simp only [Sound, totalNums_inner, totalOnes_inner, u32]
    exact ⟨by omega, by omega, ⟨by omega, by omega, sa, sb1⟩, ⟨by omega, by omega, sb2, sc⟩⟩
  · intro h n o hr nr o1 hb nb ob a b1 b2 c e
    subst e
    simp only [Sound, totalNums_inner, totalOnes_inner] at hs hN hO
    obtain ⟨e1, e2, sa, e3, e4, ⟨e5, e6, sb1, sb2⟩, sc⟩ := hs
    refine ⟨_, _, by simp only [rotate_right_left, rotate_left, rotate_right, getAt, setAt,
      List.nil_append, List.cons_append, propagate_update]; rfl, by simp [List.append_assoc], ?_⟩
    simp only [Sound, totalNums_inner, totalOnes_inner, u32]
    exact ⟨by omega, by omega, ⟨by omega, by omega, sa, sb1⟩, ⟨by omega, by omega, sb2, sc⟩⟩

theorem rotations_keep_leaves_witness :
    (∃ s x, rotate_left (.inner 4 6 3
        (.inner 3 2 1 (.leaf 1 2 1 8) (.inner 2 2 1 (.leaf 1 2 1 8) (.leaf 1 2 1 8)))
        (.inner 3 4 2 (.inner 2 2 1 (.leaf 1 2 1 8) (.leaf 1 2 1 8)) (.leaf 1 2 1 8))) [] []
          = some (s, x) ∧
      leaves s = [(2, 1, 8), (2, 1, 8), (2, 1, 8), (2, 1, 8), (2, 1, 8), (2, 1, 8)] ∧ Sound s) ∧
    (∃ s x, rotate_right (.inner 4 6 3
        (.inner 3 2 1 (.leaf 1 2 1 8) (.inner 2 2 1 (.leaf 1 2 1 8) (.leaf 1 2 1 8)))
        (.inner 3 4 2 (.inner 2 2 1 (.leaf 1 2 1 8) (.leaf 1 2 1 8)) (.leaf 1 2 1 8))) [] []
          = some (s, x) ∧
      leaves s = [(2, 1, 8), (2, 1, 8), (2, 1, 8), (2, 1, 8), (2, 1, 8), (2, 1, 8)] ∧ Sound s) ∧
    (∃ s x, rotate_left_right (.inner 4 6 3
        (.inner 3 2 1 (.leaf 1 2 1 8) (.inner 2 2 1 (.leaf 1 2 1 8) (.leaf 1 2 1 8)))
        (.inner 3 4 2 (.inner 2 2 1 (.leaf 1 2 1 8) (.leaf 1 2 1 8)) (.leaf 1 2 1 8))) [] []
          = some (s, x) ∧
      leaves s = [(2, 1, 8), (2, 1, 8), (2, 1, 8), (2, 1, 8), (2, 1, 8), (2, 1, 8)] ∧ Sound s) ∧
    (∃ s x, rotate_right_left (.inner 4 6 3
        (.inner 3 2 1 (.leaf 1 2 1 8) (.inner 2 2 1 (.leaf 1 2 1 8) (.leaf 1 2 1 8)))
        (.inner 3 4 2 (.inner 2 2 1 (.leaf 1 2 1 8) (.leaf 1 2 1 8)) (.leaf 1 2 1 8))) [] []
          = some (s, x) ∧
      leaves s = [(2, 1, 8), (2, 1, 8), (2, 1, 8), (2, 1, 8), (2, 1, 8), (2, 1, 8)] ∧ Sound s) :=
  have H := rotations_keep_leaves (.inner 4 6 3
      (.inner 3 2 1 (.leaf 1 2 1 8) (.inner 2 2 1 (.leaf 1 2 1 8) (.leaf 1 2 1 8)))
      (.inner 3 4 2 (.inner 2 2 1 (.leaf 1 2 1 8) (.leaf 1 2 1 8)) (.leaf 1 2 1 8)))
    (by decide) (by decide) (by decide)
  ⟨match H.1 _ _ _ _ _ _ _ _ _ rfl with
    | ⟨_, _, x, e, l, s⟩ => ⟨_, x, e, l, s⟩,
   match H.2.1 _ _ _ _ _ _ _ _ _ rfl with
    | ⟨_, _, x, e, _, _, l, s⟩ => ⟨_, x, e, l, s⟩,
   H.2.2.1 _ _ _ _ _ _ _ _ _ _ _ _ _ rfl,
   H.2.2.2 _ _ _ _ _ _ _ _ _ _ _ _ _ rfl⟩

/-- C28: `split_block` on a full leaf (`nums == S`, `S` even) makes it an inner node of height 2
with `nums == TARGET`, and `ones` the ones of the new left leaf, over two leaves of height 1:
the left one holds the bits `b_0 .. b_{S/2-1}` of the block, the right one the bits
`b_{S/2} .. b_{S-1}`, each from logical index 0 on, with `nums == TARGET`, `ones` the population
count of its block, and a clean tail. -/
theorem split_block_halves (S : Nat) (t : BVNode) (a : List Dir) (h o d : Nat)
    (hS : S % 2 = 0) (h32 : S < 4294967296) (hd : d < 2 ^ S)
    (hg : getAt t a = some (.leaf h S o d)) :
    ∃ t1 cl cr dl dr, split_block S t a = some t1 ∧
      getAt t1 a = some (.inner 2 (TARGET_SIZE S) cl (.leaf 1 (TARGET_SIZE S) cl dl)
        (.leaf 1 (TARGET_SIZE S) cr dr)) ∧
      leafBits S (TARGET_SIZE S) dl = (leafBits S S d).take (TARGET_SIZE S) ∧
      leafBits S (TARGET_SIZE S) dr = (leafBits S S d).drop (TARGET_SIZE S) ∧
      leafOK S (TARGET_SIZE S, cl, dl) ∧ leafOK S (TARGET_SIZE S, cr, dr) := by
  have ok : leafOK S (S, count S d, d) := ⟨le_refl _, hd, rfl, by simp [Nat.mod_one]⟩
  obtain ⟨e, k1, k2, kc⟩ := leaf_split S (count S d) d hS ok
  have hT : TARGET_SIZE S + TARGET_SIZE S = S := by simp only [TARGET_SIZE]; omega
  have hcS : count S d ≤ S := by
    rw [leafOK_ones S S (count S d) d ok]
    have := List.count_le_length true (leafBits S S d)
    simpa [leafBits] using this
  have u1 : u32 (TARGET_SIZE S) = TARGET_SIZE S := by simp only [u32]; omega
  have u2 : u32 (count S (d &&& MSB_MASK S)) = count S (d &&& MSB_MASK S) := by
    simp only [u32]; omega
  have u3 : u32 (count S (shl S (d &&& LSB_MASK S) (TARGET_SIZE S)))
      = count S (shl S (d &&& LSB_MASK S) (TARGET_SIZE S)) := by
    simp only [u32]; omega
  have heq : split_block S t a = some (graft (fun m => u32 (m + 0)) (fun m => u32 (m + 0)) t a
      (.inner 2 (TARGET_SIZE S) (count S (d &&& MSB_MASK S))
        (.leaf 1 (TARGET_SIZE S) (count S (d &&& MSB_MASK S)) (d &&& MSB_MASK S))
        (.leaf 1 (TARGET_SIZE S) (count S (shl S (d &&& LSB_MASK S) (TARGET_SIZE S)))
          (shl S (d &&& LSB_MASK S) (TARGET_SIZE S))))) := by
    simp only [split_block, hg, u1, u2, u3]
    have g2 := getAt_setAt_same t _ (.inner h (TARGET_SIZE S) (count S (d &&& MSB_MASK S))
        (.leaf 1 (TARGET_SIZE S) (count S (d &&& MSB_MASK S)) (d &&& MSB_MASK S))
        (.leaf 1 (TARGET_SIZE S) (count S (shl S (d &&& LSB_MASK S) (TARGET_SIZE S)))
          (shl S (d &&& LSB_MASK S) (TARGET_SIZE S)))) a hg
    have := propagate_eq_graft _ _ a [] 0 0 g2
    rw [List.append_nil] at this
    rw [this, graft_setAt]
    rfl
  have hl1 : (leafBits S (TARGET_SIZE S) (d &&& MSB_MASK S)).length = TARGET_SIZE S := by
    simp [leafBits]
  refine ⟨_, _, _, _, _, heq, getAt_graft_same _ _ t _ _ a hg, ?_, ?_, k1, k2⟩
  · rw [← e, List.take_left' hl1]
  · rw [← e, List.drop_left' hl1]

theorem split_block_halves_witness :
    ∃ t1 cl cr dl dr, split_block 4 (.inner 2 4 3 (.leaf 1 4 3 11) (.leaf 1 2 1 8)) [Dir.L]
        = some t1 ∧
      getAt t1 [Dir.L] = some (.inner 2 (TARGET_SIZE 4) cl (.leaf 1 (TARGET_SIZE 4) cl dl)
        (.leaf 1 (TARGET_SIZE 4) cr dr)) ∧
      leafBits 4 (TARGET_SIZE 4) dl = (leafBits 4 4 11).take (TARGET_SIZE 4) ∧
      leafBits 4 (TARGET_SIZE 4) dr = (leafBits 4 4 11).drop (TARGET_SIZE 4) ∧
      leafOK 4 (TARGET_SIZE 4, cl, dl) ∧ leafOK 4 (TARGET_SIZE 4, cr, dr) :=
  split_block_halves 4 (.inner 2 4 3 (.leaf 1 4 3 11) (.leaf 1 2 1 8)) [Dir.L] 1 3 11
    (by decide) (by decide) (by decide) rfl

/-- C26 fails on the code in the left-heavy case with a level left child.  The node below is
handed to `balance` by `del(20)` on the vector built from 10 zero bits (block size 4) after
the inserts at 3, 3, 3, 0, 0, 0, 0, 0, 11, 11, 11: both subtrees satisfy the AVL invariant,
the stored heights are exact, the left subtree is higher by two, and the two subtrees of the
left child have the same height.  `balance` tests `difference(node->l) > 0`, takes the double
rotation, and returns a tree whose left subtree has children of heights 3 and 1.  The
mirrored tree shows the right-heavy branch: there the level child falls to the single
rotation and the result is balanced. -/
theorem balance_tie_evaluation :
    construct 4 (List.replicate 10 false)
      = some (.inner 4 4 0 (.inner 2 2 0 (.leaf 1 2 0 0) (.leaf 1 2 0 0))
          (.inner 3 2 0 (.leaf 1 2 0 0) (.inner 2 2 0 (.leaf 1 2 0 0) (.leaf 1 2 0 0)))) ∧
    insert_all 4 (.inner 4 4 0 (.inner 2 2 0 (.leaf 1 2 0 0) (.leaf 1 2 0 0))
          (.inner 3 2 0 (.leaf 1 2 0 0) (.inner 2 2 0 (.leaf 1 2 0 0) (.leaf 1 2 0 0))))
        [(3, false), (3, false), (3, false), (0, false), (0, false), (0, false), (0, false),
          (0, false), (11, false), (11, false), (11, false)]
      = some (.inner 5 15 0
          (.inner 4 7 0
            (.inner 3 5 0 (.inner 2 3 0 (.leaf 1 3 0 0) (.leaf 1 2 0 0)) (.leaf 1 2 0 0))
            (.inner 3 3 0 (.leaf 1 3 0 0) (.inner 2 3 0 (.leaf 1 3 0 0) (.leaf 1 2 0 0))))
          (.inner 3 2 0 (.leaf 1 2 0 0) (.inner 2 2 0 (.leaf 1 2 0 0) (.leaf 1 2 0 0)))) ∧
    Inv 4 (.inner 5 15 0
          (.inner 4 7 0
            (.inner 3 5 0 (.inner 2 3 0 (.leaf 1 3 0 0) (.leaf 1 2 0 0)) (.leaf 1 2 0 0))
            (.inner 3 3 0 (.leaf 1 3 0 0) (.inner 2 3 0 (.leaf 1 3 0 0) (.leaf 1 2 0 0))))
          (.inner 3 2 0 (.leaf 1 2 0 0) (.inner 2 2 0 (.leaf 1 2 0 0) (.leaf 1 2 0 0)))) ∧
    del 4 (.inner 5 15 0
          (.inner 4 7 0
            (.inner 3 5 0 (.inner 2 3 0 (.leaf 1 3 0 0) (.leaf 1 2 0 0)) (.leaf 1 2 0 0))
            (.inner 3 3 0 (.leaf 1 3 0 0) (.inner 2 3 0 (.leaf 1 3 0 0) (.leaf 1 2 0 0))))
          (.inner 3 2 0 (.leaf 1 2 0 0) (.inner 2 2 0 (.leaf 1 2 0 0) (.leaf 1 2 0 0)))) 20
      = some (.inner 5 10 0
          (.inner 4 7 0
            (.inner 3 5 0 (.inner 2 3 0 (.leaf 1 3 0 0) (.leaf 1 2 0 0)) (.leaf 1 2 0 0))
            (.leaf 1 3 0 0))
          (.inner 3 5 0 (.inner 2 3 0 (.leaf 1 3 0 0) (.leaf 1 2 0 0))
            (.inner 2 2 0 (.leaf 1 2 0 0) (.leaf 1 3 0 0)))) ∧
    HeightOK (.inner 5 15 0
          (.inner 4 7 0
            (.inner 3 5 0 (.inner 2 3 0 (.leaf 1 3 0 0) (.leaf 1 2 0 0)) (.leaf 1 2 0 0))
            (.inner 3 3 0 (.leaf 1 3 0 0) (.inner 2 3 0 (.leaf 1 3 0 0) (.leaf 1 2 0 0))))
          (.inner 2 2 0 (.leaf 1 2 0 0) (.leaf 1 3 0 0))) ∧
    Balanced (.inner 4 7 0
            (.inner 3 5 0 (.inner 2 3 0 (.leaf 1 3 0 0) (.leaf 1 2 0 0)) (.leaf 1 2 0 0))
            (.inner 3 3 0 (.leaf 1 3 0 0) (.inner 2 3 0 (.leaf 1 3 0 0) (.leaf 1 2 0 0)))) ∧
    Balanced (.inner 2 2 0 (.leaf 1 2 0 0) (.leaf 1 3 0 0)) ∧
    difference (.inner 5 15 0
          (.inner 4 7 0
            (.inner 3 5 0 (.inner 2 3 0 (.leaf 1 3 0 0) (.leaf 1 2 0 0)) (.leaf 1 2 0 0))
            (.inner 3 3 0 (.leaf 1 3 0 0) (.inner 2 3 0 (.leaf 1 3 0 0) (.leaf 1 2 0 0))))
          (.inner 2 2 0 (.leaf 1 2 0 0) (.leaf 1 3 0 0))) = 2 ∧
    difference (.inner 4 7 0
            (.inner 3 5 0 (.inner 2 3 0 (.leaf 1 3 0 0) (.leaf 1 2 0 0)) (.leaf 1 2 0 0))
            (.inner 3 3 0 (.leaf 1 3 0 0) (.inner 2 3 0 (.leaf 1 3 0 0) (.leaf 1 2 0 0)))) = 0 ∧
    balance (.inner 5 15 0
          (.inner 4 7 0
            (.inner 3 5 0 (.inner 2 3 0 (.leaf 1 3 0 0) (.leaf 1 2 0 0)) (.leaf 1 2 0 0))
            (.inner 3 3 0 (.leaf 1 3 0 0) (.inner 2 3 0 (.leaf 1 3 0 0) (.leaf 1 2 0 0))))
          (.inner 2 2 0 (.leaf 1 2 0 0) (.leaf 1 3 0 0))) [] []
      = some (.inner 5 10 0
          (.inner 4 7 0
            (.inner 3 5 0 (.inner 2 3 0 (.leaf 1 3 0 0) (.leaf 1 2 0 0)) (.leaf 1 2 0 0))
            (.leaf 1 3 0 0))
          (.inner 3 5 0 (.inner 2 3 0 (.leaf 1 3 0 0) (.leaf 1 2 0 0))
            (.inner 2 2 0 (.leaf 1 2 0 0) (.leaf 1 3 0 0))), [Dir.R]) ∧
    HeightOK (.inner 5 10 0
          (.inner 4 7 0
            (.inner 3 5 0 (.inner 2 3 0 (.leaf 1 3 0 0) (.leaf 1 2 0 0)) (.leaf 1 2 0 0))
            (.leaf 1 3 0 0))
          (.inner 3 5 0 (.inner 2 3 0 (.leaf 1 3 0 0) (.leaf 1 2 0 0))
            (.inner 2 2 0 (.leaf 1 2 0 0) (.leaf 1 3 0 0)))) ∧
    ¬ Balanced (.inner 5 10 0
          (.inner 4 7 0
            (.inner 3 5 0 (.inner 2 3 0 (.leaf 1 3 0 0) (.leaf 1 2 0 0)) (.leaf 1 2 0 0))
            (.leaf 1 3 0 0))
          (.inner 3 5 0 (.inner 2 3 0 (.leaf 1 3 0 0) (.leaf 1 2 0 0))
            (.inner 2 2 0 (.leaf 1 2 0 0) (.leaf 1 3 0 0)))) ∧
    difference (.inner 5 5 0 (.inner 2 3 0 (.leaf 1 3 0 0) (.leaf 1 2 0 0))
          (.inner 4 8 0
            (.inner 3 5 0 (.inner 2 2 0 (.leaf 1 2 0 0) (.leaf 1 3 0 0)) (.leaf 1 3 0 0))
            (.inner 3 2 0 (.leaf 1 2 0 0) (.inner 2 2 0 (.leaf 1 2 0 0) (.leaf 1 3 0 0)))))
      = -2 ∧
    difference (.inner 4 8 0
            (.inner 3 5 0 (.inner 2 2 0 (.leaf 1 2 0 0) (.leaf 1 3 0 0)) (.leaf 1 3 0 0))
            (.inner 3 2 0 (.leaf 1 2 0 0) (.inner 2 2 0 (.leaf 1 2 0 0) (.leaf 1 3 0 0)))) = 0 ∧
    balance (.inner 5 5 0 (.inner 2 3 0 (.leaf 1 3 0 0) (.leaf 1 2 0 0))
          (.inner 4 8 0
            (.inner 3 5 0 (.inner 2 2 0 (.leaf 1 2 0 0) (.leaf 1 3 0 0)) (.leaf 1 3 0 0))
            (.inner 3 2 0 (.leaf 1 2 0 0) (.inner 2 2 0 (.leaf 1 2 0 0) (.leaf 1 3 0 0)))))
        [] []
      = some (.inner 5 13 0
          (.inner 4 5 0 (.inner 2 3 0 (.leaf 1 3 0 0) (.leaf 1 2 0 0))
            (.inner 3 5 0 (.inner 2 2 0 (.leaf 1 2 0 0) (.leaf 1 3 0 0)) (.leaf 1 3 0 0)))
          (.inner 3 2 0 (.leaf 1 2 0 0) (.inner 2 2 0 (.leaf 1 2 0 0) (.leaf 1 3 0 0))),
          [Dir.L]) ∧
    Balanced (.inner 5 13 0
          (.inner 4 5 0 (.inner 2 3 0 (.leaf 1 3 0 0) (.leaf 1 2 0 0))
            (.inner 3 5 0 (.inner 2 2 0 (.leaf 1 2 0 0) (.leaf 1 3 0 0)) (.leaf 1 3 0 0)))
          (.inner 3 2 0 (.leaf 1 2 0 0) (.inner 2 2 0 (.leaf 1 2 0 0) (.leaf 1 3 0 0)))) := by
  constructorm* _ ∧ _ <;> decide

/-- C21: leaf well-formedness is kept by every in-range public mutation: on a tree whose leaves
all have `nums ≤ S`, `ones` equal to the population count of the block and a clean tail (and
whose counters are sound, stored heights in step with the shape, length below `2 ^ 32`, `S`
even and positive), the same holds for every leaf after `insert(i, v)` for `i ≤ size()`,
after `del(j)`, `set(j)`, `unset(j)` and `flip(j)` for `j < size()`, and after
`complement()`; in particular no leaf has more than `S` bits after `del`, whichever of the
steal and merge paths it takes. -/
theorem mutations_keep_leaves (S : Nat) (t : BVNode) (i j : Nat) (v : Bool) (hS : S % 2 = 0)
    (hS0 : 0 < S) (hs : Sound t) (hl : LeafOK S t) (hf : HFresh t)
    (hr : totalNums t < 4294967296) :
    (i ≤ size t → size t + 1 < 4294967296 → ∃ t1, insert S t i v = some t1 ∧ LeafOK S t1) ∧
    (j < size t →
      (∃ t1, del S t j = some t1 ∧ LeafOK S t1 ∧ ∀ x ∈ leaves t1, x.1 ≤ S) ∧
      (∃ t1, set S t j = some t1 ∧ LeafOK S t1) ∧
      (∃ t1, unset S t j = some t1 ∧ LeafOK S t1) ∧
      (∃ t1, flip S t j = some t1 ∧ LeafOK S t1)) ∧
    LeafOK S (complement S t) := by
  have wf : WF S t := ⟨hs, hl, hf, hr⟩
  obtain ⟨_, sz, _⟩ := read_top S t wf
  rw [sz]
  refine ⟨?_, ?_, (complement_core S t hs hl hr).2.1⟩
  · intro hi hrep
    obtain ⟨t1, e1, w1, _, _⟩ := insert_spec S t i v hS hS0 wf hi hrep
    exact ⟨t1, e1, w1.leaf⟩
  · intro hj
    obtain ⟨t1, e1, w1, _, _⟩ := del_spec S t j wf hj
    obtain ⟨t2, e2, w2, _, _⟩ := set_spec S t j wf hj
    obtain ⟨t3, e3, w3, _, _⟩ := unset_spec S t j wf hj
    obtain ⟨t4, _, e4, w4, _, _, _⟩ := flip_spec S t j wf hj
    exact ⟨⟨t1, e1, w1.leaf, WF_cap S t1 w1⟩, ⟨t2, e2, w2.leaf⟩, ⟨t3, e3, w3.leaf⟩,
      ⟨t4, e4, w4.leaf⟩⟩

theorem mutations_keep_leaves_witness :
    (2 ≤ size (.inner 2 2 1 (.leaf 1 2 1 8) (.leaf 1 2 1 8)) →
      size (.inner 2 2 1 (.leaf 1 2 1 8) (.leaf 1 2 1 8)) + 1 < 4294967296 →
      ∃ t1, insert 4 (.inner 2 2 1 (.leaf 1 2 1 8) (.leaf 1 2 1 8)) 2 true = some t1 ∧
        LeafOK 4 t1) ∧
    (0 < size (.inner 2 2 1 (.leaf 1 2 1 8) (.leaf 1 2 1 8)) →
      (∃ t1, del 4 (.inner 2 2 1 (.leaf 1 2 1 8) (.leaf 1 2 1 8)) 0 = some t1 ∧ LeafOK 4 t1 ∧
        ∀ x ∈ leaves t1, x.1 ≤ 4) ∧
      (∃ t1, set 4 (.inner 2 2 1 (.leaf 1 2 1 8) (.leaf 1 2 1 8)) 0 = some t1 ∧ LeafOK 4 t1) ∧
      (∃ t1, unset 4 (.inner 2 2 1 (.leaf 1 2 1 8) (.leaf 1 2 1 8)) 0 = some t1 ∧
        LeafOK 4 t1) ∧
      (∃ t1, flip 4 (.inner 2 2 1 (.leaf 1 2 1 8) (.leaf 1 2 1 8)) 0 = some t1 ∧
        LeafOK 4 t1)) ∧
    LeafOK 4 (complement 4 (.inner 2 2 1 (.leaf 1 2 1 8) (.leaf 1 2 1 8))) :=
  mutations_keep_leaves 4 (.inner 2 2 1 (.leaf 1 2 1 8) (.leaf 1 2 1 8)) 2 0 true (by decide)
    (by decide) (by decide) (by decide) (by decide) (by decide)

/-! ## Steal and merge: the leaves of the result -/

/-- The operation `steal_left` in full: the leaves of the result, and what the two leaves hold. -/
theorem steal_left_full (S : Nat) (t : BVNode) (q : List Dir) (hh nn oo : Nat) (l r : BVNode)
    (h n o d hp pn po pd : Nat) (wf : WF S t)
    (hg : getAt t q = some (.inner hh nn oo l r))
    (hgl : getAt l (rightmost l) = some (.leaf hp pn po pd))
    (hgr : getAt r (leftmost r) = some (.leaf h n o d)) (hle : n ≤ pn) :
    ∃ t1 o1 d1 po1 pd1,
      steal_left S t (q ++ Dir.R :: leftmost r) (q ++ Dir.L :: rightmost l) = some t1 ∧
      WF S t1 ∧
      leaves t1 = preL t q ++ preL l (rightmost l)
        ++ [(pn - (pn - n) / 2, po1, pd1), (n + (pn - n) / 2, o1, d1)]
        ++ postL r (leftmost r) ++ postL t q ∧
      leafBits S (pn - (pn - n) / 2) pd1 = (leafBits S pn pd).take (pn - (pn - n) / 2) ∧
      leafBits S (n + (pn - n) / 2) d1
        = (leafBits S pn pd).drop (pn - (pn - n) / 2) ++ leafBits S n d := by
  have hga : getAt t (q ++ Dir.R :: leftmost r) = some (.leaf h n o d) := by
    rw [getAt_append_of t _ q _ hg]; exact hgr
  have hgb : getAt t (q ++ Dir.L :: rightmost l) = some (.leaf hp pn po pd) := by
    rw [getAt_append_of t _ q _ hg]; exact hgl
  have ok : leafOK S (n, o, d) := by
    apply wf.leaf; rw [leaves_decomp t _ _ hga]; simp [leaves]
  have okp : leafOK S (pn, po, pd) := by
    apply wf.leaf; rw [leaves_decomp t _ _ hgb]; simp [leaves]
  have hO := totalOnes_le_totalNums S t wf.leaf
  have hN := wf.rep
  have bp1 := totalNums_sub_le t _ _ hgb
  have ba1 := totalNums_sub_le t _ _ hga
  simp only [totalNums_leaf] at bp1 ba1
  have hpS := okp.1
  have hsb : u32 ((pn : Int) - (n : Int)) / 2 = (pn - n) / 2 := by
    simp only [u32]; congr 1; omega
  have hsb1 : (pn - n) / 2 ≤ pn := by omega
  have hsb2 : n + (pn - n) / 2 ≤ S := by
    have : pn ≤ S := hpS
    omega
  obtain ⟨e1, e2, e3, k1, k2⟩ := leaf_steal_left S n o d pn po pd ((pn - n) / 2) ok okp hsb1 hsb2
  have hu : u32 ((pn : Int) - (((pn - n) / 2 : Nat) : Int)) = pn - (pn - n) / 2 := by
    simp only [u32]; omega
  have hc1 := count_take_add_drop (leafBits S pn pd) (pn - (pn - n) / 2)
  have hc2 := count_le_len ((leafBits S pn pd).drop (pn - (pn - n) / 2))
  have hc3 : ((leafBits S pn pd).drop (pn - (pn - n) / 2)).length = (pn - n) / 2 := by
    simp [leafBits]; omega
  have hpo := leafOK_ones S pn po pd okp
  have hcu : u32 (count S ((pd >>> (S - pn)) &&& (FULL_MASK S >>> (S - (pn - n) / 2))))
      = ((leafBits S pn pd).drop (pn - (pn - n) / 2)).count true := by
    rw [e3]; simp only [u32]; omega
  refine ⟨_, ((leafBits S pn pd).drop (pn - (pn - n) / 2)).count true + o,
    shl S ((pd >>> (S - pn)) &&& (FULL_MASK S >>> (S - (pn - n) / 2))) (S - (pn - n) / 2)
      ||| (d >>> ((pn - n) / 2)),
    ((leafBits S pn pd).take (pn - (pn - n) / 2)).count true,
    pd &&& shl S (FULL_MASK S) (S - (pn - (pn - n) / 2)),
    by simp only [steal_left, hga, hgb]; rfl, ?_⟩
  rw [two_lift t _ q _ _ _ _ _ _ _ _ hg]
  simp only [setData_inner_L, setData_inner_R, propagate_update, hsb,
    szsub_of_le S pn hpS, szsub_of_le S ((pn - n) / 2) (by omega), hu,
    szsub_of_le S (pn - (pn - n) / 2) (by omega), hcu]
  obtain ⟨p1, p2, p3, p4⟩ := two_leaf_graft t q (rightmost l) (leftmost r) hh nn oo l r
    (fun m => u32 ((u32 ((m : Int) + (((pn - n) / 2 : Nat) : Int)) : Nat)
      + -(((pn - n) / 2 : Nat) : Int)))
    (fun m => u32 ((u32 ((m : Int)
      + ((((leafBits S pn pd).drop (pn - (pn - n) / 2)).count true : Nat) : Int)) : Nat)
      + -((((leafBits S pn pd).drop (pn - (pn - n) / 2)).count true : Nat) : Int)))
    h n o d hp pn po pd
    (n + (pn - n) / 2) (((leafBits S pn pd).drop (pn - (pn - n) / 2)).count true + o)
    (shl S ((pd >>> (S - pn)) &&& (FULL_MASK S >>> (S - (pn - n) / 2))) (S - (pn - n) / 2)
      ||| (d >>> ((pn - n) / 2)))
    (pn - (pn - n) / 2) (((leafBits S pn pd).take (pn - (pn - n) / 2)).count true)
    (pd &&& shl S (FULL_MASK S) (S - (pn - (pn - n) / 2)))
    (((pn - n) / 2 : Nat) : Int)
    ((((leafBits S pn pd).drop (pn - (pn - n) / 2)).count true : Nat) : Int)
    (-(((pn - n) / 2 : Nat) : Int))
    (-((((leafBits S pn pd).drop (pn - (pn - n) / 2)).count true : Nat) : Int))
    (u32 ((nn : Int) + -(((pn - n) / 2 : Nat) : Int)))
    (u32 ((oo : Int) + -((((leafBits S pn pd).drop (pn - (pn - n) / 2)).count true : Nat) : Int)))
    wf.sound wf.fresh hN (by omega) hg hgl hgr (by push_cast; omega) (by push_cast; omega)
    (by omega) (by omega) (by omega) (by omega)
    (by intro m hm; simp only [u32]; omega) (by intro m hm; simp only [u32]; omega)
    (by
      have ssub := Sound_getAt t _ q hg wf.sound
      have b1 := totalNums_sub_le t _ q hg
      have bl1 := totalNums_sub_le l _ _ hgl
      simp only [totalNums_inner, totalNums_leaf] at b1 bl1
      have := ssub.1
      simp only [u32]; omega)
    (by
      have ssub := Sound_getAt t _ q hg wf.sound
      have b2 := totalOnes_sub_le t _ q hg
      have bl2 := totalOnes_sub_le l _ _ hgl
      simp only [totalOnes_inner, totalOnes_leaf] at b2 bl2
      have := ssub.2.1
      simp only [u32]; omega)
  obtain ⟨w, tl⟩ := two_leaf_wf S t _ q hh nn oo l r h n o d hp pn po pd _ _ wf hg hgl hgr
    p1 p2 p3 p4 k2 k1 (by simp only [bitsOf]; rw [e1, e2, ← List.append_assoc,
      List.take_append_drop])
  obtain ⟨_, _, _, _, _, pl, _⟩ := rightmost_spec l
  obtain ⟨_, _, _, _, _, pr, _⟩ := leftmost_spec r
  refine ⟨w, ?_, e1, e2⟩
  rw [p3, pl, pr]
  simp [List.append_assoc]

/-- The operation `steal_right` in full: the leaves of the result, and what the two leaves hold. -/
theorem steal_right_full (S : Nat) (t : BVNode) (q : List Dir) (hh nn oo : Nat) (l r : BVNode)
    (h n o d hx xn xo xd : Nat) (wf : WF S t)
    (hg : getAt t q = some (.inner hh nn oo l r))
    (hgl : getAt l (rightmost l) = some (.leaf h n o d))
    (hgr : getAt r (leftmost r) = some (.leaf hx xn xo xd)) (hle : n ≤ xn) :
    ∃ t1 o1 d1 xo1 xd1,
      steal_right S t (q ++ Dir.L :: rightmost l) (q ++ Dir.R :: leftmost r) = some t1 ∧
      WF S t1 ∧
      leaves t1 = preL t q ++ preL l (rightmost l)
        ++ [(n + (xn - n) / 2, o1, d1), (xn - (xn - n) / 2, xo1, xd1)]
        ++ postL r (leftmost r) ++ postL t q ∧
      leafBits S (xn - (xn - n) / 2) xd1 = (leafBits S xn xd).drop ((xn - n) / 2) ∧
      leafBits S (n + (xn - n) / 2) d1
        = leafBits S n d ++ (leafBits S xn xd).take ((xn - n) / 2) := by
  have hga : getAt t (q ++ Dir.L :: rightmost l) = some (.leaf h n o d) := by
    rw [getAt_append_of t _ q _ hg]; exact hgl
  have hgb : getAt t (q ++ Dir.R :: leftmost r) = some (.leaf hx xn xo xd) := by
    rw [getAt_append_of t _ q _ hg]; exact hgr
  have ok : leafOK S (n, o, d) := by
    apply wf.leaf; rw [leaves_decomp t _ _ hga]; simp [leaves]
  have okx : leafOK S (xn, xo, xd) := by
    apply wf.leaf; rw [leaves_decomp t _ _ hgb]; simp [leaves]
  have hO := totalOnes_le_totalNums S t wf.leaf
  have hN := wf.rep
  have hxS := okx.1
  have hnS := ok.1
  have bx1 := totalNums_sub_le t _ _ hgb
  have ba1 := totalNums_sub_le t _ _ hga
  simp only [totalNums_leaf] at bx1 ba1
  have hsb : u32 ((xn : Int) - (n : Int)) / 2 = (xn - n) / 2 := by
    simp only [u32]; congr 1; omega
  have hsb1 : (xn - n) / 2 ≤ xn := by omega
  have hsb2 : n + (xn - n) / 2 ≤ S := by
    have : xn ≤ S := hxS
    omega
  obtain ⟨e1, e2, e3, k1, k2⟩ := leaf_steal_right S n o d xn xo xd ((xn - n) / 2) ok okx hsb1 hsb2
  have hc1 := count_take_add_drop (leafBits S xn xd) ((xn - n) / 2)
  have hc2 := count_le_len ((leafBits S xn xd).take ((xn - n) / 2))
  have hc3 : ((leafBits S xn xd).take ((xn - n) / 2)).length = (xn - n) / 2 := by
    simp [leafBits]; omega
  have hxo := leafOK_ones S xn xo xd okx
  have hcu : u32 (count S (xd >>> (S - (xn - n) / 2)))
      = ((leafBits S xn xd).take ((xn - n) / 2)).count true := by
    rw [e3]; simp only [u32]; omega
  have hsz : szsub (szsub S n) ((xn - n) / 2) = S - n - (xn - n) / 2 := by
    rw [szsub_of_le S n hnS, szsub_of_le _ _ (by omega)]
  refine ⟨_, o + ((leafBits S xn xd).take ((xn - n) / 2)).count true,
    d ||| shl S (xd >>> (S - (xn - n) / 2)) (S - n - (xn - n) / 2),
    ((leafBits S xn xd).drop ((xn - n) / 2)).count true, shl S xd ((xn - n) / 2),
    by simp only [steal_right, hga, hgb]; rfl, ?_⟩
  rw [two_lift t _ q _ _ _ _ _ _ _ _ hg]
  simp only [setData_inner_L, setData_inner_R, propagate_update, hsb, hsz,
    szsub_of_le S ((xn - n) / 2) (by omega), hcu]
  obtain ⟨p1, p2, p3, p4⟩ := two_leaf_graft t q (rightmost l) (leftmost r) hh nn oo l r
    (fun m => u32 ((u32 ((m : Int) + (((xn - n) / 2 : Nat) : Int)) : Nat)
      + -(((xn - n) / 2 : Nat) : Int)))
    (fun m => u32 ((u32 ((m : Int)
      + ((((leafBits S xn xd).take ((xn - n) / 2)).count true : Nat) : Int)) : Nat)
      + -((((leafBits S xn xd).take ((xn - n) / 2)).count true : Nat) : Int)))
    hx xn xo xd h n o d
    (xn - (xn - n) / 2) (((leafBits S xn xd).drop ((xn - n) / 2)).count true)
    (shl S xd ((xn - n) / 2))
    (n + (xn - n) / 2) (o + ((leafBits S xn xd).take ((xn - n) / 2)).count true)
    (d ||| shl S (xd >>> (S - (xn - n) / 2)) (S - n - (xn - n) / 2))
    (-(((xn - n) / 2 : Nat) : Int))
    (-((((leafBits S xn xd).take ((xn - n) / 2)).count true : Nat) : Int))
    (((xn - n) / 2 : Nat) : Int)
    ((((leafBits S xn xd).take ((xn - n) / 2)).count true : Nat) : Int)
    (u32 ((nn : Int) + (((xn - n) / 2 : Nat) : Int)))
    (u32 ((oo : Int) + ((((leafBits S xn xd).take ((xn - n) / 2)).count true : Nat) : Int)))
    wf.sound wf.fresh hN (by omega) hg hgl hgr (by omega) (by omega)
    (by push_cast; omega) (by push_cast; omega) (by omega) (by omega)
    (by intro m hm; simp only [u32]; omega) (by intro m hm; simp only [u32]; omega)
    (by
      have ssub := Sound_getAt t _ q hg wf.sound
      have b1 := totalNums_sub_le t _ q hg
      have br1 := totalNums_sub_le r _ _ hgr
      simp only [totalNums_inner, totalNums_leaf] at b1 br1
      have := ssub.1
      simp only [u32]; omega)
    (by
      have ssub := Sound_getAt t _ q hg wf.sound
      have b2 := totalOnes_sub_le t _ q hg
      have br2 := totalOnes_sub_le r _ _ hgr
      simp only [totalOnes_inner, totalOnes_leaf] at b2 br2
      have := ssub.2.1
      simp only [u32]; omega)
  obtain ⟨w, tl⟩ := two_leaf_wf S t _ q hh nn oo l r hx xn xo xd h n o d _ _ wf hg hgl hgr
    p1 p2 p3 p4 k1 k2 (by simp only [bitsOf]; rw [e1, e2, List.append_assoc,
      List.take_append_drop])
  obtain ⟨_, _, _, _, _, pl, _⟩ := rightmost_spec l
  obtain ⟨_, _, _, _, _, pr, _⟩ := leftmost_spec r
  refine ⟨w, ?_, e1, e2⟩
  rw [p3, pl, pr]
  simp [List.append_assoc]

/-- The operation `merge_left` in full: the leaves of the result. -/
theorem merge_left_full (S : Nat) (t : BVNode) (q : List Dir) (hh nn oo : Nat) (l r : BVNode)
    (h n o d hp pn po pd : Nat) (wf : WF S t)
    (hg : getAt t q = some (.inner hh nn oo l r))
    (hgl : getAt l (rightmost l) = some (.leaf hp pn po pd))
    (hgr : getAt r (leftmost r) = some (.leaf h n o d)) (hle : n + pn ≤ S) :
    ∃ t1, merge_left t (q ++ Dir.R :: leftmost r) (q ++ Dir.L :: rightmost l) = some t1 ∧
      WF S t1 ∧
      leaves t1 = preL t q ++ preL l (rightmost l) ++ [(pn + n, po + o, pd ||| (d >>> pn))]
        ++ postL r (leftmost r) ++ postL t q ∧
      leafBits S (pn + n) (pd ||| (d >>> pn)) = leafBits S pn pd ++ leafBits S n d := by
  have hga : getAt t (q ++ Dir.R :: leftmost r) = some (.leaf h n o d) := by
    rw [getAt_append_of t _ q _ hg]; exact hgr
  have hgb : getAt t (q ++ Dir.L :: rightmost l) = some (.leaf hp pn po pd) := by
    rw [getAt_append_of t _ q _ hg]; exact hgl
  have ok : leafOK S (n, o, d) := by
    apply wf.leaf; rw [leaves_decomp t _ _ hga]; simp [leaves]
  have okp : leafOK S (pn, po, pd) := by
    apply wf.leaf; rw [leaves_decomp t _ _ hgb]; simp [leaves]
  have hO := totalOnes_le_totalNums S t wf.leaf
  have hN := wf.rep
  obtain ⟨e1, k1⟩ := leaf_concat S pn po pd n o d okp ok (by omega)
  have ssub := Sound_getAt t _ q hg wf.sound
  have b1 := totalNums_sub_le t _ q hg
  have bl1 := totalNums_sub_le l _ _ hgl
  have b2 := totalOnes_sub_le t _ q hg
  have bl2 := totalOnes_sub_le l _ _ hgl
  simp only [totalNums_inner, totalNums_leaf, totalOnes_inner, totalOnes_leaf] at b1 bl1 b2 bl2
  have hpre : merge_left_pre_update t (q ++ Dir.R :: leftmost r) (q ++ Dir.L :: rightmost l)
      = some (propagate_update (propagate_update
          (setData (setData t (q ++ Dir.L :: rightmost l) pd) (q ++ Dir.R :: leftmost r)
            (pd ||| (d >>> pn)))
          (q ++ Dir.R :: leftmost r) pn po) (q ++ Dir.L :: rightmost l) (-pn) (-po)) := by
    simp only [merge_left_pre_update, hga, hgb]
    rw [setData_self t _ hp pn po pd hgb]
  simp only [merge_left, hpre]
  rw [two_lift t _ q _ _ _ _ _ _ _ _ hg]
  simp only [setData_inner_L, setData_inner_R, propagate_update]
  obtain ⟨p1, p2, p3, p4⟩ := two_leaf_graft t q (rightmost l) (leftmost r) hh nn oo l r
    (fun m => u32 ((u32 ((m : Int) + (pn : Int)) : Nat) + -(pn : Int)))
    (fun m => u32 ((u32 ((m : Int) + (po : Int)) : Nat) + -(po : Int)))
    h n o d hp pn po pd (pn + n) (po + o) (pd ||| (d >>> pn)) 0 0 pd
    (pn : Int) (po : Int) (-(pn : Int)) (-(po : Int))
    (u32 ((nn : Int) + -(pn : Int))) (u32 ((oo : Int) + -(po : Int)))
    wf.sound wf.fresh hN (by omega) hg hgl hgr (by push_cast; omega) (by push_cast; omega)
    (by omega) (by omega) (by omega) (by omega)
    (by intro m hm; simp only [u32]; omega) (by intro m hm; simp only [u32]; omega)
    (by have := ssub.1; simp only [u32]; omega)
    (by have := ssub.2.1; simp only [u32]; omega)
  obtain ⟨c1, c2, c3, c4, _, _⟩ := two_leaf_ctx t q (rightmost l) (leftmost r) hh nn oo l r
    (fun m => u32 ((u32 ((m : Int) + (pn : Int)) : Nat) + -(pn : Int)))
    (fun m => u32 ((u32 ((m : Int) + (po : Int)) : Nat) + -(po : Int)))
    h n o d hp pn po pd (pn + n) (po + o) (pd ||| (d >>> pn)) 0 0 pd
    (pn : Int) (po : Int) (-(pn : Int)) (-(po : Int))
    (u32 ((nn : Int) + -(pn : Int))) (u32 ((oo : Int) + -(po : Int)))
    (u8 (1 + max (propagate_update (setData l (rightmost l) pd) (rightmost l) (-(pn : Int))
        (-(po : Int))).height
      (propagate_update (setData r (leftmost r) (pd ||| (d >>> pn))) (leftmost r) (pn : Int)
        (po : Int)).height))
    wf.sound hN (by omega) hg hgl hgr (by push_cast; omega) (by push_cast; omega)
    (by omega) (by omega) (by omega) (by omega)
  obtain ⟨_, _, _, _, gl, pl, el⟩ := rightmost_spec l
  obtain ⟨_, _, _, _, gr, pr, er⟩ := leftmost_spec r
  rw [hgl] at gl
  rw [hgr] at gr
  simp only [Option.some.injEq, BVNode.leaf.injEq] at gl gr
  obtain ⟨_, rfl, rfl, rfl⟩ := gl
  obtain ⟨_, rfl, rfl, rfl⟩ := gr
  have ht : leaves t = preL t q ++ (preL l (rightmost l) ++ [(pn, po, pd)])
      ++ ((n, o, d) :: postL r (leftmost r)) ++ postL t q := by
    rw [leaves_decomp t _ q hg, leaves_inner, el, er]
    simp [List.append_assoc]
  rw [pl, pr] at c4
  have old : ∀ y, y ∈ leaves t → leafOK S y := wf.leaf
  rw [ht] at old
  have tO := totalOnes_le_totalNums S t wf.leaf
  have hO1 : totalOnes (graft
      (fun m => u32 ((u32 ((m : Int) + (pn : Int)) : Nat) + -(pn : Int)))
      (fun m => u32 ((u32 ((m : Int) + (po : Int)) : Nat) + -(po : Int))) t q
      (.inner (u8 (1 + max (propagate_update (setData l (rightmost l) pd) (rightmost l)
          (-(pn : Int)) (-(po : Int))).height
        (propagate_update (setData r (leftmost r) (pd ||| (d >>> pn))) (leftmost r) (pn : Int)
          (po : Int)).height))
        (u32 ((nn : Int) + -(pn : Int))) (u32 ((oo : Int) + -(po : Int)))
        (propagate_update (setData l (rightmost l) pd) (rightmost l) (-(pn : Int)) (-(po : Int)))
        (propagate_update (setData r (leftmost r) (pd ||| (d >>> pn))) (leftmost r) (pn : Int)
          (po : Int)))) = totalOnes t := by
    simp only [totalOnes, p3, ht, pl, pr, List.map_append, List.sum_append, List.map_cons,
      List.sum_cons, List.map_nil, List.sum_nil]
    omega
  obtain ⟨T3, m3, w3, l3⟩ := merge_finish S _ (q ++ Dir.R :: leftmost r)
    (q ++ Dir.L :: rightmost l) 1 (pn + n) (po + o) (pd ||| (d >>> pn)) 1 pd p1 p2
    (by rw [p4]; exact hN) (by rw [hO1]; omega) c2 c1 (ne_of_LR q _ _) (by
      intro x hx
      rw [c3, c4] at hx
      simp only [List.mem_append, List.mem_singleton, List.append_nil, List.nil_append,
        List.not_mem_nil, false_or, or_false] at hx
      rcases hx with (hx | hx) | ((hx | hx) | hx)
      · exact old x (by simp [hx])
      · exact old x (by simp [hx])
      · subst hx; exact k1
      · exact old x (by simp [hx])
      · exact old x (by simp [hx]))
  refine ⟨T3, m3, w3, ?_, e1⟩
  rw [l3, c3, c4]
  simp [List.append_assoc]

/-- The operation `merge_right` in full: the leaves of the result. -/
theorem merge_right_full (S : Nat) (t : BVNode) (q : List Dir) (hh nn oo : Nat) (l r : BVNode)
    (h n o d hx xn xo xd : Nat) (wf : WF S t)
    (hg : getAt t q = some (.inner hh nn oo l r))
    (hgl : getAt l (rightmost l) = some (.leaf h n o d))
    (hgr : getAt r (leftmost r) = some (.leaf hx xn xo xd)) (hle : n + xn ≤ S) :
    ∃ t1, merge_right t (q ++ Dir.L :: rightmost l) (q ++ Dir.R :: leftmost r) = some t1 ∧
      WF S t1 ∧
      leaves t1 = preL t q ++ preL l (rightmost l) ++ [(n + xn, o + xo, d ||| (xd >>> n))]
        ++ postL r (leftmost r) ++ postL t q ∧
      leafBits S (n + xn) (d ||| (xd >>> n)) = leafBits S n d ++ leafBits S xn xd := by
  have hga : getAt t (q ++ Dir.L :: rightmost l) = some (.leaf h n o d) := by
    rw [getAt_append_of t _ q _ hg]; exact hgl
  have hgb : getAt t (q ++ Dir.R :: leftmost r) = some (.leaf hx xn xo xd) := by
    rw [getAt_append_of t _ q _ hg]; exact hgr
  have ok : leafOK S (n, o, d) := by
    apply wf.leaf; rw [leaves_decomp t _ _ hga]; simp [leaves]
  have okx : leafOK S (xn, xo, xd) := by
    apply wf.leaf; rw [leaves_decomp t _ _ hgb]; simp [leaves]
  have hO := totalOnes_le_totalNums S t wf.leaf
  have hN := wf.rep
  obtain ⟨e1, k1⟩ := leaf_concat S n o d xn xo xd ok okx hle
  have ssub := Sound_getAt t _ q hg wf.sound
  have b1 := totalNums_sub_le t _ q hg
  have br1 := totalNums_sub_le r _ _ hgr
  have b2 := totalOnes_sub_le t _ q hg
  have br2 := totalOnes_sub_le r _ _ hgr
  simp only [totalNums_inner, totalNums_leaf, totalOnes_inner, totalOnes_leaf] at b1 br1 b2 br2
  have hpre : merge_right_pre_update t (q ++ Dir.L :: rightmost l) (q ++ Dir.R :: leftmost r)
      = some (propagate_update (propagate_update
          (setData (setData t (q ++ Dir.R :: leftmost r) xd) (q ++ Dir.L :: rightmost l)
            (d ||| (xd >>> n)))
          (q ++ Dir.L :: rightmost l) xn xo) (q ++ Dir.R :: leftmost r) (-xn) (-xo)) := by
    simp only [merge_right_pre_update, hga, hgb]
    rw [setData_self t _ hx xn xo xd hgb]
  simp only [merge_right, hpre]
  rw [two_lift t _ q _ _ _ _ _ _ _ _ hg]
  simp only [setData_inner_L, setData_inner_R, propagate_update]
  obtain ⟨p1, p2, p3, p4⟩ := two_leaf_graft t q (rightmost l) (leftmost r) hh nn oo l r
    (fun m => u32 ((u32 ((m : Int) + (xn : Int)) : Nat) + -(xn : Int)))
    (fun m => u32 ((u32 ((m : Int) + (xo : Int)) : Nat) + -(xo : Int)))
    hx xn xo xd h n o d 0 0 xd (n + xn) (o + xo) (d ||| (xd >>> n))
    (-(xn : Int)) (-(xo : Int)) (xn : Int) (xo : Int)
    (u32 ((nn : Int) + (xn : Int))) (u32 ((oo : Int) + (xo : Int)))
    wf.sound wf.fresh hN (by omega) hg hgl hgr (by omega) (by omega)
    (by push_cast; omega) (by push_cast; omega) (by omega) (by omega)
    (by intro m hm; simp only [u32]; omega) (by intro m hm; simp only [u32]; omega)
    (by have := ssub.1; simp only [u32]; omega)
    (by have := ssub.2.1; simp only [u32]; omega)
  obtain ⟨c1, c2, _, _, c5, c6⟩ := two_leaf_ctx t q (rightmost l) (leftmost r) hh nn oo l r
    (fun m => u32 ((u32 ((m : Int) + (xn : Int)) : Nat) + -(xn : Int)))
    (fun m => u32 ((u32 ((m : Int) + (xo : Int)) : Nat) + -(xo : Int)))
    hx xn xo xd h n o d 0 0 xd (n + xn) (o + xo) (d ||| (xd >>> n))
    (-(xn : Int)) (-(xo : Int)) (xn : Int) (xo : Int)
    (u32 ((nn : Int) + (xn : Int))) (u32 ((oo : Int) + (xo : Int)))
    (u8 (1 + max (propagate_update (setData l (rightmost l) (d ||| (xd >>> n))) (rightmost l)
        (xn : Int) (xo : Int)).height
      (propagate_update (setData r (leftmost r) xd) (leftmost r) (-(xn : Int))
        (-(xo : Int))).height))
    wf.sound hN (by omega) hg hgl hgr (by omega) (by omega)
    (by push_cast; omega) (by push_cast; omega) (by omega) (by omega)
  obtain ⟨_, _, _, _, gl, pl, el⟩ := rightmost_spec l
  obtain ⟨_, _, _, _, gr, pr, er⟩ := leftmost_spec r
  rw [hgl] at gl
  rw [hgr] at gr
  simp only [Option.some.injEq, BVNode.leaf.injEq] at gl gr
  obtain ⟨_, rfl, rfl, rfl⟩ := gl
  obtain ⟨_, rfl, rfl, rfl⟩ := gr
  have ht : leaves t = preL t q ++ (preL l (rightmost l) ++ [(n, o, d)])
      ++ ((xn, xo, xd) :: postL r (leftmost r)) ++ postL t q := by
    rw [leaves_decomp t _ q hg, leaves_inner, el, er]
    simp [List.append_assoc]
  rw [pl, pr] at c5
  have old : ∀ y, y ∈ leaves t → leafOK S y := wf.leaf
  rw [ht] at old
  have tO := totalOnes_le_totalNums S t wf.leaf
  have hO1 : totalOnes (graft
      (fun m => u32 ((u32 ((m : Int) + (xn : Int)) : Nat) + -(xn : Int)))
      (fun m => u32 ((u32 ((m : Int) + (xo : Int)) : Nat) + -(xo : Int))) t q
      (.inner (u8 (1 + max (propagate_update (setData l (rightmost l) (d ||| (xd >>> n)))
          (rightmost l) (xn : Int) (xo : Int)).height
        (propagate_update (setData r (leftmost r) xd) (leftmost r) (-(xn : Int))
          (-(xo : Int))).height))
        (u32 ((nn : Int) + (xn : Int))) (u32 ((oo : Int) + (xo : Int)))
        (propagate_update (setData l (rightmost l) (d ||| (xd >>> n))) (rightmost l) (xn : Int)
          (xo : Int))
        (propagate_update (setData r (leftmost r) xd) (leftmost r) (-(xn : Int))
          (-(xo : Int))))) = totalOnes t := by
    simp only [totalOnes, p3, ht, pl, pr, List.map_append, List.sum_append, List.map_cons,
      List.sum_cons, List.map_nil, List.sum_nil]
    omega
  obtain ⟨T3, m3, w3, l3⟩ := merge_finish S _ (q ++ Dir.L :: rightmost l)
    (q ++ Dir.R :: leftmost r) 1 (n + xn) (o + xo) (d ||| (xd >>> n)) 1 xd p1 p2
    (by rw [p4]; exact hN) (by rw [hO1]; omega) c1 c2 (ne_of_LR q _ _).symm (by
      intro x hm
      rw [c5, c6] at hm
      simp only [List.mem_append, List.mem_singleton, List.append_nil, List.nil_append,
        List.not_mem_nil, false_or, or_false] at hm
      rcases hm with (hm | (hm | hm)) | (hm | hm)
      · exact old x (by simp [hm])
      · exact old x (by simp [hm])
      · subst hm; exact k1
      · exact old x (by simp [hm])
      · exact old x (by simp [hm]))
  refine ⟨T3, m3, w3, ?_, e1⟩
  rw [l3, c5, c6]
  simp [List.append_assoc]

theorem preL_under_L (t : BVNode) (q x : List Dir) (hh nn oo : Nat) (l r : BVNode)
    (hg : getAt t q = some (.inner hh nn oo l r)) :
    preL t (q ++ Dir.L :: x) = preL t q ++ preL l x := by
  rw [preL_append t _ q _ hg]
  rfl

theorem postL_under_R (t : BVNode) (q x : List Dir) (hh nn oo : Nat) (l r : BVNode)
    (hg : getAt t q = some (.inner hh nn oo l r)) :
    postL t (q ++ Dir.R :: x) = postL r x ++ postL t q := by
  rw [postL_append t _ q _ hg]
  rfl

theorem steal_left_at_full (S : Nat) (t : BVNode) (a b : List Dir) (h n o d hp pn po pd : Nat)
    (wf : WF S t) (hga : getAt t a = some (.leaf h n o d)) (hpv : prev_leaf t a = some b)
    (hgb : getAt t b = some (.leaf hp pn po pd)) (hle : n ≤ pn) :
    ∃ t1 o1 d1 po1 pd1, steal_left S t a b = some t1 ∧ WF S t1 ∧
      leaves t1 = preL t b ++ [(pn - (pn - n) / 2, po1, pd1), (n + (pn - n) / 2, o1, d1)]
        ++ postL t a ∧
      leafBits S (pn - (pn - n) / 2) pd1 = (leafBits S pn pd).take (pn - (pn - n) / 2) ∧
      leafBits S (n + (pn - n) / 2) d1
        = (leafBits S pn pd).drop (pn - (pn - n) / 2) ++ leafBits S n d := by
  obtain ⟨q, hh, nn, oo, l, r, hg, ea, eb⟩ :=
    prev_leaf_lca t a b _ (leaf_not_inner h n o d) hga hpv
  subst ea; subst eb
  rw [getAt_append_of t _ q _ hg] at hga hgb
  obtain ⟨t1, o1, d1, po1, pd1, e, w, lv, b1, b2⟩ :=
    steal_left_full S t q hh nn oo l r h n o d hp pn po pd wf hg hgb hga hle
  refine ⟨t1, o1, d1, po1, pd1, e, w, ?_, b1, b2⟩
  rw [lv, preL_under_L t q _ hh nn oo l r hg, postL_under_R t q _ hh nn oo l r hg]
  simp [List.append_assoc]

theorem steal_right_at_full (S : Nat) (t : BVNode) (a b : List Dir) (h n o d hx xn xo xd : Nat)
    (wf : WF S t) (hga : getAt t a = some (.leaf h n o d)) (hnx : next_leaf t a = some b)
    (hgb : getAt t b = some (.leaf hx xn xo xd)) (hle : n ≤ xn) :
    ∃ t1 o1 d1 xo1 xd1, steal_right S t a b = some t1 ∧ WF S t1 ∧
      leaves t1 = preL t a ++ [(n + (xn - n) / 2, o1, d1), (xn - (xn - n) / 2, xo1, xd1)]
        ++ postL t b ∧
      leafBits S (xn - (xn - n) / 2) xd1 = (leafBits S xn xd).drop ((xn - n) / 2) ∧
      leafBits S (n + (xn - n) / 2) d1
        = leafBits S n d ++ (leafBits S xn xd).take ((xn - n) / 2) := by
  obtain ⟨q, hh, nn, oo, l, r, hg, ea, eb⟩ :=
    next_leaf_lca t a b _ (leaf_not_inner h n o d) hga hnx
  subst ea; subst eb
  rw [getAt_append_of t _ q _ hg] at hga hgb
  obtain ⟨t1, o1, d1, xo1, xd1, e, w, lv, b1, b2⟩ :=
    steal_right_full S t q hh nn oo l r h n o d hx xn xo xd wf hg hga hgb hle
  refine ⟨t1, o1, d1, xo1, xd1, e, w, ?_, b1, b2⟩
  rw [lv, preL_under_L t q _ hh nn oo l r hg, postL_under_R t q _ hh nn oo l r hg]
  simp [List.append_assoc]

theorem merge_left_at_full (S : Nat) (t : BVNode) (a b : List Dir) (h n o d hp pn po pd : Nat)
    (wf : WF S t) (hga : getAt t a = some (.leaf h n o d)) (hpv : prev_leaf t a = some b)
    (hgb : getAt t b = some (.leaf hp pn po pd)) (hle : n + pn ≤ S) :
    ∃ t1, merge_left t a b = some t1 ∧ WF S t1 ∧
      leaves t1 = preL t b ++ [(pn + n, po + o, pd ||| (d >>> pn))] ++ postL t a ∧
      leafBits S (pn + n) (pd ||| (d >>> pn)) = leafBits S pn pd ++ leafBits S n d := by
  obtain ⟨q, hh, nn, oo, l, r, hg, ea, eb⟩ :=
    prev_leaf_lca t a b _ (leaf_not_inner h n o d) hga hpv
  subst ea; subst eb
  rw [getAt_append_of t _ q _ hg] at hga hgb
  obtain ⟨t1, e, w, lv, b1⟩ :=
    merge_left_full S t q hh nn oo l r h n o d hp pn po pd wf hg hgb hga hle
  refine ⟨t1, e, w, ?_, b1⟩
  rw [lv, preL_under_L t q _ hh nn oo l r hg, postL_under_R t q _ hh nn oo l r hg]
  simp [List.append_assoc]

theorem merge_right_at_full (S : Nat) (t : BVNode) (a b : List Dir) (h n o d hx xn xo xd : Nat)
    (wf : WF S t) (hga : getAt t a = some (.leaf h n o d)) (hnx : next_leaf t a = some b)
    (hgb : getAt t b = some (.leaf hx xn xo xd)) (hle : n + xn ≤ S) :
    ∃ t1, merge_right t a b = some t1 ∧ WF S t1 ∧
      leaves t1 = preL t a ++ [(n + xn, o + xo, d ||| (xd >>> n))] ++ postL t b ∧
      leafBits S (n + xn) (d ||| (xd >>> n)) = leafBits S n d ++ leafBits S xn xd := by
  obtain ⟨q, hh, nn, oo, l, r, hg, ea, eb⟩ :=
    next_leaf_lca t a b _ (leaf_not_inner h n o d) hga hnx
  subst ea; subst eb
  rw [getAt_append_of t _ q _ hg] at hga hgb
  obtain ⟨t1, e, w, lv, b1⟩ :=
    merge_right_full S t q hh nn oo l r h n o d hx xn xo xd wf hg hga hgb hle
  refine ⟨t1, e, w, ?_, b1⟩
  rw [lv, preL_under_L t q _ hh nn oo l r hg, postL_under_R t q _ hh nn oo l r hg]
  simp [List.append_assoc]

theorem inner_count_leaves (t : BVNode) : inner_count t + 1 = (leaves t).length := by
  induction t with
  | leaf h n o d => rfl
  | inner h n o l r ihl ihr =>
    simp only [inner_count, leaves_inner, List.length_append]
    omega

/-- The leaves around a leaf and its left neighbour. -/
theorem leaves_with_prev (t : BVNode) (a b : List Dir) (h n o d hb bn bo bd : Nat)
    (hga : getAt t a = some (.leaf h n o d)) (hpv : prev_leaf t a = some b)
    (hgb : getAt t b = some (.leaf hb bn bo bd)) :
    leaves t = preL t b ++ [(bn, bo, bd), (n, o, d)] ++ postL t a := by
  rcases prev_leaf_spec t a h n o d hga with ⟨e, _⟩ | ⟨b1, h1, n1, o1, d1, e, g, p, _⟩
  · rw [e] at hpv
    exact Option.noConfusion hpv
  · rw [e] at hpv
    simp only [Option.some.injEq] at hpv
    subst hpv
    rw [g] at hgb
    simp only [Option.some.injEq, BVNode.leaf.injEq] at hgb
    obtain ⟨_, rfl, rfl, rfl⟩ := hgb
    rw [leaves_decomp t _ a hga, p, leaves_leaf]
    simp [List.append_assoc]

/-- The leaves around a leaf and its right neighbour. -/
theorem leaves_with_next (t : BVNode) (a b : List Dir) (h n o d hb bn bo bd : Nat)
    (hga : getAt t a = some (.leaf h n o d)) (hnx : next_leaf t a = some b)
    (hgb : getAt t b = some (.leaf hb bn bo bd)) :
    leaves t = preL t a ++ [(n, o, d), (bn, bo, bd)] ++ postL t b := by
  rcases next_leaf_spec t a h n o d hga with ⟨e, _⟩ | ⟨b1, h1, n1, o1, d1, e, g, p, _⟩
  · rw [e] at hnx
    exact Option.noConfusion hnx
  · rw [e] at hnx
    simp only [Option.some.injEq] at hnx
    subst hnx
    rw [g] at hgb
    simp only [Option.some.injEq, BVNode.leaf.injEq] at hgb
    obtain ⟨_, rfl, rfl, rfl⟩ := hgb
    rw [leaves_decomp t _ a hga, p, leaves_leaf]
    simp [List.append_assoc]

/-- C29: stealing.  In a tree with sound counters and well-formed leaves (stored heights in
step with the shape, length below `2 ^ 32`), for a leaf `L` at `a` holding `n` bits and a
donor leaf `D` holding `bn ≥ n` bits: when `D` is the in-order predecessor, `steal_left`
returns, `D` keeps its first `bn - (bn - n) / 2` bits and `L` holds the last `(bn - n) / 2`
bits of `D` followed by its own; when `D` is the in-order successor, `steal_right` returns,
`L` holds its own bits followed by the first `(bn - n) / 2` bits of `D` and `D` keeps the
rest; in both cases the other leaves are untouched, the two leaves are well formed, the
counters of all inner nodes are sound and the represented sequence is the same. -/
theorem steal_moves_bits (S : Nat) (t : BVNode) (a : List Dir) (h n o d : Nat) (wf : WF S t)
    (hga : getAt t a = some (.leaf h n o d)) :
    (∀ b hb bn bo bd, prev_leaf t a = some b → getAt t b = some (.leaf hb bn bo bd) → n ≤ bn →
      ∃ t1 o1 d1 bo1 bd1, steal_left S t a b = some t1 ∧
        leaves t = preL t b ++ [(bn, bo, bd), (n, o, d)] ++ postL t a ∧
        leaves t1 = preL t b ++ [(bn - (bn - n) / 2, bo1, bd1), (n + (bn - n) / 2, o1, d1)]
          ++ postL t a ∧
        leafBits S (bn - (bn - n) / 2) bd1 = (leafBits S bn bd).take (bn - (bn - n) / 2) ∧
        leafBits S (n + (bn - n) / 2) d1
          = (leafBits S bn bd).drop (bn - (bn - n) / 2) ++ leafBits S n d ∧
        leafOK S (bn - (bn - n) / 2, bo1, bd1) ∧ leafOK S (n + (bn - n) / 2, o1, d1) ∧
        Sound t1 ∧ toList S t1 = toList S t) ∧
    (∀ b hb bn bo bd, next_leaf t a = some b → getAt t b = some (.leaf hb bn bo bd) → n ≤ bn →
      ∃ t1 o1 d1 bo1 bd1, steal_right S t a b = some t1 ∧
        leaves t = preL t a ++ [(n, o, d), (bn, bo, bd)] ++ postL t b ∧
        leaves t1 = preL t a ++ [(n + (bn - n) / 2, o1, d1), (bn - (bn - n) / 2, bo1, bd1)]
          ++ postL t b ∧
        leafBits S (n + (bn - n) / 2) d1
          = leafBits S n d ++ (leafBits S bn bd).take ((bn - n) / 2) ∧
        leafBits S (bn - (bn - n) / 2) bd1 = (leafBits S bn bd).drop ((bn - n) / 2) ∧
        leafOK S (n + (bn - n) / 2, o1, d1) ∧ leafOK S (bn - (bn - n) / 2, bo1, bd1) ∧
        Sound t1 ∧ toList S t1 = toList S t) := by
  refine ⟨?_, ?_⟩
  · intro b hb bn bo bd hpv hgb hle
    obtain ⟨t1, o1, d1, bo1, bd1, e, w, lv, b1, b2⟩ :=
      steal_left_at_full S t a b h n o d hb bn bo bd wf hga hpv hgb hle
    obtain ⟨t2, e2, _, tl, _⟩ := steal_left_at S t a b h n o d hb bn bo bd wf hga hpv hgb hle
    rw [e] at e2
    simp only [Option.some.injEq] at e2
    subst e2
    refine ⟨t1, o1, d1, bo1, bd1, e, leaves_with_prev t a b h n o d hb bn bo bd hga hpv hgb,
      lv, b1, b2, w.leaf _ (by rw [lv]; simp), w.leaf _ (by rw [lv]; simp), w.sound, tl⟩
  · intro b hb bn bo bd hnx hgb hle
    obtain ⟨t1, o1, d1, bo1, bd1, e, w, lv, b1, b2⟩ :=
      steal_right_at_full S t a b h n o d hb bn bo bd wf hga hnx hgb hle
    obtain ⟨t2, e2, _, tl, _⟩ := steal_right_at S t a b h n o d hb bn bo bd wf hga hnx hgb hle
    rw [e] at e2
    simp only [Option.some.injEq] at e2
    subst e2
    refine ⟨t1, o1, d1, bo1, bd1, e, leaves_with_next t a b h n o d hb bn bo bd hga hnx hgb,
      lv, b2, b1, w.leaf _ (by rw [lv]; simp), w.leaf _ (by rw [lv]; simp), w.sound, tl⟩

theorem steal_moves_bits_witness :
    (∃ t1 o1 d1 bo1 bd1,
      steal_left 4 (.inner 3 4 2 (.leaf 1 4 2 10) (.inner 2 1 1 (.leaf 1 1 1 8) (.leaf 1 3 2 10)))
        [Dir.R, Dir.L] [Dir.L] = some t1 ∧
      leaves t1 = [(4 - (4 - 1) / 2, bo1, bd1), (1 + (4 - 1) / 2, o1, d1), (3, 2, 10)] ∧
      leafBits 4 (4 - (4 - 1) / 2) bd1 = [true, false, true] ∧
      leafBits 4 (1 + (4 - 1) / 2) d1 = [false, true] ∧ Sound t1) ∧
    (∃ t1 o1 d1 bo1 bd1,
      steal_right 4 (.inner 3 4 2 (.leaf 1 4 2 10) (.inner 2 1 1 (.leaf 1 1 1 8) (.leaf 1 3 2 10)))
        [Dir.R, Dir.L] [Dir.R, Dir.R] = some t1 ∧
      leaves t1 = [(4, 2, 10), (1 + (3 - 1) / 2, o1, d1), (3 - (3 - 1) / 2, bo1, bd1)] ∧
      leafBits 4 (1 + (3 - 1) / 2) d1 = [true, true] ∧
      leafBits 4 (3 - (3 - 1) / 2) bd1 = [false, true] ∧ Sound t1) :=
  have H := steal_moves_bits 4
    (.inner 3 4 2 (.leaf 1 4 2 10) (.inner 2 1 1 (.leaf 1 1 1 8) (.leaf 1 3 2 10)))
    [Dir.R, Dir.L] 1 1 1 8 ⟨by decide, by decide, by decide, by decide⟩ rfl
  ⟨match H.1 [Dir.L] 1 4 2 10 rfl rfl (by decide) with
    | ⟨t1, o1, d1, bo1, bd1, e, _, lv, b1, b2, _, _, s, _⟩ =>
      ⟨t1, o1, d1, bo1, bd1, e, lv, b1, b2, s⟩,
   match H.2 [Dir.R, Dir.R] 1 3 2 10 rfl rfl (by decide) with
    | ⟨t1, o1, d1, bo1, bd1, e, _, lv, b1, b2, _, _, s, _⟩ =>
      ⟨t1, o1, d1, bo1, bd1, e, lv, b1, b2, s⟩⟩

/-- C30: merging.  In a tree with sound counters and well-formed leaves (stored heights in
step with the shape, length below `2 ^ 32`), for a leaf `L` at `a` holding `n` bits and a
neighbour leaf `D` holding `bn` bits with `n + bn ≤ S`: when `D` is the in-order
predecessor `merge_left` returns, when it is the in-order successor `merge_right` returns,
and the returned tree has the leaves of the old one with `D` and `L` replaced by one leaf
that holds the bits of `D` followed by those of `L` (predecessor), or those of `L` followed
by those of `D` (successor); it has one leaf and one inner node fewer, its counters are
sound, and `extract` returns the same sequence.  The leaves are given by their addresses, so
the donor may be the sibling of `L` or hang under another parent. -/
theorem merge_joins_leaves (S : Nat) (t : BVNode) (a : List Dir) (h n o d : Nat) (wf : WF S t)
    (hga : getAt t a = some (.leaf h n o d)) :
    (∀ b hb bn bo bd, prev_leaf t a = some b → getAt t b = some (.leaf hb bn bo bd) →
      n + bn ≤ S →
      ∃ t1, merge_left t a b = some t1 ∧
        leaves t = preL t b ++ [(bn, bo, bd), (n, o, d)] ++ postL t a ∧
        leaves t1 = preL t b ++ [(bn + n, bo + o, bd ||| (d >>> bn))] ++ postL t a ∧
        leafBits S (bn + n) (bd ||| (d >>> bn)) = leafBits S bn bd ++ leafBits S n d ∧
        (leaves t1).length + 1 = (leaves t).length ∧ inner_count t1 + 1 = inner_count t ∧
        Sound t1 ∧ LeafOK S t1 ∧ extract S t1 = extract S t ∧
        extract S t = some (toList S t)) ∧
    (∀ b hb bn bo bd, next_leaf t a = some b → getAt t b = some (.leaf hb bn bo bd) →
      n + bn ≤ S →
      ∃ t1, merge_right t a b = some t1 ∧
        leaves t = preL t a ++ [(n, o, d), (bn, bo, bd)] ++ postL t b ∧
        leaves t1 = preL t a ++ [(n + bn, o + bo, d ||| (bd >>> n))] ++ postL t b ∧
        leafBits S (n + bn) (d ||| (bd >>> n)) = leafBits S n d ++ leafBits S bn bd ∧
        (leaves t1).length + 1 = (leaves t).length ∧ inner_count t1 + 1 = inner_count t ∧
        Sound t1 ∧ LeafOK S t1 ∧ extract S t1 = extract S t ∧
        extract S t = some (toList S t)) := by
  have ex := (read_top S t wf).1
  refine ⟨?_, ?_⟩
  · intro b hb bn bo bd hpv hgb hle
    obtain ⟨t1, e, w, lv, b1⟩ :=
      merge_left_at_full S t a b h n o d hb bn bo bd wf hga hpv hgb hle
    obtain ⟨t2, e2, _, tl, _⟩ := merge_left_at S t a b h n o d hb bn bo bd wf hga hpv hgb hle
    rw [e] at e2
    simp only [Option.some.injEq] at e2
    subst e2
    have lt := leaves_with_prev t a b h n o d hb bn bo bd hga hpv hgb
    have hlen : (leaves t1).length + 1 = (leaves t).length := by
      rw [lv, lt]
      simp only [List.length_append, List.length_cons, List.length_nil]
      omega
    have i1 := inner_count_leaves t1
    have i2 := inner_count_leaves t
    refine ⟨t1, e, lt, lv, b1, hlen, by omega, w.sound, w.leaf, ?_, ex⟩
    rw [(read_top S t1 w).1, ex, tl]
  · intro b hb bn bo bd hnx hgb hle
    obtain ⟨t1, e, w, lv, b1⟩ :=
      merge_right_at_full S t a b h n o d hb bn bo bd wf hga hnx hgb hle
    obtain ⟨t2, e2, _, tl, _⟩ := merge_right_at S t a b h n o d hb bn bo bd wf hga hnx hgb hle
    rw [e] at e2
    simp only [Option.some.injEq] at e2
    subst e2
    have lt := leaves_with_next t a b h n o d hb bn bo bd hga hnx hgb
    have hlen : (leaves t1).length + 1 = (leaves t).length := by
      rw [lv, lt]
      simp only [List.length_append, List.length_cons, List.length_nil]
      omega
    have i1 := inner_count_leaves t1
    have i2 := inner_count_leaves t
    refine ⟨t1, e, lt, lv, b1, hlen, by omega, w.sound, w.leaf, ?_, ex⟩
    rw [(read_top S t1 w).1, ex, tl]

theorem merge_joins_leaves_witness :
    (∃ t1,
      merge_left (.inner 3 2 1 (.leaf 1 2 1 8) (.inner 2 1 1 (.leaf 1 1 1 8) (.leaf 1 2 1 4)))
        [Dir.R, Dir.L] [Dir.L] = some t1 ∧
      leaves t1 = [(2 + 1, 1 + 1, 8 ||| (8 >>> 2)), (2, 1, 4)] ∧
      leafBits 4 (2 + 1) (8 ||| (8 >>> 2)) = [true, false, true] ∧
      inner_count t1 + 1
        = inner_count (.inner 3 2 1 (.leaf 1 2 1 8)
            (.inner 2 1 1 (.leaf 1 1 1 8) (.leaf 1 2 1 4))) ∧
      Sound t1 ∧ extract 4 t1 = some [true, false, true, false, true]) ∧
    (∃ t1,
      merge_right (.inner 3 2 1 (.leaf 1 2 1 8) (.inner 2 1 1 (.leaf 1 1 1 8) (.leaf 1 2 1 4)))
        [Dir.R, Dir.L] [Dir.R, Dir.R] = some t1 ∧
      leaves t1 = [(2, 1, 8), (1 + 2, 1 + 1, 8 ||| (4 >>> 1))] ∧
      leafBits 4 (1 + 2) (8 ||| (4 >>> 1)) = [true, false, true] ∧
      inner_count t1 + 1
        = inner_count (.inner 3 2 1 (.leaf 1 2 1 8)
            (.inner 2 1 1 (.leaf 1 1 1 8) (.leaf 1 2 1 4))) ∧
      Sound t1 ∧ extract 4 t1 = some [true, false, true, false, true]) :=
  have H := merge_joins_leaves 4
    (.inner 3 2 1 (.leaf 1 2 1 8) (.inner 2 1 1 (.leaf 1 1 1 8) (.leaf 1 2 1 4)))
    [Dir.R, Dir.L] 1 1 1 8 ⟨by decide, by decide, by decide, by decide⟩ rfl
  ⟨match H.1 [Dir.L] 1 2 1 8 rfl rfl (by decide) with
    | ⟨t1, e, _, lv, b1, _, ic, s, _, ex, ex0⟩ => ⟨t1, e, lv, b1, ic, s, ex.trans ex0⟩,
   match H.2 [Dir.R, Dir.R] 1 2 1 4 rfl rfl (by decide) with
    | ⟨t1, e, _, lv, b1, _, ic, s, _, ex, ex0⟩ => ⟨t1, e, lv, b1, ic, s, ex.trans ex0⟩⟩

/-! ## The occupancy band -/

theorem leaves_length_pos (t : BVNode) : 1 ≤ (leaves t).length := by
  induction t with
  | leaf h n o d => simp
  | inner h n o l r ihl ihr =>
    simp only [leaves_inner, List.length_append]
    omega

theorem is_leaf_iff (t : BVNode) : is_leaf t = true ↔ (leaves t).length = 1 := by
  cases t with
  | leaf h n o d => simp [is_leaf]
  | inner h n o l r =>
    have := leaves_length_pos l
    have := leaves_length_pos r
    simp only [is_leaf, leaves_inner, List.length_append]
    constructor
    · intro hc; exact absurd hc (by decide)
    · intro hc; omega

/-- The band depends on the sizes of the leaves only. -/
theorem Band_of_nums (S : Nat) (t t1 : BVNode)
    (h : (leaves t1).map (fun x => x.1) = (leaves t).map (fun x => x.1)) (b : Band S t) :
    Band S t1 := by
  rcases b with b | b
  · left
    rw [is_leaf_iff] at b ⊢
    have := congrArg List.length h
    simp only [List.length_map] at this
    omega
  · right
    intro x hx
    have hm : x.1 ∈ (leaves t1).map (fun x => x.1) := List.mem_map_of_mem _ hx
    rw [h, List.mem_map] at hm
    obtain ⟨y, hy, e⟩ := hm
    rw [← e]
    exact b y hy

/-- A leaf update that leaves `nums` alone keeps the sizes of all leaves. -/
theorem nums_leaf_update (t : BVNode) (a : List Dir) (h n o d d1 : Nat) (dz : Int)
    (hg : getAt t a = some (.leaf h n o d)) (hn : n < 4294967296) :
    (leaves (propagate_update (setData t a d1) a 0 dz)).map (fun x => x.1)
      = (leaves t).map (fun x => x.1) := by
  rw [leaf_update_eq t a h n o d d1 0 dz hg, leaves_graft _ _ t _ _ a hg, leaves_decomp t _ a hg]
  have : u32 (n : Int) = n := by simp only [u32]; omega
  simp [this]

theorem leaf_nums_lt (S : Nat) (t : BVNode) (a : List Dir) (h n o d : Nat) (wf : WF S t)
    (hg : getAt t a = some (.leaf h n o d)) : n < 4294967296 := by
  have := totalNums_sub_le t _ a hg
  have := wf.rep
  simp only [totalNums_leaf] at *
  omega

theorem set_band (S : Nat) (t : BVNode) (i : Nat) (wf : WF S t) (hi : i < totalNums t)
    (b : Band S t) : ∃ t1, set S t i = some t1 ∧ WF S t1 ∧ Band S t1 := by
  obtain ⟨t1, e, w, _, _⟩ := set_spec S t i wf hi
  refine ⟨t1, e, w, ?_⟩
  obtain ⟨h, n, o, d, g, _, _, b2⟩ := find_block_spec t i wf.sound
  have ok : leafOK S (n, o, d) := wf.leaf _ (by rw [leaves_decomp t _ _ g]; simp)
  have hlt : (find_block t i).2 < S := lt_of_lt_of_le (b2 hi) ok.1
  simp only [set, g, bitpos_of_lt S _ hlt, Option.some.injEq] at e
  subst e
  exact Band_of_nums S t _ (nums_leaf_update t _ h n o d _ _ g (leaf_nums_lt S t _ h n o d wf g)) b

theorem unset_band (S : Nat) (t : BVNode) (i : Nat) (wf : WF S t) (hi : i < totalNums t)
    (b : Band S t) : ∃ t1, unset S t i = some t1 ∧ WF S t1 ∧ Band S t1 := by
  obtain ⟨t1, e, w, _, _⟩ := unset_spec S t i wf hi
  refine ⟨t1, e, w, ?_⟩
  obtain ⟨h, n, o, d, g, _, _, b2⟩ := find_block_spec t i wf.sound
  have ok : leafOK S (n, o, d) := wf.leaf _ (by rw [leaves_decomp t _ _ g]; simp)
  have hlt : (find_block t i).2 < S := lt_of_lt_of_le (b2 hi) ok.1
  simp only [unset, g, bitpos_of_lt S _ hlt, Option.some.injEq] at e
  subst e
  exact Band_of_nums S t _ (nums_leaf_update t _ h n o d _ _ g (leaf_nums_lt S t _ h n o d wf g)) b

theorem flip_band (S : Nat) (t : BVNode) (i : Nat) (wf : WF S t) (hi : i < totalNums t)
    (b : Band S t) : ∃ t1, flip S t i = some t1 ∧ WF S t1 ∧ Band S t1 := by
  obtain ⟨t1, _, e, w, _, _, _⟩ := flip_spec S t i wf hi
  refine ⟨t1, e, w, ?_⟩
  obtain ⟨h, n, o, d, g, _, _, b2⟩ := find_block_spec t i wf.sound
  have ok : leafOK S (n, o, d) := wf.leaf _ (by rw [leaves_decomp t _ _ g]; simp)
  have hlt : (find_block t i).2 < S := lt_of_lt_of_le (b2 hi) ok.1
  simp only [flip, g, bitpos_of_lt S _ hlt, Option.some.injEq] at e
  subst e
  exact Band_of_nums S t _ (nums_leaf_update t _ h n o d _ _ g (leaf_nums_lt S t _ h n o d wf g)) b

theorem complement_nums (S : Nat) (t : BVNode) :
    (leaves (complement S t)).map (fun x => x.1) = (leaves t).map (fun x => x.1) := by
  induction t with
  | leaf h n o d => rfl
  | inner h n o l r ihl ihr => simp only [complement, leaves_inner, List.map_append, ihl, ihr]

theorem complement_HFresh (S : Nat) (t : BVNode) (h : HFresh t) : HFresh (complement S t) := by
  induction t with
  | leaf hh n o d => exact h
  | inner hh n o l r ihl ihr =>
    simp only [complement, HFresh, complement_height]
    exact ⟨h.1, ihl h.2.1, ihr h.2.2⟩

theorem complement_band (S : Nat) (t : BVNode) (wf : WF S t) (b : Band S t) :
    WF S (complement S t) ∧ Band S (complement S t) := by
  obtain ⟨s, l, n, _, _⟩ := complement_core S t wf.sound wf.leaf wf.rep
  exact ⟨⟨s, l, complement_HFresh S t wf.fresh, by rw [n]; exact wf.rep⟩,
    Band_of_nums S t _ (complement_nums S t) b⟩

/-- In a tree within the band, the leaves other than a given one hold more than `LOWER_BOUND`
bits. -/
theorem Band_others (S : Nat) (t : BVNode) (pre post : List (Nat × Nat × Nat))
    (x : Nat × Nat × Nat) (hl : leaves t = pre ++ [x] ++ post) (b : Band S t) :
    ∀ y ∈ pre ++ post, LOWER_BOUND S < y.1 := by
  intro y hy
  rcases b with b | b
  · rw [is_leaf_iff, hl] at b
    simp only [List.length_append, List.length_cons, List.length_nil] at b
    have h1 : pre = [] := List.eq_nil_of_length_eq_zero (by omega)
    have h2 : post = [] := List.eq_nil_of_length_eq_zero (by omega)
    subst h1; subst h2
    simp at hy
  · apply b
    rw [hl]
    simp only [List.mem_append, List.mem_singleton] at hy ⊢
    rcases hy with hy | hy
    · exact Or.inl (Or.inl hy)
    · exact Or.inr hy

/-- All leaves hold more than `LOWER_BOUND` bits when those that changed and the others do. -/
theorem band_three (S : Nat) (L pre mid post : List (Nat × Nat × Nat))
    (hL : L = pre ++ mid ++ post) (h1 : ∀ y ∈ pre ++ post, LOWER_BOUND S < y.1)
    (h2 : ∀ y ∈ mid, LOWER_BOUND S < y.1) : ∀ x ∈ L, LOWER_BOUND S < x.1 := by
  intro x hx
  rw [hL] at hx
  rcases List.mem_append.1 hx with hx | hx
  · rcases List.mem_append.1 hx with hx | hx
    · exact h1 x (List.mem_append.2 (Or.inl hx))
    · exact h2 x hx
  · exact h1 x (List.mem_append.2 (Or.inr hx))

/-- The leaves after the bit has been written into a leaf. -/
theorem insert_bit_leaves (S : Nat) (t : BVNode) (a : List Dir) (h n o d idx : Nat) (v : Bool)
    (t1 : BVNode) (hg : getAt t a = some (.leaf h n o d)) (hidx : idx ≤ n)
    (hn : n + 1 < 4294967296) (e : insert_bit S t a idx v = some t1) :
    ∃ o1 d1, leaves t1 = preL t a ++ [(n + 1, o1, d1)] ++ postL t a := by
  have hdn : (1 : Int) + max (0 : Int) ((idx : Int) - (n : Int)) = 1 := by omega
  have hu : u32 ((n : Int) + 1) = n + 1 := by simp only [u32]; omega
  simp only [insert_bit, hg, hdn] at e
  cases v with
  | true =>
    simp only [if_true] at e
    cases hb : bitpos S idx with
    | none => rw [hb] at e; exact Option.noConfusion e
    | some pos =>
      rw [hb] at e
      simp only [Option.some.injEq] at e
      subst e
      rw [leaf_update_eq t a h n o d _ 1 1 hg, leaves_graft _ _ t _ _ a hg, hu]
      exact ⟨_, _, rfl⟩
  | false =>
    simp only [Bool.false_eq_true, if_false, Option.some.injEq] at e
    subst e
    rw [leaf_update_eq t a h n o d _ 1 0 hg, leaves_graft _ _ t _ _ a hg, hu]
    exact ⟨_, _, rfl⟩

theorem insert_band (S : Nat) (t : BVNode) (i : Nat) (v : Bool) (hS : S % 2 = 0)
    (hS0 : 0 < S) (wf : WF S t) (hi : i ≤ totalNums t) (hrep : totalNums t + 1 < 4294967296)
    (b : Band S t) : ∃ t1, insert S t i v = some t1 ∧ WF S t1 ∧ Band S t1 := by
  obtain ⟨t1, e, w, _, _⟩ := insert_spec S t i v hS hS0 wf hi hrep
  refine ⟨t1, e, w, ?_⟩
  obtain ⟨h, n, o, d, g, p, b1, _⟩ := find_block_spec t i wf.sound
  have hj := b1 hi
  have ok : leafOK S (n, o, d) := by
    apply wf.leaf
    rw [leaves_decomp t _ _ g]
    simp [leaves]
  have hnS := ok.1
  have hn32 := leaf_nums_lt S t _ h n o d wf g
  have hN := totalNums_sub_le t _ _ g
  simp only [totalNums_leaf] at hN
  have hgt : ¬ (find_block t i).2 > S := by omega
  have hdec := leaves_decomp t _ _ g
  rw [leaves_leaf] at hdec
  have oth := Band_others S t _ _ _ hdec b
  simp only [insert, hgt, if_false, g] at e
  by_cases hfull : n ≥ S
  · have hn : n = S := by omega
    simp only [hfull, if_true] at e
    rw [hn] at g
    obtain ⟨ts, hh, cl, cr, dl, dr, e1, w1, g1, pr1, po1, tn1, eb⟩ :=
      split_block_spec S t _ h o d hS wf g
    simp only [e1, g1] at e
    have hT : TARGET_SIZE S + TARGET_SIZE S = S := by simp only [TARGET_SIZE]; omega
    have hTL : LOWER_BOUND S < TARGET_SIZE S := by
      simp only [TARGET_SIZE, LOWER_BOUND]; omega
    right
    by_cases hlt : (find_block t i).2 < TARGET_SIZE S
    · have fb : find_block (.inner hh (TARGET_SIZE S) cl (.leaf 1 (TARGET_SIZE S) cl dl)
          (.leaf 1 (TARGET_SIZE S) cr dr)) (find_block t i).2 = ([Dir.L], (find_block t i).2) := by
        simp [find_block, hlt]
      have gl : getAt ts ((find_block t i).1 ++ [Dir.L]) = some (.leaf 1 (TARGET_SIZE S) cl dl) := by
        rw [getAt_append_of ts _ _ _ g1]; rfl
      obtain ⟨t2, a2, f2, w2, tk⟩ := fix_tree_spec S ts _ _ (leaf_not_inner _ _ _ _) w1 gl
      simp only [fb, f2] at e
      obtain ⟨o1, d1, lv⟩ := insert_bit_leaves S t2 a2 1 (TARGET_SIZE S) cl dl _ v t1
        (tk.1.trans gl) (by omega) (by omega) e
      rw [tk.2.1, tk.2.2, preL_append ts _ _ _ g1, postL_append ts _ _ _ g1, pr1, po1] at lv
      have lv2 : leaves t1 = preL t (find_block t i).1
          ++ [(TARGET_SIZE S + 1, o1, d1), (TARGET_SIZE S, cr, dr)]
          ++ postL t (find_block t i).1 := by
        rw [lv]
        simp [preL, postL, List.append_assoc]
      apply band_three S _ _ _ _ lv2 oth
      intro y hy
      simp only [List.mem_cons, List.mem_singleton, List.not_mem_nil, or_false] at hy
      rcases hy with hy | hy
      · rw [hy]; show LOWER_BOUND S < TARGET_SIZE S + 1; omega
      · rw [hy]; exact hTL
    · have fb : find_block (.inner hh (TARGET_SIZE S) cl (.leaf 1 (TARGET_SIZE S) cl dl)
          (.leaf 1 (TARGET_SIZE S) cr dr)) (find_block t i).2
          = ([Dir.R], (find_block t i).2 - TARGET_SIZE S) := by
        simp [find_block, hlt]
      have gl : getAt ts ((find_block t i).1 ++ [Dir.R]) = some (.leaf 1 (TARGET_SIZE S) cr dr) := by
        rw [getAt_append_of ts _ _ _ g1]; rfl
      obtain ⟨t2, a2, f2, w2, tk⟩ := fix_tree_spec S ts _ _ (leaf_not_inner _ _ _ _) w1 gl
      simp only [fb, f2] at e
      obtain ⟨o1, d1, lv⟩ := insert_bit_leaves S t2 a2 1 (TARGET_SIZE S) cr dr _ v t1
        (tk.1.trans gl) (by omega) (by omega) e
      rw [tk.2.1, tk.2.2, preL_append ts _ _ _ g1, postL_append ts _ _ _ g1, pr1, po1] at lv
      have lv2 : leaves t1 = preL t (find_block t i).1
          ++ [(TARGET_SIZE S, cl, dl), (TARGET_SIZE S + 1, o1, d1)]
          ++ postL t (find_block t i).1 := by
        rw [lv]
        simp [preL, postL, List.append_assoc]
      apply band_three S _ _ _ _ lv2 oth
      intro y hy
      simp only [List.mem_cons, List.mem_singleton, List.not_mem_nil, or_false] at hy
      rcases hy with hy | hy
      · rw [hy]; exact hTL
      · rw [hy]; show LOWER_BOUND S < TARGET_SIZE S + 1; omega
  · simp only [hfull, if_false] at e
    obtain ⟨o1, d1, lv⟩ := insert_bit_leaves S t _ h n o d _ v t1 g hj (by omega) e
    rcases b with b | b
    · left
      rw [is_leaf_iff] at b ⊢
      rw [lv]
      rw [hdec] at b
      simpa using b
    · right
      apply band_three S _ _ _ _ lv oth
      intro y hy
      simp only [List.mem_singleton] at hy
      rw [hy]
      have := b (n, o, d) (by rw [hdec]; simp)
      show LOWER_BOUND S < n + 1
      omega

/-- The rebalancing policy of `del` ends within the band when the leaf holds `LOWER_BOUND` bits
or more, unless it is the only one, and all other leaves more than that. -/
theorem del_rebalance_band (S : Nat) (t : BVNode) (a : List Dir) (h n o d : Nat) (hS4 : 4 ≤ S)
    (wf : WF S t) (hg : getAt t a = some (.leaf h n o d))
    (hn : preL t a ++ postL t a ≠ [] → LOWER_BOUND S ≤ n)
    (oth : ∀ y ∈ preL t a ++ postL t a, LOWER_BOUND S < y.1) :
    ∃ t1, del_rebalance S t a = some t1 ∧ Band S t1 := by
  have hdec := leaves_decomp t _ a hg
  rw [leaves_leaf] at hdec
  have hpre : ∀ y ∈ preL t a, LOWER_BOUND S < y.1 :=
    fun y hy => oth y (List.mem_append.2 (Or.inl hy))
  have hpost : ∀ y ∈ postL t a, LOWER_BOUND S < y.1 :=
    fun y hy => oth y (List.mem_append.2 (Or.inr hy))
  simp only [del_rebalance, hg]
  by_cases hb : n > LOWER_BOUND S
  · simp only [hb, if_true]
    refine ⟨t, rfl, Or.inr ?_⟩
    apply band_three S _ _ _ _ hdec oth
    intro y hy
    simp only [List.mem_singleton] at hy
    rw [hy]
    exact hb
  · simp only [hb, if_false]
    simp only [LOWER_BOUND] at hb hn hpre hpost
    rcases prev_leaf_spec t a h n o d hg with ⟨hp, ppre⟩ | ⟨p, h1, n1, o1, d1, hp, gp, ppre, _⟩ <;>
      rcases next_leaf_spec t a h n o d hg with ⟨hx, xpost⟩ | ⟨x, h2, n2, o2, d2, hx, gx, xpost, _⟩
    · simp only [hp, hx]
      refine ⟨t, rfl, Or.inl ?_⟩
      rw [is_leaf_iff, hdec, ppre, xpost]
      rfl
    · simp only [hp, hx, gx, BVNode.nums, SPLIT_BOUND]
      have hn := hn (by rw [xpost]; simp)
      have hn2 : S / 4 < n2 := hpost (n2, o2, d2) (by rw [xpost]; simp)
      have hpx : ∀ y ∈ postL t x, S / 4 < y.1 := fun y hy => hpost y (by rw [xpost]; simp [hy])
      have ok2 : leafOK S (n2, o2, d2) := wf.leaf _ (by rw [leaves_decomp t _ _ gx]; simp)
      have hn2S : n2 ≤ S := ok2.1
      have oth2 : ∀ y ∈ preL t a ++ postL t x, LOWER_BOUND S < y.1 := by
        intro y hy
        rcases List.mem_append.1 hy with hy | hy
        · exact hpre y hy
        · exact hpx y hy
      by_cases c : n2 ≥ S * 3 / 4
      · simp only [c, if_true]
        obtain ⟨t1, oo1, dd1, xo1, xd1, e, _, lv, _, _⟩ :=
          steal_right_at_full S t a x h n o d h2 n2 o2 d2 wf hg hx gx (by omega)
        refine ⟨t1, e, Or.inr ?_⟩
        apply band_three S _ _ _ _ lv oth2
        intro y hy
        simp only [List.mem_cons, List.mem_singleton, List.not_mem_nil, or_false] at hy
        rcases hy with hy | hy
        · rw [hy]; show S / 4 < n + (n2 - n) / 2; omega
        · rw [hy]; show S / 4 < n2 - (n2 - n) / 2; omega
      · simp only [c, if_false]
        obtain ⟨t1, e, _, lv, _⟩ :=
          merge_right_at_full S t a x h n o d h2 n2 o2 d2 wf hg hx gx (by omega)
        refine ⟨t1, e, Or.inr ?_⟩
        apply band_three S _ _ _ _ lv oth2
        intro y hy
        simp only [List.mem_singleton] at hy
        rw [hy]; show S / 4 < n + n2; omega
    · simp only [hp, hx, gp, BVNode.nums, SPLIT_BOUND]
      have hn := hn (by rw [ppre]; simp)
      have hn1 : S / 4 < n1 := hpre (n1, o1, d1) (by rw [ppre]; simp)
      have hpp : ∀ y ∈ preL t p, S / 4 < y.1 := fun y hy => hpre y (by rw [ppre]; simp [hy])
      have ok1 : leafOK S (n1, o1, d1) := wf.leaf _ (by rw [leaves_decomp t _ _ gp]; simp)
      have hn1S : n1 ≤ S := ok1.1
      have oth1 : ∀ y ∈ preL t p ++ postL t a, LOWER_BOUND S < y.1 := by
        intro y hy
        rcases List.mem_append.1 hy with hy | hy
        · exact hpp y hy
        · exact hpost y hy
      by_cases c : n1 ≥ S * 3 / 4
      · simp only [c, if_true]
        obtain ⟨t1, oo1, dd1, po1, pd1, e, _, lv, _, _⟩ :=
          steal_left_at_full S t a p h n o d h1 n1 o1 d1 wf hg hp gp (by omega)
        refine ⟨t1, e, Or.inr ?_⟩
        apply band_three S _ _ _ _ lv oth1
        intro y hy
        simp only [List.mem_cons, List.mem_singleton, List.not_mem_nil, or_false] at hy
        rcases hy with hy | hy
        · rw [hy]; show S / 4 < n1 - (n1 - n) / 2; omega
        · rw [hy]; show S / 4 < n + (n1 - n) / 2; omega
      · simp only [c, if_false]
        obtain ⟨t1, e, _, lv, _⟩ :=
          merge_left_at_full S t a p h n o d h1 n1 o1 d1 wf hg hp gp (by omega)
        refine ⟨t1, e, Or.inr ?_⟩
        apply band_three S _ _ _ _ lv oth1
        intro y hy
        simp only [List.mem_singleton] at hy
        rw [hy]; show S / 4 < n1 + n; omega
    · simp only [hp, hx, gp, gx, BVNode.nums, SPLIT_BOUND]
      have hn := hn (by rw [ppre]; simp)
      have hn2 : S / 4 < n2 := hpost (n2, o2, d2) (by rw [xpost]; simp)
      have hpx : ∀ y ∈ postL t x, S / 4 < y.1 := fun y hy => hpost y (by rw [xpost]; simp [hy])
      have ok2 : leafOK S (n2, o2, d2) := wf.leaf _ (by rw [leaves_decomp t _ _ gx]; simp)
      have hn2S : n2 ≤ S := ok2.1
      have oth2 : ∀ y ∈ preL t a ++ postL t x, LOWER_BOUND S < y.1 := by
        intro y hy
        rcases List.mem_append.1 hy with hy | hy
        · exact hpre y hy
        · exact hpx y hy
      have hn1 : S / 4 < n1 := hpre (n1, o1, d1) (by rw [ppre]; simp)
      have hpp : ∀ y ∈ preL t p, S / 4 < y.1 := fun y hy => hpre y (by rw [ppre]; simp [hy])
      have ok1 : leafOK S (n1, o1, d1) := wf.leaf _ (by rw [leaves_decomp t _ _ gp]; simp)
      have hn1S : n1 ≤ S := ok1.1
      have oth1 : ∀ y ∈ preL t p ++ postL t a, LOWER_BOUND S < y.1 := by
        intro y hy
        rcases List.mem_append.1 hy with hy | hy
        · exact hpp y hy
        · exact hpost y hy
      by_cases c : n1 ≥ S * 3 / 4 ∨ n2 ≥ S * 3 / 4
      · simp only [c, if_true]
        by_cases c2 : n1 > n2
        · simp only [c2, if_true]
          obtain ⟨t1, oo1, dd1, po1, pd1, e, _, lv, _, _⟩ :=
            steal_left_at_full S t a p h n o d h1 n1 o1 d1 wf hg hp gp (by omega)
          refine ⟨t1, e, Or.inr ?_⟩
          apply band_three S _ _ _ _ lv oth1
          intro y hy
          simp only [List.mem_cons, List.mem_singleton, List.not_mem_nil, or_false] at hy
          rcases hy with hy | hy
          · rw [hy]; show S / 4 < n1 - (n1 - n) / 2; omega
          · rw [hy]; show S / 4 < n + (n1 - n) / 2; omega
        · simp only [c2, if_false]
          obtain ⟨t1, oo1, dd1, xo1, xd1, e, _, lv, _, _⟩ :=
            steal_right_at_full S t a x h n o d h2 n2 o2 d2 wf hg hx gx (by omega)
          refine ⟨t1, e, Or.inr ?_⟩
          apply band_three S _ _ _ _ lv oth2
          intro y hy
          simp only [List.mem_cons, List.mem_singleton, List.not_mem_nil, or_false] at hy
          rcases hy with hy | hy
          · rw [hy]; show S / 4 < n + (n2 - n) / 2; omega
          · rw [hy]; show S / 4 < n2 - (n2 - n) / 2; omega
      · simp only [c, if_false]
        by_cases c2 : n1 < n2
        · simp only [c2, if_true]
          obtain ⟨t1, e, _, lv, _⟩ :=
            merge_left_at_full S t a p h n o d h1 n1 o1 d1 wf hg hp gp (by omega)
          refine ⟨t1, e, Or.inr ?_⟩
          apply band_three S _ _ _ _ lv oth1
          intro y hy
          simp only [List.mem_singleton] at hy
          rw [hy]; show S / 4 < n1 + n; omega
        · simp only [c2, if_false]
          obtain ⟨t1, e, _, lv, _⟩ :=
            merge_right_at_full S t a x h n o d h2 n2 o2 d2 wf hg hx gx (by omega)
          refine ⟨t1, e, Or.inr ?_⟩
          apply band_three S _ _ _ _ lv oth2
          intro y hy
          simp only [List.mem_singleton] at hy
          rw [hy]; show S / 4 < n + n2; omega

theorem del_band (S : Nat) (t : BVNode) (i : Nat) (hS4 : 4 ≤ S) (wf : WF S t)
    (hi : i < totalNums t) (b : Band S t) :
    ∃ t1, del S t i = some t1 ∧ WF S t1 ∧ Band S t1 := by
  obtain ⟨t1, e, w, _, _⟩ := del_spec S t i wf hi
  refine ⟨t1, e, w, ?_⟩
  obtain ⟨h, n, o, d, g, p, _, b2⟩ := find_block_spec t i wf.sound
  have hj := b2 hi
  have ok : leafOK S (n, o, d) := by
    apply wf.leaf
    rw [leaves_decomp t _ _ g]
    simp [leaves]
  have hnS := ok.1
  have hbl : (leafBits S n d).length = n := by simp [leafBits]
  have hge : ¬ (find_block t i).2 ≥ S := by omega
  have hdec := leaves_decomp t _ _ g
  rw [leaves_leaf] at hdec
  have oth := Band_others S t _ _ _ hdec b
  simp only [del, hge, if_false, g] at e
  obtain ⟨e1, k1⟩ := leaf_delete S n o d (find_block t i).2 ok hj
  have hcnt := count_eraseIdx (leafBits S n d) (find_block t i).2 (by omega)
  rw [getElem_leafBits] at hcnt
  have ho := leafOK_ones S n o d ok
  have bb1 := totalNums_sub_le t _ _ g
  simp only [totalNums_leaf] at bb1
  obtain ⟨w1, _, _, g1, pr1, po1⟩ := leaf_update_spec S t (find_block t i).1 h n o d (n - 1)
    (((leafBits S n d).eraseIdx (find_block t i).2).count true)
    (d &&& bnot S (FULL_MASK S >>> (find_block t i).2)
      ||| shl S (d &&& (FULL_MASK S >>> ((find_block t i).2 + 1))) 1)
    (-1) (if d.testBit (S - (find_block t i).2 - 1) then -1 else 0) wf g (by omega)
    (by
      simp only [gb] at hcnt
      split_ifs with c
      · simp only [c, if_true] at hcnt; omega
      · simp only [c] at hcnt; simp at hcnt; omega)
    k1 (by have := wf.rep; omega)
  obtain ⟨t2, e2, b3⟩ := del_rebalance_band S _ (find_block t i).1 1 _ _ _ hS4 w1 g1
    (by
      rw [pr1, po1]
      intro hne
      rcases b with b | b
      · exfalso
        rw [is_leaf_iff, hdec] at b
        simp only [List.length_append, List.length_cons, List.length_nil] at b
        apply hne
        have h1 : preL t (find_block t i).1 = [] := List.eq_nil_of_length_eq_zero (by omega)
        have h2 : postL t (find_block t i).1 = [] := List.eq_nil_of_length_eq_zero (by omega)
        rw [h1, h2]
        rfl
      · have := b (n, o, d) (by rw [hdec]; simp)
        simp only at this
        omega)
    (by rw [pr1, po1]; exact oth)
  rw [e] at e2
  simp only [Option.some.injEq] at e2
  rw [e2]
  exact b3

theorem count_zero (S : Nat) : count S 0 = 0 := by
  simp [count]

theorem WF_fresh (S : Nat) : WF S BVNode.fresh := by
  refine ⟨trivial, ?_, rfl, by simp [BVNode.fresh, totalNums, leaves]⟩
  intro x hx
  simp only [BVNode.fresh, leaves, List.mem_singleton] at hx
  subst hx
  exact ⟨Nat.zero_le _, Nat.pos_pow_of_pos S (by decide), (count_zero S).symm, Nat.zero_mod _⟩

/-- One public mutation in range keeps the tree well formed and within the band. -/
theorem op_band (S : Nat) (hS : S % 2 = 0) (hS4 : 4 ≤ S) (t : BVNode) (op : Op)
    (wf : WF S t) (b : Band S t) (hr : op.inRange t = true) :
    ∃ t1, op.run S t = some t1 ∧ WF S t1 ∧ Band S t1 := by
  have sz := (read_top S t wf).2.1
  cases op with
  | insert i v =>
    simp only [Op.inRange, Bool.and_eq_true, decide_eq_true_eq, sz] at hr
    exact insert_band S t i v hS (by omega) wf hr.1 hr.2 b
  | del i =>
    simp only [Op.inRange, decide_eq_true_eq, sz] at hr
    exact del_band S t i hS4 wf hr b
  | set i =>
    simp only [Op.inRange, decide_eq_true_eq, sz] at hr
    exact set_band S t i wf hr b
  | unset i =>
    simp only [Op.inRange, decide_eq_true_eq, sz] at hr
    exact unset_band S t i wf hr b
  | flip i =>
    simp only [Op.inRange, decide_eq_true_eq, sz] at hr
    exact flip_band S t i wf hr b
  | complement =>
    obtain ⟨w, b1⟩ := complement_band S t wf b
    exact ⟨_, rfl, w, b1⟩

/-- A sequence of public mutations in range keeps the tree well formed and within the band. -/
theorem run_ops_band (S : Nat) (hS : S % 2 = 0) (hS4 : 4 ≤ S) (ops : List Op) :
    ∀ t, WF S t → Band S t → ops_in_range S t ops = true →
      ∃ t1, run_ops S t ops = some t1 ∧ WF S t1 ∧ Band S t1 := by
  induction ops with
  | nil =>
    intro t wf b _
    exact ⟨t, rfl, wf, b⟩
  | cons op ops ih =>
    intro t wf b hr
    simp only [ops_in_range, Bool.and_eq_true] at hr
    obtain ⟨t1, e, w1, b1⟩ := op_band S hS hS4 t op wf b hr.1
    have hr2 := hr.2
    rw [e] at hr2
    obtain ⟨t2, e2, w2, b2⟩ := ih t1 w1 b1 hr2
    exact ⟨t2, by simp only [run_ops, e, e2], w2, b2⟩

/-- C22: the occupancy band.  For even `S ≥ 4`, every sequence of public mutations (`insert`,
`del`, `set`, `unset`, `flip`, `complement`), each in range when it is made and no insert making
the length exceed what 32 bits hold, runs to the end from the empty vector, and in the state it
reaches the tree is a single leaf or every leaf holds more than `LOWER_BOUND = S / 4` bits;
when that state holds no bits, the tree is a single leaf with `nums == 0`. -/
theorem occupancy_band (S : Nat) (hS : S % 2 = 0) (hS4 : 4 ≤ S) (ops : List Op)
    (hr : ops_in_range S BVNode.fresh ops = true) :
    ∃ t, run_ops S BVNode.fresh ops = some t ∧ Band S t ∧
      (size t = 0 → is_leaf t = true ∧ t.nums = 0) := by
  obtain ⟨t, e, w, b⟩ := run_ops_band S hS hS4 ops BVNode.fresh (WF_fresh S)
    (Or.inl rfl) hr
  refine ⟨t, e, b, ?_⟩
  intro h0
  have sz := (read_top S t w).2.1
  rcases b with b | b
  · refine ⟨b, ?_⟩
    cases t with
    | leaf h n o d => simpa [size] using h0
    | inner h n o l r => simp [is_leaf] at b
  · exfalso
    rw [sz] at h0
    have hp := leaves_length_pos t
    cases hl : leaves t with
    | nil => rw [hl] at hp; simp at hp
    | cons x xs =>
      have hx := b x (by rw [hl]; simp)
      simp only [totalNums, hl, List.map_cons, List.sum_cons] at h0
      omega

theorem occupancy_band_witness :
    ∃ t, run_ops 4 BVNode.fresh
        [.insert 0 true, .insert 1 false, .insert 0 true, .insert 2 true, .insert 1 false,
          .flip 3, .complement, .set 0, .unset 4, .del 0, .del 0, .del 0, .del 0, .del 0]
        = some t ∧ Band 4 t ∧ (size t = 0 → is_leaf t = true ∧ t.nums = 0) :=
  occupancy_band 4 (by decide) (by decide)
    [.insert 0 true, .insert 1 false, .insert 0 true, .insert 2 true, .insert 1 false,
      .flip 3, .complement, .set 0, .unset 4, .del 0, .del 0, .del 0, .del 0, .del 0]
    (by decide)

/-! ## The invariants after the sequence constructor -/

theorem height_eq_sheight (t : BVNode) (h : HeightOK t) : t.height = sheight t := by
  induction t with
  | leaf hh n o d => exact h
  | inner hh n o l r ihl ihr =>
    simp only [HeightOK] at h
    simp only [height_inner, sheight, ← ihl h.2.2.1, ← ihr h.2.2.2]
    exact h.1

theorem Balanced_of_SBalanced (t : BVNode) (h : HeightOK t) (b : SBalanced t) : Balanced t := by
  induction t with
  | leaf hh n o d => trivial
  | inner hh n o l r ihl ihr =>
    simp only [HeightOK] at h
    simp only [SBalanced] at b
    simp only [Balanced, height_eq_sheight l h.2.2.1, height_eq_sheight r h.2.2.2]
    exact ⟨b.1, b.2.1, ihl h.2.2.1 b.2.2.1, ihr h.2.2.2 b.2.2.2⟩

theorem sheight_graft_leaf (F G : Nat → Nat) (t : BVNode) (a : List Dir) (h n o d h1 n1 o1 d1 : Nat)
    (hg : getAt t a = some (.leaf h n o d)) :
    sheight (graft F G t a (.leaf h1 n1 o1 d1)) = sheight t := by
  induction t generalizing a with
  | leaf hh nn oo dd =>
    have := getAt_leaf_some _ _ _ _ a _ hg
    subst this
    rfl
  | inner hh nn oo l r ihl ihr =>
    cases a with
    | nil => simp [getAt] at hg
    | cons x a =>
      cases x with
      | L => simp only [getAt] at hg; simp only [graft, sheight, ihl a hg]
      | R => simp only [getAt] at hg; simp only [graft, sheight, ihr a hg]

theorem SBalanced_graft_leaf (F G : Nat → Nat) (t : BVNode) (a : List Dir)
    (h n o d h1 n1 o1 d1 : Nat) (hg : getAt t a = some (.leaf h n o d)) (b : SBalanced t) :
    SBalanced (graft F G t a (.leaf h1 n1 o1 d1)) := by
  induction t generalizing a with
  | leaf hh nn oo dd =>
    have := getAt_leaf_some _ _ _ _ a _ hg
    subst this
    trivial
  | inner hh nn oo l r ihl ihr =>
    simp only [SBalanced] at b
    cases a with
    | nil => simp [getAt] at hg
    | cons x a =>
      cases x with
      | L =>
        simp only [getAt] at hg
        simp only [graft, SBalanced, sheight_graft_leaf F G l a h n o d h1 n1 o1 d1 hg]
        exact ⟨b.1, b.2.1, ihl a hg b.2.2.1, b.2.2.2⟩
      | R =>
        simp only [getAt] at hg
        simp only [graft, SBalanced, sheight_graft_leaf F G r a h n o d h1 n1 o1 d1 hg]
        exact ⟨b.1, b.2.1, b.2.2.1, ihr a hg b.2.2.2⟩

theorem DoneLeft_leftmost (t : BVNode) : DoneLeft t (leftmost t) := by
  induction t with
  | leaf h n o d => trivial
  | inner h n o l r ihl _ => exact ihl

/-- One step of the constructor on the stored heights: after the climb from the leaf at `a`,
the tree is finished when `a` was the last leaf, and otherwise finished to the left of the
next leaf. -/
theorem fill_step_heights (F G : Nat → Nat) (t : BVNode) (a : List Dir) (h n o d n1 o1 d1 : Nat)
    (hg : getAt t a = some (.leaf h n o d)) (hd : DoneLeft t a) (hs : sheight t ≤ 255) :
    (next_leaf (graft F G t a (.leaf 1 n1 o1 d1)) a = none →
      HeightOK (graft F G t a (.leaf 1 n1 o1 d1))) ∧
    (∀ b, next_leaf (graft F G t a (.leaf 1 n1 o1 d1)) a = some b →
      DoneLeft (graft F G t a (.leaf 1 n1 o1 d1)) b) := by
  induction t generalizing a with
  | leaf hh nn oo dd =>
    have := getAt_leaf_some _ _ _ _ a _ hg
    subst this
    exact ⟨fun _ => rfl, fun b _ => trivial⟩
  | inner hh nn oo l r ihl ihr =>
    simp only [sheight] at hs
    cases a with
    | nil => simp [getAt] at hg
    | cons x a =>
      cases x with
      | L =>
        simp only [getAt] at hg
        simp only [DoneLeft] at hd
        obtain ⟨i1, i2⟩ := ihl a hg hd (by omega)
        simp only [graft]
        rw [next_leaf_L _ _ _ _ _ a _ (getAt_graft_same F G l _ (.leaf 1 n1 o1 d1) a hg)]
        refine ⟨fun hc => Option.noConfusion hc, ?_⟩
        intro b hb
        simp only [Option.some.injEq] at hb
        subst hb
        cases hn : next_leaf (graft F G l a (.leaf 1 n1 o1 d1)) a with
        | none => exact ⟨i1 hn, DoneLeft_leftmost r⟩
        | some b1 => exact i2 b1 hn
      | R =>
        simp only [getAt] at hg
        simp only [DoneLeft] at hd
        obtain ⟨i1, i2⟩ := ihr a hg hd.2 (by omega)
        simp only [graft]
        rw [next_leaf_R]
        constructor
        · intro hn
          have hn1 : next_leaf (graft F G r a (.leaf 1 n1 o1 d1)) a = none := by
            cases hc : next_leaf (graft F G r a (.leaf 1 n1 o1 d1)) a with
            | none => rfl
            | some b1 => rw [hc] at hn; exact Option.noConfusion hn
          have hr := i1 hn1
          have e1 := height_eq_sheight l hd.1
          have e2 := height_eq_sheight _ hr
          rw [sheight_graft_leaf F G r a h n o d 1 n1 o1 d1 hg] at e2
          have hu : u8 (1 + max l.height (graft F G r a (.leaf 1 n1 o1 d1)).height)
              = 1 + max l.height (graft F G r a (.leaf 1 n1 o1 d1)).height := by
            simp only [u8]; omega
          simp only [HeightOK, hu]
          exact ⟨trivial, by omega, hd.1, hr⟩
        · intro b hb
          cases hc : next_leaf (graft F G r a (.leaf 1 n1 o1 d1)) a with
          | none => rw [hc] at hb; exact Option.noConfusion hb
          | some b1 =>
            rw [hc] at hb
            simp only [Option.map_some', Option.some.injEq] at hb
            subst hb
            exact ⟨hd.1, i2 b1 hc⟩

/-- The freshly built tree: all counters are zero, so they are sound. -/
theorem build_sound (f n : Nat) :
    Sound (build_balanced_tree f n) ∧ totalNums (build_balanced_tree f n) = 0 ∧
      totalOnes (build_balanced_tree f n) = 0 := by
  induction f generalizing n with
  | zero => exact ⟨trivial, rfl, rfl⟩
  | succ f ih =>
    by_cases c : n ≤ 1
    · simp only [build_balanced_tree, c, if_true]
      exact ⟨trivial, rfl, rfl⟩
    · simp only [build_balanced_tree, c, if_false]
      obtain ⟨a1, a2, a3⟩ := ih (n / 2)
      obtain ⟨b1, b2, b3⟩ := ih (n - n / 2)
      simp only [Sound, totalNums_inner, totalOnes_inner, a2, a3, b2, b3]
      exact ⟨⟨trivial, trivial, a1, b1⟩, trivial, trivial⟩

theorem leafOK_fresh (S : Nat) : leafOK S (0, 0, 0) :=
  ⟨Nat.zero_le _, Nat.pos_pow_of_pos S (by decide), (count_zero S).symm, Nat.zero_mod _⟩

theorem fill_leaf_lt (S : Nat) (bits : List Bool) (i f j d : Nat) (hd : d < 2 ^ S)
    (hf : j + f ≤ S) : (fill_leaf S bits i f j d).1 < 2 ^ S := by
  induction f generalizing j d with
  | zero => exact hd
  | succ f ih =>
    by_cases c : i * TARGET_SIZE S + j < bits.length
    · simp only [fill_leaf, c, if_true]
      exact ih (j + 1) _ (assignBit_lt S d _ _ hd (by omega)) (by omega)
    · simp only [fill_leaf, c, if_false]
      exact hd

theorem gb_zero (S x : Nat) : gb S 0 x = false := by
  simp [gb]

/-- The leaf written by one round of the constructor is well formed. -/
theorem fill_leaf_ok (S : Nat) (bits : List Bool) (i : Nat) (hT : 2 * TARGET_SIZE S ≤ S) :
    leafOK S ((fill_leaf S bits i (TARGET_SIZE S) 0 0).2,
      count S (fill_leaf S bits i (TARGET_SIZE S) 0 0).1,
      (fill_leaf S bits i (TARGET_SIZE S) 0 0).1) ∧
    (fill_leaf S bits i (TARGET_SIZE S) 0 0).2
      = min (TARGET_SIZE S) (bits.length - i * TARGET_SIZE S) ∧
    count S (fill_leaf S bits i (TARGET_SIZE S) 0 0).1
      ≤ (fill_leaf S bits i (TARGET_SIZE S) 0 0).2 := by
  obtain ⟨h1, h2⟩ := fill_leaf_spec S bits i (TARGET_SIZE S) 0 0 (by omega)
  have hlt := fill_leaf_lt S bits i (TARGET_SIZE S) 0 0 (Nat.pos_pow_of_pos S (by decide))
    (by omega)
  have hc : ∀ x, (fill_leaf S bits i (TARGET_SIZE S) 0 0).2 ≤ x → x < S →
      gb S (fill_leaf S bits i (TARGET_SIZE S) 0 0).1 x = false := by
    intro x hx hxS
    rw [h2 x hxS]
    have : ¬ (0 ≤ x ∧ x < (fill_leaf S bits i (TARGET_SIZE S) 0 0).2) := by omega
    simp only [this, if_false]
    exact gb_zero S x
  have hn : (fill_leaf S bits i (TARGET_SIZE S) 0 0).2 ≤ S := by omega
  have k := leafOK_of S _ _ hn hlt hc
  rw [← count_clean S _ _ hn hc] at k
  refine ⟨k, by omega, ?_⟩
  rw [count_clean S _ _ hn hc]
  have := List.count_le_length true
    (leafBits S (fill_leaf S bits i (TARGET_SIZE S) 0 0).2
      (fill_leaf S bits i (TARGET_SIZE S) 0 0).1)
  simpa [leafBits] using this

theorem LeafOK_of_leaves (S : Nat) (t : BVNode) (pre : List (Nat × Nat × Nat)) (k : Nat)
    (hl : leaves t = pre ++ List.replicate k (0, 0, 0)) (hp : ∀ x ∈ pre, leafOK S x) :
    LeafOK S t := by
  intro x hx
  rw [hl] at hx
  rcases List.mem_append.1 hx with hx | hx
  · exact hp x hx
  · rw [(List.mem_replicate.1 hx).2]
    exact leafOK_fresh S

/-- The outer loop of the constructor keeps the counters sound and the leaves well formed,
and ends with the stored heights in place. -/
theorem fill_loop_inv (S : Nat) (bits : List Bool) (hT : 2 * TARGET_SIZE S ≤ S)
    (hL : bits.length < 4294967296) (k : Nat) :
    ∀ (i : Nat) (t : BVNode) (cur : Option (List Dir)) (pre : List (Nat × Nat × Nat)),
    leaves t = pre ++ List.replicate k (0, 0, 0) →
    (∀ x ∈ pre, leafOK S x) →
    Sound t → SBalanced t → sheight t ≤ 255 →
    totalNums t ≤ i * TARGET_SIZE S → totalNums t ≤ bits.length →
    (k = 0 → HeightOK t) →
    (∀ k1, k = k1 + 1 → ∃ a hh, cur = some a ∧ getAt t a = some (.leaf hh 0 0 0) ∧
      preL t a = pre ∧ postL t a = List.replicate k1 (0, 0, 0) ∧ DoneLeft t a) →
    ∃ t1, fill_loop S bits k i t cur = some t1 ∧ Sound t1 ∧ LeafOK S t1 ∧ HeightOK t1 ∧
      SBalanced t1 ∧ (leaves t1).length = pre.length + k ∧ totalNums t1 ≤ bits.length := by
  induction k with
  | zero =>
    intro i t cur pre hl hp hs hb _ _ hM h0 _
    refine ⟨t, rfl, hs, LeafOK_of_leaves S t pre 0 hl hp, h0 rfl, hb, ?_, hM⟩
    rw [hl]
    simp
  | succ k ih =>
    intro i t cur pre hl hp hs hb h255 hiT hM _ hc
    obtain ⟨a, hh, rfl, hg, hpre, hpost, hdl⟩ := hc k rfl
    obtain ⟨ok, hcnt, hones⟩ := fill_leaf_ok S bits i hT
    have hlo := LeafOK_of_leaves S t pre (k + 1) hl hp
    have hO := totalOnes_le_totalNums S t hlo
    generalize hw : fill_leaf S bits i (TARGET_SIZE S) 0 0 = w at ok hcnt hones
    obtain ⟨dat, cnt⟩ := w
    simp only at ok hcnt hones
    have e1 := leaf_update_eq t a hh 0 0 0 dat (cnt : Int) ((count S dat : Nat) : Int) hg
    have en : u32 (((0 : Nat) : Int) + (cnt : Int)) = cnt := by simp only [u32]; omega
    have eo : u32 (((0 : Nat) : Int) + ((count S dat : Nat) : Int)) = count S dat := by
      simp only [u32]; omega
    rw [en, eo] at e1
    simp only [fill_loop, hg, hw, e1]
    have g1 := getAt_graft_same (fun m => u32 ((m : Int) + (cnt : Int)))
      (fun m => u32 ((m : Int) + ((count S dat : Nat) : Int))) t _
      (.leaf 1 cnt (count S dat) dat) a hg
    have l1 := leaves_graft (fun m => u32 ((m : Int) + (cnt : Int)))
      (fun m => u32 ((m : Int) + ((count S dat : Nat) : Int))) t _
      (.leaf 1 cnt (count S dat) dat) a hg
    have p1 := preL_graft (fun m => u32 ((m : Int) + (cnt : Int)))
      (fun m => u32 ((m : Int) + ((count S dat : Nat) : Int))) t _
      (.leaf 1 cnt (count S dat) dat) a hg
    have q1 := postL_graft (fun m => u32 ((m : Int) + (cnt : Int)))
      (fun m => u32 ((m : Int) + ((count S dat : Nat) : Int))) t _
      (.leaf 1 cnt (count S dat) dat) a hg
    have tn := totalNums_graft (fun m => u32 ((m : Int) + (cnt : Int)))
      (fun m => u32 ((m : Int) + ((count S dat : Nat) : Int))) t _
      (.leaf 1 cnt (count S dat) dat) a hg
    simp only [totalNums_leaf] at tn
    rw [hpre] at p1 l1
    rw [hpost] at q1 l1
    simp only [leaves_leaf] at l1
    have hsum : totalNums t + cnt ≤ bits.length := by omega
    have s1 : Sound (graft (fun m => u32 ((m : Int) + (cnt : Int)))
        (fun m => u32 ((m : Int) + ((count S dat : Nat) : Int))) t a
        (.leaf 1 cnt (count S dat) dat)) := by
      apply Sound_graft _ _ t _ (.leaf 1 cnt (count S dat) dat) a hg hs (by trivial)
      · intro m _ hm
        simp only [totalNums_leaf, u32]
        omega
      · intro m _ hm
        simp only [totalOnes_leaf, u32]
        omega
    obtain ⟨st1, st2⟩ := fill_step_heights (fun m => u32 ((m : Int) + (cnt : Int)))
      (fun m => u32 ((m : Int) + ((count S dat : Nat) : Int))) t a hh 0 0 0 cnt (count S dat) dat
      hg hdl h255
    obtain ⟨t2, f2, r1, r2, r3, r4, r5, r6⟩ := ih (i + 1) _ (next_leaf _ a)
      (pre ++ [(cnt, count S dat, dat)]) l1
      (by
        intro x hx
        rcases List.mem_append.1 hx with hx | hx
        · exact hp x hx
        · rw [List.mem_singleton.1 hx]; exact ok)
      s1 (SBalanced_graft_leaf _ _ t a hh 0 0 0 1 cnt (count S dat) dat hg hb)
      (by rw [sheight_graft_leaf _ _ t a hh 0 0 0 1 cnt (count S dat) dat hg]; exact h255)
      (by rw [Nat.add_mul, Nat.one_mul]; omega)
      (by omega)
      (by
        intro hk0
        apply st1
        rcases next_leaf_spec _ a _ _ _ _ g1 with ⟨hn, _⟩ | ⟨b, h1, n1, o1, d1, _, _, pb, _⟩
        · exact hn
        · rw [q1, hk0] at pb
          exact absurd pb (by simp))
      (by
        intro k1 hk1
        rcases next_leaf_spec _ a _ _ _ _ g1 with ⟨_, hn⟩ | ⟨b, h1, n1, o1, d1, hn, gb1, pb, qb⟩
        · rw [q1, hk1, List.replicate_succ] at hn
          exact absurd hn (List.cons_ne_nil _ _)
        · rw [q1, hk1, List.replicate_succ] at pb
          simp only [List.cons.injEq, Prod.mk.injEq] at pb
          obtain ⟨⟨rfl, rfl, rfl⟩, pb2⟩ := pb
          refine ⟨b, h1, hn, gb1, ?_, pb2.symm, st2 b hn⟩
          rw [qb, p1])
    refine ⟨t2, f2, r1, r2, r3, r4, ?_, r6⟩
    rw [r5]
    simp only [List.length_append, List.length_cons, List.length_nil]
    omega

/-- C24: the tree built by the sequence constructor satisfies the data-model invariants.  For a
block size `S ≥ 2` and a sequence of fewer than `2 ^ 32` bits the constructor returns a tree
with `max(1, ⌈M / TARGET⌉)` leaves in which every inner node counts the bits and the ones of
its left subtree, stores one more than the larger stored height of its children, has children
at most one apart in height, and every leaf has at most `S` bits, `ones` equal to the
population count of its block and a clean tail; the tree represents the sequence. -/
theorem construct_invariants (S : Nat) (bits : List Bool) (hS : 2 ≤ S)
    (hL : bits.length < 4294967296) :
    ∃ t, construct S bits = some t ∧ Inv S t ∧
      (leaves t).length = max 1 ((bits.length + TARGET_SIZE S - 1) / TARGET_SIZE S) ∧
      toList S t = bits := by
  obtain ⟨t0, c0, _, tl0⟩ := construct_spec S bits hS hL
  refine ⟨t0, c0, ?_⟩
  have hT0 : 0 < TARGET_SIZE S := by simp only [TARGET_SIZE]; omega
  have hT : 2 * TARGET_SIZE S ≤ S := by simp only [TARGET_SIZE]; omega
  have hTn : ¬ TARGET_SIZE S = 0 := by omega
  have hm1 : (bits.length + TARGET_SIZE S - 1) / TARGET_SIZE S < bits.length + 1 := by
    apply Nat.div_lt_of_lt_mul
    have h1 := Nat.le_mul_of_pos_left bits.length hT0
    have h2 : TARGET_SIZE S * (bits.length + 1)
        = TARGET_SIZE S * bits.length + TARGET_SIZE S := by ring
    omega
  simp only [construct, hTn, if_false] at c0
  have hu : u32 (((bits.length + TARGET_SIZE S - 1) / TARGET_SIZE S : Nat) : Int)
      = (bits.length + TARGET_SIZE S - 1) / TARGET_SIZE S := u32_nat _ (by omega)
  rw [hu] at c0
  generalize hm : (bits.length + TARGET_SIZE S - 1) / TARGET_SIZE S = m at hm1 c0
  rcases Nat.eq_zero_or_pos m with h0 | hpos
  · subst h0
    simp only [fill_loop, Option.some.injEq] at c0
    subst c0
    have w := WF_fresh S
    exact ⟨⟨rfl, trivial, w.sound, w.leaf, w.rep⟩, rfl, tl0⟩
  · have hl := leaves_build m m (le_refl _)
    rw [show max 1 m = (m - 1) + 1 by omega, List.replicate_succ] at hl
    obtain ⟨h, n, o, d, g, p, e⟩ := leftmost_spec (build_balanced_tree m m)
    rw [hl] at e
    simp only [List.cons.injEq, Prod.mk.injEq] at e
    obtain ⟨⟨rfl, rfl, rfl⟩, e2⟩ := e
    obtain ⟨_, sh, sb⟩ := build_shape_spec m m hpos (le_refl _)
    obtain ⟨bs, bn, _⟩ := build_sound m m
    have hclog : Nat.clog 2 m ≤ 32 := by
      rw [← Nat.le_pow_iff_clog_le (by decide)]
      omega
    obtain ⟨t1, f1, r1, r2, r3, r4, r5, r6⟩ := fill_loop_inv S bits hT hL m 0
      (build_balanced_tree m m) (some (leftmost (build_balanced_tree m m))) []
      (by rw [leaves_build m m (le_refl _), List.nil_append]; congr 1; omega)
      (by intro x hx; exact absurd hx (List.not_mem_nil _))
      bs sb (by omega) (by omega) (by omega) (by omega)
      (by
        intro k1 hk1
        refine ⟨_, h, rfl, g, p, ?_, DoneLeft_leftmost _⟩
        rw [← e2]
        congr 1
        omega)
    rw [f1] at c0
    simp only [Option.some.injEq] at c0
    subst c0
    refine ⟨⟨r3, Balanced_of_SBalanced _ r3 r4, r1, r2, by omega⟩, ?_, tl0⟩
    rw [r5]
    simp only [List.length_nil]
    omega

theorem construct_invariants_witness :
    ∃ t, construct 4 [true, false, true, true, false, false, true] = some t ∧ Inv 4 t ∧
      (leaves t).length
        = max 1 (([true, false, true, true, false, false, true].length + TARGET_SIZE 4 - 1)
            / TARGET_SIZE 4) ∧
      toList 4 t = [true, false, true, true, false, false, true] :=
  construct_invariants 4 [true, false, true, true, false, false, true] (by decide) (by decide)

end DitVector
